import Mathlib

/-!
# Nasboard native prediction engine: tiered Kazakh predictor

A shallow embedding of `KazakhContextPredictor.cpp`, of the two prefix
searches of `marisa_kazakhdict.cpp`, of the `TaskQueue` of
`marisa_kazakh_dict_jni.cpp` and of the user dictionary of
`Kazakh_User_Dict.cpp` (conversion and normalization, working data, snapshot
and searches, the file of the dictionary), followed by the properties of the
specification that concern them.

Conventions of the embedding.

* `std::string` is a list of byte values (`Str`), `std::vector<char32_t>` a list
  of code point values (`U32`), `std::u16string` a list of code unit values
  (`U16`).
* `int` values are `Int`; `size_t` values are `Nat`; a conversion from `int` to
  `size_t` goes through `toSize` (64-bit wrap-around).
* A function whose C++ execution can read through a null pointer, index a vector
  outside its bounds or overflow a signed `int` returns `Option`; `none` stands
  for that undefined execution.
* An exception that the code catches is a value of the model: the construction
  of a `std::string` of a length read from a file succeeds or throws as a
  parameter `alloc` says.
* Member functions that change the predictor take the state `Impl` and return
  the new state next to their result; those of the user dictionary take and
  return the `WorkingData`.
* What the C++ standard leaves open (the order of equal elements after
  `std::sort`, the top among equal elements of a `std::priority_queue`, the
  order of iteration over the children of a trie node or over an
  `std::unordered_map`) is a parameter of the model, restricted to
  permutations, and the properties hold for every value of it.
-/

namespace Nasboard

/-- Bytes of a `std::string`, each element a value in `0..255`. -/
abbrev Str := List Nat

/-- Code points of a `std::vector<char32_t>`. -/
abbrev U32 := List Nat

/-- Conversion of an `int` to `size_t` (64 bits): negative values wrap around. -/
def toSize (x : Int) : Nat := (x % 18446744073709551616).toNat

/-- Whether a value fits the 32-bit signed `int`. -/
def fitsInt (x : Int) : Bool := decide (-2147483648 ≤ x) && decide (x ≤ 2147483647)

/-- Conversion of a `size_t` or of an unsigned difference to `int`
(two's complement, 32 bits). -/
def toInt32 (x : Int) : Int := (x + 2147483648) % 4294967296 - 2147483648

/-! ## The static trie -/

/-- Modelled from the spec: the marisa `Trie` class, of which the repository
holds only the declaration (`marisa.h`). The spec (§3) gives it two queries,
`exact_match(key)` and `predictive_search(prefix)`, the order of the latter
being "defined by the trie and treated as authoritative". The model is the
list of the keys in that iteration order. -/
structure Trie where
  keys : List Str
deriving DecidableEq, Repr

namespace Trie

/-- Model of `Trie::empty()`. -/
def empty (t : Trie) : Bool := t.keys.isEmpty

/-- Model of `Trie::lookup(agent)` for a query `word`. -/
def lookup (t : Trie) (word : Str) : Bool := decide (word ∈ t.keys)

/-- Model of the stream produced by repeated `Trie::predictive_search(agent)`
for a query `pfx`: the keys that start with `pfx`, in trie order. -/
def predictive_search (t : Trie) (pfx : Str) : List Str :=
  t.keys.filter (fun k => pfx.isPrefixOf k)

/-- Model of `Trie::clear()`. -/
def clear (_t : Trie) : Trie := ⟨[]⟩

end Trie

/-! ## `BatchTrieLookup` -/

/-- The `while (trie->predictive_search(*agent))` loop of
`BatchTrieLookup::prefixSearch`, run over the stream that is left, with the
current `count` and `results`. -/
def prefixSearchLoop (pfx : Str) (maxResults : Int) :
    List Str → Int → List Str → List Str
  | [], _, results => results
  | word :: rest, count, results =>
    if word ≠ pfx then
      if count + 1 ≥ maxResults then results ++ [word]
      else prefixSearchLoop pfx maxResults rest (count + 1) (results ++ [word])
    else prefixSearchLoop pfx maxResults rest count results

/-- Model of `BatchTrieLookup::prefixSearch` for a lookup object whose `trie`
pointer is `trie` (`none` is the null pointer). -/
def BatchTrieLookup.prefixSearch (trie : Option Trie) (pfx : Str) (maxResults : Int) :
    List Str :=
  match trie with
  | none => []
  | some t =>
    if t.empty || pfx.isEmpty then []
    else prefixSearchLoop pfx maxResults (t.predictive_search pfx) 0 []

/-- Model of `BatchTrieLookup::exactMatch`. -/
def BatchTrieLookup.exactMatch (trie : Trie) (word : Str) : Bool := trie.lookup word

/-! ## `MarisaKazakhDict::Impl` -/

/-- The loop of `MarisaKazakhDict::Impl::prefixSearch`: the bound is compared
as `results.size() >= static_cast<size_t>(maxResults)`. -/
def dictPrefixSearchLoop (pfx : Str) (maxResults : Int) : List Str → List Str → List Str
  | [], results => results
  | word :: rest, results =>
    if word ≠ pfx then
      if (results ++ [word]).length ≥ toSize maxResults then results ++ [word]
      else dictPrefixSearchLoop pfx maxResults rest (results ++ [word])
    else dictPrefixSearchLoop pfx maxResults rest results

/-- Model of `MarisaKazakhDict::Impl::prefixSearch`. -/
def MarisaKazakhDict.prefixSearch (loaded : Bool) (trie : Trie) (pfx : Str)
    (maxResults : Int) : List Str :=
  if !loaded || trie.empty then []
  else dictPrefixSearchLoop pfx maxResults (trie.predictive_search pfx) []

/-! ## `LRUCache` -/

/-- Model of `LRUCache<K, V>`: the doubly linked list from `head` to `tail`, as
a list of `(key, value)` nodes; `cacheMap` indexes the same nodes by key. -/
structure LRUCache (K V : Type) where
  capacity : Nat
  nodes : List (K × V)
deriving DecidableEq, Repr

namespace LRUCache

variable {K V : Type} [DecidableEq K]

/-- Model of `cacheMap.find(key)`. -/
def find (c : LRUCache K V) (key : K) : Option V :=
  (c.nodes.find? (fun n => decide (n.1 = key))).map Prod.snd

/-- The list with the node of `key` unlinked. -/
def unlink (nodes : List (K × V)) (key : K) : List (K × V) :=
  nodes.eraseP (fun n => decide (n.1 = key))

/-- Model of `LRUCache::get`: a hit moves the node to the head. -/
def get (c : LRUCache K V) (key : K) : Option V × LRUCache K V :=
  match c.find key with
  | none => (none, c)
  | some v => (some v, { c with nodes := (key, v) :: unlink c.nodes key })

/-- Model of `LRUCache::removeTail`. -/
def removeTail (c : LRUCache K V) : LRUCache K V :=
  { c with nodes := c.nodes.dropLast }

/-- Model of `LRUCache::put`. -/
def put (c : LRUCache K V) (key : K) (value : V) : LRUCache K V :=
  match c.find key with
  | some _ => { c with nodes := (key, value) :: unlink c.nodes key }
  | none =>
    let c1 : LRUCache K V := { c with nodes := (key, value) :: c.nodes }
    if c1.nodes.length > c1.capacity then removeTail c1 else c1

/-- Model of `LRUCache::clear`. -/
def clear (c : LRUCache K V) : LRUCache K V := { c with nodes := [] }

/-- Model of `LRUCache::size`. -/
def size (c : LRUCache K V) : Nat := c.nodes.length

end LRUCache

/-! ## UTF-8 and UTF-32 -/

/-- The `while (i < utf8.size())` loop of `Impl::utf8_to_utf32` on the bytes
from position `i` on; the first argument bounds the number of iterations. -/
def utf8_to_utf32_loop : Nat → Str → U32
  | 0, _ => []
  | _ + 1, [] => []
  | fuel + 1, c :: rest =>
    if c ≤ 0x7F then c :: utf8_to_utf32_loop fuel rest
    else if c &&& 0xE0 = 0xC0 then
      match rest with
      | b1 :: r => (((c &&& 0x1F) <<< 6) ||| (b1 &&& 0x3F)) :: utf8_to_utf32_loop fuel r
      | _ => []
    else if c &&& 0xF0 = 0xE0 then
      match rest with
      | b1 :: b2 :: r =>
        (((c &&& 0x0F) <<< 12) ||| ((b1 &&& 0x3F) <<< 6) ||| (b2 &&& 0x3F))
          :: utf8_to_utf32_loop fuel r
      | _ => []
    else if c &&& 0xF8 = 0xF0 then
      match rest with
      | b1 :: b2 :: b3 :: r =>
        (((c &&& 0x07) <<< 18) ||| ((b1 &&& 0x3F) <<< 12) ||| ((b2 &&& 0x3F) <<< 6)
            ||| (b3 &&& 0x3F)) :: utf8_to_utf32_loop fuel r
      | _ => []
    else utf8_to_utf32_loop fuel rest

/-- Model of `Impl::utf8_to_utf32`. Every iteration consumes a byte, so
`utf8.length` iterations are enough. -/
def utf8_to_utf32 (utf8 : Str) : U32 := utf8_to_utf32_loop utf8.length utf8

/-- The bytes `Impl::utf32_to_utf8` appends for one code point. -/
def utf32_to_utf8_one (code : Nat) : Str :=
  if code ≤ 0x7F then [code]
  else if code ≤ 0x7FF then [0xC0 ||| ((code >>> 6) &&& 0x1F), 0x80 ||| (code &&& 0x3F)]
  else if code ≤ 0xFFFF then
    [0xE0 ||| ((code >>> 12) &&& 0x0F), 0x80 ||| ((code >>> 6) &&& 0x3F), 0x80 ||| (code &&& 0x3F)]
  else if code ≤ 0x10FFFF then
    [0xF0 ||| ((code >>> 18) &&& 0x07), 0x80 ||| ((code >>> 12) &&& 0x3F),
      0x80 ||| ((code >>> 6) &&& 0x3F), 0x80 ||| (code &&& 0x3F)]
  else []

/-- Model of `Impl::utf32_to_utf8`. -/
def utf32_to_utf8 (utf32 : U32) : Str := utf32.flatMap utf32_to_utf8_one

/-- Model of `Impl::getUtf32Cached` and `Impl::preConvertToUtf32`. The private
`utf32Cache` memoises the pure function `utf8_to_utf32` under the word itself;
the model calls the function. -/
def getUtf32Cached (word : Str) : U32 := utf8_to_utf32 word

/-! ## The two tables -/

/-- The table `Impl::PHONETIC_CLASSES`, entry by entry as in the source. -/
def PHONETIC_CLASSES : List (Nat × List Nat) :=
  [ (0x44D, [0x430]), (0x430, [0x44D]),
    (0x4A3, [0x43D]), (0x43D, [0x4A3]),
    (0x456, [0x438]), (0x438, [0x456]),
    (0x49B, [0x43A]), (0x43A, [0x49B]),
    (0x493, [0x433]), (0x433, [0x493]),
    (0x4AF, [0x443]), (0x443, [0x4AF]),
    (0x4E9, [0x43E]), (0x43E, [0x4E9]),
    (0x4BB, [0x445]), (0x445, [0x4BB]) ]

/-- The table `Impl::KEYBOARD_NEIGHBORS`, entry by entry as in the source. -/
def KEYBOARD_NEIGHBORS : List (Nat × List Nat) :=
  [ (0x430, [0x444, 0x441]), (0x431, [0x438, 0x44E]), (0x432, [0x446, 0x444]),
    (0x433, [0x440, 0x442]), (0x493, [0x440, 0x442]), (0x434, [0x43B, 0x448]),
    (0x435, [0x43A, 0x43D]), (0x436, [0x44D, 0x437]), (0x437, [0x436, 0x44A]),
    (0x438, [0x448, 0x449]), (0x439, [0x444, 0x44B]), (0x43A, [0x43B, 0x435]),
    (0x49B, [0x43B, 0x448]), (0x43B, [0x434, 0x43A]), (0x43C, [0x44C, 0x442]),
    (0x43D, [0x442, 0x435]), (0x4A3, [0x442, 0x435]), (0x43E, [0x430, 0x43B]),
    (0x4E9, [0x43B, 0x434]), (0x43F, [0x437, 0x44D]), (0x440, [0x43A, 0x435]),
    (0x441, [0x44B, 0x432]), (0x442, [0x43D, 0x43C]), (0x443, [0x433, 0x448]),
    (0x4B1, [0x433, 0x448]), (0x4AF, [0x433, 0x448]), (0x444, [0x430, 0x432]),
    (0x445, [0x44A, 0x437]), (0x4BB, [0x44A, 0x437]), (0x446, [0x443, 0x43A]),
    (0x447, [0x441, 0x43C]), (0x448, [0x449, 0x438]), (0x449, [0x448, 0x438]),
    (0x44A, [0x44D, 0x436]), (0x44B, [0x444, 0x432]), (0x456, [0x448, 0x449]),
    (0x44C, [0x431, 0x44E]), (0x44D, [0x44A, 0x436]), (0x44E, [0x46A, 0x431]),
    (0x44F, [0x444, 0x446]) ]

/-- Model of `table.find(c)` on one of the two tables. -/
def tableFind (table : List (Nat × List Nat)) (c : Nat) : Option (List Nat) :=
  table.lookup c

/-! ## Bounded edit distance -/

/-- Model of `Impl::isOneEditApart`, as the loop over the two remaining
suffixes with the flag `foundDifference`. -/
def isOneEditApartLoop : U32 → U32 → Bool → Bool
  | l :: ls, s :: ss, foundDifference =>
    if l ≠ s then
      if foundDifference then false else isOneEditApartLoop ls (s :: ss) true
    else isOneEditApartLoop ls ss foundDifference
  | _, _, _ => true

/-- Model of `Impl::isOneEditApart`. -/
def isOneEditApart (longer shorter : U32) : Bool := isOneEditApartLoop longer shorter false

/-- The number of positions `i < n` with `s1[i] != s2[i]`, for two sequences of
the same length. -/
def diffCount : U32 → U32 → Int
  | a :: s1, b :: s2 => (if a ≠ b then 1 else 0) + diffCount s1 s2
  | _, _ => 0

/-- Model of `Impl::calculateEditDistanceTiny`. -/
def calculateEditDistanceTiny (s1 s2 : U32) : Int :=
  let n := s1.length
  let m := s2.length
  if n = 0 then (m : Int)
  else if m = 0 then (n : Int)
  else if n = 1 ∧ m = 1 then (if s1.getD 0 0 = s2.getD 0 0 then 0 else 1)
  else if n = m then diffCount s1 s2
  else if n + 1 = m then (if isOneEditApart s2 s1 then 1 else 2)
  else if m + 1 = n then (if isOneEditApart s1 s2 then 1 else 2)
  else 2

/-- Row `i` (`i ≥ 1`) of the table `dp` of `Impl::calculateEditDistanceFull`,
from rows `i - 2` and `i - 1`; the inner loop runs over `j = 1 .. len2`. -/
def fullRow (s1 s2 : U32) (i : Nat) (prev2 prev : List Int) : List Int :=
  (List.range s2.length).foldl (fun curr j0 =>
    let j := j0 + 1
    let cost : Int := if s1.getD (i - 1) 0 = s2.getD (j - 1) 0 then 0 else 1
    let v := min (min (prev.getD j 0 + 1) (curr.getD (j - 1) 0 + 1)) (prev.getD (j - 1) 0 + cost)
    let v := if i > 1 ∧ j > 1 ∧ s1.getD (i - 1) 0 = s2.getD (j - 2) 0
                ∧ s1.getD (i - 2) 0 = s2.getD (j - 1) 0
             then min v (prev2.getD (j - 2) 0 + 1) else v
    curr ++ [v]) [(i : Int)]

/-- Rows `i, i + 1, ...` of `Impl::calculateEditDistanceFull`, as many as the
first argument says; the result is the last row computed. -/
def fullRows (s1 s2 : U32) : Nat → Nat → List Int → List Int → List Int
  | 0, _, _, prev => prev
  | k + 1, i, prev2, prev => fullRows s1 s2 k (i + 1) prev (fullRow s1 s2 i prev2 prev)

/-- Model of `Impl::calculateEditDistanceFull`. -/
def calculateEditDistanceFull (s1 s2 : U32) : Int :=
  let row0 : List Int := (List.range (s2.length + 1)).map (fun j => (j : Int))
  (fullRows s1 s2 s1.length 1 row0 row0).getD s2.length 0

/-- Row `curr` of `Impl::calculateEditDistanceLimited` for index `i`, from
the row `prev`. -/
def limitedRow (s1 s2 : U32) (i : Nat) (prev : List Int) : List Int :=
  (List.range s2.length).foldl (fun curr j0 =>
    let j := j0 + 1
    let cost : Int := if s1.getD (i - 1) 0 = s2.getD (j - 1) 0 then 0 else 1
    curr ++ [min (min (prev.getD j 0 + 1) (curr.getD (j - 1) 0 + 1)) (prev.getD (j - 1) 0 + cost)])
    [(i : Int)]

/-- The value `rowMin` after the inner loop: the least element of the row. -/
def rowMin (curr : List Int) : Int := curr.foldl min (curr.getD 0 0)

/-- The outer loop of `Impl::calculateEditDistanceLimited` from row `i` on,
with as many rows left as the first argument says. -/
def limitedRows (s1 s2 : U32) (maxDist : Int) : Nat → Nat → List Int → Int
  | 0, _, prev => prev.getD s2.length 0
  | k + 1, i, prev =>
    let curr := limitedRow s1 s2 i prev
    if rowMin curr > maxDist then maxDist + 1
    else limitedRows s1 s2 maxDist k (i + 1) curr

/-- Model of `Impl::calculateEditDistanceLimited`. -/
def calculateEditDistanceLimited (s1 s2 : U32) (maxDist : Int) : Int :=
  if |(s1.length : Int) - (s2.length : Int)| > maxDist then maxDist + 1
  else limitedRows s1 s2 maxDist s1.length 1 ((List.range (s2.length + 1)).map (fun j => (j : Int)))

/-- Model of `Impl::calculateEditDistanceSimple`. -/
def calculateEditDistanceSimple (s1 s2 : U32) (maxDist : Int) : Int :=
  if |(s1.length : Int) - (s2.length : Int)| > maxDist then maxDist + 1
  else if s1.length ≤ 3 ∧ s2.length ≤ 3 then calculateEditDistanceTiny s1 s2
  else if s1.length ≤ 6 ∧ s2.length ≤ 6 then calculateEditDistanceFull s1 s2
  else calculateEditDistanceLimited s1 s2 maxDist

/-! ## Loops and candidate sets -/

/-- A `for` loop over the index list whose condition has, next to the index
bound, a test `cond` on the loop state: the loop ends at the first index at
which `cond` fails. -/
def forWhile {σ : Type} (cond : σ → Bool) (body : Nat → σ → σ) : List Nat → σ → σ
  | [], st => st
  | i :: is, st => if cond st then forWhile cond body is (body i st) else st

/-- The statement `if (candidateSet.insert(candidate).second)
allCandidates.push_back(candidate);`. The set `candidateSet` holds exactly the
elements of the vector `allCandidates`, so the model keeps the vector only and
`candidateSet.size()` is its length. -/
def addCandidate (candidate : Str) (allCandidates : List Str) : List Str :=
  if candidate ∈ allCandidates then allCandidates else allCandidates ++ [candidate]

/-- The substitutions of position `i` by the first `limit` entries of `subs`,
each one preceded by the test `candidateSet.size() >= MAX_TOTAL_CANDIDATES`. -/
def substituteAt (utf32 : U32) (maxTotal : Nat) (i : Nat) (subs : List Nat) (limit : Nat)
    (allCandidates : List Str) : List Str :=
  forWhile (fun a => decide (a.length < maxTotal))
    (fun j a => addCandidate (utf32_to_utf8 (utf32.set i (subs.getD j 0))) a)
    (List.range limit) allCandidates

/-- Body of the first loop of `Impl::keyboardNeighborCorrect` at position `i`:
at most two keyboard neighbours, then the deletion of position `i`. -/
def fastNeighborStep (utf32 : U32) (maxTotal : Nat) (i : Nat) (allCandidates : List Str) :
    List Str :=
  let a1 :=
    match tableFind KEYBOARD_NEIGHBORS (utf32.getD i 0) with
    | some neighbors => substituteAt utf32 maxTotal i neighbors (min neighbors.length 2) allCandidates
    | none => allCandidates
  if utf32.length > 1 ∧ a1.length < maxTotal then
    addCandidate (utf32_to_utf8 (utf32.eraseIdx i)) a1
  else a1

/-- Body of the second loop of `Impl::keyboardNeighborCorrect` at position `i`:
at most two phonetic partners. -/
def fastPhoneticStep (utf32 : U32) (maxTotal : Nat) (i : Nat) (allCandidates : List Str) :
    List Str :=
  match tableFind PHONETIC_CLASSES (utf32.getD i 0) with
  | some phonetics => substituteAt utf32 maxTotal i phonetics (min phonetics.length 2) allCandidates
  | none => allCandidates

/-- The sequence with positions `i` and `i + 1` exchanged. -/
def swapAdjacent (utf32 : U32) (i : Nat) : U32 :=
  (utf32.set i (utf32.getD (i + 1) 0)).set (i + 1) (utf32.getD i 0)

/-- The third loop of `Impl::keyboardNeighborCorrect`,
`for (size_t i = 0; i < utf32.size() - 1 && ...; i++)`, from index `i` on. The
bound `utf32.size() - 1` is computed in `size_t`; an iteration whose index
`i + 1` is not inside the vector has no defined result. The first argument
bounds the number of iterations. -/
def swapLoop (utf32 : U32) (maxTotal : Nat) : Nat → Nat → List Str → Option (List Str)
  | 0, _, allCandidates => some allCandidates
  | fuel + 1, i, allCandidates =>
    if i < toSize ((utf32.length : Int) - 1) ∧ allCandidates.length < maxTotal then
      if i + 1 < utf32.length then
        swapLoop utf32 maxTotal fuel (i + 1)
          (addCandidate (utf32_to_utf8 (swapAdjacent utf32 i)) allCandidates)
      else none
    else some allCandidates

/-- The candidate generation of `Impl::keyboardNeighborCorrect` (Stage 2): the
vector `allCandidates` after the three loops. -/
def fastCandidates (utf32 : U32) (maxTotal : Nat) : Option (List Str) :=
  let idx := List.range utf32.length
  let a1 := forWhile (fun a => decide (a.length < maxTotal)) (fastNeighborStep utf32 maxTotal) idx []
  let a2 := forWhile (fun a => decide (a.length < maxTotal)) (fastPhoneticStep utf32 maxTotal) idx a1
  swapLoop utf32 maxTotal (utf32.length + 1) 0 a2

/-! ## Scheduling of the helper threads and of `std::partial_sort` -/

/-- What the C++ text leaves open in `Impl::keyboardNeighborCorrect`: the order
in which the `std::async` lookups of `batchExactMatch` reach their critical
sections (`completion`, applied to the candidate vector), and the arrangement
of the elements that `std::partial_sort` treats as equivalent (`ties`, applied
to the scored vector before a stable sort). -/
structure Sched where
  completion : List Str → List Str
  ties : List (Str × Int) → List (Str × Int)

/-- Both components rearrange their argument. -/
def Sched.Valid (σ : Sched) : Prop :=
  (∀ l, (σ.completion l).Perm l) ∧ (∀ l, (σ.ties l).Perm l)

/-- The schedule in which the lookups complete in submission order and ties
keep their order. -/
def Sched.inOrder : Sched := ⟨id, id⟩

/-- The first `k` elements that `std::partial_sort(first, first + k, last)`
with the comparison `a.second < b.second` leaves in `[first, first + k)`. -/
def partialSortTop (σ : Sched) (k : Nat) (scored : List (Str × Int)) : List (Str × Int) :=
  ((σ.ties scored).insertionSort (fun a b => a.2 ≤ b.2)).take k

/-! ## The predictor state -/

/-- The data members of `KazakhContextPredictor::Impl` that the modelled
operations read or write. `unigramLookup` and `bigramLookup` say whether the
`unique_ptr` is non-null; the lookup object points to the trie member of the
same `Impl`. -/
structure Impl where
  unigramTrie : Trie
  unigramLoaded : Bool
  bigramTrie : Trie
  bigramLoaded : Bool
  unigramLookup : Bool
  bigramLookup : Bool
  prefixCache : LRUCache Str (List Str)
  spellCache : LRUCache Str (List Str)
  contextCache : LRUCache Str (List Str)
  fastRejectSet : List Str
  lastWord : Str
  heavyTaskId : Int
deriving DecidableEq, Repr

/-- The state after the constructor `Impl()`. -/
def Impl.init : Impl :=
  { unigramTrie := ⟨[]⟩, unigramLoaded := false, bigramTrie := ⟨[]⟩, bigramLoaded := false,
    unigramLookup := false, bigramLookup := false,
    prefixCache := ⟨500, []⟩, spellCache := ⟨2000, []⟩, contextCache := ⟨3000, []⟩,
    fastRejectSet := [], lastWord := [], heavyTaskId := 0 }

/-- The constant `MAX_FAST_REJECT_SIZE`. -/
def MAX_FAST_REJECT_SIZE : Nat := 10000

/-- The bytes of `std::to_string(n)`. -/
def to_string (n : Int) : Str :=
  if n < 0 then 45 :: (Nat.toDigits 10 n.natAbs).map Char.toNat
  else (Nat.toDigits 10 n.natAbs).map Char.toNat

/-- Model of `Impl::makeCacheKey`; the separator `":"` is the byte 58. -/
def makeCacheKey (type key : Str) (maxResults : Int) : Str :=
  if maxResults > 0 then type ++ [58] ++ key ++ [58] ++ to_string maxResults
  else type ++ [58] ++ key

/-- The bytes of the literal `"prefix"`. -/
def prefixTag : Str := [112, 114, 101, 102, 105, 120]

/-- The bytes of the literal `"keyboard"`. -/
def keyboardTag : Str := [107, 101, 121, 98, 111, 97, 114, 100]

/-- The bytes of the literal `"context"`. -/
def contextTag : Str := [99, 111, 110, 116, 101, 120, 116]

/-- Model of `Impl::loadUnigramFromFile`. The argument `file` is what
`unigramTrie.load(filename)` reads: `none` when it throws. -/
def loadUnigramFromFile (s : Impl) (file : Option Trie) : Bool × Impl :=
  let s1 := if s.unigramLoaded then { s with unigramTrie := s.unigramTrie.clear } else s
  match file with
  | none => (false, s1)
  | some t => (true, { s1 with unigramTrie := t, unigramLoaded := true, unigramLookup := true })

/-- Model of `Impl::loadBigramFromFile`. -/
def loadBigramFromFile (s : Impl) (file : Option Trie) : Bool × Impl :=
  let s1 := if s.bigramLoaded then { s with bigramTrie := s.bigramTrie.clear } else s
  match file with
  | none => (false, s1)
  | some t => (true, { s1 with bigramTrie := t, bigramLoaded := true, bigramLookup := true })

/-- Model of `Impl::clear`; the atomic increment of `heavyTaskId` wraps around. -/
def Impl.clear (s : Impl) : Impl :=
  { unigramTrie := if s.unigramLoaded then s.unigramTrie.clear else s.unigramTrie,
    unigramLoaded := false,
    bigramTrie := if s.bigramLoaded then s.bigramTrie.clear else s.bigramTrie,
    bigramLoaded := false,
    unigramLookup := false, bigramLookup := false,
    prefixCache := s.prefixCache.clear, spellCache := s.spellCache.clear,
    contextCache := s.contextCache.clear,
    fastRejectSet := [], lastWord := [], heavyTaskId := toInt32 (s.heavyTaskId + 1) }

/-- Model of `Impl::exactMatch`: `unigramLookup->exactMatch(word)`, with no
result when `unigramLookup` is null. -/
def exactMatch (s : Impl) (word : Str) : Option Bool :=
  if s.unigramLookup then some (BatchTrieLookup.exactMatch s.unigramTrie word) else none

/-! ## Stage 1 -/

/-- Model of `Impl::fastPrefixSearch`. -/
def fastPrefixSearch (s : Impl) (pfx : Str) (maxResults : Int) : Option (List Str × Impl) :=
  if !s.unigramLoaded || s.unigramTrie.empty || pfx.isEmpty then some ([], s)
  else
    let cacheKey := makeCacheKey prefixTag pfx maxResults
    match s.prefixCache.get cacheKey with
    | (some cachedResults, c) => some (cachedResults, { s with prefixCache := c })
    | (none, _) =>
      if s.unigramLookup then
        let results := BatchTrieLookup.prefixSearch (some s.unigramTrie) pfx maxResults
        some (results, { s with prefixCache := s.prefixCache.put cacheKey results })
      else none

/-- Model of `Impl::fastPredict`. -/
def fastPredict (s : Impl) (pfx : Str) (maxResults : Int) : Option (List Str × Impl) :=
  fastPrefixSearch s pfx maxResults

/-- Model of `Impl::prefixSearch`. -/
def prefixSearch (s : Impl) (pfx : Str) (maxResults : Int) : Option (List Str × Impl) :=
  fastPrefixSearch s pfx maxResults

/-! ## Stage 2 -/

/-- The lookups of `Impl::batchExactMatch`, one candidate after the other in
the order in which they complete, on the pair `(validWords, fastRejectSet)`.
A lookup through a null `unigramLookup` has no result. -/
def batchExactMatchLoop (trie : Trie) (lookup : Bool) :
    List Str → List Str × List Str → Option (List Str × List Str)
  | [], st => some st
  | candidate :: rest, (validWords, fastRejectSet) =>
    if candidate ∈ fastRejectSet then
      batchExactMatchLoop trie lookup rest (validWords, fastRejectSet)
    else if lookup then
      if BatchTrieLookup.exactMatch trie candidate then
        batchExactMatchLoop trie lookup rest (validWords ++ [candidate], fastRejectSet)
      else
        batchExactMatchLoop trie lookup rest
          (validWords,
            if fastRejectSet.length < MAX_FAST_REJECT_SIZE then fastRejectSet ++ [candidate]
            else fastRejectSet)
    else none

/-- Model of `Impl::batchExactMatch`. -/
def batchExactMatch (s : Impl) (σ : Sched) (candidates : List Str) :
    Option (List Str × Impl) :=
  match batchExactMatchLoop s.unigramTrie s.unigramLookup (σ.completion candidates)
      ([], s.fastRejectSet) with
  | none => none
  | some (validWords, rej) => some (validWords, { s with fastRejectSet := rej })

/-- The loop of `Impl::keyboardNeighborCorrect` that fills `scoredCandidates`:
the valid candidates at distance at most 2, each with its distance. -/
def scoreCandidates (inputUtf32 : U32) (maxDist : Int) (validCandidates : List Str) :
    List (Str × Int) :=
  validCandidates.filterMap (fun candidate =>
    let distance := calculateEditDistanceSimple inputUtf32 (getUtf32Cached candidate) maxDist
    if distance ≤ maxDist then some (candidate, distance) else none)

/-- Model of `Impl::keyboardNeighborCorrect`. -/
def keyboardNeighborCorrect (s : Impl) (σ : Sched) (input : Str) (maxResults : Int) :
    Option (List Str × Impl) :=
  if !s.unigramLoaded || input.isEmpty || decide (input.length > 10) then some ([], s)
  else
    let cacheKey := makeCacheKey keyboardTag input maxResults
    match s.spellCache.get cacheKey with
    | (some cachedResults, c) => some (cachedResults, { s with spellCache := c })
    | (none, _) =>
      let utf32 := getUtf32Cached input
      if fitsInt (maxResults * 5) then
        match fastCandidates utf32 (toSize (maxResults * 5)) with
        | none => none
        | some allCandidates =>
          match batchExactMatch s σ allCandidates with
          | none => none
          | some (validCandidates, s1) =>
            let scoredCandidates := scoreCandidates utf32 2 validCandidates
            let results :=
              (partialSortTop σ (min (toSize maxResults) scoredCandidates.length)
                scoredCandidates).map Prod.fst
            some (results, { s1 with spellCache := s1.spellCache.put cacheKey results })
      else none

/-- Model of `Impl::spellCorrect`. -/
def spellCorrect (s : Impl) (σ : Sched) (input : Str) (maxResults : Int) :
    Option (List Str × Impl) :=
  keyboardNeighborCorrect s σ input maxResults

/-- The loop `for (const auto& word : ...) if (std::find(...) == results.end())
results.push_back(word);` shared by `smartPredict` and `contextPredict`. -/
def pushMissing : List Str → List Str → List Str
  | results, [] => results
  | results, word :: rest =>
    if word ∈ results then pushMissing results rest else pushMissing (results ++ [word]) rest

/-- Model of `Impl::smartPredict`. -/
def smartPredict (s : Impl) (σ : Sched) (pfx : Str) (maxResults : Int) :
    Option (List Str × Impl) :=
  match exactMatch s pfx with
  | none => none
  | some true => some ([pfx], s)
  | some false =>
    match fastPrefixSearch s pfx maxResults with
    | none => none
    | some (results, s1) =>
      if results.length < toSize maxResults then
        match keyboardNeighborCorrect s1 σ pfx (toInt32 (maxResults - results.length)) with
        | none => none
        | some (corrections, s2) => some (pushMissing results corrections, s2)
      else some (results, s1)

/-! ## The bigram context predictor -/

/-- Model of `fullKey.find(' ')`: the index of the first byte 32. -/
def findSpace (fullKey : Str) : Option Nat :=
  let i := fullKey.indexOf 32
  if i < fullKey.length then some i else none

/-- The loop `while (bigramTrie.predictive_search(agent) && count < maxResults * 2)`
of `Impl::contextPredict` over the stream that is left. The product
`maxResults * 2` is an `int`; the loop has no result when it overflows. -/
def contextLoop (maxResults : Int) : List Str → Int → List Str → Option (List Str)
  | [], _, results => some results
  | fullKey :: rest, count, results =>
    if fitsInt (maxResults * 2) then
      if count < maxResults * 2 then
        match findSpace fullKey with
        | some spacePos =>
          contextLoop maxResults rest (count + 1) (results ++ [fullKey.drop (spacePos + 1)])
        | none => contextLoop maxResults rest count results
      else some results
    else none

/-- Model of `Impl::contextPredict`. -/
def contextPredict (s : Impl) (previousWord currentPrefix : Str) (maxResults : Int) :
    Option (List Str × Impl) :=
  let cacheKey := makeCacheKey contextTag (previousWord ++ [124] ++ currentPrefix) maxResults
  match s.contextCache.get cacheKey with
  | (some cachedResults, c) => some (cachedResults, { s with contextCache := c })
  | (none, _) =>
    if !s.bigramLoaded || s.bigramTrie.empty || previousWord.isEmpty then
      match fastPrefixSearch s currentPrefix maxResults with
      | none => none
      | some (results, s1) =>
        some (results, { s1 with contextCache := s1.contextCache.put cacheKey results })
    else
      let searchPrefix := previousWord ++ [32] ++ currentPrefix
      match contextLoop maxResults (s.bigramTrie.predictive_search searchPrefix) 0 [] with
      | none => none
      | some found =>
        let results :=
          if found.length > toSize maxResults then found.take (toSize maxResults) else found
        if results.length < toSize maxResults then
          match fastPrefixSearch s currentPrefix (toInt32 (maxResults - results.length)) with
          | none => none
          | some (prefixResults, s1) =>
            let results := pushMissing results prefixResults
            some (results, { s1 with contextCache := s1.contextCache.put cacheKey results })
        else some (results, { s with contextCache := s.contextCache.put cacheKey results })

/-! ## Scenario data -/

/-- The UTF-8 bytes of "ал". -/
def word_al : Str := [208, 176, 208, 187]

/-- The UTF-8 bytes of "алма". -/
def word_alma : Str := [208, 176, 208, 187, 208, 188, 208, 176]

/-- The UTF-8 bytes of "алмас". -/
def word_almas : Str := [208, 176, 208, 187, 208, 188, 208, 176, 209, 129]

/-- The UTF-8 bytes of "ана". -/
def word_ana : Str := [208, 176, 208, 189, 208, 176]

/-- The UTF-8 bytes of "ата". -/
def word_ata : Str := [208, 176, 209, 130, 208, 176]

/-- The unigram trie of scenario 1 of the spec, in the order алма, алмас, ана, ата. -/
def scenarioUnigram : Trie := ⟨[word_alma, word_almas, word_ana, word_ata]⟩

/-- A fresh predictor into which `scenarioUnigram` has been loaded. -/
def scenarioState : Impl := (loadUnigramFromFile Impl.init (some scenarioUnigram)).2

/-- What `Impl::keyboardNeighborCorrect` computes for `input` when it passes
its entry test and misses the spell cache, as a function of the trie alone:
the candidates, those the trie holds in completion order, their scores, and the
first `maxResults` after the partial sort. -/
def stage2Result (t : Trie) (σ : Sched) (input : Str) (maxResults : Int) : Option (List Str) :=
  if fitsInt (maxResults * 5) then
    match fastCandidates (getUtf32Cached input) (toSize (maxResults * 5)) with
    | none => none
    | some allCandidates =>
      let scoredCandidates := scoreCandidates (getUtf32Cached input) 2
        ((σ.completion allCandidates).filter (fun c => t.lookup c))
      some ((partialSortTop σ (min (toSize maxResults) scoredCandidates.length)
        scoredCandidates).map Prod.fst)
  else none

/-- The prefix cache agrees with the unigram trie: an entry stored under the
key of a non-empty prefix and a bound of at least one is what
`BatchTrieLookup::prefixSearch` returns for them. -/
def PrefixCacheCoherent (s : Impl) : Prop :=
  ∀ (pfx : Str) (n : Int) (v : List Str), pfx ≠ [] → 1 ≤ n →
    s.prefixCache.find (makeCacheKey prefixTag pfx n) = some v →
    v = BatchTrieLookup.prefixSearch (some s.unigramTrie) pfx n

/-- The spell cache agrees with the unigram trie: an entry stored under the
key of an input and a bound of at least one is a Stage-2 result for them under
some schedule. -/
def SpellCacheCoherent (s : Impl) : Prop :=
  ∀ (input : Str) (n : Int) (v : List Str), 1 ≤ n →
    s.spellCache.find (makeCacheKey keyboardTag input n) = some v →
    ∃ σ : Sched, σ.Valid ∧ stage2Result s.unigramTrie σ input n = some v

/-- The negative-lookup set holds no key of the unigram trie. -/
def RejectSetCoherent (s : Impl) : Prop :=
  ∀ word ∈ s.fastRejectSet, word ∉ s.unigramTrie.keys

/-- A predictor with a loaded unigram trie whose caches agree with it: the
trie is loaded and its lookup object exists, the trie lists each key once, and
the prefix cache, the spell cache and the negative-lookup set are coherent. -/
structure Ready (s : Impl) : Prop where
  loaded : s.unigramLoaded = true
  lookup : s.unigramLookup = true
  nodup : s.unigramTrie.keys.Nodup
  prefixCoherent : PrefixCacheCoherent s
  spellCoherent : SpellCacheCoherent s
  rejectCoherent : RejectSetCoherent s

/-- The list the specification names for `context_predict(prev, p, n)`: the
words `next`, in trie order, for which `prev + " " + next` is a key of the
bigram trie and `next` starts with `p`. -/
def specBigramNext (t : Trie) (prev p : Str) : List Str :=
  t.keys.filterMap (fun key =>
    if (prev ++ [32]).isPrefixOf key ∧ p.isPrefixOf (key.drop (prev.length + 1)) then
      some (key.drop (prev.length + 1))
    else none)

/-- The UTF-8 bytes of "сіз". -/
def word_siz : Str := [209, 129, 209, 150, 208, 183]

/-- The UTF-8 bytes of "қа". -/
def word_qa : Str := [210, 155, 208, 176]

/-- The UTF-8 bytes of "қалай". -/
def word_qalai : Str := [210, 155, 208, 176, 208, 187, 208, 176, 208, 185]

/-- The UTF-8 bytes of "қайда". -/
def word_qaida : Str := [210, 155, 208, 176, 208, 185, 208, 180, 208, 176]

/-- The bigram trie of scenario 4 of the spec, in the order "сіз қалай",
"сіз қайда". -/
def scenarioBigram : Trie := ⟨[word_siz ++ [32] ++ word_qalai, word_siz ++ [32] ++ word_qaida]⟩

/-- A fresh predictor into which `scenarioBigram` has been loaded; no unigram
trie is loaded. -/
def scenarioBigramState : Impl := (loadBigramFromFile Impl.init (some scenarioBigram)).2

/-- A fresh predictor whose bigram trie holds the one key "a b c". -/
def spaceBigramState : Impl := (loadBigramFromFile Impl.init (some ⟨[[97, 32, 98, 32, 99]]⟩)).2

/-! ## Data of the spell-correction scenarios -/

/-- The UTF-8 bytes of "салем" (five letters, ten bytes). -/
def word_salem : Str := [209, 129, 208, 176, 208, 187, 208, 181, 208, 188]

/-- The UTF-8 bytes of "сәлем"; its second letter is ә, U+04D9. -/
def word_saelem : Str := [209, 129, 211, 153, 208, 187, 208, 181, 208, 188]

/-- The unigram trie of scenario 2 of the spec: алма, алмас, ана, ата, сәлем. -/
def scenarioUnigram2 : Trie := ⟨[word_alma, word_almas, word_ana, word_ata, word_saelem]⟩

/-- A fresh predictor into which `scenarioUnigram2` has been loaded. -/
def scenarioState2 : Impl := (loadUnigramFromFile Impl.init (some scenarioUnigram2)).2

/-- The UTF-8 bytes of "мектеп" (six letters, twelve bytes). -/
def word_mektep : Str := [208, 188, 208, 181, 208, 186, 209, 130, 208, 181, 208, 191]

/-- The UTF-8 bytes of "мекнеп": "мектеп" with its fourth letter т typed as н,
a key whose first keyboard neighbour is т. -/
def word_meknep : Str := [208, 188, 208, 181, 208, 186, 208, 189, 208, 181, 208, 191]

/-- A fresh predictor whose unigram trie holds the one key "мектеп". -/
def mektepState : Impl := (loadUnigramFromFile Impl.init (some ⟨[word_mektep]⟩)).2

/-! ## Data of the reload scenario -/

/-- A fresh predictor with the unigram trie {"ab"}, after one call
`fastPredict("a", 10)`. -/
def reloadStateBefore : Impl :=
  match fastPredict (loadUnigramFromFile Impl.init (some ⟨[[97, 98]]⟩)).2 [97] 10 with
  | some (_, s) => s
  | none => Impl.init

/-- The predictor `reloadStateBefore` after `loadUnigramFromFile` has replaced
the trie by {"ac"}. -/
def reloadStateAfter : Impl := (loadUnigramFromFile reloadStateBefore (some ⟨[[97, 99]]⟩)).2

/-! ## Stage 3: the step model of `heavySpellCorrectAsync`

`Impl::heavySpellCorrectAsync` increments the atomic `heavyTaskId`, reads it and
enqueues on the two-worker `ThreadPool` a task that carries the value read. The
task calls `heavySpellCorrect`, which compares its `taskId` with `heavyTaskId`
on entry and again before every position of the generation loop and returns
`{}` when they differ; the task then compares once more and invokes the
callback when they are equal. The model interleaves these steps.
-/

/-- Where a task taken by a worker stands: before the entry test of
`heavySpellCorrect`; inside `heavySpellCorrect` after the entry test found the
counter value `entrySeen` equal to the task's generation; or after
`heavySpellCorrect` has returned, the entry test having read `entrySeen`. -/
inductive HeavyPhase where
  | atEntry
  | working (entrySeen : Int)
  | returned (entrySeen : Int)
deriving DecidableEq, Repr

/-- A task of the thread pool: the captured `currentTaskId` and `input`. -/
structure HeavyTask where
  gen : Int
  input : Str
deriving DecidableEq, Repr

/-- A task a worker is executing. -/
structure HeavyRunning where
  gen : Int
  phase : HeavyPhase
deriving DecidableEq, Repr

/-- One invocation of a callback: the generation of the task, the value of
`heavyTaskId` its entry test read, and the value its completion test read. -/
structure HeavyFired where
  gen : Int
  atEntry : Int
  atCompletion : Int
deriving DecidableEq, Repr

/-- The state of the step model: the counter `heavyTaskId`, the queue of the
thread pool, the tasks the workers hold, and the callbacks invoked so far. -/
structure HeavyState where
  heavyTaskId : Int
  queue : List HeavyTask
  running : List HeavyRunning
  fired : List HeavyFired
deriving DecidableEq, Repr

/-- The steps of the model. `submit` is a call of `heavySpellCorrectAsync`;
`bump` is the increment of `heavyTaskId` by `Impl::clear`; `take` is a free
worker taking the task at the front of the queue; `entry i`, `position i`,
`finish i` and `complete i` are the entry test, a test of the generation loop,
the return of `heavySpellCorrect` and the completion test of the `i`-th task
held by a worker. -/
inductive HeavyEvent where
  | submit (input : Str)
  | bump
  | take
  | entry (i : Nat)
  | position (i : Nat)
  | finish (i : Nat)
  | complete (i : Nat)
deriving DecidableEq, Repr

/-- The state after the constructor. -/
def HeavyState.init : HeavyState := ⟨0, [], [], []⟩

/-- One step of the model; a step that is not enabled leaves the state as it is. -/
def heavyStep (st : HeavyState) : HeavyEvent → HeavyState
  | .submit input =>
    let currentTaskId := toInt32 (st.heavyTaskId + 1)
    { st with heavyTaskId := currentTaskId, queue := st.queue ++ [⟨currentTaskId, input⟩] }
  | .bump => { st with heavyTaskId := toInt32 (st.heavyTaskId + 1) }
  | .take =>
    match st.queue with
    | [] => st
    | task :: rest =>
      if st.running.length < 2 then
        { st with queue := rest, running := st.running ++ [⟨task.gen, .atEntry⟩] }
      else st
  | .entry i =>
    match st.running.get? i with
    | some ⟨gen, .atEntry⟩ =>
      if gen ≠ st.heavyTaskId then
        { st with running := st.running.set i ⟨gen, .returned st.heavyTaskId⟩ }
      else { st with running := st.running.set i ⟨gen, .working st.heavyTaskId⟩ }
    | _ => st
  | .position i =>
    match st.running.get? i with
    | some ⟨gen, .working entrySeen⟩ =>
      if gen ≠ st.heavyTaskId then
        { st with running := st.running.set i ⟨gen, .returned entrySeen⟩ }
      else st
    | _ => st
  | .finish i =>
    match st.running.get? i with
    | some ⟨gen, .working entrySeen⟩ =>
      { st with running := st.running.set i ⟨gen, .returned entrySeen⟩ }
    | _ => st
  | .complete i =>
    match st.running.get? i with
    | some ⟨gen, .returned entrySeen⟩ =>
      if gen = st.heavyTaskId then
        { st with running := st.running.eraseIdx i,
                  fired := st.fired ++ [⟨gen, entrySeen, st.heavyTaskId⟩] }
      else { st with running := st.running.eraseIdx i }
    | _ => st

/-- The state after a sequence of steps from a given state. -/
def heavyRun (st : HeavyState) (events : List HeavyEvent) : HeavyState :=
  events.foldl heavyStep st

/-- The number of increments of `heavyTaskId` in a sequence of steps. -/
def heavyBumps (events : List HeavyEvent) : Nat :=
  events.countP (fun e => match e with
    | .submit _ => true
    | .bump => true
    | _ => false)

/-- The invariant of the step model while the counter has been incremented `k`
times and has not wrapped around. -/
structure HeavyInv (st : HeavyState) (k : Nat) : Prop where
  counter : st.heavyTaskId = k
  queued : ∀ t ∈ st.queue, t.gen ≤ k
  held : ∀ r ∈ st.running, r.gen ≤ k
  working : ∀ r ∈ st.running, ∀ e, r.phase = .working e → e = r.gen
  returned : ∀ r ∈ st.running, ∀ e, r.phase = .returned e → e = r.gen ∨ r.gen < k
  fired : ∀ f ∈ st.fired, f.gen = f.atEntry ∧ f.gen = f.atCompletion

/-- Scenario 6 of the spec as a run: two submissions in a row, both tasks taken
by the workers, the second one completing before the first. -/
def rapidInput : List HeavyEvent :=
  [ .submit [209, 129], .submit [209, 129, 208, 176], .take, .take,
    .entry 0, .entry 1, .finish 1, .complete 1, .complete 0 ]

/-! ## Reference edit distances -/

/-- Reference edit distance between the first `i` code points of `s1` and the
first `j` code points of `s2`, by the textbook recurrence: deleting, inserting
or substituting one code point costs 1, and with `tr` so does exchanging two
adjacent code points (Damerau, optimal string alignment); without `tr` it is
the plain Levenshtein distance. The first argument bounds the recursion depth;
`i + j + 1` is enough. -/
def editDistanceFuel (tr : Bool) (s1 s2 : U32) : Nat → Nat → Nat → Int
  | 0, _, _ => 0
  | _ + 1, 0, j => (j : Int)
  | _ + 1, i + 1, 0 => ((i + 1 : Nat) : Int)
  | fuel + 1, i + 1, j + 1 =>
    let cost : Int := if s1.getD i 0 = s2.getD j 0 then 0 else 1
    let d := min (min (editDistanceFuel tr s1 s2 fuel i (j + 1) + 1)
      (editDistanceFuel tr s1 s2 fuel (i + 1) j + 1)) (editDistanceFuel tr s1 s2 fuel i j + cost)
    if tr = true ∧ 1 ≤ i ∧ 1 ≤ j ∧ s1.getD i 0 = s2.getD (j - 1) 0
        ∧ s1.getD (i - 1) 0 = s2.getD j 0 then
      min d (editDistanceFuel tr s1 s2 fuel (i - 1) (j - 1) + 1)
    else d

/-- Reference edit distance between the first `i` code points of `s1` and the
first `j` code points of `s2`. -/
def editDistanceAt (tr : Bool) (s1 s2 : U32) (i j : Nat) : Int :=
  editDistanceFuel tr s1 s2 (i + j + 1) i j

/-- The exact Damerau (adjacent-transposition) edit distance of the spec. -/
def damerauDistance (s1 s2 : U32) : Int := editDistanceAt true s1 s2 s1.length s2.length

/-- The plain Levenshtein distance (insert, delete, substitute). -/
def levenshteinDistance (s1 s2 : U32) : Int := editDistanceAt false s1 s2 s1.length s2.length

/-- Row `i` of the reference table, columns `0 .. s2.length`. -/
def editDistanceRow (tr : Bool) (s1 s2 : U32) (i : Nat) : List Int :=
  (List.range (s2.length + 1)).map (fun j => editDistanceAt tr s1 s2 i j)


/-- The code points of "мектепк", a word of 7 code points. -/
def word7 : U32 := [0x43C, 0x435, 0x43A, 0x442, 0x435, 0x43F, 0x43A]

/-- The word `word7` with its last two code points exchanged. -/
def word7swapped : U32 := [0x43C, 0x435, 0x43A, 0x442, 0x435, 0x43A, 0x43F]

/-- The word `word7` with its first two code points exchanged. -/
def word7first : U32 := [0x435, 0x43C, 0x43A, 0x442, 0x435, 0x43F, 0x43A]

/-- The code points of "мектепке", a word of 8 code points. -/
def word8 : U32 := [0x43C, 0x435, 0x43A, 0x442, 0x435, 0x43F, 0x43A, 0x435]

/-! ## Sequences of calls on an `LRUCache` -/
/-- One call on an `LRUCache`: `put`, `get` or `clear`. -/
inductive LRUOp (K V : Type) where
  | put (key : K) (value : V)
  | get (key : K)
  | clear

namespace LRUCache

variable {K V : Type} [DecidableEq K]

/-- The cache after one call. -/
def step (c : LRUCache K V) : LRUOp K V → LRUCache K V
  | LRUOp.put key value => c.put key value
  | LRUOp.get key => (c.get key).2
  | LRUOp.clear => c.clear

/-- The cache after a sequence of calls, first call first. -/
def run (c : LRUCache K V) (ops : List (LRUOp K V)) : LRUCache K V := ops.foldl step c

/-- The distinct keys put so far since the last `clear`, after one more call. -/
def putKeysStep (keys : List K) : LRUOp K V → List K
  | LRUOp.put key _ => if key ∈ keys then keys else key :: keys
  | LRUOp.get _ => keys
  | LRUOp.clear => []

/-- The distinct keys put since the last `clear` in a sequence of calls. -/
def putKeys (ops : List (LRUOp K V)) : List K := ops.foldl putKeysStep []

/-- The invariant behind the size of the cache: the nodes carry distinct keys,
all of them among the distinct keys `keys` put since the last `clear`, and
their number is `min capacity keys.length`. -/
structure SizeInv (c : LRUCache K V) (keys : List K) : Prop where
  nodup : (c.nodes.map Prod.fst).Nodup
  sub : ∀ k ∈ c.nodes.map Prod.fst, k ∈ keys
  keysNodup : keys.Nodup
  len : c.nodes.length = min c.capacity keys.length

end LRUCache

/-! ## `KazakhUserDict`: UTF-8, UTF-16 and normalization -/

/-- UTF-16 code units of a `std::u16string`, each below `2 ^ 16`. -/
abbrev U16 := List Nat

/-- The `while (i < utf8.size())` loop of `KazakhUserDict::utf8ToUtf16Safe` on
the bytes from position `i` on (bytes are values below 256); `utf16` holds the
units pushed so far. The result is the return value together with the content
of `utf16` at the return. The first argument bounds the number of iterations. -/
def utf8ToUtf16SafeLoop : Nat → Str → U16 → Bool × U16
  | 0, _, utf16 => (true, utf16)
  | _ + 1, [], utf16 => (true, utf16)
  | fuel + 1, c :: rest, utf16 =>
    if c ≤ 0x7F then utf8ToUtf16SafeLoop fuel rest (utf16 ++ [c])
    else if c &&& 0xE0 = 0xC0 ∧ 0 < rest.length then
      let c2 := rest.getD 0 0
      if c2 &&& 0xC0 ≠ 0x80 then (false, utf16)
      else utf8ToUtf16SafeLoop fuel (rest.drop 1)
        (utf16 ++ [((c &&& 0x1F) <<< 6) ||| (c2 &&& 0x3F)])
    else if c &&& 0xF0 = 0xE0 ∧ 1 < rest.length then
      let c2 := rest.getD 0 0
      let c3 := rest.getD 1 0
      if c2 &&& 0xC0 ≠ 0x80 ∨ c3 &&& 0xC0 ≠ 0x80 then (false, utf16)
      else utf8ToUtf16SafeLoop fuel (rest.drop 2)
        (utf16 ++ [((c &&& 0x0F) <<< 12) ||| ((c2 &&& 0x3F) <<< 6) ||| (c3 &&& 0x3F)])
    else if c &&& 0xF8 = 0xF0 ∧ 2 < rest.length then
      let c2 := rest.getD 0 0
      let c3 := rest.getD 1 0
      let c4 := rest.getD 2 0
      if c2 &&& 0xC0 ≠ 0x80 ∨ c3 &&& 0xC0 ≠ 0x80 ∨ c4 &&& 0xC0 ≠ 0x80 then (false, utf16)
      else
        let codePoint := ((c &&& 0x07) <<< 18) ||| ((c2 &&& 0x3F) <<< 12)
          ||| ((c3 &&& 0x3F) <<< 6) ||| (c4 &&& 0x3F)
        if codePoint > 0x10FFFF then (false, utf16)
        else if codePoint > 0xFFFF then
          utf8ToUtf16SafeLoop fuel (rest.drop 3)
            (utf16 ++ [((codePoint - 0x10000) >>> 10) + 0xD800,
              ((codePoint - 0x10000) &&& 0x3FF) + 0xDC00])
        else utf8ToUtf16SafeLoop fuel (rest.drop 3) (utf16 ++ [codePoint])
    else (false, utf16)

/-- Model of `KazakhUserDict::utf8ToUtf16Safe`: the `bool` it returns and the
content of the out-parameter `utf16`, which on failure holds the units decoded
before the malformed sequence. Every iteration consumes a byte, so
`utf8.length` iterations are enough. -/
def utf8ToUtf16Safe (utf8 : Str) : Bool × U16 :=
  if utf8.isEmpty then (true, []) else utf8ToUtf16SafeLoop utf8.length utf8 []

/-- The `while (i < utf16.size())` loop of `KazakhUserDict::utf16ToUtf8Safe`
on the units from position `i` on; `utf8` holds the bytes pushed so far. The
first argument bounds the number of iterations. -/
def utf16ToUtf8SafeLoop : Nat → U16 → Str → Bool × Str
  | 0, _, utf8 => (true, utf8)
  | _ + 1, [], utf8 => (true, utf8)
  | fuel + 1, c :: rest, utf8 =>
    if c ≤ 0x7F then utf16ToUtf8SafeLoop fuel rest (utf8 ++ [c])
    else if c ≤ 0x7FF then
      utf16ToUtf8SafeLoop fuel rest
        (utf8 ++ [0xC0 ||| ((c >>> 6) &&& 0x1F), 0x80 ||| (c &&& 0x3F)])
    else if c < 0xD800 ∨ c > 0xDFFF then
      utf16ToUtf8SafeLoop fuel rest (utf8 ++ [0xE0 ||| ((c >>> 12) &&& 0x0F),
        0x80 ||| ((c >>> 6) &&& 0x3F), 0x80 ||| (c &&& 0x3F)])
    else if c ≥ 0xD800 ∧ c ≤ 0xDBFF ∧ 0 < rest.length then
      let lowSurrogate := rest.getD 0 0
      if lowSurrogate < 0xDC00 ∨ lowSurrogate > 0xDFFF then (false, utf8)
      else
        let codePoint := 0x10000 + ((c - 0xD800) <<< 10) + (lowSurrogate - 0xDC00)
        utf16ToUtf8SafeLoop fuel (rest.drop 1) (utf8 ++ [0xF0 ||| ((codePoint >>> 18) &&& 0x07),
          0x80 ||| ((codePoint >>> 12) &&& 0x3F), 0x80 ||| ((codePoint >>> 6) &&& 0x3F),
          0x80 ||| (codePoint &&& 0x3F)])
    else (false, utf8)

/-- Model of `KazakhUserDict::utf16ToUtf8Safe`: the `bool` it returns and the
content of the out-parameter `utf8`. Every iteration consumes a unit, so
`utf16.length` iterations are enough. -/
def utf16ToUtf8Safe (utf16 : U16) : Bool × Str :=
  if utf16.isEmpty then (true, []) else utf16ToUtf8SafeLoop utf16.length utf16 []

/-- Model of `KazakhUserDict::utf8ToUtf16`. -/
def utf8ToUtf16 (str : Str) : U16 :=
  if (utf8ToUtf16Safe str).1 then (utf8ToUtf16Safe str).2 else []

/-- Model of `KazakhUserDict::utf16ToUtf8`. -/
def utf16ToUtf8 (str : U16) : Str :=
  if (utf16ToUtf8Safe str).1 then (utf16ToUtf8Safe str).2 else []

/-- The table `kazakhCharNormalization`, entry by entry as in the source. -/
def kazakhCharNormalization : List (Nat × Nat) :=
  [ (0x0410, 0x0430), (0x0411, 0x0431), (0x0412, 0x0432), (0x0413, 0x0433),
    (0x0414, 0x0434), (0x0415, 0x0435), (0x0416, 0x0436), (0x0417, 0x0437),
    (0x0418, 0x0438), (0x0419, 0x0439), (0x041a, 0x043a), (0x041b, 0x043b),
    (0x041c, 0x043c), (0x041d, 0x043d), (0x041e, 0x043e), (0x041f, 0x043f),
    (0x0420, 0x0440), (0x0421, 0x0441), (0x0422, 0x0442), (0x0423, 0x0443),
    (0x0424, 0x0444), (0x0425, 0x0445), (0x0426, 0x0446), (0x0427, 0x0447),
    (0x0428, 0x0448), (0x0429, 0x0449), (0x042a, 0x044a), (0x042b, 0x044b),
    (0x042c, 0x044c), (0x042d, 0x044d), (0x042e, 0x044e), (0x042f, 0x044f),
    (0x0492, 0x0493), (0x049a, 0x049b), (0x04e8, 0x04e9), (0x04ae, 0x04af),
    (0x04d8, 0x04d9), (0x0406, 0x0456), (0x04a2, 0x04a3), (0x04b0, 0x04b1) ]

/-- Model of `KazakhUserDict::normalizeChar`. -/
def normalizeChar (ch : Nat) : Nat :=
  match kazakhCharNormalization.find? (fun e => decide (e.1 = ch)) with
  | some e => e.2
  | none => ch

/-- Model of `KazakhUserDict::normalizeString`. -/
def normalizeString (str : Str) : U16 :=
  let u16str := utf8ToUtf16 str
  if u16str.isEmpty ∧ ¬ str.isEmpty then u16str
  else u16str.map normalizeChar

/-- Model of `KazakhUserDict::normalizeAndConvertToString`. -/
def normalizeAndConvertToString (str : Str) : Str :=
  let normalized := normalizeString str
  if normalized.isEmpty ∧ ¬ str.isEmpty then str
  else utf16ToUtf8 normalized

/-- A continuation byte `10xxxxxx`. -/
def isContinuation (b : Nat) : Bool := decide (0x80 ≤ b ∧ b ≤ 0xBF)

/-- One well-formed UTF-8 byte sequence, by the table of the Unicode Standard
(RFC 3629): no overlong form, no surrogate, nothing above U+10FFFF. -/
def wellFormedSequence : Str → Bool
  | [c] => decide (c ≤ 0x7F)
  | [c, c2] => decide (0xC2 ≤ c ∧ c ≤ 0xDF) && isContinuation c2
  | [c, c2, c3] =>
    decide (0xE0 ≤ c ∧ c ≤ 0xEF)
      && decide ((if c = 0xE0 then 0xA0 else 0x80) ≤ c2 ∧ c2 ≤ (if c = 0xED then 0x9F else 0xBF))
      && isContinuation c3
  | [c, c2, c3, c4] =>
    decide (0xF0 ≤ c ∧ c ≤ 0xF4)
      && decide ((if c = 0xF0 then 0x90 else 0x80) ≤ c2 ∧ c2 ≤ (if c = 0xF4 then 0x8F else 0xBF))
      && isContinuation c3 && isContinuation c4
  | _ => false

/-- Valid UTF-8: a concatenation of well-formed byte sequences. -/
def ValidUtf8 (s : Str) : Prop :=
  ∃ parts : List Str, s = parts.flatten ∧ ∀ p ∈ parts, wellFormedSequence p = true

/-- The number of continuation bytes that a lead byte announces by its bit
pattern: `110xxxxx` one, `1110xxxx` two, `11110xxx` three. -/
def continuationCount (c : Nat) : Nat := if c < 0xE0 then 1 else if c < 0xF0 then 2 else 3

/-- The byte string starts with a malformed sequence: a malformed lead byte
(`0x80..0xBF` or `0xF8..0xFF`), a multi-byte sequence that the end of the input
truncates, a continuation position whose byte is not of the form `10xxxxxx`,
or a 4-byte sequence whose payload bits are a value above U+10FFFF. -/
def malformedSequenceAt : Str → Bool
  | [] => false
  | c :: tail =>
    if (0x80 ≤ c ∧ c ≤ 0xBF) ∨ (0xF8 ≤ c ∧ c ≤ 0xFF) then true
    else if 0xC0 ≤ c ∧ c ≤ 0xF7 then
      decide (tail.length < continuationCount c)
        || (tail.take (continuationCount c)).any (fun b => !isContinuation b)
        || (decide (0xF0 ≤ c) && decide (0x10FFFF <
              c % 8 * 262144 + tail.getD 0 0 % 64 * 4096 + tail.getD 1 0 % 64 * 64
                + tail.getD 2 0 % 64))
    else false

/-- The UTF-16 form of a code point: itself in the basic plane, a surrogate
pair above it. -/
def utf16Units (codePoint : Nat) : U16 :=
  if codePoint > 0xFFFF then
    [(codePoint - 0x10000) / 1024 + 0xD800, (codePoint - 0x10000) % 1024 + 0xDC00]
  else [codePoint]

/-! ## The history of an `LRUCache` -/
namespace LRUCache

variable {K V : Type} [DecidableEq K]

/-- The time of the most recent `put` or `get` hit of every key (`none` for a
key never touched), after one more call, made at time `t` on the cache `c`: a
`put` touches its key, a `get` touches its key when it hits. -/
def touchStep (c : LRUCache K V) (t : Nat) (times : K → Option Nat) :
    LRUOp K V → K → Option Nat
  | LRUOp.put key _ => Function.update times key (some t)
  | LRUOp.get key =>
    if (c.find key).isSome then Function.update times key (some t) else times
  | LRUOp.clear => times

/-- The cache, the number of calls made and the touch times after a sequence
of calls, first call first; the call number `i` is made at time `i`. -/
def runTimed (c : LRUCache K V) (ops : List (LRUOp K V)) :
    LRUCache K V × Nat × (K → Option Nat) :=
  ops.foldl (fun st op => (st.1.step op, st.2.1 + 1, touchStep st.1 st.2.1 st.2.2 op))
    (c, 0, fun _ => none)

/-- The time of the most recent `put` or `get` hit of every key after a
sequence of calls. -/
def lastTouch (c : LRUCache K V) (ops : List (LRUOp K V)) : K → Option Nat :=
  (runTimed c ops).2.2

/-- The value last put for every key, after one more call. -/
def lastPutStep (last : K → Option V) : LRUOp K V → K → Option V
  | LRUOp.put key value => Function.update last key (some value)
  | LRUOp.get _ => last
  | LRUOp.clear => last

/-- The value last put for every key in a sequence of calls. -/
def lastPut (ops : List (LRUOp K V)) : K → Option V :=
  ops.foldl lastPutStep (fun _ => none)

/-- The invariant behind the recency order: the nodes carry distinct keys, each
touched before time `t`, they stand in the list from the most recently touched
to the least recently touched, and each holds the value last put for its key. -/
structure RecencyInv (c : LRUCache K V) (t : Nat) (times : K → Option Nat)
    (last : K → Option V) : Prop where
  nodup : (c.nodes.map Prod.fst).Nodup
  touched : ∀ n ∈ c.nodes, ∃ τ, times n.1 = some τ ∧ τ < t
  ordered : c.nodes.Pairwise (fun a b => ∀ τa τb, times a.1 = some τa →
    times b.1 = some τb → τb < τa)
  value : ∀ n ∈ c.nodes, last n.1 = some n.2

end LRUCache

/-! ## `TaskQueue` -/

/-- Model of `std::string::find(pattern)` from the position `i` on, on the rest
`s` of the string: the position of the first occurrence, `none` for `npos`. -/
def strFindFrom : Nat → Str → Str → Option Nat
  | i, [], pattern => if pattern.isPrefixOf [] then some i else none
  | i, c :: rest, pattern =>
    if pattern.isPrefixOf (c :: rest) then some i else strFindFrom (i + 1) rest pattern

/-- Model of `std::string::find(pattern)`. -/
def strFind (s pattern : Str) : Option Nat := strFindFrom 0 s pattern

namespace TaskQueue

/-- Model of `TaskQueue::Task`; `func` is the number of the closure. -/
structure Task where
  func : Nat
  priority : Int
  timestamp : Int
  taskId : Str
deriving DecidableEq, Repr

/-- Model of `Task::operator<`. -/
def Task.lt (a other : Task) : Bool :=
  if a.priority ≠ other.priority then decide (a.priority > other.priority)
  else decide (a.timestamp > other.timestamp)

/-- The arrangement in which the heap of a `std::priority_queue` meets its
elements: the standard leaves it open which of several greatest elements is at
the top. -/
structure HeapOrder where
  arrange : List Task → List Task

/-- The arrangement is a permutation of the elements. -/
def HeapOrder.Valid (ρ : HeapOrder) : Prop := ∀ l, (ρ.arrange l).Perm l

/-- The arrangement that leaves the elements in the order of their insertion. -/
def HeapOrder.inOrder : HeapOrder := ⟨id⟩

/-- Modelled from the C++ standard: `std::priority_queue<Task>::top`, an
element that is not less (`operator<`) than any other; `none` on the empty
queue. -/
def top (ρ : HeapOrder) (queue : List Task) : Option Task :=
  (ρ.arrange queue).foldl
    (fun best t =>
      match best with
      | none => some t
      | some b => if b.lt t then some t else some b)
    none

/-- Modelled from the C++ standard: `std::priority_queue<Task>::pop`, which
removes the top element. -/
def pop (ρ : HeapOrder) (queue : List Task) : List Task :=
  match top ρ queue with
  | none => queue
  | some t => queue.erase t

end TaskQueue

/-- Model of `TaskQueue`: the pending tasks and the `running` flag. -/
structure TaskQueue where
  queue : List TaskQueue.Task
  running : Bool
deriving DecidableEq, Repr

namespace TaskQueue

/-- Model of the critical section of the worker thread: the task whose `func`
the worker takes, and the queue after it. -/
def workerTake (ρ : HeapOrder) (q : TaskQueue) : Option Task × TaskQueue :=
  if !q.queue.isEmpty then (top ρ q.queue, { q with queue := pop ρ q.queue })
  else (none, q)

/-- Model of `TaskQueue::postTask`; `now` is the reading of the steady clock. -/
def postTask (q : TaskQueue) (func : Nat) (priority : Int) (now : Int) (taskId : Str) :
    TaskQueue :=
  if q.running then { q with queue := q.queue ++ [⟨func, priority, now, taskId⟩] } else q

/-- The loop of `TaskQueue::cancelTasks`. -/
def cancelTasksLoop (ρ : HeapOrder) (taskIdPrefix : Str) :
    Nat → List Task → List Task → List Task
  | 0, _, newQueue => newQueue
  | fuel + 1, queue, newQueue =>
    match top ρ queue with
    | none => newQueue
    | some task =>
      if strFind task.taskId taskIdPrefix ≠ some 0 then
        cancelTasksLoop ρ taskIdPrefix fuel (pop ρ queue) (newQueue ++ [task])
      else cancelTasksLoop ρ taskIdPrefix fuel (pop ρ queue) newQueue

/-- Model of `TaskQueue::cancelTasks`. -/
def cancelTasks (ρ : HeapOrder) (q : TaskQueue) (taskIdPrefix : Str) : TaskQueue :=
  { q with queue := cancelTasksLoop ρ taskIdPrefix q.queue.length q.queue [] }

/-- The loop of `TaskQueue::clearPendingTasks`. -/
def clearPendingTasksLoop (ρ : HeapOrder) : Nat → List Task → List Task
  | 0, queue => queue
  | fuel + 1, queue => if !queue.isEmpty then clearPendingTasksLoop ρ fuel (pop ρ queue) else queue

/-- Model of `TaskQueue::clearPendingTasks`. -/
def clearPendingTasks (ρ : HeapOrder) (q : TaskQueue) : TaskQueue :=
  { q with queue := clearPendingTasksLoop ρ q.queue.length q.queue }

/-- The tasks in the order in which the worker takes them when no task is
posted meanwhile. -/
def drain (ρ : HeapOrder) : Nat → List Task → List Task
  | 0, _ => []
  | fuel + 1, queue =>
    match top ρ queue with
    | none => []
    | some t => t :: drain ρ fuel (pop ρ queue)

end TaskQueue

/-! ## `KazakhUserDict`: the working data

The entries are objects shared between the maps and the trie through
`std::shared_ptr`. The model keeps the entries of the working data in a list
`heap`; a pointer is the position of the entry in it, and a new entry is put at
the end. The maps are association lists: `std::unordered_map` fixes no order of
iteration, and the statements below hold for every order of the pairs.
`getCurrentTimestamp()` is a parameter `now` of the call that reads the clock.
-/

/-- Model of `std::unordered_map::find`: the value bound to `key`, if any. -/
def mapFind {κ α : Type} [DecidableEq κ] (m : List (κ × α)) (key : κ) : Option α :=
  (m.find? (fun p => decide (p.1 = key))).map Prod.snd

/-- Model of `m[key] = value`: the binding of `key` is replaced, or added. -/
def mapSet {κ α : Type} [DecidableEq κ] (m : List (κ × α)) (key : κ) (value : α) :
    List (κ × α) :=
  match mapFind m key with
  | some _ => m.map (fun p => if p.1 = key then (key, value) else p)
  | none => m ++ [(key, value)]

/-- Model of `m.erase(key)`. -/
def mapErase {κ α : Type} [DecidableEq κ] (m : List (κ × α)) (key : κ) : List (κ × α) :=
  m.filter (fun p => decide (p.1 ≠ key))

/-- Model of `m[key].push_back(value)` on a map of vectors. -/
def mapPush {κ α : Type} [DecidableEq κ] (m : List (κ × List α)) (key : κ) (value : α) :
    List (κ × List α) :=
  mapSet m key ((mapFind m key).getD [] ++ [value])

/-- The map after the assignments `m[key] = value` of a loop, in their order. -/
def mapOfList {κ α : Type} [DecidableEq κ] (assignments : List (κ × α)) : List (κ × α) :=
  assignments.foldl (fun m p => mapSet m p.1 p.2) []

/-- The result of an operation on `int`: a signed overflow is undefined
behaviour, `none`. -/
def checkedInt (x : Int) : Option Int := if fitsInt x then some x else none

namespace KazakhUserDict

/-- Model of `UserDictEntry`. -/
structure UserDictEntry where
  word : Str
  normalizedWord : Str
  frequency : Int
  contexts : List Str
  lastUsed : Nat
  created : Nat
deriving DecidableEq, Repr

/-- Model of `SnapshotTrieNode`: the children by UTF-16 unit, the pointers to
the entries of the node, and the flag `isEndOfWord`. -/
inductive SnapshotTrieNode where
  | mk (children : List (Nat × SnapshotTrieNode)) (entries : List Nat) (isEndOfWord : Bool)

namespace SnapshotTrieNode

/-- The field `children`. -/
def children : SnapshotTrieNode → List (Nat × SnapshotTrieNode)
  | mk c _ _ => c

/-- The field `entries`. -/
def entries : SnapshotTrieNode → List Nat
  | mk _ e _ => e

/-- The field `isEndOfWord`. -/
def isEndOfWord : SnapshotTrieNode → Bool
  | mk _ _ b => b

/-- A node as `std::make_shared<SnapshotTrieNode>()` makes it. -/
def empty : SnapshotTrieNode := mk [] [] false

/-- Model of `findOrCreateNode(root, path)` followed by the update `f` of the
node that it returns: the nodes missing on the path are created. -/
def updateNode (f : SnapshotTrieNode → SnapshotTrieNode) :
    List Nat → SnapshotTrieNode → SnapshotTrieNode
  | [], node => f node
  | ch :: path, node =>
    match mapFind node.children ch with
    | none =>
      mk (node.children ++ [(ch, updateNode f path empty)]) node.entries node.isEndOfWord
    | some child =>
      mk (mapSet node.children ch (updateNode f path child)) node.entries node.isEndOfWord

/-- The walk `node = node->children.find(ch)->second` along a path; `none` when
a child is missing. -/
def descend : List Nat → SnapshotTrieNode → Option SnapshotTrieNode
  | [], node => some node
  | ch :: path, node =>
    match mapFind node.children ch with
    | none => none
    | some child => descend path child

/-- The node `node` is met below `root` by following children along `path`. -/
def Reaches : SnapshotTrieNode → List Nat → SnapshotTrieNode → Prop
  | root, [], node => node = root
  | root, ch :: path, node => ∃ child, (ch, child) ∈ root.children ∧ Reaches child path node

end SnapshotTrieNode

/-- Model of `WorkingData`; `heap` holds the entries that the pointers of the
maps and of the trie refer to. -/
structure WorkingData where
  heap : List UserDictEntry
  trieRoot : SnapshotTrieNode
  wordMap : List (Str × Nat)
  normalizedWordMap : List (Str × Nat)
  contextMap : List (Str × List Nat)
  wordCount : Int
  totalFrequency : Int
  dirty : Bool

namespace WorkingData

/-- The working data of a new `KazakhUserDict`, and after `clearUserDict`. -/
def empty : WorkingData := ⟨[], SnapshotTrieNode.empty, [], [], [], 0, 0, false⟩

/-- The entry that a pointer refers to. -/
def entry (wd : WorkingData) (p : Nat) : UserDictEntry :=
  wd.heap.getD p ⟨[], [], 0, [], 0, 0⟩

/-- The entries of the working set: those that `wordMap` refers to. -/
def entries (wd : WorkingData) : List UserDictEntry :=
  wd.wordMap.map (fun pair => wd.entry pair.2)

end WorkingData

/-- The update of the trie node of a word in `updateWorkingDataTrie`. -/
def updateTrieNode (wd : WorkingData) (normalizedWord : Str) (entry : Nat) (add : Bool)
    (node : SnapshotTrieNode) : SnapshotTrieNode :=
  if add then
    let existing := node.entries.any (fun e => decide ((wd.entry e).normalizedWord = normalizedWord))
    SnapshotTrieNode.mk node.children
      (if !existing then node.entries ++ [entry] else node.entries) true
  else
    let entries := node.entries.filter
      (fun e => decide ((wd.entry e).normalizedWord ≠ (wd.entry entry).normalizedWord))
    SnapshotTrieNode.mk node.children entries
      (if entries.isEmpty then false else node.isEndOfWord)

/-- Model of `KazakhUserDict::updateWorkingDataTrie`. -/
def updateWorkingDataTrie (wd : WorkingData) (_word normalizedWord : Str) (entry : Nat)
    (add : Bool) : WorkingData :=
  let u16word := utf8ToUtf16 normalizedWord
  if u16word.isEmpty ∧ ¬ normalizedWord.isEmpty then wd
  else
    { wd with trieRoot :=
        wd.trieRoot.updateNode (updateTrieNode wd normalizedWord entry add) u16word }

/-- Model of `KazakhUserDict::addWordToWorkingData`. -/
def addWordToWorkingData (wd : WorkingData) (now : Nat) (word : Str) (frequency : Int)
    (checkExists : Bool) : Option (Bool × WorkingData) :=
  let normalizedWord := normalizeAndConvertToString word
  if normalizedWord.isEmpty ∧ ¬ word.isEmpty then some (false, wd)
  else
    match (if checkExists then mapFind wd.normalizedWordMap normalizedWord else none) with
    | some it =>
      match checkedInt ((wd.entry it).frequency + frequency),
          checkedInt (wd.totalFrequency + frequency) with
      | some f, some t =>
        some (true, { wd with
          heap := wd.heap.set it { wd.entry it with frequency := f, lastUsed := now }
          totalFrequency := t
          dirty := true })
      | _, _ => none
    | none =>
      match checkedInt (wd.wordCount + 1), checkedInt (wd.totalFrequency + frequency) with
      | some c, some t =>
        let wd1 : WorkingData := { wd with
          heap := wd.heap ++ [⟨word, normalizedWord, frequency, [], now, now⟩]
          wordMap := mapSet wd.wordMap word wd.heap.length
          normalizedWordMap := mapSet wd.normalizedWordMap normalizedWord wd.heap.length
          wordCount := c
          totalFrequency := t
          dirty := true }
        some (true, updateWorkingDataTrie wd1 word normalizedWord wd.heap.length true)
      | _, _ => none

/-- Model of `KazakhUserDict::addWordWithContextToWorkingData`; after the
insertion has returned `true` the normalized word is a key of
`normalizedWordMap`, and `entry` is the pointer found under it. -/
def addWordWithContextToWorkingData (wd : WorkingData) (now : Nat) (word contextWord : Str)
    (frequency : Int) : Option (Bool × WorkingData) :=
  let normalizedContext := normalizeAndConvertToString contextWord
  if normalizedContext.isEmpty ∧ ¬ contextWord.isEmpty then some (false, wd)
  else
    match addWordToWorkingData wd now word frequency true with
    | none => none
    | some (false, wd1) => some (false, wd1)
    | some (true, wd1) =>
      let normalizedWord := normalizeAndConvertToString word
      let entry := (mapFind wd1.normalizedWordMap normalizedWord).getD wd1.heap.length
      if normalizedContext ∉ (wd1.entry entry).contexts then
        some (true, { wd1 with
          heap := wd1.heap.set entry
            { wd1.entry entry with contexts := (wd1.entry entry).contexts ++ [normalizedContext] }
          contextMap := mapPush wd1.contextMap normalizedContext entry
          dirty := true })
      else some (true, { wd1 with dirty := true })

/-- One iteration of the loop over the contexts of the entry in
`removeWordFromWorkingData`: the entries with the `normalizedWord` of the entry
leave the list of the context, and an empty list leaves the map. -/
def removeFromContext (wd : WorkingData) (entry : Nat) (contextMap : List (Str × List Nat))
    (context : Str) : List (Str × List Nat) :=
  let contextList := ((mapFind contextMap context).getD []).filter
    (fun e => decide ((wd.entry e).normalizedWord ≠ (wd.entry entry).normalizedWord))
  if contextList.isEmpty then mapErase contextMap context
  else mapSet contextMap context contextList

/-- The loop over the contexts of the entry in `removeWordFromWorkingData`. -/
def removeFromContexts (wd : WorkingData) (entry : Nat) : List (Str × List Nat) :=
  (wd.entry entry).contexts.foldl (removeFromContext wd entry) wd.contextMap

/-- The list of a context after that loop, when the loop meets the context:
`none` when no entry is left. -/
def contextListAfter (wd : WorkingData) (entry : Nat) (contextList : Option (List Nat)) :
    Option (List Nat) :=
  if ((contextList.getD []).filter
      (fun e => decide ((wd.entry e).normalizedWord ≠ (wd.entry entry).normalizedWord))).isEmpty
  then none
  else some ((contextList.getD []).filter
    (fun e => decide ((wd.entry e).normalizedWord ≠ (wd.entry entry).normalizedWord)))

/-- Model of `KazakhUserDict::removeWordFromWorkingData`. -/
def removeWordFromWorkingData (wd : WorkingData) (word : Str) : Option (Bool × WorkingData) :=
  let normalizedWord := normalizeAndConvertToString word
  if normalizedWord.isEmpty ∧ ¬ word.isEmpty then some (false, wd)
  else
    match mapFind wd.normalizedWordMap normalizedWord with
    | none => some (false, wd)
    | some entry =>
      let wd1 := updateWorkingDataTrie wd (wd.entry entry).word normalizedWord entry false
      match checkedInt (wd.totalFrequency - (wd.entry entry).frequency),
          checkedInt (wd.wordCount - 1) with
      | some t, some c =>
        some (true, { wd1 with
          contextMap := removeFromContexts wd entry
          wordMap := mapErase wd.wordMap (wd.entry entry).word
          normalizedWordMap := mapErase wd.normalizedWordMap normalizedWord
          totalFrequency := t
          wordCount := c
          dirty := true })
      | _, _ => none

/-- Model of `KazakhUserDict::addWord`. -/
def addWord (wd : WorkingData) (now : Nat) (word : Str) (frequency : Int) :
    Option (Bool × WorkingData) :=
  if word.isEmpty ∨ frequency ≤ 0 then some (false, wd)
  else addWordToWorkingData wd now word frequency true

/-- Model of `KazakhUserDict::addWordWithContext`. -/
def addWordWithContext (wd : WorkingData) (now : Nat) (word contextWord : Str)
    (frequency : Int) : Option (Bool × WorkingData) :=
  if word.isEmpty ∨ contextWord.isEmpty then some (false, wd)
  else addWordWithContextToWorkingData wd now word contextWord frequency

/-- Model of `KazakhUserDict::removeWord`. -/
def removeWord (wd : WorkingData) (word : Str) : Option (Bool × WorkingData) :=
  if word.isEmpty then some (false, wd) else removeWordFromWorkingData wd word

/-- Model of `KazakhUserDict::updateWordFrequency`. -/
def updateWordFrequency (wd : WorkingData) (now : Nat) (word : Str) (delta : Int) :
    Option (Bool × WorkingData) :=
  if word.isEmpty then some (false, wd)
  else
    let normalizedWord := normalizeAndConvertToString word
    match mapFind wd.normalizedWordMap normalizedWord with
    | none => some (false, wd)
    | some it =>
      match checkedInt ((wd.entry it).frequency + delta) with
      | none => none
      | some newFreq =>
        if newFreq ≤ 0 then removeWordFromWorkingData wd word
        else
          match checkedInt (wd.totalFrequency + delta) with
          | none => none
          | some t =>
            some (true, { wd with
              totalFrequency := t
              heap := wd.heap.set it { wd.entry it with frequency := newFreq, lastUsed := now }
              dirty := true })

/-- Model of `KazakhUserDict::importWords`; every word comes with the reading
of the clock at its insertion. -/
def importWords (wd : WorkingData) : List (Nat × Str) → Option (Bool × WorkingData)
  | [] => some (true, wd)
  | (now, word) :: words =>
    if ¬ word.isEmpty then
      match addWordToWorkingData wd now word 1 true with
      | none => none
      | some (ok, wd1) =>
        match importWords wd1 words with
        | none => none
        | some (success, wd2) => some (ok && success, wd2)
    else importWords wd words

/-- Model of `KazakhUserDict::learnFromInput`, which returns nothing; the
`Bool` is the value returned to it by the insertion, `false` for the empty
word. -/
def learnFromInput (wd : WorkingData) (now : Nat) (word context : Str) :
    Option (Bool × WorkingData) :=
  if word.isEmpty then some (false, wd)
  else if context.isEmpty then addWordToWorkingData wd now word 1 true
  else addWordWithContextToWorkingData wd now word context 1

/-- One iteration of the loop of `decayOldEntries`, on the entry `entry`; the
`Bool` is `hasChanges`. The decrement of a frequency above 1 does not
overflow. -/
def decayEntry (oneMonthAgo : Nat) (st : Option (Bool × WorkingData)) (entry : Nat) :
    Option (Bool × WorkingData) :=
  match st with
  | none => none
  | some (hasChanges, wd) =>
    if (wd.entry entry).lastUsed < oneMonthAgo then
      if (wd.entry entry).frequency > 1 then
        match checkedInt (wd.totalFrequency - 1) with
        | some t =>
          some (true, { wd with
            heap := wd.heap.set entry
              { wd.entry entry with frequency := (wd.entry entry).frequency - 1 }
            totalFrequency := t })
        | none => none
      else some (hasChanges, wd)
    else some (hasChanges, wd)

/-- Model of `KazakhUserDict::decayOldEntries`, which returns nothing; `now` is
a `uint64_t`, and the subtraction wraps. -/
def decayOldEntries (wd : WorkingData) (now : Nat) : Option WorkingData :=
  let oneMonthAgo := (now + 18446744073709551616 - 2592000000) % 18446744073709551616
  match (wd.wordMap.map Prod.snd).foldl (decayEntry oneMonthAgo) (some (false, wd)) with
  | none => none
  | some (hasChanges, wd1) => if hasChanges then some { wd1 with dirty := true } else some wd1

/-- Model of `KazakhUserDict::clearUserDict`. -/
def clearUserDict (_wd : WorkingData) : Bool × WorkingData := (true, WorkingData.empty)

/-- A call that writes to the user dictionary, with the readings of the clock. -/
inductive Call where
  | addWord (now : Nat) (word : Str) (frequency : Int)
  | addWordWithContext (now : Nat) (word contextWord : Str) (frequency : Int)
  | removeWord (word : Str)
  | updateWordFrequency (now : Nat) (word : Str) (delta : Int)
  | learnFromInput (now : Nat) (word context : Str)
  | importWords (words : List (Nat × Str))
  | decayOldEntries (now : Nat)

/-- The words that a call hands to `addWordToWorkingData`. -/
def Call.words : Call → List Str
  | Call.addWord _ word _ => [word]
  | Call.addWordWithContext _ word _ _ => [word]
  | Call.learnFromInput _ word _ => [word]
  | Call.importWords words => (words.map Prod.snd).filter (fun word => decide (word ≠ []))
  | _ => []

/-- The words of the call are byte strings. -/
def Call.IsBytes (call : Call) : Prop := ∀ word ∈ call.words, ∀ b ∈ word, b < 256

instance (call : Call) : Decidable call.IsBytes := by
  unfold Call.IsBytes
  infer_instance

/-- The call is one of `addWord`, `addWordWithContext`, `learnFromInput` and
`importWords`. -/
def Call.isAdd : Call → Bool
  | Call.addWord _ _ _ => true
  | Call.addWordWithContext _ _ _ _ => true
  | Call.learnFromInput _ _ _ => true
  | Call.importWords _ => true
  | _ => false

/-- The value returned by a call and the working data after it; `none` when
the call overflows an `int`. -/
def step (wd : WorkingData) : Call → Option (Bool × WorkingData)
  | Call.addWord now word frequency => addWord wd now word frequency
  | Call.addWordWithContext now word contextWord frequency =>
    addWordWithContext wd now word contextWord frequency
  | Call.removeWord word => removeWord wd word
  | Call.updateWordFrequency now word delta => updateWordFrequency wd now word delta
  | Call.learnFromInput now word context => learnFromInput wd now word context
  | Call.importWords words => importWords wd words
  | Call.decayOldEntries now => (decayOldEntries wd now).map (fun wd1 => (true, wd1))

/-- The values returned by a sequence of calls, first call first, and the
working data after it. -/
def run (wd : WorkingData) : List Call → Option (List Bool × WorkingData)
  | [] => some ([], wd)
  | call :: calls =>
    match step wd call with
    | none => none
    | some (r, wd1) =>
      match run wd1 calls with
      | none => none
      | some (rs, wd2) => some (r :: rs, wd2)

/-- The working data of a new user dictionary after a sequence of calls (the
empty working data when a call overflows an `int`). -/
def WorkingData.after (calls : List Call) : WorkingData :=
  match run WorkingData.empty calls with
  | some r => r.2
  | none => WorkingData.empty

/-! ## `KazakhUserDict`: the snapshot and the searches -/

/-- Model of `Snapshot`. Its maps hold the copies of the entries made when the
snapshot is built; its trie holds the pointers of the trie of the working
data, which refer to the entries of the working data. -/
structure Snapshot where
  trieRoot : Option SnapshotTrieNode
  wordMap : List (Str × UserDictEntry)
  normalizedWordMap : List (Str × UserDictEntry)
  contextMap : List (Str × List UserDictEntry)
  prefixMap : List (Str × List UserDictEntry)
  wordCount : Int
  totalFrequency : Int
  timestamp : Nat
  version : Nat

/-- Model of `KazakhUserDict::cloneTrieNode`: a copy of the nodes, with the
same pointers to entries. -/
def cloneTrieNode (src : Option SnapshotTrieNode) : Option SnapshotTrieNode := src

/-- Model of `KazakhUserDict::populatePrefixMap`, as a function of
`snapshot.normalizedWordMap`. -/
def populatePrefixMap (normalizedWordMap : List (Str × UserDictEntry)) :
    List (Str × List UserDictEntry) :=
  normalizedWordMap.foldl
    (fun prefixMap pair =>
      (List.range pair.1.length).foldl
        (fun prefixMap i => mapPush prefixMap (pair.1.take (i + 1)) pair.2)
        prefixMap)
    []

/-- Model of `KazakhUserDict::buildSnapshotFromWorkingData`. -/
def buildSnapshotFromWorkingData (wd : WorkingData) (now version : Nat) : Snapshot :=
  let wordMap := mapOfList (wd.wordMap.map (fun pair => (pair.1, wd.entry pair.2)))
  let normalizedWordMap :=
    mapOfList (wd.wordMap.map (fun pair => ((wd.entry pair.2).normalizedWord, wd.entry pair.2)))
  let contextMap := wd.contextMap.foldl
    (fun contextMap pair =>
      let entries := pair.2.filterMap (fun entry => mapFind wordMap (wd.entry entry).word)
      if !entries.isEmpty then mapSet contextMap pair.1 entries else contextMap)
    []
  { trieRoot := cloneTrieNode (some wd.trieRoot)
    wordMap := wordMap
    normalizedWordMap := normalizedWordMap
    contextMap := contextMap
    prefixMap := populatePrefixMap normalizedWordMap
    wordCount := wd.wordCount
    totalFrequency := wd.totalFrequency
    timestamp := now
    version := version }

/-- The comparator of the searches: more frequent first, then more recently
used first. -/
def entryBefore (a b : UserDictEntry) : Bool :=
  if a.frequency ≠ b.frequency then decide (a.frequency > b.frequency)
  else decide (a.lastUsed > b.lastUsed)

/-- What the standard leaves open in a search: the arrangement of entries that
the comparator does not order in `std::sort` and `std::partial_sort`, and the
order of iteration over the children of a trie node. -/
structure SearchOrder where
  ties : List UserDictEntry → List UserDictEntry
  children : List (Nat × SnapshotTrieNode) → List (Nat × SnapshotTrieNode)

/-- Both arrangements are permutations. -/
def SearchOrder.Valid (σ : SearchOrder) : Prop :=
  (∀ l, (σ.ties l).Perm l) ∧ (∀ l, (σ.children l).Perm l)

/-- The arrangements that leave the order as it is. -/
def SearchOrder.inOrder : SearchOrder := ⟨id, id⟩

/-- Modelled from the C++ standard: `std::sort` with the comparator of the
searches; no entry stands before one that the comparator puts before it. -/
def sortEntries (σ : SearchOrder) (entries : List UserDictEntry) : List UserDictEntry :=
  (σ.ties entries).insertionSort (fun a b => entryBefore b a = false)

/-- The end of the three searches: `std::partial_sort` and the first
`maxResults` entries when there are more than `maxResults`, `std::sort`
otherwise. -/
def sortAndTruncate (σ : SearchOrder) (maxResults : Int) (entries : List UserDictEntry) :
    List UserDictEntry :=
  if entries.length > toSize maxResults then (sortEntries σ entries).take maxResults.toNat
  else sortEntries σ entries

/-- The breadth-first loop of `searchPrefixInSnapshot`: the first argument is
the number of nodes that may still be visited, `bfsQueue` the queue and
`foundEntries` the pointers found so far. -/
def trieBfs (σ : SearchOrder) : Nat → List SnapshotTrieNode → List Nat → List Nat
  | 0, _, foundEntries => foundEntries
  | _ + 1, [], foundEntries => foundEntries
  | fuel + 1, currentNode :: bfsQueue, foundEntries =>
    trieBfs σ fuel (bfsQueue ++ (σ.children currentNode.children).map Prod.snd)
      (if currentNode.isEndOfWord && !currentNode.entries.isEmpty then
        foundEntries ++ currentNode.entries
      else foundEntries)

/-- Model of `KazakhUserDict::searchPrefixInSnapshot`; `heap` holds the entries
of the working data at the time of the search, which the pointers of the trie
refer to. -/
def searchPrefixInSnapshot (σ : SearchOrder) (snapshot : Option Snapshot)
    (heap : List UserDictEntry) (normalizedPrefix : Str) (maxResults : Int) :
    List UserDictEntry :=
  match snapshot with
  | none => []
  | some snapshot =>
    if maxResults ≤ 0 then []
    else
      match (if !snapshot.prefixMap.isEmpty then mapFind snapshot.prefixMap normalizedPrefix
        else none) with
      | some entries => sortAndTruncate σ maxResults entries
      | none =>
        match snapshot.trieRoot with
        | none => []
        | some root =>
          let u16prefix := utf8ToUtf16 normalizedPrefix
          if u16prefix.isEmpty ∧ ¬ normalizedPrefix.isEmpty then []
          else
            match root.descend u16prefix with
            | none => []
            | some node =>
              sortAndTruncate σ maxResults
                ((trieBfs σ 200 [node] []).map (fun e => heap.getD e ⟨[], [], 0, [], 0, 0⟩))

/-- Model of `KazakhUserDict::searchWithContextInSnapshot`. -/
def searchWithContextInSnapshot (σ : SearchOrder) (snapshot : Option Snapshot)
    (normalizedPreviousWord normalizedCurrentPrefix : Str) (maxResults : Int) :
    List UserDictEntry :=
  match snapshot with
  | none => []
  | some snapshot =>
    if normalizedPreviousWord.isEmpty then []
    else
      match mapFind snapshot.contextMap normalizedPreviousWord with
      | none => []
      | some contextEntries =>
        sortAndTruncate σ maxResults
          (contextEntries.filter (fun entry =>
            normalizedCurrentPrefix.isEmpty
              || decide (strFind entry.normalizedWord normalizedCurrentPrefix = some 0)))

/-- Model of `KazakhUserDict::searchPrefix` on the current snapshot. -/
def searchPrefix (σ : SearchOrder) (snapshot : Option Snapshot) (heap : List UserDictEntry)
    (pfx : Str) (maxResults : Int) : List Str :=
  if pfx.isEmpty ∨ maxResults ≤ 0 then []
  else
    match snapshot with
    | none => []
    | some snap =>
      if snap.wordCount = 0 then []
      else
        let normalizedPrefix := normalizeAndConvertToString pfx
        if normalizedPrefix.isEmpty ∧ ¬ pfx.isEmpty then []
        else
          (searchPrefixInSnapshot σ (some snap) heap normalizedPrefix maxResults).map
            (fun entry => entry.word)

/-- Model of `KazakhUserDict::searchWithContext` on the current snapshot. -/
def searchWithContext (σ : SearchOrder) (snapshot : Option Snapshot)
    (previousWord currentPrefix : Str) (maxResults : Int) : List Str :=
  if previousWord.isEmpty ∨ maxResults ≤ 0 then []
  else
    match snapshot with
    | none => []
    | some snap =>
      if snap.wordCount = 0 then []
      else
        let normalizedPrev := normalizeAndConvertToString previousWord
        let normalizedCurrentPrefix := normalizeAndConvertToString currentPrefix
        if normalizedPrev.isEmpty ∧ ¬ previousWord.isEmpty then []
        else
          (searchWithContextInSnapshot σ (some snap) normalizedPrev normalizedCurrentPrefix
            maxResults).map (fun entry => entry.word)

end KazakhUserDict
namespace KazakhUserDict

/-- The invariant of the maps of the working data. The maps have distinct
keys; `wordMap` and `normalizedWordMap` refer to the same entries, each under
its `word` and under its `normalizedWord`; the `normalizedWord` of an entry is
the normalization of its `word`, a byte string with a non-empty
normalization; `wordCount` is the number of entries; an entry stands in the
list of a context exactly when it has the context, and no list is empty or
holds an entry twice; no entry has a context twice or the empty context. -/
structure WorkingData.MapsWF (wd : WorkingData) : Prop where
  wordKeys : (wd.wordMap.map Prod.fst).Nodup
  normKeys : (wd.normalizedWordMap.map Prod.fst).Nodup
  contextKeys : (wd.contextMap.map Prod.fst).Nodup
  ofWord : ∀ w p, mapFind wd.wordMap w = some p →
    p < wd.heap.length ∧ (wd.entry p).word = w
      ∧ mapFind wd.normalizedWordMap (wd.entry p).normalizedWord = some p
  ofNorm : ∀ n p, mapFind wd.normalizedWordMap n = some p →
    p < wd.heap.length ∧ (wd.entry p).normalizedWord = n
      ∧ mapFind wd.wordMap (wd.entry p).word = some p
  normalized : ∀ w p, mapFind wd.wordMap w = some p →
    (wd.entry p).normalizedWord = normalizeAndConvertToString w
      ∧ normalizeAndConvertToString w ≠ [] ∧ ∀ b ∈ w, b < 256
  count : wd.wordCount = wd.wordMap.length
  ofContext : ∀ c ps, mapFind wd.contextMap c = some ps →
    ps ≠ [] ∧ ps.Nodup ∧ ∀ p ∈ ps, c ∈ (wd.entry p).contexts
      ∧ mapFind wd.normalizedWordMap (wd.entry p).normalizedWord = some p
  inContext : ∀ n p, mapFind wd.normalizedWordMap n = some p →
    ∀ c ∈ (wd.entry p).contexts, ∃ ps, mapFind wd.contextMap c = some ps ∧ p ∈ ps
  contexts : ∀ p, (wd.entry p).contexts.Nodup ∧ [] ∉ (wd.entry p).contexts

/-- Every node met below `root` has children under distinct units, and its
entries satisfy `G` at the path to it, `pre` being the path to `root`. -/
def TrieInv (G : List Nat → List Nat → Prop) (root : SnapshotTrieNode) (pre : List Nat) : Prop :=
  ∀ path node, root.Reaches path node →
    (node.children.map Prod.fst).Nodup ∧ G (pre ++ path) node.entries

/-- The entries `es` of a trie node at `path` are entries of the working set
whose `normalizedWord` decodes to `path`, which is not empty. -/
def trieGood (wd : WorkingData) (path : List Nat) (es : List Nat) : Prop :=
  ∀ p ∈ es, mapFind wd.normalizedWordMap (wd.entry p).normalizedWord = some p
    ∧ utf8ToUtf16Safe (wd.entry p).normalizedWord = (true, path) ∧ path ≠ []

/-- The invariant of the working data of a `KazakhUserDict`: that of its maps,
and that of its trie. -/
structure WorkingData.WF (wd : WorkingData) : Prop where
  maps : wd.MapsWF
  trie : TrieInv (trieGood wd) wd.trieRoot []

end KazakhUserDict

/-! ## Stage 3: candidate generation -/

/-- Body of the loop of `Impl::heavySpellCorrect` at position `i`, after the
test of the task id: all keyboard neighbours, the deletion of position `i`, all
phonetic partners, and the exchange of positions `i` and `i + 1`. The bound
`utf32.size() - 1` is computed in `size_t`; an exchange whose index `i + 1` is
not inside the vector has no defined result. -/
def heavyCandidateStep (utf32 : U32) (maxTotal : Nat) (i : Nat) (allCandidates : List Str) :
    Option (List Str) :=
  let a1 :=
    match tableFind KEYBOARD_NEIGHBORS (utf32.getD i 0) with
    | some neighbors => substituteAt utf32 maxTotal i neighbors neighbors.length allCandidates
    | none => allCandidates
  let a2 :=
    if utf32.length > 1 ∧ a1.length < maxTotal then
      addCandidate (utf32_to_utf8 (utf32.eraseIdx i)) a1
    else a1
  let a3 :=
    match tableFind PHONETIC_CLASSES (utf32.getD i 0) with
    | some phonetics => substituteAt utf32 maxTotal i phonetics phonetics.length a2
    | none => a2
  if i < toSize ((utf32.length : Int) - 1) ∧ a3.length < maxTotal then
    if i + 1 < utf32.length then
      some (addCandidate (utf32_to_utf8 (swapAdjacent utf32 i)) a3)
    else none
  else some a3

/-- The loop of `Impl::heavySpellCorrect` over the positions `idx`, with the
test `candidateSet.size() < MAX_TOTAL_CANDIDATES` of its condition. -/
def heavyCandidateLoop (utf32 : U32) (maxTotal : Nat) : List Nat → List Str → Option (List Str)
  | [], allCandidates => some allCandidates
  | i :: idx, allCandidates =>
    if allCandidates.length < maxTotal then
      match heavyCandidateStep utf32 maxTotal i allCandidates with
      | none => none
      | some a1 => heavyCandidateLoop utf32 maxTotal idx a1
    else some allCandidates

/-- The vector `allCandidates` of `Impl::heavySpellCorrect` (Stage 3) when the
loop reaches position `n`: at `n = utf32.size()` the vector after the loop, at a
smaller `n` the vector at a test of the task id, where a superseded task
returns. -/
def heavyCandidates (utf32 : U32) (maxTotal : Nat) (n : Nat) : Option (List Str) :=
  heavyCandidateLoop utf32 maxTotal (List.range n) []

/-- The candidates that the specification allows Stage 2 to generate from the
sequence `utf32`: at a position, the substitution of one of the first two
keyboard neighbours or of one of the first two phonetic partners of the letter,
the deletion of the letter of a sequence of more than one letter, or its
exchange with the next letter. -/
def FastCandidate (utf32 : U32) (candidate : Str) : Prop :=
  ∃ i, i < utf32.length ∧
    ((∃ c ∈ ((tableFind KEYBOARD_NEIGHBORS (utf32.getD i 0)).getD []).take 2,
        candidate = utf32_to_utf8 (utf32.set i c))
      ∨ (1 < utf32.length ∧ candidate = utf32_to_utf8 (utf32.eraseIdx i))
      ∨ (∃ c ∈ ((tableFind PHONETIC_CLASSES (utf32.getD i 0)).getD []).take 2,
        candidate = utf32_to_utf8 (utf32.set i c))
      ∨ (i + 1 < utf32.length ∧ candidate = utf32_to_utf8 (swapAdjacent utf32 i)))

/-- The candidates that the specification allows Stage 3 to generate: as for
Stage 2, with every keyboard neighbour and every phonetic partner. -/
def HeavyCandidate (utf32 : U32) (candidate : Str) : Prop :=
  ∃ i, i < utf32.length ∧
    ((∃ c ∈ (tableFind KEYBOARD_NEIGHBORS (utf32.getD i 0)).getD [],
        candidate = utf32_to_utf8 (utf32.set i c))
      ∨ (1 < utf32.length ∧ candidate = utf32_to_utf8 (utf32.eraseIdx i))
      ∨ (∃ c ∈ (tableFind PHONETIC_CLASSES (utf32.getD i 0)).getD [],
        candidate = utf32_to_utf8 (utf32.set i c))
      ∨ (i + 1 < utf32.length ∧ candidate = utf32_to_utf8 (swapAdjacent utf32 i)))

/-- The candidate vector has no duplicate, at most `maxTotal` elements, and
only elements with the property `P`. -/
def CandidateInv (P : Str → Prop) (maxTotal : Nat) (a : List Str) : Prop :=
  a.Nodup ∧ a.length ≤ maxTotal ∧ ∀ c ∈ a, P c


/-! ## `KazakhUserDict`: sequences of public calls, and invariants they keep -/

namespace KazakhUserDict

/-- A public call that changes the working data: one of the calls of `Call`,
or `clearUserDict`. -/
inductive Op where
  | write (call : Call)
  | clearUserDict

/-- The words of the call are byte strings. -/
def Op.IsBytes : Op → Prop
  | Op.write call => call.IsBytes
  | Op.clearUserDict => True

/-- The value returned by a public call and the working data after it. -/
def stepOp (wd : WorkingData) : Op → Option (Bool × WorkingData)
  | Op.write call => step wd call
  | Op.clearUserDict => some (clearUserDict wd)

/-- The values returned by a sequence of public calls, first call first, and
the working data after it. -/
def runOps (wd : WorkingData) : List Op → Option (List Bool × WorkingData)
  | [] => some ([], wd)
  | op :: ops =>
    match stepOp wd op with
    | none => none
    | some (r, wd1) =>
      match runOps wd1 ops with
      | none => none
      | some (rs, wd2) => some (r :: rs, wd2)

/-- The five ways in which the calls change a working data that satisfies the
invariant `WF`, as conditions on a property `I`: `I` holds of the new working
data, is indifferent to the flag `dirty`, and is kept when the frequency, the
time of last use and the total change by `delta`, when a new entry is inserted,
when an entry gets a context, and when an entry is removed. -/
structure Closed (I : WorkingData → Prop) : Prop where
  empty : I WorkingData.empty
  dirty : ∀ (wd : WorkingData) (d : Bool), I wd → I { wd with dirty := d }
  update : ∀ (wd : WorkingData) (it : Nat) (delta : Int) (lastUsed : Nat) (d : Bool) (n : Str),
    wd.WF → I wd → mapFind wd.normalizedWordMap n = some it →
    fitsInt (wd.totalFrequency + delta) = true →
    I { wd with
      heap := wd.heap.set it { wd.entry it with
        frequency := (wd.entry it).frequency + delta, lastUsed := lastUsed }
      totalFrequency := wd.totalFrequency + delta
      dirty := d }
  insert : ∀ (wd : WorkingData) (now : Nat) (word : Str) (frequency : Int),
    wd.WF → I wd →
    mapFind wd.normalizedWordMap (normalizeAndConvertToString word) = none →
    normalizeAndConvertToString word ≠ [] → (∀ b ∈ word, b < 256) →
    fitsInt (wd.wordCount + 1) = true → fitsInt (wd.totalFrequency + frequency) = true →
    I (updateWorkingDataTrie { wd with
        heap := wd.heap ++ [⟨word, normalizeAndConvertToString word, frequency, [], now, now⟩]
        wordMap := mapSet wd.wordMap word wd.heap.length
        normalizedWordMap :=
          mapSet wd.normalizedWordMap (normalizeAndConvertToString word) wd.heap.length
        wordCount := wd.wordCount + 1
        totalFrequency := wd.totalFrequency + frequency
        dirty := true } word (normalizeAndConvertToString word) wd.heap.length true)
  context : ∀ (wd : WorkingData) (p : Nat) (n ctx : Str) (d : Bool),
    wd.WF → I wd → mapFind wd.normalizedWordMap n = some p → ctx ≠ [] →
    ctx ∉ (wd.entry p).contexts →
    I { wd with
      heap := wd.heap.set p { wd.entry p with contexts := (wd.entry p).contexts ++ [ctx] }
      contextMap := mapPush wd.contextMap ctx p
      dirty := d }
  remove : ∀ (wd : WorkingData) (word : Str) (it : Nat),
    wd.WF → I wd →
    mapFind wd.normalizedWordMap (normalizeAndConvertToString word) = some it →
    fitsInt (wd.totalFrequency - (wd.entry it).frequency) = true →
    fitsInt (wd.wordCount - 1) = true →
    I { updateWorkingDataTrie wd (wd.entry it).word
          (normalizeAndConvertToString word) it false with
        contextMap := removeFromContexts wd it
        wordMap := mapErase wd.wordMap (wd.entry it).word
        normalizedWordMap := mapErase wd.normalizedWordMap (normalizeAndConvertToString word)
        totalFrequency := wd.totalFrequency - (wd.entry it).frequency
        wordCount := wd.wordCount - 1
        dirty := true }

end KazakhUserDict


namespace KazakhUserDict

instance (op : Op) : Decidable op.IsBytes := by
  cases op with
  | write call => unfold Op.IsBytes; infer_instance
  | clearUserDict => unfold Op.IsBytes; infer_instance

end KazakhUserDict

namespace KazakhUserDict

/-- The counters of the working data agree with its maps: `totalFrequency` is
the sum of the frequencies of the entries, `normalizedWordMap` has as many
entries as `wordMap` (`wordCount` of them, by the invariant of the maps), and
both counters are values of `int`. -/
structure WorkingData.Totals (wd : WorkingData) : Prop where
  total : wd.totalFrequency = (wd.entries.map (fun e => e.frequency)).sum
  normCount : wd.normalizedWordMap.length = wd.wordMap.length
  totalFits : fitsInt wd.totalFrequency = true
  countFits : fitsInt wd.wordCount = true

end KazakhUserDict


namespace KazakhUserDict

/-- Every entry of `normalizedWordMap` whose normalized word `utf8ToUtf16`
converts (the result is not empty) stands in the trie: the node reached by the
units of the normalized word is marked `isEndOfWord` and lists the entry. -/
def TrieComplete (wd : WorkingData) : Prop :=
  ∀ n p, mapFind wd.normalizedWordMap n = some p → utf8ToUtf16 n ≠ [] →
    ∃ node, wd.trieRoot.descend (utf8ToUtf16 n) = some node
      ∧ node.isEndOfWord = true ∧ p ∈ node.entries

end KazakhUserDict


/-! ## `KazakhUserDict`: the file of the user dictionary

The file is read and written through `std::ifstream::read` and
`std::ofstream::write` on the bytes of the variables themselves; the model
takes the byte order of the targets of the library, least significant byte
first. The construction of a string that `loadWorkingDataFromFile` reads into
can throw (parameter `alloc`); the writes of `saveWorkingDataToFile` are taken
to succeed. -/

/-- The `width` bytes of an unsigned value, least significant first. -/
def leBytes : Nat → Nat → Str
  | 0, _ => []
  | width + 1, value => value % 256 :: leBytes width (value / 256)

/-- The value of an unsigned variable whose first bytes are `bytes` and whose
other bytes are zero. -/
def leValue : Str → Nat
  | [] => 0
  | b :: bytes => b + 256 * leValue bytes

namespace KazakhUserDict

/-- The constant `FILE_FORMAT_VERSION`. -/
def FILE_FORMAT_VERSION : Nat := 3

/-- Model of the `std::ifstream` of `loadWorkingDataFromFile`: the bytes not
read yet, and whether no read has failed so far. -/
structure FileStream where
  rest : Str
  good : Bool

/-- Model of `file.read(buffer, count)`: the bytes stored into the buffer, the
value of the stream when it is tested after the read, and the stream. A read
from a stream that has failed stores nothing; a read of more bytes than are
left stores those and makes the stream fail. -/
def FileStream.read (file : FileStream) (count : Nat) : Str × Bool × FileStream :=
  if !file.good then ([], false, file)
  else if count ≤ file.rest.length then
    (file.rest.take count, true, ⟨file.rest.drop count, true⟩)
  else (file.rest, false, ⟨[], false⟩)

/-- The bytes that `saveWorkingDataToFile` writes for a string: its length as
`uint32_t`, and that many of its bytes. -/
def stringBytes (s : Str) : Str :=
  leBytes 4 (s.length % 4294967296) ++ s.take (s.length % 4294967296)

/-- The bytes that `saveWorkingDataToFile` writes for an entry before its
contexts: `word`, `normalizedWord`, the frequency as `int32_t`, `created` and
`lastUsed` as `uint64_t`. -/
def entryHeadBytes (entry : UserDictEntry) : Str :=
  stringBytes entry.word ++ stringBytes entry.normalizedWord
    ++ leBytes 4 (entry.frequency % 4294967296).toNat
    ++ leBytes 8 entry.created ++ leBytes 8 entry.lastUsed

/-- The bytes that `saveWorkingDataToFile` writes for an entry. -/
def entryBytes (entry : UserDictEntry) : Str :=
  entryHeadBytes entry ++ leBytes 4 (entry.contexts.length % 4294967296)
    ++ entry.contexts.flatMap stringBytes

/-- The bytes that `saveWorkingDataToFile` writes: the version, the number of
entries as `uint32_t`, and the entries in the order `order` of the iteration
over `wordMap`. -/
def fileBytes (wd : WorkingData) (order : List (Str × Nat)) : Str :=
  leBytes 4 FILE_FORMAT_VERSION ++ leBytes 4 (wd.wordMap.length % 4294967296)
    ++ order.flatMap (fun pair => entryBytes (wd.entry pair.2))

/-- Model of `KazakhUserDict::saveWorkingDataToFile`: the value returned, the
working data, and the content of the file (`none`: no file is written).
`arrange` is the order in which the loop iterates over `wordMap`, `isOpen` the
value of `file.is_open()`. -/
def saveWorkingDataToFile (wd : WorkingData) (arrange : List (Str × Nat) → List (Str × Nat))
    (isOpen : Bool) : Bool × WorkingData × Option Str :=
  if !isOpen then (false, wd, none)
  else (true, { wd with dirty := false }, some (fileBytes wd (arrange wd.wordMap)))

/-- How a part of `loadWorkingDataFromFile` that constructs a `std::string` of
a length read from the file ends: with a value, or with the exception that the
constructor throws. -/
inductive Attempt (α : Type) where
  | returned (value : α)
  | threw

/-- The seven reads of an iteration of `loadWorkingDataFromFile` that come
before the entry is made: the lengths and bytes of `word` and of
`normalizedWord`, `freq`, `created` and `lastUsed`. Each of them is followed by
`break` when the stream has failed: `returned none`. `alloc len` says whether
the construction `std::string(len, 0)` of the buffer succeeds; when it does
not, the constructor throws. The entry is the one that the iteration makes
from the fields. -/
def readEntryHead (alloc : Nat → Bool) (file : FileStream) :
    Attempt (Option (UserDictEntry × FileStream)) :=
  match file.read 4 with
  | (_, false, _) => Attempt.returned none
  | (wordLen, true, file1) =>
    if !alloc (leValue wordLen) then Attempt.threw
    else
      match file1.read (leValue wordLen) with
      | (_, false, _) => Attempt.returned none
      | (word, true, file2) =>
        match file2.read 4 with
        | (_, false, _) => Attempt.returned none
        | (normLen, true, file3) =>
          if !alloc (leValue normLen) then Attempt.threw
          else
            match file3.read (leValue normLen) with
            | (_, false, _) => Attempt.returned none
            | (normalizedWord, true, file4) =>
              match file4.read 4 with
              | (_, false, _) => Attempt.returned none
              | (freq, true, file5) =>
                match file5.read 8 with
                | (_, false, _) => Attempt.returned none
                | (created, true, file6) =>
                  match file6.read 8 with
                  | (_, false, _) => Attempt.returned none
                  | (lastUsed, true, file7) =>
                    Attempt.returned (some (⟨word, normalizedWord, toInt32 (leValue freq), [],
                      leValue lastUsed, leValue created⟩, file7))

/-- The loop over the contexts of the entry `entry` in
`loadWorkingDataFromFile`, with as many iterations left as the first argument
says; a read that fails ends the loop, and the construction of the buffer of a
context can throw. The value is the stream and the new working data after the
loop. -/
def loadContexts (alloc : Nat → Bool) :
    Nat → FileStream → WorkingData → Nat → Attempt (FileStream × WorkingData)
  | 0, file, newWorkingData, _ => Attempt.returned (file, newWorkingData)
  | count + 1, file, newWorkingData, entry =>
    match file.read 4 with
    | (_, false, file1) => Attempt.returned (file1, newWorkingData)
    | (ctxLen, true, file1) =>
      if !alloc (leValue ctxLen) then Attempt.threw
      else
        match file1.read (leValue ctxLen) with
        | (_, false, file2) => Attempt.returned (file2, newWorkingData)
        | (context, true, file2) =>
          loadContexts alloc count file2
            { newWorkingData with
              heap := newWorkingData.heap.set entry
                { newWorkingData.entry entry with
                  contexts := (newWorkingData.entry entry).contexts ++ [context] }
              contextMap := mapPush newWorkingData.contextMap context entry }
            entry

/-- The loop over the entries in `loadWorkingDataFromFile`, with as many
iterations left as the first argument says; a read that fails ends the loop,
and an exception leaves it. The call `updateWorkingDataTrie(word,
normalizedWord, entry, true)` of the loop acts on `workingData_`, which at that
time is the working data that the function is about to replace, so it leaves
`newWorkingData` as it is. The value is `newWorkingData` after the loop;
`none` when a counter overflows. -/
def loadEntries (alloc : Nat → Bool) :
    Nat → FileStream → WorkingData → Option (Attempt WorkingData)
  | 0, _, newWorkingData => some (Attempt.returned newWorkingData)
  | count + 1, file, newWorkingData =>
    match readEntryHead alloc file with
    | Attempt.threw => some Attempt.threw
    | Attempt.returned none => some (Attempt.returned newWorkingData)
    | Attempt.returned (some (head, file7)) =>
      match checkedInt (newWorkingData.wordCount + 1),
          checkedInt (newWorkingData.totalFrequency + head.frequency) with
      | some c, some t =>
        let entry := newWorkingData.heap.length
        let newWorkingData1 : WorkingData := { newWorkingData with
          heap := newWorkingData.heap ++ [head]
          wordMap := mapSet newWorkingData.wordMap head.word entry
          normalizedWordMap := mapSet newWorkingData.normalizedWordMap head.normalizedWord entry
          wordCount := c
          totalFrequency := t }
        match file7.read 4 with
        | (_, false, _) => some (Attempt.returned newWorkingData1)
        | (contextCount, true, file8) =>
          match loadContexts alloc (leValue contextCount) file8 newWorkingData1 entry with
          | Attempt.threw => some Attempt.threw
          | Attempt.returned (file9, newWorkingData2) =>
            loadEntries alloc count file9 newWorkingData2
      | _, _ => none

/-- The end of `loadWorkingDataFromFile`: after the loop the new working data
is installed with `dirty = false`, after an exception the `catch` block
installs an empty working data, and both return `true`. -/
def finishLoad : Option (Attempt WorkingData) → Option (Bool × WorkingData)
  | none => none
  | some Attempt.threw => some (true, WorkingData.empty)
  | some (Attempt.returned newWorkingData) => some (true, { newWorkingData with dirty := false })

/-- Model of `KazakhUserDict::loadWorkingDataFromFile`: the value returned and
the working data. `file` is the content of the file (`none` when `stat` fails),
`isOpen` the value of `file.is_open()`, and `alloc len` says whether the
construction of a `std::string` of the length `len`, read from the file,
succeeds. When it throws, the `catch` block installs a new working data and
the function returns `true`. The allocations that do not depend on a length
read from the file (the entry, the nodes of the maps) are taken to succeed. -/
def loadWorkingDataFromFile (alloc : Nat → Bool) (wd : WorkingData) (file : Option Str)
    (isOpen : Bool) : Option (Bool × WorkingData) :=
  match file with
  | none => some (true, WorkingData.empty)
  | some bytes =>
    if bytes.length = 0 then some (true, WorkingData.empty)
    else if !isOpen then some (false, wd)
    else
      match (⟨bytes, true⟩ : FileStream).read 4 with
      | (version, _, file1) =>
        if leValue version ≠ FILE_FORMAT_VERSION then some (true, WorkingData.empty)
        else
          match file1.read 4 with
          | (count, _, file2) =>
            finishLoad (loadEntries alloc (leValue count) file2 WorkingData.empty)

/-- The fields of the entry can be written to the file and read back: the
frequency is an `int`, the times are values of `uint64_t`, and the lengths of
the strings and the number of contexts are values of `uint32_t`. -/
def UserDictEntry.storable (entry : UserDictEntry) : Bool :=
  decide (entry.word.length < 4294967296) && decide (entry.normalizedWord.length < 4294967296)
    && fitsInt entry.frequency && decide (entry.created < 18446744073709551616)
    && decide (entry.lastUsed < 18446744073709551616)
    && decide (entry.contexts.length < 4294967296)
    && entry.contexts.all (fun context => decide (context.length < 4294967296))

/-- The buffers for the strings of the entry can be constructed. -/
def UserDictEntry.allocatable (alloc : Nat → Bool) (entry : UserDictEntry) : Bool :=
  alloc entry.word.length && alloc entry.normalizedWord.length
    && entry.contexts.all (fun context => alloc context.length)

/-- The new working data of `loadWorkingDataFromFile` after an iteration that
reads the entry `entry` with all its contexts. -/
def insertLoaded (nd : WorkingData) (entry : UserDictEntry) : WorkingData :=
  { nd with
    heap := nd.heap ++ [entry]
    wordMap := mapSet nd.wordMap entry.word nd.heap.length
    normalizedWordMap := mapSet nd.normalizedWordMap entry.normalizedWord nd.heap.length
    contextMap := entry.contexts.foldl (fun m context => mapPush m context nd.heap.length)
      nd.contextMap
    wordCount := nd.wordCount + 1
    totalFrequency := nd.totalFrequency + entry.frequency }

/-- The new working data after the iterations that read the entries `entries`
with all their contexts; `none` when a counter overflows. -/
def insertLoadedAll : WorkingData → List UserDictEntry → Option WorkingData
  | nd, [] => some nd
  | nd, entry :: entries =>
    match checkedInt (nd.wordCount + 1), checkedInt (nd.totalFrequency + entry.frequency) with
    | some _, some _ => insertLoadedAll (insertLoaded nd entry) entries
    | _, _ => none

/-- The working data of a new user dictionary after a sequence of public calls
(the empty working data when a call overflows an `int`). -/
def WorkingData.afterOps (ops : List Op) : WorkingData :=
  match runOps WorkingData.empty ops with
  | some r => r.2
  | none => WorkingData.empty

end KazakhUserDict

/-! ## Sequences of calls on a loaded predictor -/

/-- The loop of `BatchTrieLookup::prefixSearch`, entered with `count` below
`maxResults`, appends the first `maxResults - count` stream keys other than
the query. -/
theorem prefixSearchLoop_eq (pfx : Str) (maxResults : Int) (stream : List Str) :
    ∀ (count : Int) (results : List Str), count < maxResults →
      prefixSearchLoop pfx maxResults stream count results =
        results ++ (stream.filter (fun k => decide (k ≠ pfx))).take (maxResults - count).toNat := by
  induction stream with
  | nil => intro count results _; simp [prefixSearchLoop]
  | cons word rest ih =>
    intro count results hc
    by_cases hw : word = pfx
    · simp [prefixSearchLoop, hw, ih count results hc]
    · have hpos : (maxResults - count).toNat = (maxResults - (count + 1)).toNat + 1 := by omega
      by_cases hlast : count + 1 ≥ maxResults
      · have h1 : (maxResults - (count + 1)).toNat = 0 := by omega
        simp [prefixSearchLoop, hw, hlast, hpos, h1]
      · have hc1 : count + 1 < maxResults := by omega
        simp [prefixSearchLoop, hw, hlast, hpos, ih (count + 1) (results ++ [word]) hc1]

/-- On a non-empty query and a bound of at least one, `BatchTrieLookup::prefixSearch`
is the stream without the query, cut after `maxResults` keys. -/
theorem batchPrefixSearch_eq (t : Trie) (pfx : Str) (maxResults : Int)
    (hpfx : pfx ≠ []) (hmax : 1 ≤ maxResults) :
    BatchTrieLookup.prefixSearch (some t) pfx maxResults =
      ((t.predictive_search pfx).filter (fun k => decide (k ≠ pfx))).take maxResults.toNat := by
  unfold BatchTrieLookup.prefixSearch
  by_cases he : t.empty = true
  · have hk : t.keys = [] := by simpa [Trie.empty] using he
    simp [he, Trie.predictive_search, hk]
  · have hp : pfx.isEmpty = false := by
      cases pfx with
      | nil => exact absurd rfl hpfx
      | cons a l => rfl
    have he2 : t.empty = false := by simpa using he
    simp [he2, hp, prefixSearchLoop_eq pfx maxResults _ 0 [] (by omega)]

/-- Claim C1. For every unigram trie loaded into the predictor, every non-empty
prefix and every `maxResults ≥ 1`, a `fastPredict` call that misses the prefix
cache returns the first `maxResults` keys of the trie's `predictive_search`
stream for the prefix, the key equal to the prefix left out, in stream order. -/
theorem fastPredict_on_cache_miss (s : Impl) (pfx : Str) (maxResults : Int)
    (hloaded : s.unigramLoaded = true) (hlookup : s.unigramLookup = true)
    (hpfx : pfx ≠ []) (hmax : 1 ≤ maxResults)
    (hmiss : s.prefixCache.find (makeCacheKey prefixTag pfx maxResults) = none) :
    ∃ s1, fastPredict s pfx maxResults =
      some (((s.unigramTrie.predictive_search pfx).filter (fun k => decide (k ≠ pfx))).take
        maxResults.toNat, s1) := by
  have hp : pfx.isEmpty = false := by
    cases pfx with
    | nil => exact absurd rfl hpfx
    | cons a l => rfl
  unfold fastPredict fastPrefixSearch
  by_cases he : s.unigramTrie.empty = true
  · have hk : s.unigramTrie.keys = [] := by simpa [Trie.empty] using he
    exact ⟨s, by simp [hloaded, he, Trie.predictive_search, hk]⟩
  · have he2 : s.unigramTrie.empty = false := by simpa using he
    refine ⟨{ s with prefixCache := (s.prefixCache.put (makeCacheKey prefixTag pfx maxResults)
      (BatchTrieLookup.prefixSearch (some s.unigramTrie) pfx maxResults)) }, ?_⟩
    simp [hloaded, he2, hp, LRUCache.get, hmiss, hlookup,
      batchPrefixSearch_eq s.unigramTrie pfx maxResults hpfx hmax]

/-- Scenario 1 of the spec as an instance of C1: with the trie order алма,
алмас, ана, ата, `fastPredict("ал", 10)` on the freshly loaded predictor is
[алма, алмас]. -/
theorem fastPredict_on_cache_miss_witness :
    (∃ s1, fastPredict scenarioState word_al 10 =
      some (((scenarioState.unigramTrie.predictive_search word_al).filter
        (fun k => decide (k ≠ word_al))).take (10 : Int).toNat, s1))
    ∧ ((scenarioState.unigramTrie.predictive_search word_al).filter
        (fun k => decide (k ≠ word_al))).take (10 : Int).toNat = [word_alma, word_almas] :=
  ⟨fastPredict_on_cache_miss scenarioState word_al 10 (by decide) (by decide) (by decide)
    (by decide) (by decide), by decide⟩

/-- Claim C2 at the bound zero. With `maxResults = 0` the three prefix
enumerations of the source (`fastPredict`, `BatchTrieLookup::prefixSearch` and
`MarisaKazakhDict::Impl::prefixSearch`) return one key for the query "ал" on
the scenario trie, which is more than `maxResults`. -/
theorem prefixSearch_bound_zero_returns_one_key :
    (fastPredict scenarioState word_al 0).map Prod.fst = some [word_alma]
    ∧ BatchTrieLookup.prefixSearch (some scenarioUnigram) word_al 0 = [word_alma]
    ∧ MarisaKazakhDict.prefixSearch true scenarioUnigram word_al 0 = [word_alma] := by
  decide

/-! ## Stage 2: candidates and lookups -/

/-- On values of the `size_t` range the conversion of an `int` is the identity. -/
theorem toSize_of_nonneg (n : Int) (h0 : 0 ≤ n) (h1 : n < 18446744073709551616) :
    toSize n = n.toNat := by
  unfold toSize
  rw [Int.emod_eq_of_lt h0 h1]

/-- Adding a candidate keeps the vector free of duplicates. -/
theorem addCandidate_nodup (c : Str) (a : List Str) (h : a.Nodup) : (addCandidate c a).Nodup := by
  unfold addCandidate
  split
  · exact h
  · rename_i hc
    exact List.nodup_append.mpr ⟨h, List.nodup_singleton c, by
      intro x hx hx2
      simp at hx2
      subst hx2
      exact hc hx⟩

/-- The decoder yields at most one code point per byte. -/
theorem utf8_to_utf32_loop_length_le :
    ∀ (fuel : Nat) (bytes : Str), (utf8_to_utf32_loop fuel bytes).length ≤ bytes.length := by
  intro fuel
  induction fuel with
  | zero => intro bytes; simp [utf8_to_utf32_loop]
  | succ k ih =>
    intro bytes
    rcases bytes with _ | ⟨c, rest⟩
    · simp [utf8_to_utf32_loop]
    · have h0 := ih rest
      rcases rest with _ | ⟨b1, r1⟩
      · simp only [utf8_to_utf32_loop]
        split_ifs <;> simp only [List.length_cons, List.length_nil] at * <;> omega
      · have h1 := ih r1
        rcases r1 with _ | ⟨b2, r2⟩
        · simp only [utf8_to_utf32_loop]
          split_ifs <;> simp only [List.length_cons, List.length_nil] at * <;> omega
        · have h2 := ih r2
          rcases r2 with _ | ⟨b3, r3⟩
          · simp only [utf8_to_utf32_loop]
            split_ifs <;> simp only [List.length_cons, List.length_nil] at * <;> omega
          · have h3 := ih r3
            simp only [utf8_to_utf32_loop]
            split_ifs <;> simp only [List.length_cons, List.length_nil] at * <;> omega

/-- The decoded sequence is no longer than the byte string. -/
theorem utf8_to_utf32_length_le (utf8 : Str) : (utf8_to_utf32 utf8).length ≤ utf8.length :=
  utf8_to_utf32_loop_length_le _ _

/-- On a non-empty sequence of `size_t` length the swap loop stays inside the
vector. -/
theorem swapLoop_isSome (utf32 : U32) (maxTotal : Nat) (hne : utf32 ≠ [])
    (hlen : utf32.length < 18446744073709551616) :
    ∀ (fuel i : Nat) (a : List Str), ∃ r, swapLoop utf32 maxTotal fuel i a = some r := by
  have hpos : 1 ≤ utf32.length := by
    cases utf32 with
    | nil => exact absurd rfl hne
    | cons x l => simp
  have hsz : toSize ((utf32.length : Int) - 1) = utf32.length - 1 := by
    rw [toSize_of_nonneg _ (by omega) (by omega)]
    omega
  intro fuel
  induction fuel with
  | zero => intro i a; exact ⟨a, rfl⟩
  | succ k ih =>
    intro i a
    unfold swapLoop
    split
    · rename_i hc
      have : i + 1 < utf32.length := by rw [hsz] at hc; omega
      simp only [this, if_true]
      exact ih _ _
    · exact ⟨a, rfl⟩

/-- Loading a trie that lists each key once into a new predictor gives a
predictor whose caches agree with the trie. -/
theorem ready_after_first_load (t : Trie) (h : t.keys.Nodup) :
    Ready (loadUnigramFromFile Impl.init (some t)).2 where
  loaded := rfl
  lookup := rfl
  nodup := h
  prefixCoherent := by
    intro pfx n v _ _ hv
    simp [loadUnigramFromFile, Impl.init, LRUCache.find] at hv
  spellCoherent := by
    intro input n v _ hv
    simp [loadUnigramFromFile, Impl.init, LRUCache.find] at hv
  rejectCoherent := by
    intro w hw
    simp [loadUnigramFromFile, Impl.init] at hw

/-- The scenario predictor is ready. -/
theorem scenarioState_ready : Ready scenarioState :=
  ready_after_first_load scenarioUnigram (by decide)

/-! ## `smartPredict` -/

/-- The loop that appends the corrections a result list does not hold yet:
what it appends is a sublist of the corrections, disjoint from the list it
started with, and it keeps the list free of duplicates. -/
theorem pushMissing_spec :
    ∀ (corrections results : List Str), ∃ extra,
      pushMissing results corrections = results ++ extra
      ∧ extra.Sublist corrections
      ∧ (∀ w ∈ extra, w ∉ results)
      ∧ (results.Nodup → (results ++ extra).Nodup) := by
  intro corrections
  induction corrections with
  | nil =>
    intro results
    exact ⟨[], by simp [pushMissing], List.Sublist.refl _, by simp, by simp⟩
  | cons word rest ih =>
    intro results
    by_cases hw : word ∈ results
    · obtain ⟨extra, h1, h2, h3, h4⟩ := ih results
      exact ⟨extra, by simp [pushMissing, hw, h1], h2.cons _, h3, h4⟩
    · obtain ⟨extra, h1, h2, h3, h4⟩ := ih (results ++ [word])
      refine ⟨word :: extra, by simp [pushMissing, hw, h1], h2.cons₂ _, ?_, ?_⟩
      · intro w hmem
        rcases List.mem_cons.mp hmem with h5 | h5
        · rw [h5]; exact hw
        · intro h6
          exact h3 w h5 (List.mem_append.mpr (Or.inl h6))
      · intro hnd
        have hnd2 : (results ++ [word]).Nodup :=
          List.nodup_append.mpr ⟨hnd, List.nodup_singleton _, by
            intro x hx hx2
            simp at hx2
            subst hx2
            exact hw hx⟩
        simpa using h4 hnd2

/-- The values of `int`. -/
theorem fitsInt_iff (x : Int) : fitsInt x = true ↔ -2147483648 ≤ x ∧ x ≤ 2147483647 := by
  simp [fitsInt]

/-- The conversion to `int` keeps the values of `int`. -/
theorem toInt32_of_fits (x : Int) (h0 : -2147483648 ≤ x) (h1 : x ≤ 2147483647) :
    toInt32 x = x := by
  unfold toInt32
  omega

/-- A list starts with `a ++ b` when it starts with `a` and goes on with `b`. -/
theorem prefix_append_iff (a b k : Str) :
    (a ++ b) <+: k ↔ a <+: k ∧ b <+: k.drop a.length := by
  constructor
  · rintro ⟨t, rfl⟩
    refine ⟨⟨b ++ t, by simp⟩, ⟨t, by simp⟩⟩
  · rintro ⟨⟨t, rfl⟩, h⟩
    simp only [List.drop_left] at h
    exact (List.prefix_append_right_inj a).mpr h

/-- In a key that starts with `prev + " "`, where `prev` holds no space, the
first space is the one after `prev`. -/
theorem findSpace_of_prefix (prev key : Str) (hsp : 32 ∉ prev) (h : (prev ++ [32]) <+: key) :
    findSpace key = some prev.length := by
  obtain ⟨t, rfl⟩ := h
  have hidx : List.indexOf 32 (prev ++ [32] ++ t) = prev.length := by
    rw [List.append_assoc, List.indexOf_append_of_not_mem hsp]
    simp
  unfold findSpace
  simp only [hidx]
  simp

/-- The list the specification names is the stream of the query
`prev + " " + p`, each key without its first `|prev| + 1` bytes. -/
theorem specBigramNext_eq (t : Trie) (prev p : Str) :
    specBigramNext t prev p =
      (t.predictive_search (prev ++ [32] ++ p)).map (fun key => key.drop (prev.length + 1)) := by
  unfold specBigramNext Trie.predictive_search
  induction t.keys with
  | nil => rfl
  | cons key rest ih =>
    have hiff : ((prev ++ [32]).isPrefixOf key = true ∧ p.isPrefixOf (key.drop (prev.length + 1)) = true)
        ↔ (prev ++ [32] ++ p).isPrefixOf key = true := by
      simp only [List.isPrefixOf_iff_prefix]
      rw [prefix_append_iff (prev ++ [32]) p key]
      simp
    by_cases hk : (prev ++ [32] ++ p).isPrefixOf key = true
    · simp only [List.filterMap_cons, hiff.mpr hk, and_self, if_true, List.filter_cons, hk,
        List.map_cons, ih]
    · have hk2 : ¬ ((prev ++ [32]).isPrefixOf key = true
          ∧ p.isPrefixOf (key.drop (prev.length + 1)) = true) := fun h => hk (hiff.mp h)
      simp only [List.filterMap_cons, hk2, if_false, List.filter_cons, hk, ih]
      simp

/-- The bigram loop of `contextPredict` on a stream whose keys all have their
first space at index `m`: nothing when the stream is non-empty and
`maxResults * 2` overflows, and otherwise the keys without their first `m + 1`
bytes, as many as the count allows. -/
theorem contextLoop_eq (n : Int) (m : Nat) :
    ∀ (stream : List Str) (count : Int) (results : List Str),
      (∀ key ∈ stream, findSpace key = some m) →
      contextLoop n stream count results =
        if stream = [] ∨ fitsInt (n * 2) = true then
          some (results ++ (stream.map (fun key => key.drop (m + 1))).take (n * 2 - count).toNat)
        else none := by
  intro stream
  induction stream with
  | nil => intro count results _; simp [contextLoop]
  | cons key rest ih =>
    intro count results hall
    have hkey : findSpace key = some m := hall key (List.mem_cons_self _ _)
    have hrest : ∀ k ∈ rest, findSpace k = some m := fun k hk => hall k (List.mem_cons_of_mem _ hk)
    unfold contextLoop
    by_cases hfit : fitsInt (n * 2) = true
    · simp only [hfit, if_true, or_true]
      by_cases hc : count < n * 2
      · have hpos : (n * 2 - count).toNat = (n * 2 - (count + 1)).toNat + 1 := by omega
        simp only [hc, if_true, hkey, ih (count + 1) _ hrest, hfit, or_true, hpos, List.map_cons,
          List.take_succ_cons]
        simp
      · have h0 : (n * 2 - count).toNat = 0 := by omega
        simp [hc, h0]
    · simp [hfit]

/-- `fastPrefixSearch` returns on every predictor whose loaded unigram trie has
its lookup object. -/
theorem fastPrefixSearch_isSome (s : Impl) (hlk : s.unigramLoaded = true → s.unigramLookup = true)
    (pfx : Str) (k : Int) : ∃ r, fastPrefixSearch s pfx k = some r := by
  unfold fastPrefixSearch
  split
  · exact ⟨_, rfl⟩
  · rename_i hgate
    have hl : s.unigramLoaded = true := by
      cases h : s.unigramLoaded
      · simp [h] at hgate
      · rfl
    cases hfind : s.prefixCache.find (makeCacheKey prefixTag pfx k) with
    | some v => simp only [LRUCache.get, hfind]; exact ⟨_, rfl⟩
    | none => simp only [LRUCache.get, hfind, hlk hl, if_true]; exact ⟨_, rfl⟩

/-- Cutting the first `2n` keys down to `maxResults = n` leaves the first `n`. -/
theorem resize_take (n : Int) (hn : 1 ≤ n) (hint : fitsInt n = true) (X : List Str) :
    (if (X.take (n * 2).toNat).length > toSize n then (X.take (n * 2).toNat).take (toSize n)
      else X.take (n * 2).toNat) = X.take n.toNat := by
  have hn2 := (fitsInt_iff n).mp hint
  have hsize : toSize n = n.toNat := toSize_of_nonneg n (by omega) (by omega)
  rw [hsize]
  have hmin : min n.toNat (n * 2).toNat = n.toNat := by omega
  split
  · rw [List.take_take, hmin]
  · rename_i h
    rw [List.length_take] at h
    have hX : X.length ≤ n.toNat := by omega
    rw [List.take_of_length_le (by omega), List.take_of_length_le hX]

/-- Claim C4, amended. For a loaded bigram trie, every non-empty previous word
that holds no space, every prefix `p` and every bound `n ≥ 1`, a `contextPredict`
call that misses the context cache returns whenever `n * 2` is an `int`, and
every list it returns begins with the first `n` words `next` (all of them when
there are fewer) for which `prev + " " + next` is a bigram key and `next`
starts with `p`, in trie order; whatever follows them is a word of a Stage-1
result for `p`. -/
theorem contextPredict_bigram_first (s : Impl) (prev p : Str) (n : Int)
    (hb : s.bigramLoaded = true) (hlk : s.unigramLoaded = true → s.unigramLookup = true)
    (hprev : prev ≠ []) (hsp : 32 ∉ prev) (hn : 1 ≤ n) (hint : fitsInt n = true)
    (hmiss : s.contextCache.find (makeCacheKey contextTag (prev ++ [124] ++ p) n) = none) :
    (fitsInt (n * 2) = true → ∃ r, contextPredict s prev p n = some r)
    ∧ ∀ res s1, contextPredict s prev p n = some (res, s1) →
        ∃ topups, res = (specBigramNext s.bigramTrie prev p).take n.toNat ++ topups
          ∧ ∀ w ∈ topups, ∃ k fastRes s2, fastPredict s p k = some (fastRes, s2) ∧ w ∈ fastRes := by
  have hn2 := (fitsInt_iff n).mp hint
  have hsize : toSize n = n.toNat := toSize_of_nonneg n (by omega) (by omega)
  have hpe : prev.isEmpty = false := by
    cases prev with
    | nil => exact absurd rfl hprev
    | cons a l => rfl
  by_cases hempty : s.bigramTrie.empty = true
  · -- the bigram trie holds no key: Stage 1 alone
    have hkeys : s.bigramTrie.keys = [] := by simpa [Trie.empty] using hempty
    have hspec : specBigramNext s.bigramTrie prev p = [] := by
      simp [specBigramNext, hkeys]
    obtain ⟨⟨fast, s1⟩, hf⟩ := fastPrefixSearch_isSome s hlk p n
    have hctx : contextPredict s prev p n =
        some (fast, { s1 with contextCache := (s1.contextCache.put
          (makeCacheKey contextTag (prev ++ [124] ++ p) n) fast) }) := by
      unfold contextPredict
      simp only [LRUCache.get, hmiss, hb, hempty, hf]
      simp
    refine ⟨fun _ => ⟨_, hctx⟩, ?_⟩
    intro res s2 hres
    rw [hctx] at hres
    simp only [Option.some.injEq, Prod.mk.injEq] at hres
    refine ⟨fast, by rw [hspec, ← hres.1]; simp, ?_⟩
    intro w hw
    exact ⟨n, fast, s1, hf, hw⟩
  · have hempty2 : s.bigramTrie.empty = false := by simpa using hempty
    have hall : ∀ key ∈ s.bigramTrie.predictive_search (prev ++ [32] ++ p),
        findSpace key = some prev.length := by
      intro key hkey
      have h1 : (prev ++ [32] ++ p) <+: key := by
        have := (List.mem_filter.mp hkey).2
        simpa using this
      exact findSpace_of_prefix prev key hsp ((prefix_append_iff _ _ _).mp h1).1
    have hloop := contextLoop_eq n prev.length _ 0 [] hall
    simp only [List.nil_append, sub_zero, ← specBigramNext_eq] at hloop
    have hctx : contextPredict s prev p n =
        match contextLoop n (s.bigramTrie.predictive_search (prev ++ [32] ++ p)) 0 [] with
        | none => none
        | some found =>
          let results :=
            if found.length > toSize n then found.take (toSize n) else found
          if results.length < toSize n then
            match fastPrefixSearch s p (toInt32 (n - results.length)) with
            | none => none
            | some (prefixResults, s1) =>
              some (pushMissing results prefixResults,
                { s1 with contextCache := (s1.contextCache.put
                    (makeCacheKey contextTag (prev ++ [124] ++ p) n)
                    (pushMissing results prefixResults)) })
          else some (results, { s with contextCache := (s.contextCache.put
            (makeCacheKey contextTag (prev ++ [124] ++ p) n) results) }) := by
      unfold contextPredict
      simp only [LRUCache.get, hmiss, hb, hempty2, hpe]
      rfl
    rw [hloop] at hctx
    by_cases hcond : s.bigramTrie.predictive_search (prev ++ [32] ++ p) = [] ∨ fitsInt (n * 2) = true
    · rw [if_pos hcond] at hctx
      simp only [resize_take n hn hint] at hctx
      set B := (specBigramNext s.bigramTrie prev p).take n.toNat with hB
      by_cases hlt : B.length < toSize n
      · rw [if_pos hlt] at hctx
        obtain ⟨⟨pr, s1⟩, hf⟩ := fastPrefixSearch_isSome s hlk p (toInt32 (n - B.length))
        rw [hf] at hctx
        refine ⟨fun _ => ⟨_, hctx⟩, ?_⟩
        intro res s2 hres
        rw [hctx] at hres
        simp only [Option.some.injEq, Prod.mk.injEq] at hres
        obtain ⟨extra, h1, h2, _, _⟩ := pushMissing_spec pr B
        refine ⟨extra, by rw [← hres.1, h1], ?_⟩
        intro w hw
        exact ⟨_, pr, s1, hf, h2.subset hw⟩
      · rw [if_neg hlt] at hctx
        refine ⟨fun _ => ⟨_, hctx⟩, ?_⟩
        intro res s2 hres
        rw [hctx] at hres
        simp only [Option.some.injEq, Prod.mk.injEq] at hres
        exact ⟨[], by rw [← hres.1]; simp, by simp⟩
    · rw [if_neg hcond] at hctx
      refine ⟨fun hfit => absurd (Or.inr hfit) hcond, ?_⟩
      intro res s2 hres
      rw [hctx] at hres
      exact absurd hres (by simp)

/-- Scenario 4 of the spec as an instance of the amended C4: with the bigram
keys "сіз қалай", "сіз қайда" in this order and no unigram trie,
`contextPredict("сіз", "қа", 5)` on the freshly loaded predictor is
[қалай, қайда]. -/
theorem contextPredict_bigram_first_witness :
    ((fitsInt (5 * 2) = true → ∃ r, contextPredict scenarioBigramState word_siz word_qa 5 = some r)
    ∧ ∀ res s1, contextPredict scenarioBigramState word_siz word_qa 5 = some (res, s1) →
        ∃ topups, res = (specBigramNext scenarioBigramState.bigramTrie word_siz word_qa).take
            (5 : Int).toNat ++ topups
          ∧ ∀ w ∈ topups, ∃ k fastRes s2,
              fastPredict scenarioBigramState word_qa k = some (fastRes, s2) ∧ w ∈ fastRes)
    ∧ (contextPredict scenarioBigramState word_siz word_qa 5).map Prod.fst
        = some [word_qalai, word_qaida] :=
  ⟨contextPredict_bigram_first scenarioBigramState word_siz word_qa 5 (by decide) (by decide)
    (by decide) (by decide) (by decide) (by decide) (by decide), by decide⟩

/-- Claim C4 as stated fails for a previous word that holds a space. With the
one bigram key "a b c", the previous word "a b", the empty prefix and the
bound 1, the only word `next` with `prev + " " + next` a key is "c", and
`contextPredict` returns ["b c"], which does not begin with it. -/
theorem contextPredict_prev_with_space_counterexample :
    (contextPredict spaceBigramState [97, 32, 98] [] 1).map Prod.fst = some [[98, 32, 99]]
    ∧ (specBigramNext spaceBigramState.bigramTrie [97, 32, 98] []).take (1 : Int).toNat = [[99]]
    ∧ ¬ ((specBigramNext spaceBigramState.bigramTrie [97, 32, 98] []).take (1 : Int).toNat
          <+: [[98, 32, 99]]) := by
  refine ⟨by decide, by decide, ?_⟩
  have h : (specBigramNext spaceBigramState.bigramTrie [97, 32, 98] []).take (1 : Int).toNat
      = [[99]] := by decide
  rw [h]
  decide

/-! ## Evaluations of the source at inputs where it departs from the specification -/

/-- Claim C5 at a six-letter input. The input "мекнеп" has six code points and
twelve bytes; the key "мектеп" is one keyboard-neighbour substitution away
(н → т) and Stage 2 run on the input would return it, yet `spellCorrect` returns
the empty list, because the entry test compares the byte length with 10. -/
theorem spellCorrect_rejects_six_letter_input :
    (utf8_to_utf32 word_meknep).length = 6
    ∧ word_meknep.length = 12
    ∧ (spellCorrect mektepState Sched.inOrder word_meknep 5).map Prod.fst = some []
    ∧ stage2Result mektepState.unigramTrie Sched.inOrder word_meknep 5 = some [word_mektep] := by
  decide

/-- Claim C6 at scenario 2 of the spec. The table maps а (U+0430) to U+044D (э)
and has no entry for ә (U+04D9), so for the input "салем" the phonetic candidate
is "сэлем"; `spellCorrect("салем", 5)` on the trie алма, алмас, ана, ата, сәлем
returns the empty list, which does not contain "сәлем". -/
theorem spellCorrect_salem_misses_saelem :
    tableFind PHONETIC_CLASSES 0x430 = some [0x44D]
    ∧ tableFind PHONETIC_CLASSES 0x4D9 = none
    ∧ utf8_to_utf32 word_saelem = [0x441, 0x4D9, 0x43B, 0x435, 0x43C]
    ∧ word_salem.length = 10
    ∧ (spellCorrect scenarioState2 Sched.inOrder word_salem 5).map Prod.fst = some [] := by
  decide

/-- Claim C8 on a new predictor. Before any trie is loaded `fastPredict`,
`spellCorrect` and `contextPredict` return the empty list, but `exactMatch` and
`smartPredict` read through the null `unigramLookup` and have no result. -/
theorem exactMatch_unloaded_has_no_result :
    exactMatch Impl.init word_alma = none
    ∧ smartPredict Impl.init Sched.inOrder word_alma 5 = none
    ∧ (fastPredict Impl.init word_alma 5).map Prod.fst = some []
    ∧ (spellCorrect Impl.init Sched.inOrder word_alma 5).map Prod.fst = some []
    ∧ (contextPredict Impl.init word_siz word_qa 5).map Prod.fst = some [] := by
  decide

/-- Claim C10 on a reload. `loadUnigramFromFile` leaves the three result caches
and the negative-lookup set as they are; after the trie {"ab"} has answered
`fastPredict("a", 10)` and has been replaced by {"ac"}, the prefix cache still
holds that answer and the same call returns ["ab"], which is no key of the new
trie, where a new predictor with {"ac"} returns ["ac"]. -/
theorem reload_keeps_stale_caches :
    (∀ (s : Impl) (file : Option Trie),
        (loadUnigramFromFile s file).2.prefixCache = s.prefixCache
        ∧ (loadUnigramFromFile s file).2.spellCache = s.spellCache
        ∧ (loadUnigramFromFile s file).2.contextCache = s.contextCache
        ∧ (loadUnigramFromFile s file).2.fastRejectSet = s.fastRejectSet)
    ∧ reloadStateAfter.unigramTrie = ⟨[[97, 99]]⟩
    ∧ reloadStateAfter.prefixCache.size = 1
    ∧ (fastPredict reloadStateAfter [97] 10).map Prod.fst = some [[97, 98]]
    ∧ (fastPredict (loadUnigramFromFile Impl.init (some ⟨[[97, 99]]⟩)).2 [97] 10).map Prod.fst
        = some [[97, 99]] := by
  refine ⟨?_, by decide, by decide, by decide, by decide⟩
  intro s file
  unfold loadUnigramFromFile
  cases file <;> cases s.unigramLoaded <;> simp

/-! ## Stage 3: generations -/

/-- The increment a step makes to the count of increments. -/
theorem heavyBumps_cons (e : HeavyEvent) (es : List HeavyEvent) :
    heavyBumps (e :: es) = heavyBumps [e] + heavyBumps es := by
  unfold heavyBumps
  rw [List.countP_cons, List.countP_cons, List.countP_nil]
  omega

/-- A step that tests or moves a task increments nothing. -/
theorem heavyInv_of_running (st : HeavyState) (k : Nat) (h : HeavyInv st k)
    (running : List HeavyRunning)
    (hheld : ∀ r ∈ running, r.gen ≤ k)
    (hworking : ∀ r ∈ running, ∀ e, r.phase = .working e → e = r.gen)
    (hreturned : ∀ r ∈ running, ∀ e, r.phase = .returned e → e = r.gen ∨ r.gen < k) :
    HeavyInv { st with running := running } k :=
  ⟨h.counter, h.queued, hheld, hworking, hreturned, h.fired⟩

/-- Replacing the phase of the task at index `i` keeps the invariant when the
new phase meets it. -/
theorem heavyInv_set (st : HeavyState) (k : Nat) (h : HeavyInv st k) (i : Nat)
    (old new : HeavyRunning) (hold : st.running.get? i = some old) (hgen : new.gen = old.gen)
    (hw : ∀ e, new.phase = .working e → e = new.gen)
    (hr : ∀ e, new.phase = .returned e → e = new.gen ∨ new.gen < k) :
    HeavyInv { st with running := st.running.set i new } k := by
  have hmem : old ∈ st.running := List.get?_mem hold
  refine heavyInv_of_running st k h _ ?_ ?_ ?_
  · intro r hr1
    rcases List.mem_or_eq_of_mem_set hr1 with h1 | h1
    · exact h.held r h1
    · rw [h1, hgen]; exact h.held old hmem
  · intro r hr1 e he
    rcases List.mem_or_eq_of_mem_set hr1 with h1 | h1
    · exact h.working r h1 e he
    · rw [h1] at he ⊢; exact hw e he
  · intro r hr1 e he
    rcases List.mem_or_eq_of_mem_set hr1 with h1 | h1
    · exact h.returned r h1 e he
    · rw [h1] at he ⊢; exact hr e he

/-- Every step keeps the invariant while the counter does not wrap around. -/
theorem heavyStep_inv (st : HeavyState) (k : Nat) (e : HeavyEvent) (h : HeavyInv st k)
    (hk : k + heavyBumps [e] < 2147483648) :
    HeavyInv (heavyStep st e) (k + heavyBumps [e]) := by
  cases e with
  | submit input =>
    have hb : heavyBumps [HeavyEvent.submit input] = 1 := rfl
    rw [hb] at hk ⊢
    have hc : toInt32 (st.heavyTaskId + 1) = ((k + 1 : Nat) : Int) := by
      rw [h.counter, toInt32_of_fits] <;> push_cast <;> omega
    refine ⟨hc, ?_, ?_, h.working, ?_, h.fired⟩
    · intro t ht
      rcases List.mem_append.mp ht with h1 | h1
      · have := h.queued t h1
        push_cast; omega
      · simp only [List.mem_singleton] at h1
        rw [h1]
        exact le_of_eq hc
    · intro r hr
      have := h.held r hr
      push_cast; omega
    · intro r hr e he
      rcases h.returned r hr e he with h1 | h1
      · exact Or.inl h1
      · right; push_cast; omega
  | bump =>
    have hb : heavyBumps [HeavyEvent.bump] = 1 := rfl
    rw [hb] at hk ⊢
    have hc : toInt32 (st.heavyTaskId + 1) = ((k + 1 : Nat) : Int) := by
      rw [h.counter, toInt32_of_fits] <;> push_cast <;> omega
    refine ⟨hc, ?_, ?_, h.working, ?_, h.fired⟩
    · intro t ht
      have := h.queued t ht
      push_cast; omega
    · intro r hr
      have := h.held r hr
      push_cast; omega
    · intro r hr e he
      rcases h.returned r hr e he with h1 | h1
      · exact Or.inl h1
      · right; push_cast; omega
  | take =>
    have hb : heavyBumps [HeavyEvent.take] = 0 := rfl
    rw [hb, Nat.add_zero]
    simp only [heavyStep]
    cases hq : st.queue with
    | nil => exact h
    | cons task rest =>
      simp only
      split
      · refine ⟨h.counter, ?_, ?_, ?_, ?_, h.fired⟩
        · intro t ht
          exact h.queued t (by rw [hq]; exact List.mem_cons_of_mem _ ht)
        · intro r hr
          rcases List.mem_append.mp hr with h1 | h1
          · exact h.held r h1
          · simp only [List.mem_singleton] at h1
            rw [h1]
            exact h.queued task (by rw [hq]; exact List.mem_cons_self _ _)
        · intro r hr e he
          rcases List.mem_append.mp hr with h1 | h1
          · exact h.working r h1 e he
          · simp only [List.mem_singleton] at h1
            rw [h1] at he
            exact absurd he (by simp)
        · intro r hr e he
          rcases List.mem_append.mp hr with h1 | h1
          · exact h.returned r h1 e he
          · simp only [List.mem_singleton] at h1
            rw [h1] at he
            exact absurd he (by simp)
      · exact h
  | entry i =>
    have hb : heavyBumps [HeavyEvent.entry i] = 0 := rfl
    rw [hb, Nat.add_zero]
    simp only [heavyStep]
    split
    · rename_i gen hget
      have hheld := h.held _ (List.get?_mem hget)
      simp only at hheld
      split
      · rename_i hne
        refine heavyInv_set st k h i _ _ hget rfl (by simp) ?_
        intro e he
        simp only [HeavyPhase.returned.injEq] at he
        right
        have := h.counter
        simp only
        omega
      · rename_i heq
        refine heavyInv_set st k h i _ _ hget rfl ?_ (by simp)
        intro e he
        simp only [HeavyPhase.working.injEq] at he
        simp only [ne_eq, Decidable.not_not] at heq
        rw [← he, heq]
    · exact h
  | position i =>
    have hb : heavyBumps [HeavyEvent.position i] = 0 := rfl
    rw [hb, Nat.add_zero]
    simp only [heavyStep]
    split
    · rename_i gen entrySeen hget
      have hw := h.working _ (List.get?_mem hget) entrySeen rfl
      split
      · refine heavyInv_set st k h i _ _ hget rfl (by simp) ?_
        intro e he
        simp only [HeavyPhase.returned.injEq] at he
        left
        rw [← he]; exact hw
      · exact h
    · exact h
  | finish i =>
    have hb : heavyBumps [HeavyEvent.finish i] = 0 := rfl
    rw [hb, Nat.add_zero]
    simp only [heavyStep]
    split
    · rename_i gen entrySeen hget
      have hw := h.working _ (List.get?_mem hget) entrySeen rfl
      refine heavyInv_set st k h i _ _ hget rfl (by simp) ?_
      intro e he
      simp only [HeavyPhase.returned.injEq] at he
      left
      rw [← he]; exact hw
    · exact h
  | complete i =>
    have hb : heavyBumps [HeavyEvent.complete i] = 0 := rfl
    rw [hb, Nat.add_zero]
    simp only [heavyStep]
    split
    · rename_i gen entrySeen hget
      have hret := h.returned _ (List.get?_mem hget) entrySeen rfl
      simp only at hret
      have hsub : ∀ r ∈ st.running.eraseIdx i, r ∈ st.running :=
        fun r hr => List.mem_of_mem_eraseIdx hr
      split
      · rename_i heq
        refine ⟨h.counter, h.queued, fun r hr => h.held r (hsub r hr),
          fun r hr => h.working r (hsub r hr), fun r hr => h.returned r (hsub r hr), ?_⟩
        intro f hf
        rcases List.mem_append.mp hf with h1 | h1
        · exact h.fired f h1
        · simp only [List.mem_singleton] at h1
          rw [h1]
          simp only
          have := h.counter
          refine ⟨?_, heq⟩
          rcases hret with h2 | h2
          · exact h2.symm
          · omega
      · exact ⟨h.counter, h.queued, fun r hr => h.held r (hsub r hr),
          fun r hr => h.working r (hsub r hr), fun r hr => h.returned r (hsub r hr), h.fired⟩
    · exact h

/-- Every run keeps the invariant while the counter does not wrap around. -/
theorem heavyRun_inv :
    ∀ (events : List HeavyEvent) (st : HeavyState) (k : Nat), HeavyInv st k →
      k + heavyBumps events < 2147483648 →
      HeavyInv (heavyRun st events) (k + heavyBumps events) := by
  intro events
  induction events with
  | nil =>
    intro st k h _
    simpa [heavyRun, heavyBumps] using h
  | cons e es ih =>
    intro st k h hk
    rw [heavyBumps_cons] at hk ⊢
    have h1 := heavyStep_inv st k e h (by omega)
    have h2 := ih (heavyStep st e) (k + heavyBumps [e]) h1 (by omega)
    rw [Nat.add_assoc] at h2
    exact h2

/-- The invariant holds after the constructor. -/
theorem heavyInv_init : HeavyInv HeavyState.init 0 :=
  ⟨rfl, by simp [HeavyState.init], by simp [HeavyState.init], by simp [HeavyState.init],
    by simp [HeavyState.init], by simp [HeavyState.init]⟩

/-- Claim C9. In the step model of `heavySpellCorrectAsync`, for every sequence
of submissions, counter increments and worker steps in which the counter is
incremented fewer than 2^31 times, every callback invoked belongs to a task
whose generation equalled `heavyTaskId` when its entry test read it and again
when its completion test read it: a task that finds its generation superseded
at either test invokes no callback. -/
theorem heavy_callback_only_for_current_generation (events : List HeavyEvent)
    (hbound : heavyBumps events < 2147483648) :
    ∀ f ∈ (heavyRun HeavyState.init events).fired,
      f.gen = f.atEntry ∧ f.gen = f.atCompletion := by
  have h := heavyRun_inv events HeavyState.init 0 heavyInv_init (by omega)
  exact h.fired

/-- Scenario 6 of the spec as an instance of C9: of two submissions in a row
only the second invokes its callback. -/
theorem heavy_callback_only_for_current_generation_witness :
    heavyBumps rapidInput < 2147483648
    ∧ (∀ f ∈ (heavyRun HeavyState.init rapidInput).fired,
        f.gen = f.atEntry ∧ f.gen = f.atCompletion)
    ∧ (heavyRun HeavyState.init rapidInput).fired = [⟨2, 2, 2⟩] :=
  ⟨by decide, heavy_callback_only_for_current_generation rapidInput (by decide), by decide⟩

/-! ## Coherence is kept by Stage 1 and Stage 2

The cache keys of two calls with bounds of at least one are equal only when the
calls have the same argument and the same bound, so a call stores its result
under a key no other such call reads; with that, `Ready` holds after every
call of `fastPrefixSearch`, `keyboardNeighborCorrect` and `smartPredict` made
with a bound of at least one on a ready predictor.
-/

/-- An input of more than 10 code points has more than 10 bytes, so
`spellCorrect` returns the empty list for it and leaves the predictor as it is. -/
theorem spellCorrect_long_input (s : Impl) (σ : Sched) (input : Str) (n : Int)
    (h : 10 < (utf8_to_utf32 input).length) : spellCorrect s σ input n = some ([], s) := by
  have hlen := utf8_to_utf32_length_le input
  have hgate : decide (input.length > 10) = true := by
    simp only [gt_iff_lt, decide_eq_true_eq]
    omega
  unfold spellCorrect keyboardNeighborCorrect
  simp [hgate]

/-! ## Edit distance: the reference recurrence -/

theorem editDistanceFuel_congr (tr : Bool) (s1 s2 : U32) :
    ∀ (f1 f2 i j : Nat), i + j < f1 → i + j < f2 →
      editDistanceFuel tr s1 s2 f1 i j = editDistanceFuel tr s1 s2 f2 i j := by
  intro f1
  induction f1 with
  | zero => intro f2 i j h; omega
  | succ f1 ih =>
    intro f2 i j h1 h2
    cases f2 with
    | zero => omega
    | succ f2 =>
      cases i with
      | zero => simp only [editDistanceFuel]
      | succ i =>
        cases j with
        | zero => simp only [editDistanceFuel]
        | succ j =>
          simp only [editDistanceFuel]
          rw [ih f2 i (j + 1) (by omega) (by omega), ih f2 (i + 1) j (by omega) (by omega),
            ih f2 i j (by omega) (by omega), ih f2 (i - 1) (j - 1) (by omega) (by omega)]

theorem editDistanceAt_zero_left (tr : Bool) (s1 s2 : U32) (j : Nat) :
    editDistanceAt tr s1 s2 0 j = (j : Int) := by
  simp only [editDistanceAt, editDistanceFuel]

theorem editDistanceAt_zero_right (tr : Bool) (s1 s2 : U32) (i : Nat) :
    editDistanceAt tr s1 s2 i 0 = (i : Int) := by
  cases i <;> simp [editDistanceAt, editDistanceFuel]

theorem editDistanceAt_succ (tr : Bool) (s1 s2 : U32) (i j : Nat) :
    editDistanceAt tr s1 s2 (i + 1) (j + 1) =
      if tr = true ∧ 1 ≤ i ∧ 1 ≤ j ∧ s1.getD i 0 = s2.getD (j - 1) 0
          ∧ s1.getD (i - 1) 0 = s2.getD j 0 then
        min (min (min (editDistanceAt tr s1 s2 i (j + 1) + 1)
          (editDistanceAt tr s1 s2 (i + 1) j + 1))
          (editDistanceAt tr s1 s2 i j + (if s1.getD i 0 = s2.getD j 0 then 0 else 1)))
          (editDistanceAt tr s1 s2 (i - 1) (j - 1) + 1)
      else
        min (min (editDistanceAt tr s1 s2 i (j + 1) + 1)
          (editDistanceAt tr s1 s2 (i + 1) j + 1))
          (editDistanceAt tr s1 s2 i j + (if s1.getD i 0 = s2.getD j 0 then 0 else 1)) := by
  simp only [editDistanceAt, editDistanceFuel]
  rw [editDistanceFuel_congr tr s1 s2 (i + 1 + (j + 1)) (i + (j + 1) + 1) i (j + 1)
      (by omega) (by omega),
    editDistanceFuel_congr tr s1 s2 (i + 1 + (j + 1)) (i + 1 + j + 1) (i + 1) j
      (by omega) (by omega),
    editDistanceFuel_congr tr s1 s2 (i + 1 + (j + 1)) (i + j + 1) i j (by omega) (by omega),
    editDistanceFuel_congr tr s1 s2 (i + 1 + (j + 1)) (i - 1 + (j - 1) + 1) (i - 1) (j - 1)
      (by omega) (by omega)]

/-- Without transposition: the Levenshtein recurrence. -/
theorem editDistanceAt_succ_false (s1 s2 : U32) (i j : Nat) :
    editDistanceAt false s1 s2 (i + 1) (j + 1) =
        min (min (editDistanceAt false s1 s2 i (j + 1) + 1)
          (editDistanceAt false s1 s2 (i + 1) j + 1))
          (editDistanceAt false s1 s2 i j + (if s1.getD i 0 = s2.getD j 0 then 0 else 1)) := by
  rw [editDistanceAt_succ, if_neg (by simp)]

theorem editDistanceFuel_symm (tr : Bool) (s1 s2 : U32) :
    ∀ (f i j : Nat), editDistanceFuel tr s1 s2 f i j = editDistanceFuel tr s2 s1 f j i := by
  intro f
  induction f with
  | zero => intro i j; simp only [editDistanceFuel]
  | succ f ih =>
    intro i j
    cases i with
    | zero => cases j <;> simp [editDistanceFuel]
    | succ i =>
      cases j with
      | zero => simp [editDistanceFuel]
      | succ j =>
        simp only [editDistanceFuel]
        rw [ih i (j + 1), ih (i + 1) j, ih i j, ih (i - 1) (j - 1)]
        have hc : (if s1.getD i 0 = s2.getD j 0 then (0 : Int) else 1)
            = (if s2.getD j 0 = s1.getD i 0 then (0 : Int) else 1) := by
          by_cases h : s1.getD i 0 = s2.getD j 0
          · rw [if_pos h, if_pos h.symm]
          · rw [if_neg h, if_neg (fun h2 => h h2.symm)]
        rw [hc, min_comm (editDistanceFuel tr s2 s1 f (j + 1) i + 1)]
        have hcond : (tr = true ∧ 1 ≤ i ∧ 1 ≤ j ∧ s1.getD i 0 = s2.getD (j - 1) 0
            ∧ s1.getD (i - 1) 0 = s2.getD j 0) ↔ (tr = true ∧ 1 ≤ j ∧ 1 ≤ i
            ∧ s2.getD j 0 = s1.getD (i - 1) 0 ∧ s2.getD (j - 1) 0 = s1.getD i 0) := by
          constructor
          · rintro ⟨a, b, c, d, e⟩; exact ⟨a, c, b, e.symm, d.symm⟩
          · rintro ⟨a, b, c, d, e⟩; exact ⟨a, c, b, e.symm, d.symm⟩
        simp only [hcond]

theorem editDistanceAt_symm (tr : Bool) (s1 s2 : U32) (i j : Nat) :
    editDistanceAt tr s1 s2 i j = editDistanceAt tr s2 s1 j i := by
  unfold editDistanceAt
  rw [editDistanceFuel_symm, Nat.add_comm i j]

theorem damerauDistance_symm (s1 s2 : U32) : damerauDistance s1 s2 = damerauDistance s2 s1 :=
  editDistanceAt_symm true s1 s2 _ _

theorem levenshteinDistance_symm (s1 s2 : U32) :
    levenshteinDistance s1 s2 = levenshteinDistance s2 s1 :=
  editDistanceAt_symm false s1 s2 _ _

/-! ## Edit distance: the tables of the code -/

theorem getD_map_range (F : Nat → Int) (n j : Nat) (h : j < n) :
    ((List.range n).map F).getD j 0 = F j := by
  simp [List.getD_eq_getElem?_getD, List.getElem?_map, List.getElem?_range h]

theorem foldl_range_build (g : List Int → Nat → Int) (F : Nat → Int) (k : Nat)
    (hg : ∀ j0, j0 < k → g ((List.range (j0 + 1)).map F) j0 = F (j0 + 1)) :
    (List.range k).foldl (fun curr j0 => curr ++ [g curr j0]) [F 0]
      = (List.range (k + 1)).map F := by
  induction k with
  | zero => simp [List.range_succ]
  | succ k ih =>
    rw [List.range_succ, List.foldl_append, ih (fun j0 h => hg j0 (Nat.lt_succ_of_lt h))]
    simp only [List.foldl_cons, List.foldl_nil]
    rw [hg k (Nat.lt_succ_self k)]
    conv_rhs => rw [List.range_succ, List.map_append]
    simp

theorem fullRow_eq (s1 s2 : U32) (i : Nat) (prev2 : List Int)
    (h2 : 1 ≤ i → prev2 = editDistanceRow true s1 s2 (i - 1)) :
    fullRow s1 s2 (i + 1) prev2 (editDistanceRow true s1 s2 i)
      = editDistanceRow true s1 s2 (i + 1) := by
  unfold fullRow editDistanceRow
  have h0 : (((i + 1 : Nat) : Int)) = editDistanceAt true s1 s2 (i + 1) 0 := by
    rw [editDistanceAt_zero_right]
  rw [h0]
  apply foldl_range_build
    (fun curr j0 =>
      let j := j0 + 1
      let cost : Int := if s1.getD (i + 1 - 1) 0 = s2.getD (j - 1) 0 then 0 else 1
      let v := min (min (((List.range (s2.length + 1)).map
          (fun j => editDistanceAt true s1 s2 i j)).getD j 0 + 1)
        (curr.getD (j - 1) 0 + 1)) (((List.range (s2.length + 1)).map
          (fun j => editDistanceAt true s1 s2 i j)).getD (j - 1) 0 + cost)
      if i + 1 > 1 ∧ j > 1 ∧ s1.getD (i + 1 - 1) 0 = s2.getD (j - 2) 0
                ∧ s1.getD (i + 1 - 2) 0 = s2.getD (j - 1) 0
             then min v (prev2.getD (j - 2) 0 + 1) else v)
    (fun j => editDistanceAt true s1 s2 (i + 1) j)
  intro j0 hj0
  simp only [Nat.add_sub_cancel]
  rw [getD_map_range _ _ _ (by omega), getD_map_range _ _ _ (by omega),
    getD_map_range _ _ _ (by omega), editDistanceAt_succ]
  by_cases hc : i + 1 > 1 ∧ j0 + 1 > 1 ∧ s1.getD i 0 = s2.getD (j0 + 1 - 2) 0
      ∧ s1.getD (i + 1 - 2) 0 = s2.getD j0 0
  · have hc2 : true = true ∧ 1 ≤ i ∧ 1 ≤ j0 ∧ s1.getD i 0 = s2.getD (j0 - 1) 0
        ∧ s1.getD (i - 1) 0 = s2.getD j0 0 := by
      obtain ⟨a, b, c, d⟩ := hc
      refine ⟨rfl, by omega, by omega, ?_, ?_⟩
      · rw [c]; congr 1
      · rw [← d]; congr 1
    rw [if_pos hc, if_pos hc2, h2 (by omega)]
    unfold editDistanceRow
    rw [getD_map_range _ _ _ (by omega)]
    have e : j0 + 1 - 2 = j0 - 1 := by omega
    rw [e]
  · have hc2 : ¬ (true = true ∧ 1 ≤ i ∧ 1 ≤ j0 ∧ s1.getD i 0 = s2.getD (j0 - 1) 0
        ∧ s1.getD (i - 1) 0 = s2.getD j0 0) := by
      rintro ⟨_, b, c, d, e⟩
      apply hc
      refine ⟨by omega, by omega, ?_, ?_⟩
      · rw [d]; congr 1
      · rw [← e]; congr 1
    rw [if_neg hc, if_neg hc2]

theorem limitedRow_eq (s1 s2 : U32) (i : Nat) :
    limitedRow s1 s2 (i + 1) (editDistanceRow false s1 s2 i)
      = editDistanceRow false s1 s2 (i + 1) := by
  unfold limitedRow editDistanceRow
  have h0 : (((i + 1 : Nat) : Int)) = editDistanceAt false s1 s2 (i + 1) 0 := by
    rw [editDistanceAt_zero_right]
  rw [h0]
  apply foldl_range_build
    (fun curr j0 =>
      let j := j0 + 1
      let cost : Int := if s1.getD (i + 1 - 1) 0 = s2.getD (j - 1) 0 then 0 else 1
      min (min (((List.range (s2.length + 1)).map
          (fun j => editDistanceAt false s1 s2 i j)).getD j 0 + 1)
        (curr.getD (j - 1) 0 + 1)) (((List.range (s2.length + 1)).map
          (fun j => editDistanceAt false s1 s2 i j)).getD (j - 1) 0 + cost))
    (fun j => editDistanceAt false s1 s2 (i + 1) j)
  intro j0 hj0
  simp only [Nat.add_sub_cancel]
  rw [getD_map_range _ _ _ (by omega), getD_map_range _ _ _ (by omega),
    getD_map_range _ _ _ (by omega), editDistanceAt_succ_false]

theorem row0_eq (n : Nat) :
    ((List.range n).map (fun j => (j : Int)) : List Int)
      = (List.range n).map (fun j : Nat => (j : Int)) := by
  simp only [List.map_id_fun', id_eq, List.bind_eq_flatMap, List.pure_def]
  induction (List.range n) with
  | nil => rfl
  | cons a l ih => simpa using ih

theorem editDistanceRow_zero (tr : Bool) (s1 s2 : U32) :
    ((List.range (s2.length + 1)).map (fun j => (j : Int)) : List Int)
      = editDistanceRow tr s1 s2 0 := by
  rw [row0_eq]
  unfold editDistanceRow
  apply List.map_congr_left
  intro j _
  rw [editDistanceAt_zero_left]

theorem fullRows_eq (s1 s2 : U32) :
    ∀ (k i : Nat) (prev2 : List Int), (1 ≤ i → prev2 = editDistanceRow true s1 s2 (i - 1)) →
      fullRows s1 s2 k (i + 1) prev2 (editDistanceRow true s1 s2 i)
        = editDistanceRow true s1 s2 (i + k) := by
  intro k
  induction k with
  | zero => intro i prev2 _; simp [fullRows]
  | succ k ih =>
    intro i prev2 h2
    simp only [fullRows]
    rw [fullRow_eq s1 s2 i prev2 h2, ih (i + 1) _ (fun _ => by simp)]
    congr 1
    omega

/-- The full table computes the reference Damerau distance. -/
theorem calculateEditDistanceFull_eq (s1 s2 : U32) :
    calculateEditDistanceFull s1 s2 = damerauDistance s1 s2 := by
  unfold calculateEditDistanceFull
  simp only
  rw [editDistanceRow_zero true s1 s2, fullRows_eq s1 s2 s1.length 0 _ (by omega)]
  unfold editDistanceRow damerauDistance
  rw [getD_map_range _ _ _ (by omega), Nat.zero_add]

theorem foldl_min_le (l : List Int) : ∀ a : Int, l.foldl min a ≤ a ∧ ∀ x ∈ l, l.foldl min a ≤ x := by
  induction l with
  | nil => intro a; simp
  | cons b l ih =>
    intro a
    simp only [List.foldl_cons, List.mem_cons, forall_eq_or_imp]
    have h := ih (min a b)
    refine ⟨le_trans h.1 (min_le_left _ _), le_trans h.1 (min_le_right _ _), h.2⟩

theorem rowMin_le (curr : List Int) (x : Int) (h : x ∈ curr) : rowMin curr ≤ x :=
  (foldl_min_le curr _).2 x h

theorem mem_editDistanceRow (tr : Bool) (s1 s2 : U32) (i j : Nat) (h : j ≤ s2.length) :
    editDistanceAt tr s1 s2 i j ∈ editDistanceRow tr s1 s2 i := by
  unfold editDistanceRow
  exact List.mem_map.2 ⟨j, List.mem_range.2 (by omega), rfl⟩

/-- Every entry of a later row of the Levenshtein table is at least some entry
further left in any earlier row. -/
theorem editDistanceAt_row_le (s1 s2 : U32) (i : Nat) :
    ∀ (d j2 : Nat), ∃ j, j ≤ j2 ∧
      editDistanceAt false s1 s2 i j ≤ editDistanceAt false s1 s2 (i + d) j2 := by
  intro d
  induction d with
  | zero => intro j2; exact ⟨j2, le_refl _, le_refl _⟩
  | succ d ihd =>
    intro j2
    induction j2 with
    | zero =>
      refine ⟨0, le_refl _, ?_⟩
      rw [editDistanceAt_zero_right, editDistanceAt_zero_right]
      push_cast
      omega
    | succ j2 ihj =>
      have hrec := editDistanceAt_succ_false s1 s2 (i + d) j2
      obtain ⟨ja, hja, ha⟩ := ihd (j2 + 1)
      obtain ⟨jb, hjb, hb⟩ := ihj
      obtain ⟨jc, hjc, hc⟩ := ihd j2
      have hcost : (0 : Int) ≤ (if s1.getD (i + d) 0 = s2.getD j2 0 then 0 else 1) := by
        split <;> omega
      rw [show i + (d + 1) = i + d + 1 from rfl] at hb ⊢
      have hcases : editDistanceAt false s1 s2 (i + d + 1) (j2 + 1)
            = editDistanceAt false s1 s2 (i + d) (j2 + 1) + 1
          ∨ editDistanceAt false s1 s2 (i + d + 1) (j2 + 1)
            = editDistanceAt false s1 s2 (i + d + 1) j2 + 1
          ∨ editDistanceAt false s1 s2 (i + d + 1) (j2 + 1)
            = editDistanceAt false s1 s2 (i + d) j2
              + (if s1.getD (i + d) 0 = s2.getD j2 0 then 0 else 1) := by
        rw [hrec]; omega
      rcases hcases with h | h | h
      · exact ⟨ja, hja, by omega⟩
      · exact ⟨jb, by omega, by omega⟩
      · exact ⟨jc, by omega, by omega⟩

/-- The loop of the pruned table returns the Levenshtein distance, or
`maxDist + 1` when a row minimum exceeded `maxDist`, and then the distance
exceeds `maxDist` too. -/
theorem limitedRows_eq (s1 s2 : U32) (maxDist : Int) :
    ∀ (k i : Nat),
      limitedRows s1 s2 maxDist k (i + 1) (editDistanceRow false s1 s2 i)
          = editDistanceAt false s1 s2 (i + k) s2.length
        ∨ (limitedRows s1 s2 maxDist k (i + 1) (editDistanceRow false s1 s2 i) = maxDist + 1
            ∧ maxDist < editDistanceAt false s1 s2 (i + k) s2.length) := by
  intro k
  induction k with
  | zero =>
    intro i
    left
    simp only [limitedRows, editDistanceRow]
    rw [getD_map_range _ _ _ (by omega), Nat.add_zero]
  | succ k ih =>
    intro i
    simp only [limitedRows]
    rw [limitedRow_eq]
    by_cases hp : rowMin (editDistanceRow false s1 s2 (i + 1)) > maxDist
    · right
      rw [if_pos hp]
      refine ⟨rfl, ?_⟩
      obtain ⟨j, hj, hle⟩ := editDistanceAt_row_le s1 s2 (i + 1) k s2.length
      have h1 := rowMin_le _ _ (mem_editDistanceRow false s1 s2 (i + 1) j hj)
      rw [show i + (k + 1) = i + 1 + k by omega]
      omega
    · rw [if_neg hp, show i + (k + 1) = i + 1 + k by omega]
      exact ih (i + 1)

/-- With a bound that no row index exceeds, the pruned table is never cut. -/
theorem limitedRows_eq_of_le (s1 s2 : U32) (maxDist : Int) :
    ∀ (k i : Nat), ((i + k : Nat) : Int) ≤ maxDist →
      limitedRows s1 s2 maxDist k (i + 1) (editDistanceRow false s1 s2 i)
          = editDistanceAt false s1 s2 (i + k) s2.length := by
  intro k
  induction k with
  | zero =>
    intro i _
    simp only [limitedRows, editDistanceRow]
    rw [getD_map_range _ _ _ (by omega), Nat.add_zero]
  | succ k ih =>
    intro i hle
    simp only [limitedRows]
    rw [limitedRow_eq]
    have h1 := rowMin_le _ _ (mem_editDistanceRow false s1 s2 (i + 1) 0 (Nat.zero_le _))
    rw [editDistanceAt_zero_right] at h1
    have hp : ¬ rowMin (editDistanceRow false s1 s2 (i + 1)) > maxDist := by
      push_cast at h1 hle; omega
    rw [if_neg hp, show i + (k + 1) = i + 1 + k by omega]
    exact ih (i + 1) (by push_cast at hle ⊢; omega)

/-- Bounds of the Levenshtein table: at least the difference of the two
lengths, at most their sum. -/
theorem editDistanceAt_bounds (s1 s2 : U32) :
    ∀ (i j : Nat), (i : Int) - j ≤ editDistanceAt false s1 s2 i j
      ∧ (j : Int) - i ≤ editDistanceAt false s1 s2 i j
      ∧ editDistanceAt false s1 s2 i j ≤ (i : Int) + j := by
  intro i
  induction i with
  | zero => intro j; rw [editDistanceAt_zero_left]; push_cast; omega
  | succ i ihi =>
    intro j
    induction j with
    | zero => rw [editDistanceAt_zero_right]; push_cast; omega
    | succ j ihj =>
      have hrec := editDistanceAt_succ_false s1 s2 i j
      have h1 := ihi (j + 1)
      have h2 := ihi j
      have hcost : (0 : Int) ≤ (if s1.getD i 0 = s2.getD j 0 then 0 else 1)
          ∧ (if s1.getD i 0 = s2.getD j 0 then (0 : Int) else 1) ≤ 1 := by
        split <;> omega
      rw [hrec]
      push_cast at h1 h2 ihj ⊢
      omega

/-- The pruned table returns the Levenshtein distance or, beyond the bound,
possibly `maxDist + 1`. -/
theorem calculateEditDistanceLimited_eq (s1 s2 : U32) (maxDist : Int) :
    calculateEditDistanceLimited s1 s2 maxDist = levenshteinDistance s1 s2
      ∨ (calculateEditDistanceLimited s1 s2 maxDist = maxDist + 1
          ∧ maxDist < levenshteinDistance s1 s2) := by
  unfold calculateEditDistanceLimited levenshteinDistance
  by_cases hg : |(s1.length : Int) - (s2.length : Int)| > maxDist
  · right
    rw [if_pos hg]
    refine ⟨rfl, ?_⟩
    have hb := editDistanceAt_bounds s1 s2 s1.length s2.length
    have := abs_le.2 ⟨by omega, hb.1⟩
    omega
  · rw [if_neg hg, editDistanceRow_zero false s1 s2]
    have h := limitedRows_eq s1 s2 maxDist s1.length 0
    simp only [Nat.zero_add] at h
    exact h

/-- With a bound no smaller than the first length, the pruned table returns
the Levenshtein distance. -/
theorem calculateEditDistanceLimited_eq_of_le (s1 s2 : U32) (maxDist : Int)
    (h1 : (s1.length : Int) ≤ maxDist) (h2 : (s2.length : Int) ≤ maxDist) :
    calculateEditDistanceLimited s1 s2 maxDist = levenshteinDistance s1 s2 := by
  unfold calculateEditDistanceLimited levenshteinDistance
  have hg : ¬ |(s1.length : Int) - (s2.length : Int)| > maxDist := by
    have := abs_le.2 (⟨by omega, by omega⟩ :
      -maxDist ≤ (s1.length : Int) - (s2.length : Int)
        ∧ (s1.length : Int) - (s2.length : Int) ≤ maxDist)
    omega
  rw [if_neg hg, editDistanceRow_zero false s1 s2]
  have h := limitedRows_eq_of_le s1 s2 maxDist s1.length 0 (by simpa using h1)
  simp only [Nat.zero_add] at h
  exact h

/-- The triangle inequality of the Levenshtein table. -/
theorem editDistanceAt_triangle (a b c : U32) :
    ∀ (i j k : Nat), editDistanceAt false a c i k
      ≤ editDistanceAt false a b i j + editDistanceAt false b c j k := by
  intro i
  induction i with
  | zero =>
    intro j k
    have h := editDistanceAt_bounds b c j k
    rw [editDistanceAt_zero_left, editDistanceAt_zero_left]
    omega
  | succ i ihi =>
    intro j
    induction j with
    | zero =>
      intro k
      have h := editDistanceAt_bounds a c (i + 1) k
      rw [editDistanceAt_zero_left, editDistanceAt_zero_right]
      omega
    | succ j ihj =>
      intro k
      induction k with
      | zero =>
        have h := editDistanceAt_bounds a b (i + 1) (j + 1)
        rw [editDistanceAt_zero_right, editDistanceAt_zero_right]
        omega
      | succ k ihk =>
        have rab := editDistanceAt_succ_false a b i j
        have rbc := editDistanceAt_succ_false b c j k
        have rac := editDistanceAt_succ_false a c i k
        have t1 := ihi (j + 1) (k + 1)
        have t2 := ihk
        have t3 := ihj (k + 1)
        have t4 := ihj k
        have t5 := ihi j (k + 1)
        have t6 := ihi j k
        have hcost : (if a.getD i 0 = c.getD k 0 then (0 : Int) else 1)
            ≤ (if a.getD i 0 = b.getD j 0 then (0 : Int) else 1)
              + (if b.getD j 0 = c.getD k 0 then (0 : Int) else 1) := by
          by_cases h1 : a.getD i 0 = b.getD j 0
          · by_cases h2 : b.getD j 0 = c.getD k 0
            · rw [if_pos h1, if_pos h2, if_pos (h1.trans h2)]; omega
            · rw [if_pos h1, if_neg h2]; split <;> omega
          · rw [if_neg h1]; split <;> split <;> omega
        have hc1 : (0 : Int) ≤ (if a.getD i 0 = b.getD j 0 then (0 : Int) else 1) := by
          split <;> omega
        have hc2 : (0 : Int) ≤ (if b.getD j 0 = c.getD k 0 then (0 : Int) else 1) := by
          split <;> omega
        generalize (if a.getD i 0 = c.getD k 0 then (0 : Int) else 1) = cac at *
        generalize (if a.getD i 0 = b.getD j 0 then (0 : Int) else 1) = cab at *
        generalize (if b.getD j 0 = c.getD k 0 then (0 : Int) else 1) = cbc at *
        omega

theorem levenshteinDistance_triangle (a b c : U32) :
    levenshteinDistance a c ≤ levenshteinDistance a b + levenshteinDistance b c :=
  editDistanceAt_triangle a b c _ _ _

theorem diffCount_symm : ∀ (s1 s2 : U32), diffCount s1 s2 = diffCount s2 s1
  | [], [] => rfl
  | [], _ :: _ => rfl
  | _ :: _, [] => rfl
  | a :: s1, b :: s2 => by
    simp only [diffCount]
    rw [diffCount_symm s1 s2]
    by_cases h : a = b
    · subst h; rfl
    · rw [if_pos h, if_pos (fun h2 => h h2.symm)]

theorem calculateEditDistanceTiny_symm (s1 s2 : U32) :
    calculateEditDistanceTiny s1 s2 = calculateEditDistanceTiny s2 s1 := by
  unfold calculateEditDistanceTiny
  simp only
  rw [diffCount_symm s1 s2]
  have hc : (if s1.getD 0 0 = s2.getD 0 0 then (0 : Int) else 1)
      = (if s2.getD 0 0 = s1.getD 0 0 then (0 : Int) else 1) := by
    by_cases h : s1.getD 0 0 = s2.getD 0 0
    · rw [if_pos h, if_pos h.symm]
    · rw [if_neg h, if_neg (fun h2 => h h2.symm)]
  rw [hc]
  split_ifs <;> first | rfl | omega

/-- Claim C12, amended. For all UTF-32 sequences `s1`, `s2` and every bound `k`,
`calculateEditDistanceSimple(s1, s2, k)` and `calculateEditDistanceSimple(s2,
s1, k)` are equal, or both are greater than `k`: the bounded distance is
symmetric up to the bound. -/
theorem calculateEditDistanceSimple_symm_up_to_bound (s1 s2 : U32) (k : Int) :
    calculateEditDistanceSimple s1 s2 k = calculateEditDistanceSimple s2 s1 k
      ∨ (k < calculateEditDistanceSimple s1 s2 k ∧ k < calculateEditDistanceSimple s2 s1 k) := by
  unfold calculateEditDistanceSimple
  rw [abs_sub_comm (s2.length : Int) (s1.length : Int)]
  by_cases hg : |(s1.length : Int) - (s2.length : Int)| > k
  · left; rw [if_pos hg, if_pos hg]
  · rw [if_neg hg, if_neg hg]
    by_cases h3 : s1.length ≤ 3 ∧ s2.length ≤ 3
    · left; rw [if_pos h3, if_pos h3.symm, calculateEditDistanceTiny_symm]
    · have h3b : ¬ (s2.length ≤ 3 ∧ s1.length ≤ 3) := fun h => h3 h.symm
      rw [if_neg h3, if_neg h3b]
      by_cases h6 : s1.length ≤ 6 ∧ s2.length ≤ 6
      · left
        rw [if_pos h6, if_pos h6.symm, calculateEditDistanceFull_eq,
          calculateEditDistanceFull_eq, damerauDistance_symm]
      · have h6b : ¬ (s2.length ≤ 6 ∧ s1.length ≤ 6) := fun h => h6 h.symm
        rw [if_neg h6, if_neg h6b]
        have hsym := levenshteinDistance_symm s1 s2
        rcases calculateEditDistanceLimited_eq s1 s2 k with h1 | ⟨h1, h1b⟩ <;>
          rcases calculateEditDistanceLimited_eq s2 s1 k with h2 | ⟨h2, h2b⟩
        · left; rw [h1, h2, hsym]
        · right; rw [h1, h2]; omega
        · right; rw [h1, h2]; omega
        · left; rw [h1, h2]

/-- Claim C13, amended. For all UTF-32 sequences `a`, `b`, `c` of which every
pair has a member longer than 6 code points (so that all three distances come
from the pruned table, which computes the plain Levenshtein distance) and every
`k` at least as large as the longest of them, `d(a, c) ≤ d(a, b) + d(b, c)`
where `d(x, y) = calculateEditDistanceSimple(x, y, k)`. -/
theorem calculateEditDistanceSimple_triangle (a b c : U32) (k : Int)
    (hab : 6 < max a.length b.length) (hbc : 6 < max b.length c.length)
    (hac : 6 < max a.length c.length)
    (ha : (a.length : Int) ≤ k) (hb : (b.length : Int) ≤ k) (hc : (c.length : Int) ≤ k) :
    calculateEditDistanceSimple a c k
      ≤ calculateEditDistanceSimple a b k + calculateEditDistanceSimple b c k := by
  have key : ∀ (x y : U32), 6 < max x.length y.length → (x.length : Int) ≤ k →
      (y.length : Int) ≤ k → calculateEditDistanceSimple x y k = levenshteinDistance x y := by
    intro x y hxy hx hy
    unfold calculateEditDistanceSimple
    have hg : ¬ |(x.length : Int) - (y.length : Int)| > k := by
      have := abs_le.2 (⟨by omega, by omega⟩ :
        -k ≤ (x.length : Int) - (y.length : Int) ∧ (x.length : Int) - (y.length : Int) ≤ k)
      omega
    rw [if_neg hg, if_neg (by omega), if_neg (by omega)]
    exact calculateEditDistanceLimited_eq_of_le x y k hx hy
  rw [key a c hac ha hc, key a b hab ha hb, key b c hbc hb hc]
  exact levenshteinDistance_triangle a b c

/-- An instance of the amended C13 with three words of 7, 7 and 8 code
points and `k = 8`: "мектепк", "мектекп" and "мектепке". -/
theorem calculateEditDistanceSimple_triangle_witness :
    (6 < max word7.length word7swapped.length ∧ 6 < max word7swapped.length word8.length
      ∧ 6 < max word7.length word8.length ∧ (word7.length : Int) ≤ 8
      ∧ (word7swapped.length : Int) ≤ 8 ∧ (word8.length : Int) ≤ 8)
    ∧ calculateEditDistanceSimple word7 word8 8
      ≤ calculateEditDistanceSimple word7 word7swapped 8
        + calculateEditDistanceSimple word7swapped word8 8 :=
  ⟨by decide, calculateEditDistanceSimple_triangle word7 word7swapped word8 8 (by decide)
    (by decide) (by decide) (by decide) (by decide) (by decide)⟩

/-- Claim C13 as stated fails on the full table. With a = "сахх", b = "асхх",
c = "абсхх" and `k = 5` (all three pairs go through
`calculateEditDistanceFull`): d(a, b) = 1 (one transposition), d(b, c) = 1 (one
insertion), but d(a, c) = 3, because the table lets a transposed pair take no
further edit. -/
theorem calculateEditDistanceSimple_triangle_counterexample :
    calculateEditDistanceSimple [0x441, 0x430, 0x445, 0x445]
        [0x430, 0x431, 0x441, 0x445, 0x445] 5 = 3
    ∧ calculateEditDistanceSimple [0x441, 0x430, 0x445, 0x445]
        [0x430, 0x441, 0x445, 0x445] 5 = 1
    ∧ calculateEditDistanceSimple [0x430, 0x441, 0x445, 0x445]
        [0x430, 0x431, 0x441, 0x445, 0x445] 5 = 1 := by
  decide

/-- Claim C12 as stated fails beyond the bound. For "аааа" and "ааббббб" with
`k = 3` (length difference 3, true distance 5) the pruned table is not cut in
one direction and returns 5; in the other direction a row minimum exceeds 3 and
the function returns `k + 1 = 4`. -/
theorem calculateEditDistanceSimple_symm_counterexample :
    calculateEditDistanceSimple [0x430, 0x430, 0x430, 0x430]
        [0x430, 0x430, 0x431, 0x431, 0x431, 0x431, 0x431] 3 = 5
    ∧ calculateEditDistanceSimple [0x430, 0x430, 0x431, 0x431, 0x431, 0x431, 0x431]
        [0x430, 0x430, 0x430, 0x430] 3 = 4 := by
  decide

/-- Claim C11 on three inputs, each with a result that is neither the exact
Damerau distance nor greater than the bound. For "ал" and "ла" with `k = 2`
the tiny path counts two mismatches where one adjacent transposition is enough;
for "абв" and "г" with `k = 3` the tiny path returns 2 where three edits are
needed; for "мектепк" and "емктепк" with `k = 2` the pruned table, which has no
transposition case, returns 2 where the distance is 1. -/
theorem calculateEditDistanceSimple_not_exact :
    (calculateEditDistanceSimple [0x430, 0x43B] [0x43B, 0x430] 2 = 2
      ∧ damerauDistance [0x430, 0x43B] [0x43B, 0x430] = 1)
    ∧ (calculateEditDistanceSimple [0x430, 0x431, 0x432] [0x433] 3 = 2
      ∧ damerauDistance [0x430, 0x431, 0x432] [0x433] = 3)
    ∧ (calculateEditDistanceSimple word7 word7first 2 = 2
      ∧ damerauDistance word7 word7first = 1) := by
  refine ⟨⟨by decide, by decide⟩, ⟨by decide, by decide⟩, by decide, ?_⟩
  rw [← calculateEditDistanceFull_eq]
  decide

/-! ## The size of an `LRUCache` -/

namespace LRUCache

variable {K V : Type} [DecidableEq K]

theorem find_eq_none_iff (c : LRUCache K V) (key : K) :
    c.find key = none ↔ key ∉ c.nodes.map Prod.fst := by
  unfold find
  simp only [Option.map_eq_none', List.find?_eq_none, decide_eq_true_eq, List.mem_map,
    not_exists, not_and]

theorem not_mem_keys_unlink (key : K) :
    ∀ (nodes : List (K × V)), (nodes.map Prod.fst).Nodup →
      key ∉ (unlink nodes key).map Prod.fst := by
  intro nodes
  induction nodes with
  | nil => intro _; simp [unlink]
  | cons a t ih =>
    intro hnd
    rw [List.map_cons, List.nodup_cons] at hnd
    unfold unlink
    by_cases h : a.1 = key
    · rw [List.eraseP_cons_of_pos (by simpa using h)]
      rw [← h]; exact hnd.1
    · rw [List.eraseP_cons_of_neg (by simpa using h), List.map_cons, List.mem_cons]
      rintro (h2 | h2)
      · exact h h2.symm
      · exact ih hnd.2 h2

theorem sizeInv_moveToHead (c : LRUCache K V) (keys : List K) (key : K) (value : V)
    (h : SizeInv c keys) (hmem : key ∈ c.nodes.map Prod.fst) :
    SizeInv { c with nodes := (key, value) :: unlink c.nodes key } keys := by
  have hsub : (unlink c.nodes key).Sublist c.nodes := List.eraseP_sublist _
  have hsubk := hsub.map Prod.fst
  refine ⟨?_, ?_, h.keysNodup, ?_⟩
  · simp only [List.map_cons, List.nodup_cons]
    exact ⟨not_mem_keys_unlink key c.nodes h.nodup, h.nodup.sublist hsubk⟩
  · intro k hk
    simp only [List.map_cons, List.mem_cons] at hk
    rcases hk with rfl | hk
    · exact h.sub _ hmem
    · exact h.sub k (hsubk.subset hk)
  · obtain ⟨x, hx, hxk⟩ := List.mem_map.1 hmem
    have hlen : (unlink c.nodes key).length = c.nodes.length - 1 := by
      unfold unlink
      exact List.length_eraseP_of_mem hx (by simpa using hxk)
    have hpos : 0 < c.nodes.length := List.length_pos_of_mem hx
    simp only [List.length_cons, hlen]
    have := h.len
    omega

theorem sizeInv_step (c : LRUCache K V) (keys : List K) (op : LRUOp K V) (h : SizeInv c keys) :
    SizeInv (c.step op) (putKeysStep keys op) := by
  cases op with
  | clear =>
    simp only [step, putKeysStep, LRUCache.clear]
    exact ⟨by simp, by simp, by simp, by simp⟩
  | get key =>
    simp only [step, putKeysStep, get]
    cases hf : c.find key with
    | none => exact h
    | some v =>
      have hmem : key ∈ c.nodes.map Prod.fst := by
        by_contra hc
        rw [(find_eq_none_iff c key).2 hc] at hf
        exact Option.noConfusion hf
      exact sizeInv_moveToHead c keys key v h hmem
  | put key value =>
    simp only [step, putKeysStep, put]
    cases hf : c.find key with
    | some v =>
      have hmem : key ∈ c.nodes.map Prod.fst := by
        by_contra hc
        rw [(find_eq_none_iff c key).2 hc] at hf
        exact Option.noConfusion hf
      simp only [if_pos (h.sub key hmem)]
      exact sizeInv_moveToHead c keys key value h hmem
    | none =>
      have hnot : key ∉ c.nodes.map Prod.fst := (find_eq_none_iff c key).1 hf
      have hnd1 : ((key, value) :: c.nodes).map Prod.fst |>.Nodup := by
        simp only [List.map_cons, List.nodup_cons]; exact ⟨hnot, h.nodup⟩
      have hlen := h.len
      by_cases hk : key ∈ keys
      · have hsubp : (key :: c.nodes.map Prod.fst).Subperm keys := by
          apply List.Nodup.subperm
          · exact List.nodup_cons.2 ⟨hnot, h.nodup⟩
          · intro x hx
            rcases List.mem_cons.1 hx with rfl | hx
            · exact hk
            · exact h.sub x hx
        have hle := hsubp.length_le
        simp only [List.length_cons, List.length_map] at hle
        have hgt : ((key, value) :: c.nodes).length > c.capacity := by
          simp only [List.length_cons]; omega
        simp only [if_pos hk, if_pos hgt, removeTail]
        refine ⟨?_, ?_, h.keysNodup, ?_⟩
        · exact hnd1.sublist ((List.dropLast_sublist _).map Prod.fst)
        · intro k hk2
          have := ((List.dropLast_sublist _).map Prod.fst).subset hk2
          simp only [List.map_cons, List.mem_cons] at this
          rcases this with rfl | h3
          · exact hk
          · exact h.sub k h3
        · simp only [List.length_dropLast, List.length_cons]
          omega
      · simp only [if_neg hk]
        have hkn : (key :: keys).Nodup := List.nodup_cons.2 ⟨hk, h.keysNodup⟩
        by_cases hgt : ((key, value) :: c.nodes).length > c.capacity
        · simp only [if_pos hgt, removeTail]
          simp only [List.length_cons] at hgt
          refine ⟨?_, ?_, hkn, ?_⟩
          · exact hnd1.sublist ((List.dropLast_sublist _).map Prod.fst)
          · intro k hk2
            have := ((List.dropLast_sublist _).map Prod.fst).subset hk2
            simp only [List.map_cons, List.mem_cons] at this
            rcases this with rfl | h3
            · exact List.mem_cons_self _ _
            · exact List.mem_cons_of_mem _ (h.sub k h3)
          · simp only [List.length_dropLast, List.length_cons]
            omega
        · simp only [if_neg hgt]
          simp only [List.length_cons] at hgt
          refine ⟨hnd1, ?_, hkn, ?_⟩
          · intro k hk2
            simp only [List.map_cons, List.mem_cons] at hk2
            rcases hk2 with rfl | h3
            · exact List.mem_cons_self _ _
            · exact List.mem_cons_of_mem _ (h.sub k h3)
          · simp only [List.length_cons]
            omega

theorem step_capacity (c : LRUCache K V) (op : LRUOp K V) : (c.step op).capacity = c.capacity := by
  cases op with
  | clear => rfl
  | get key =>
    simp only [step, get]
    cases c.find key <;> rfl
  | put key value =>
    simp only [step, put]
    cases c.find key with
    | some v => rfl
    | none =>
      simp only
      split <;> rfl

theorem sizeInv_run (ops : List (LRUOp K V)) :
    ∀ (c : LRUCache K V) (keys : List K), SizeInv c keys →
      SizeInv (c.run ops) (ops.foldl putKeysStep keys)
        ∧ (c.run ops).capacity = c.capacity := by
  induction ops with
  | nil => intro c keys h; exact ⟨h, rfl⟩
  | cons op ops ih =>
    intro c keys h
    simp only [run, List.foldl_cons]
    have := ih (c.step op) (putKeysStep keys op) (sizeInv_step c keys op h)
    rw [step_capacity] at this
    exact this

end LRUCache

/-- Claim C20. For every capacity and every sequence of `put`, `get` and
`clear` calls on a new `LRUCache`, after the sequence (hence after each call)
`size()` is at most the capacity and is exactly the minimum of the capacity
and the number of distinct keys put since the last `clear`; this holds for
every capacity, so in particular for a capacity of at least 1. -/
theorem lruCache_size_spec {K V : Type} [DecidableEq K] (capacity : Nat)
    (ops : List (LRUOp K V)) :
    ((⟨capacity, []⟩ : LRUCache K V).run ops).size ≤ capacity
      ∧ ((⟨capacity, []⟩ : LRUCache K V).run ops).size
          = min capacity (LRUCache.putKeys ops).length := by
  have h0 : LRUCache.SizeInv (⟨capacity, []⟩ : LRUCache K V) [] :=
    ⟨by simp, by simp, by simp, by simp⟩
  obtain ⟨h, hcap⟩ := LRUCache.sizeInv_run ops _ _ h0
  have hlen := h.len
  rw [hcap] at hlen
  unfold LRUCache.size LRUCache.putKeys
  simp only at hlen
  omega

/-! ## UTF-8, UTF-16 and normalization -/

/-! ### Bit masks as arithmetic -/

set_option maxRecDepth 100000 in
theorem and_E0 : ∀ c, c < 256 → ((c &&& 0xE0 = 0xC0) ↔ (192 ≤ c ∧ c < 224)) := by decide
set_option maxRecDepth 100000 in
theorem and_F0 : ∀ c, c < 256 → ((c &&& 0xF0 = 0xE0) ↔ (224 ≤ c ∧ c < 240)) := by decide
set_option maxRecDepth 100000 in
theorem and_F8 : ∀ c, c < 256 → ((c &&& 0xF8 = 0xF0) ↔ (240 ≤ c ∧ c < 248)) := by decide
set_option maxRecDepth 100000 in
theorem and_C0 : ∀ c, c < 256 → ((c &&& 0xC0 = 0x80) ↔ (128 ≤ c ∧ c < 192)) := by decide
theorem and_1F (c : Nat) : c &&& 0x1F = c % 32 := Nat.and_pow_two_sub_one_eq_mod c 5
theorem and_0F (c : Nat) : c &&& 0x0F = c % 16 := Nat.and_pow_two_sub_one_eq_mod c 4
theorem and_07 (c : Nat) : c &&& 0x07 = c % 8 := Nat.and_pow_two_sub_one_eq_mod c 3
theorem and_3F (c : Nat) : c &&& 0x3F = c % 64 := Nat.and_pow_two_sub_one_eq_mod c 6
theorem and_3FF (c : Nat) : c &&& 0x3FF = c % 1024 := Nat.and_pow_two_sub_one_eq_mod c 10
theorem or_add_of_lt (i q b : Nat) (h : b < 2 ^ i) : (q * 2 ^ i) ||| b = q * 2 ^ i + b := by
  rw [Nat.mul_comm]
  exact (Nat.mul_add_lt_is_or h q).symm
theorem or2 (a b : Nat) (hb : b < 64) : ((a <<< 6) ||| b) = a * 64 + b := by
  rw [Nat.shiftLeft_eq]
  exact or_add_of_lt 6 a b hb
theorem or3 (a b d : Nat) (hb : b < 64) (hd : d < 64) :
    ((a <<< 12) ||| (b <<< 6) ||| d) = a * 4096 + b * 64 + d := by
  rw [Nat.shiftLeft_eq, Nat.shiftLeft_eq]
  have h1 : (a * 2 ^ 12) ||| (b * 2 ^ 6) = a * 2 ^ 12 + b * 2 ^ 6 :=
    or_add_of_lt 12 a _ (by omega)
  rw [h1]
  have h2 : a * 2 ^ 12 + b * 2 ^ 6 = (a * 64 + b) * 2 ^ 6 := by ring
  rw [h2, or_add_of_lt 6 _ d hd]
  ring
theorem or4 (a b d e : Nat) (hb : b < 64) (hd : d < 64) (he : e < 64) :
    ((a <<< 18) ||| (b <<< 12) ||| (d <<< 6) ||| e) = a * 262144 + b * 4096 + d * 64 + e := by
  rw [Nat.shiftLeft_eq, Nat.shiftLeft_eq, Nat.shiftLeft_eq]
  have h1 : (a * 2 ^ 18) ||| (b * 2 ^ 12) = a * 2 ^ 18 + b * 2 ^ 12 :=
    or_add_of_lt 18 a _ (by omega)
  rw [h1]
  have h2 : a * 2 ^ 18 + b * 2 ^ 12 = (a * 64 + b) * 2 ^ 12 := by ring
  rw [h2]
  have h3 : ((a * 64 + b) * 2 ^ 12) ||| (d * 2 ^ 6) = (a * 64 + b) * 2 ^ 12 + d * 2 ^ 6 :=
    or_add_of_lt 12 _ _ (by omega)
  rw [h3]
  have h4 : (a * 64 + b) * 2 ^ 12 + d * 2 ^ 6 = ((a * 64 + b) * 64 + d) * 2 ^ 6 := by ring
  rw [h4, or_add_of_lt 6 _ e he]
  ring
theorem or_C0 (v : Nat) (h : v < 64) : 0xC0 ||| v = 192 + v := or_add_of_lt 6 3 v h
theorem or_80 (v : Nat) (h : v < 128) : 0x80 ||| v = 128 + v := or_add_of_lt 7 1 v h
theorem or_E0 (v : Nat) (h : v < 32) : 0xE0 ||| v = 224 + v := or_add_of_lt 5 7 v h
theorem or_F0 (v : Nat) (h : v < 16) : 0xF0 ||| v = 240 + v := or_add_of_lt 4 15 v h

/-! ### One step of the UTF-8 decoder, in arithmetic form -/

theorem utf8ToUtf16SafeLoop_one (fuel c : Nat) (rest : Str) (acc : U16) (h : c < 128) :
    utf8ToUtf16SafeLoop (fuel + 1) (c :: rest) acc = utf8ToUtf16SafeLoop fuel rest (acc ++ [c]) := by
  rw [utf8ToUtf16SafeLoop, if_pos (by omega)]

theorem utf8ToUtf16SafeLoop_badLead (fuel c : Nat) (rest : Str) (acc : U16)
    (h : (128 ≤ c ∧ c < 192) ∨ (248 ≤ c ∧ c < 256)) :
    utf8ToUtf16SafeLoop (fuel + 1) (c :: rest) acc = (false, acc) := by
  have hc : c < 256 := by omega
  rw [utf8ToUtf16SafeLoop, if_neg (by omega),
    if_neg (fun h2 => by have := (and_E0 c hc).1 h2.1; omega),
    if_neg (fun h2 => by have := (and_F0 c hc).1 h2.1; omega),
    if_neg (fun h2 => by have := (and_F8 c hc).1 h2.1; omega)]

theorem utf8ToUtf16SafeLoop_two_short (fuel c : Nat) (acc : U16) (h1 : 192 ≤ c) (h2 : c < 224) :
    utf8ToUtf16SafeLoop (fuel + 1) [c] acc = (false, acc) := by
  have hc : c < 256 := by omega
  rw [utf8ToUtf16SafeLoop, if_neg (by omega), if_neg (fun h => by simp at h),
    if_neg (fun h => by simp at h), if_neg (fun h => by simp at h)]

theorem utf8ToUtf16SafeLoop_two (fuel c c2 : Nat) (r : Str) (acc : U16) (h1 : 192 ≤ c) (h2 : c < 224)
    (hb : c2 < 256) :
    utf8ToUtf16SafeLoop (fuel + 1) (c :: c2 :: r) acc =
      if 128 ≤ c2 ∧ c2 < 192 then utf8ToUtf16SafeLoop fuel r (acc ++ [c % 32 * 64 + c2 % 64])
      else (false, acc) := by
  have hc : c < 256 := by omega
  rw [utf8ToUtf16SafeLoop, if_neg (by omega),
    if_pos ⟨(and_E0 c hc).2 ⟨h1, h2⟩, by simp⟩]
  simp only [List.getD_cons_zero, List.getD_cons_succ, List.drop_succ_cons, List.drop_zero]
  by_cases hk : 128 ≤ c2 ∧ c2 < 192
  · rw [if_pos hk, if_neg (not_not.2 ((and_C0 c2 hb).2 hk)), and_1F, and_3F,
      or2 _ _ (Nat.mod_lt _ (by omega))]
  · rw [if_neg hk, if_pos (fun h => hk ((and_C0 c2 hb).1 h))]

theorem utf8ToUtf16SafeLoop_three_short (fuel c : Nat) (rest : Str) (acc : U16) (h1 : 224 ≤ c)
    (h2 : c < 240) (hl : rest.length < 2) :
    utf8ToUtf16SafeLoop (fuel + 1) (c :: rest) acc = (false, acc) := by
  have hc : c < 256 := by omega
  rw [utf8ToUtf16SafeLoop, if_neg (by omega),
    if_neg (fun h => by have := (and_E0 c hc).1 h.1; omega),
    if_neg (fun h => by have := h.2; omega),
    if_neg (fun h => by have := h.2; omega)]

theorem utf8ToUtf16SafeLoop_three (fuel c c2 c3 : Nat) (r : Str) (acc : U16) (h1 : 224 ≤ c)
    (h2 : c < 240) (hb2 : c2 < 256) (hb3 : c3 < 256) :
    utf8ToUtf16SafeLoop (fuel + 1) (c :: c2 :: c3 :: r) acc =
      if (128 ≤ c2 ∧ c2 < 192) ∧ (128 ≤ c3 ∧ c3 < 192) then
        utf8ToUtf16SafeLoop fuel r (acc ++ [c % 16 * 4096 + c2 % 64 * 64 + c3 % 64])
      else (false, acc) := by
  have hc : c < 256 := by omega
  rw [utf8ToUtf16SafeLoop, if_neg (by omega),
    if_neg (fun h => by have := (and_E0 c hc).1 h.1; omega),
    if_pos ⟨(and_F0 c hc).2 ⟨h1, h2⟩, by simp⟩]
  simp only [List.getD_cons_zero, List.getD_cons_succ, List.drop_succ_cons, List.drop_zero]
  by_cases hk : (128 ≤ c2 ∧ c2 < 192) ∧ (128 ≤ c3 ∧ c3 < 192)
  · rw [if_pos hk, if_neg (by
      rw [not_or, not_not, not_not]
      exact ⟨(and_C0 c2 hb2).2 hk.1, (and_C0 c3 hb3).2 hk.2⟩), and_0F, and_3F, and_3F,
      or3 _ _ _ (Nat.mod_lt _ (by omega)) (Nat.mod_lt _ (by omega))]
  · rw [if_neg hk, if_pos (by
      by_contra hn
      rw [not_or, not_not, not_not] at hn
      exact hk ⟨(and_C0 c2 hb2).1 hn.1, (and_C0 c3 hb3).1 hn.2⟩)]

theorem utf8ToUtf16SafeLoop_four_short (fuel c : Nat) (rest : Str) (acc : U16) (h1 : 240 ≤ c)
    (h2 : c < 248) (hl : rest.length < 3) :
    utf8ToUtf16SafeLoop (fuel + 1) (c :: rest) acc = (false, acc) := by
  have hc : c < 256 := by omega
  rw [utf8ToUtf16SafeLoop, if_neg (by omega),
    if_neg (fun h => by have := (and_E0 c hc).1 h.1; omega),
    if_neg (fun h => by have := (and_F0 c hc).1 h.1; omega),
    if_neg (fun h => by have := h.2; omega)]

theorem utf8ToUtf16SafeLoop_four (fuel c c2 c3 c4 : Nat) (r : Str) (acc : U16) (h1 : 240 ≤ c)
    (h2 : c < 248) (hb2 : c2 < 256) (hb3 : c3 < 256) (hb4 : c4 < 256) :
    utf8ToUtf16SafeLoop (fuel + 1) (c :: c2 :: c3 :: c4 :: r) acc =
      if (128 ≤ c2 ∧ c2 < 192) ∧ (128 ≤ c3 ∧ c3 < 192) ∧ (128 ≤ c4 ∧ c4 < 192) then
        if c % 8 * 262144 + c2 % 64 * 4096 + c3 % 64 * 64 + c4 % 64 > 0x10FFFF then (false, acc)
        else if c % 8 * 262144 + c2 % 64 * 4096 + c3 % 64 * 64 + c4 % 64 > 0xFFFF then
          utf8ToUtf16SafeLoop fuel r (acc ++
            [(c % 8 * 262144 + c2 % 64 * 4096 + c3 % 64 * 64 + c4 % 64 - 0x10000) / 1024 + 0xD800,
             (c % 8 * 262144 + c2 % 64 * 4096 + c3 % 64 * 64 + c4 % 64 - 0x10000) % 1024
               + 0xDC00])
        else utf8ToUtf16SafeLoop fuel r
          (acc ++ [c % 8 * 262144 + c2 % 64 * 4096 + c3 % 64 * 64 + c4 % 64])
      else (false, acc) := by
  have hc : c < 256 := by omega
  rw [utf8ToUtf16SafeLoop, if_neg (by omega),
    if_neg (fun h => by have := (and_E0 c hc).1 h.1; omega),
    if_neg (fun h => by have := (and_F0 c hc).1 h.1; omega),
    if_pos ⟨(and_F8 c hc).2 ⟨h1, h2⟩, by simp⟩]
  simp only [List.getD_cons_zero, List.getD_cons_succ, List.drop_succ_cons, List.drop_zero]
  by_cases hk : (128 ≤ c2 ∧ c2 < 192) ∧ (128 ≤ c3 ∧ c3 < 192) ∧ (128 ≤ c4 ∧ c4 < 192)
  · rw [if_pos hk, if_neg (by
      rw [not_or, not_or, not_not, not_not, not_not]
      exact ⟨(and_C0 c2 hb2).2 hk.1, (and_C0 c3 hb3).2 hk.2.1, (and_C0 c4 hb4).2 hk.2.2⟩),
      and_07, and_3F, and_3F, and_3F,
      or4 _ _ _ _ (Nat.mod_lt _ (by omega)) (Nat.mod_lt _ (by omega)) (Nat.mod_lt _ (by omega)),
      and_3FF, Nat.shiftRight_eq_div_pow]
  · rw [if_neg hk, if_pos (by
      by_contra hn
      rw [not_or, not_or, not_not, not_not, not_not] at hn
      exact hk ⟨(and_C0 c2 hb2).1 hn.1, (and_C0 c3 hb3).1 hn.2.1, (and_C0 c4 hb4).1 hn.2.2⟩)]

/-! ### One step of the UTF-8 encoder, in arithmetic form -/

theorem utf16ToUtf8SafeLoop_one (fuel c : Nat) (rest : U16) (acc : Str) (h : c < 128) :
    utf16ToUtf8SafeLoop (fuel + 1) (c :: rest) acc = utf16ToUtf8SafeLoop fuel rest (acc ++ [c]) := by
  rw [utf16ToUtf8SafeLoop, if_pos (by omega)]

theorem utf16ToUtf8SafeLoop_two (fuel c : Nat) (rest : U16) (acc : Str) (h1 : 128 ≤ c)
    (h2 : c < 2048) :
    utf16ToUtf8SafeLoop (fuel + 1) (c :: rest) acc
      = utf16ToUtf8SafeLoop fuel rest (acc ++ [192 + c / 64, 128 + c % 64]) := by
  rw [utf16ToUtf8SafeLoop, if_neg (by omega), if_pos (by omega), and_1F, and_3F,
    Nat.shiftRight_eq_div_pow, or_C0 _ (by omega), or_80 _ (by omega)]
  have : c / 2 ^ 6 % 32 = c / 64 := by omega
  rw [this]

theorem utf16ToUtf8SafeLoop_three (fuel c : Nat) (rest : U16) (acc : Str) (h1 : 2048 ≤ c)
    (h2 : c < 65536) (h3 : c < 0xD800 ∨ 0xDFFF < c) :
    utf16ToUtf8SafeLoop (fuel + 1) (c :: rest) acc
      = utf16ToUtf8SafeLoop fuel rest (acc ++ [224 + c / 4096, 128 + c / 64 % 64, 128 + c % 64]) := by
  rw [utf16ToUtf8SafeLoop, if_neg (by omega), if_neg (by omega), if_pos (by omega), and_0F,
    and_3F, and_3F, Nat.shiftRight_eq_div_pow, Nat.shiftRight_eq_div_pow,
    or_E0 _ (by omega), or_80 _ (by omega), or_80 _ (by omega)]
  have : c / 2 ^ 12 % 16 = c / 4096 := by omega
  rw [this]

theorem utf16ToUtf8SafeLoop_badUnit (fuel c : Nat) (rest : U16) (acc : Str) (h1 : 0xDC00 ≤ c)
    (h2 : c ≤ 0xDFFF) :
    utf16ToUtf8SafeLoop (fuel + 1) (c :: rest) acc = (false, acc) := by
  rw [utf16ToUtf8SafeLoop, if_neg (by omega), if_neg (by omega), if_neg (by omega),
    if_neg (by omega)]

theorem utf16ToUtf8SafeLoop_high_short (fuel c : Nat) (acc : Str) (h1 : 0xD800 ≤ c)
    (h2 : c ≤ 0xDBFF) :
    utf16ToUtf8SafeLoop (fuel + 1) [c] acc = (false, acc) := by
  rw [utf16ToUtf8SafeLoop, if_neg (by omega), if_neg (by omega), if_neg (by omega),
    if_neg (by simp)]

theorem utf16ToUtf8SafeLoop_pair (fuel c low : Nat) (r : U16) (acc : Str) (h1 : 0xD800 ≤ c)
    (h2 : c ≤ 0xDBFF) :
    utf16ToUtf8SafeLoop (fuel + 1) (c :: low :: r) acc =
      if 0xDC00 ≤ low ∧ low ≤ 0xDFFF then
        utf16ToUtf8SafeLoop fuel r (acc ++
          [240 + (0x10000 + (c - 0xD800) * 1024 + (low - 0xDC00)) / 262144,
           128 + (0x10000 + (c - 0xD800) * 1024 + (low - 0xDC00)) / 4096 % 64,
           128 + (0x10000 + (c - 0xD800) * 1024 + (low - 0xDC00)) / 64 % 64,
           128 + (0x10000 + (c - 0xD800) * 1024 + (low - 0xDC00)) % 64])
      else (false, acc) := by
  rw [utf16ToUtf8SafeLoop, if_neg (by omega), if_neg (by omega), if_neg (by omega),
    if_pos ⟨h1, h2, by simp⟩]
  simp only [List.getD_cons_zero, List.getD_cons_succ, List.drop_succ_cons, List.drop_zero]
  by_cases hk : 0xDC00 ≤ low ∧ low ≤ 0xDFFF
  · rw [if_pos hk, if_neg (by omega), and_07, and_3F, and_3F, and_3F,
      Nat.shiftRight_eq_div_pow, Nat.shiftRight_eq_div_pow, Nat.shiftRight_eq_div_pow,
      Nat.shiftLeft_eq, or_F0 _ (by omega), or_80 _ (by omega), or_80 _ (by omega),
      or_80 _ (by omega)]
    have : (0x10000 + (c - 0xD800) * 2 ^ 10 + (low - 0xDC00)) / 2 ^ 18 % 8
        = (0x10000 + (c - 0xD800) * 1024 + (low - 0xDC00)) / 262144 := by omega
    rw [this]
  · rw [if_neg hk, if_pos (by omega)]

/-! ### The UTF-32 helper -/

theorem utf8_to_utf32_loop_nil (fuel : Nat) : utf8_to_utf32_loop fuel [] = [] := by
  cases fuel <;> rfl

theorem utf8_to_utf32_loop_one (fuel c : Nat) (rest : Str) (h : c < 128) :
    utf8_to_utf32_loop (fuel + 1) (c :: rest) = c :: utf8_to_utf32_loop fuel rest := by
  have h0 : c ≤ 0x7F := by omega
  rcases rest with _ | ⟨b1, _ | ⟨b2, _ | ⟨b3, r⟩⟩⟩ <;>
    simp only [utf8_to_utf32_loop, if_pos h0]

theorem utf8_to_utf32_loop_skip (fuel c : Nat) (rest : Str)
    (h : (128 ≤ c ∧ c < 192) ∨ (248 ≤ c ∧ c < 256)) :
    utf8_to_utf32_loop (fuel + 1) (c :: rest) = utf8_to_utf32_loop fuel rest := by
  have hc : c < 256 := by omega
  have h0 : ¬ c ≤ 0x7F := by omega
  have h1 : ¬ c &&& 0xE0 = 0xC0 := fun h2 => by have := (and_E0 c hc).1 h2; omega
  have h2 : ¬ c &&& 0xF0 = 0xE0 := fun h2 => by have := (and_F0 c hc).1 h2; omega
  have h3 : ¬ c &&& 0xF8 = 0xF0 := fun h2 => by have := (and_F8 c hc).1 h2; omega
  rcases rest with _ | ⟨b1, _ | ⟨b2, _ | ⟨b3, r⟩⟩⟩ <;>
    simp only [utf8_to_utf32_loop, if_neg h0, if_neg h1, if_neg h2, if_neg h3]

theorem utf8_to_utf32_loop_two_short (fuel c : Nat) (h1 : 192 ≤ c) (h2 : c < 224) :
    utf8_to_utf32_loop (fuel + 1) [c] = [] := by
  have hc : c < 256 := by omega
  have h0 : ¬ c ≤ 0x7F := by omega
  have h3 : c &&& 0xE0 = 0xC0 := (and_E0 c hc).2 ⟨h1, h2⟩
  simp only [utf8_to_utf32_loop, if_neg h0, if_pos h3]

theorem utf8_to_utf32_loop_two (fuel c b1 : Nat) (r : Str) (h1 : 192 ≤ c) (h2 : c < 224) :
    utf8_to_utf32_loop (fuel + 1) (c :: b1 :: r)
      = (c % 32 * 64 + b1 % 64) :: utf8_to_utf32_loop fuel r := by
  have hc : c < 256 := by omega
  have h0 : ¬ c ≤ 0x7F := by omega
  have h3 : c &&& 0xE0 = 0xC0 := (and_E0 c hc).2 ⟨h1, h2⟩
  have e : ((c &&& 0x1F) <<< 6) ||| (b1 &&& 0x3F) = c % 32 * 64 + b1 % 64 := by
    rw [and_1F, and_3F, or2 _ _ (Nat.mod_lt _ (by omega))]
  rcases r with _ | ⟨b2, _ | ⟨b3, r⟩⟩ <;>
    simp only [utf8_to_utf32_loop, if_neg h0, if_pos h3, e]

theorem utf8_to_utf32_loop_three_short (fuel c : Nat) (rest : Str) (h1 : 224 ≤ c) (h2 : c < 240)
    (hl : rest.length < 2) : utf8_to_utf32_loop (fuel + 1) (c :: rest) = [] := by
  have hc : c < 256 := by omega
  have h0 : ¬ c ≤ 0x7F := by omega
  have h3 : ¬ c &&& 0xE0 = 0xC0 := fun h => by have := (and_E0 c hc).1 h; omega
  have h4 : c &&& 0xF0 = 0xE0 := (and_F0 c hc).2 ⟨h1, h2⟩
  rcases rest with _ | ⟨b1, _ | ⟨b2, r⟩⟩
  · simp only [utf8_to_utf32_loop, if_neg h0, if_neg h3, if_pos h4]
  · simp only [utf8_to_utf32_loop, if_neg h0, if_neg h3, if_pos h4]
  · simp only [List.length_cons] at hl; omega

theorem utf8_to_utf32_loop_three (fuel c b1 b2 : Nat) (r : Str) (h1 : 224 ≤ c) (h2 : c < 240) :
    utf8_to_utf32_loop (fuel + 1) (c :: b1 :: b2 :: r)
      = (c % 16 * 4096 + b1 % 64 * 64 + b2 % 64) :: utf8_to_utf32_loop fuel r := by
  have hc : c < 256 := by omega
  have h0 : ¬ c ≤ 0x7F := by omega
  have h3 : ¬ c &&& 0xE0 = 0xC0 := fun h => by have := (and_E0 c hc).1 h; omega
  have h4 : c &&& 0xF0 = 0xE0 := (and_F0 c hc).2 ⟨h1, h2⟩
  have e : ((c &&& 0x0F) <<< 12) ||| ((b1 &&& 0x3F) <<< 6) ||| (b2 &&& 0x3F)
      = c % 16 * 4096 + b1 % 64 * 64 + b2 % 64 := by
    rw [and_0F, and_3F, and_3F, or3 _ _ _ (Nat.mod_lt _ (by omega)) (Nat.mod_lt _ (by omega))]
  rcases r with _ | ⟨b3, r⟩ <;>
    simp only [utf8_to_utf32_loop, if_neg h0, if_neg h3, if_pos h4, e]

theorem utf8_to_utf32_loop_four_short (fuel c : Nat) (rest : Str) (h1 : 240 ≤ c) (h2 : c < 248)
    (hl : rest.length < 3) : utf8_to_utf32_loop (fuel + 1) (c :: rest) = [] := by
  have hc : c < 256 := by omega
  have h0 : ¬ c ≤ 0x7F := by omega
  have h3 : ¬ c &&& 0xE0 = 0xC0 := fun h => by have := (and_E0 c hc).1 h; omega
  have h4 : ¬ c &&& 0xF0 = 0xE0 := fun h => by have := (and_F0 c hc).1 h; omega
  have h5 : c &&& 0xF8 = 0xF0 := (and_F8 c hc).2 ⟨h1, h2⟩
  rcases rest with _ | ⟨b1, _ | ⟨b2, _ | ⟨b3, r⟩⟩⟩
  · simp only [utf8_to_utf32_loop, if_neg h0, if_neg h3, if_neg h4, if_pos h5]
  · simp only [utf8_to_utf32_loop, if_neg h0, if_neg h3, if_neg h4, if_pos h5]
  · simp only [utf8_to_utf32_loop, if_neg h0, if_neg h3, if_neg h4, if_pos h5]
  · simp only [List.length_cons] at hl; omega

theorem utf8_to_utf32_loop_four (fuel c b1 b2 b3 : Nat) (r : Str) (h1 : 240 ≤ c)
    (h2 : c < 248) :
    utf8_to_utf32_loop (fuel + 1) (c :: b1 :: b2 :: b3 :: r)
      = (c % 8 * 262144 + b1 % 64 * 4096 + b2 % 64 * 64 + b3 % 64)
          :: utf8_to_utf32_loop fuel r := by
  have hc : c < 256 := by omega
  have h0 : ¬ c ≤ 0x7F := by omega
  have h3 : ¬ c &&& 0xE0 = 0xC0 := fun h => by have := (and_E0 c hc).1 h; omega
  have h4 : ¬ c &&& 0xF0 = 0xE0 := fun h => by have := (and_F0 c hc).1 h; omega
  have h5 : c &&& 0xF8 = 0xF0 := (and_F8 c hc).2 ⟨h1, h2⟩
  have e : ((c &&& 0x07) <<< 18) ||| ((b1 &&& 0x3F) <<< 12) ||| ((b2 &&& 0x3F) <<< 6)
      ||| (b3 &&& 0x3F) = c % 8 * 262144 + b1 % 64 * 4096 + b2 % 64 * 64 + b3 % 64 := by
    rw [and_07, and_3F, and_3F, and_3F,
      or4 _ _ _ _ (Nat.mod_lt _ (by omega)) (Nat.mod_lt _ (by omega)) (Nat.mod_lt _ (by omega))]
  simp only [utf8_to_utf32_loop, if_neg h0, if_neg h3, if_neg h4, if_pos h5, e]

/-- Iterations beyond the length of the input change nothing. -/
theorem utf8_to_utf32_loop_fuel :
    ∀ (f1 f2 : Nat) (s : Str), s.length ≤ f1 → s.length ≤ f2 →
      utf8_to_utf32_loop f1 s = utf8_to_utf32_loop f2 s := by
  intro f1
  induction f1 with
  | zero =>
    intro f2 s h1 _
    have : s = [] := List.length_eq_zero.1 (by omega)
    subst this
    rw [utf8_to_utf32_loop_nil, utf8_to_utf32_loop_nil]
  | succ g1 ih =>
    intro f2 s h1 h2
    rcases s with _ | ⟨c, rest⟩
    · rw [utf8_to_utf32_loop_nil, utf8_to_utf32_loop_nil]
    · simp only [List.length_cons] at h1 h2
      obtain ⟨g2, rfl⟩ : ∃ g, f2 = g + 1 := ⟨f2 - 1, by omega⟩
      have e0 := ih g2 rest (by omega) (by omega)
      rcases rest with _ | ⟨b1, r1⟩
      · simp only [utf8_to_utf32_loop, e0]
      · simp only [List.length_cons] at h1 h2
        have e1 := ih g2 r1 (by omega) (by omega)
        rcases r1 with _ | ⟨b2, r2⟩
        · simp only [utf8_to_utf32_loop, e0, e1]
        · simp only [List.length_cons] at h1 h2
          have e2 := ih g2 r2 (by omega) (by omega)
          rcases r2 with _ | ⟨b3, r3⟩
          · simp only [utf8_to_utf32_loop, e0, e1, e2]
          · simp only [List.length_cons] at h1 h2
            have e3 := ih g2 r3 (by omega) (by omega)
            simp only [utf8_to_utf32_loop, e0, e1, e2, e3]

/-! ### The decoder, sequence by sequence -/

theorem utf8ToUtf16SafeLoop_nil (fuel : Nat) (acc : U16) :
    utf8ToUtf16SafeLoop fuel [] acc = (true, acc) := by
  cases fuel <;> rfl

theorem utf16ToUtf8SafeLoop_nil (fuel : Nat) (acc : Str) :
    utf16ToUtf8SafeLoop fuel [] acc = (true, acc) := by
  cases fuel <;> rfl

/-- The first sequence of a byte string: either the decoder fails on it, or it
decodes it to one or two units, whatever follows. -/
theorem utf8ToUtf16SafeLoop_head (c : Nat) (rest : Str) (hc : c < 256)
    (hr : ∀ b ∈ rest, b < 256) :
    (∀ fuel acc, utf8ToUtf16SafeLoop (fuel + 1) (c :: rest) acc = (false, acc)) ∨
    ∃ (p : Str) (units : U16) (r : Str), c :: rest = p ++ r ∧ 0 < p.length
      ∧ (∀ x ∈ units, x < 65536)
      ∧ (∀ fuel r2 acc, utf8ToUtf16SafeLoop (fuel + 1) (p ++ r2) acc
          = utf8ToUtf16SafeLoop fuel r2 (acc ++ units))
      ∧ ∃ cps : U32, units = cps.flatMap utf16Units
        ∧ ∀ fuel r2, utf8_to_utf32_loop (fuel + 1) (p ++ r2)
            = cps ++ utf8_to_utf32_loop fuel r2 := by
  by_cases h1 : c < 128
  · right
    refine ⟨[c], [c], rest, rfl, by simp, by simp; omega, ?_, [c], ?_, ?_⟩
    · intro fuel r2 acc
      exact utf8ToUtf16SafeLoop_one fuel c r2 acc h1
    · have e : utf16Units c = [c] := by unfold utf16Units; rw [if_neg (by omega)]
      simp [e]
    · intro fuel r2
      exact utf8_to_utf32_loop_one fuel c r2 h1
  by_cases h2 : c < 192
  · left
    intro fuel acc
    exact utf8ToUtf16SafeLoop_badLead fuel c rest acc (Or.inl ⟨by omega, h2⟩)
  by_cases h3 : c < 224
  · rcases rest with _ | ⟨c2, r⟩
    · left
      intro fuel acc
      exact utf8ToUtf16SafeLoop_two_short fuel c acc (by omega) h3
    · have hb2 : c2 < 256 := hr c2 (by simp)
      by_cases hk : 128 ≤ c2 ∧ c2 < 192
      · right
        refine ⟨[c, c2], [c % 32 * 64 + c2 % 64], r, rfl, by simp, by simp; omega, ?_,
          [c % 32 * 64 + c2 % 64], ?_, ?_⟩
        · intro fuel r2 acc
          have := utf8ToUtf16SafeLoop_two fuel c c2 r2 acc (by omega) h3 hb2
          rw [if_pos hk] at this
          exact this
        · have e : utf16Units (c % 32 * 64 + c2 % 64) = [c % 32 * 64 + c2 % 64] := by
            unfold utf16Units; rw [if_neg (by omega)]
          simp [e]
        · intro fuel r2
          exact utf8_to_utf32_loop_two fuel c c2 r2 (by omega) h3
      · left
        intro fuel acc
        have := utf8ToUtf16SafeLoop_two fuel c c2 r acc (by omega) h3 hb2
        rw [if_neg hk] at this
        exact this
  by_cases h4 : c < 240
  · rcases rest with _ | ⟨c2, _ | ⟨c3, r⟩⟩
    · left
      intro fuel acc
      exact utf8ToUtf16SafeLoop_three_short fuel c [] acc (by omega) h4 (by simp)
    · left
      intro fuel acc
      exact utf8ToUtf16SafeLoop_three_short fuel c [c2] acc (by omega) h4 (by simp)
    · have hb2 : c2 < 256 := hr c2 (by simp)
      have hb3 : c3 < 256 := hr c3 (by simp)
      by_cases hk : (128 ≤ c2 ∧ c2 < 192) ∧ (128 ≤ c3 ∧ c3 < 192)
      · right
        refine ⟨[c, c2, c3], [c % 16 * 4096 + c2 % 64 * 64 + c3 % 64], r, rfl, by simp,
          by simp; omega, ?_, [c % 16 * 4096 + c2 % 64 * 64 + c3 % 64], ?_, ?_⟩
        · intro fuel r2 acc
          have := utf8ToUtf16SafeLoop_three fuel c c2 c3 r2 acc (by omega) h4 hb2 hb3
          rw [if_pos hk] at this
          exact this
        · have e : utf16Units (c % 16 * 4096 + c2 % 64 * 64 + c3 % 64) = [c % 16 * 4096 + c2 % 64 * 64 + c3 % 64] := by
            unfold utf16Units; rw [if_neg (by omega)]
          simp [e]
        · intro fuel r2
          exact utf8_to_utf32_loop_three fuel c c2 c3 r2 (by omega) h4
      · left
        intro fuel acc
        have := utf8ToUtf16SafeLoop_three fuel c c2 c3 r acc (by omega) h4 hb2 hb3
        rw [if_neg hk] at this
        exact this
  by_cases h5 : c < 248
  · rcases rest with _ | ⟨c2, _ | ⟨c3, _ | ⟨c4, r⟩⟩⟩
    · left
      intro fuel acc
      exact utf8ToUtf16SafeLoop_four_short fuel c [] acc (by omega) h5 (by simp)
    · left
      intro fuel acc
      exact utf8ToUtf16SafeLoop_four_short fuel c [c2] acc (by omega) h5 (by simp)
    · left
      intro fuel acc
      exact utf8ToUtf16SafeLoop_four_short fuel c [c2, c3] acc (by omega) h5 (by simp)
    · have hb2 : c2 < 256 := hr c2 (by simp)
      have hb3 : c3 < 256 := hr c3 (by simp)
      have hb4 : c4 < 256 := hr c4 (by simp)
      by_cases hk : (128 ≤ c2 ∧ c2 < 192) ∧ (128 ≤ c3 ∧ c3 < 192) ∧ (128 ≤ c4 ∧ c4 < 192)
      · by_cases hbig : c % 8 * 262144 + c2 % 64 * 4096 + c3 % 64 * 64 + c4 % 64 > 0x10FFFF
        · left
          intro fuel acc
          have := utf8ToUtf16SafeLoop_four fuel c c2 c3 c4 r acc (by omega) h5 hb2 hb3 hb4
          rw [if_pos hk, if_pos hbig] at this
          exact this
        · by_cases hsup : c % 8 * 262144 + c2 % 64 * 4096 + c3 % 64 * 64 + c4 % 64 > 0xFFFF
          · right
            refine ⟨[c, c2, c3, c4],
              [(c % 8 * 262144 + c2 % 64 * 4096 + c3 % 64 * 64 + c4 % 64 - 0x10000) / 1024
                  + 0xD800,
               (c % 8 * 262144 + c2 % 64 * 4096 + c3 % 64 * 64 + c4 % 64 - 0x10000) % 1024
                  + 0xDC00], r, rfl, by simp, ?_, ?_,
              [c % 8 * 262144 + c2 % 64 * 4096 + c3 % 64 * 64 + c4 % 64], ?_, ?_⟩
            · intro x hx
              simp only [List.mem_cons, List.mem_singleton, List.not_mem_nil, or_false] at hx
              omega
            · intro fuel r2 acc
              have := utf8ToUtf16SafeLoop_four fuel c c2 c3 c4 r2 acc (by omega) h5 hb2 hb3 hb4
              rw [if_pos hk, if_neg hbig, if_pos hsup] at this
              exact this
            · simp [utf16Units, hsup]
            · intro fuel r2
              exact utf8_to_utf32_loop_four fuel c c2 c3 c4 r2 (by omega) h5
          · right
            refine ⟨[c, c2, c3, c4],
              [c % 8 * 262144 + c2 % 64 * 4096 + c3 % 64 * 64 + c4 % 64], r, rfl, by simp,
              ?_, ?_, [c % 8 * 262144 + c2 % 64 * 4096 + c3 % 64 * 64 + c4 % 64], ?_, ?_⟩
            · intro x hx
              simp only [List.mem_singleton] at hx
              omega
            · intro fuel r2 acc
              have := utf8ToUtf16SafeLoop_four fuel c c2 c3 c4 r2 acc (by omega) h5 hb2 hb3 hb4
              rw [if_pos hk, if_neg hbig, if_neg hsup] at this
              exact this
            · simp [utf16Units, hsup]
            · intro fuel r2
              exact utf8_to_utf32_loop_four fuel c c2 c3 c4 r2 (by omega) h5
      · left
        intro fuel acc
        have := utf8ToUtf16SafeLoop_four fuel c c2 c3 c4 r acc (by omega) h5 hb2 hb3 hb4
        rw [if_neg hk] at this
        exact this
  · left
    intro fuel acc
    exact utf8ToUtf16SafeLoop_badLead fuel c rest acc (Or.inr ⟨by omega, hc⟩)

/-- Iterations beyond the length of the input change nothing. -/
theorem utf8ToUtf16SafeLoop_fuel :
    ∀ (n : Nat) (s : Str), s.length ≤ n → (∀ b ∈ s, b < 256) → ∀ (f1 f2 : Nat) (acc : U16),
      s.length ≤ f1 → s.length ≤ f2 →
      utf8ToUtf16SafeLoop f1 s acc = utf8ToUtf16SafeLoop f2 s acc := by
  intro n
  induction n with
  | zero =>
    intro s hs _ f1 f2 acc _ _
    have : s = [] := List.length_eq_zero.1 (by omega)
    subst this
    rw [utf8ToUtf16SafeLoop_nil, utf8ToUtf16SafeLoop_nil]
  | succ n ih =>
    intro s hs hb f1 f2 acc h1 h2
    rcases s with _ | ⟨c, rest⟩
    · rw [utf8ToUtf16SafeLoop_nil, utf8ToUtf16SafeLoop_nil]
    · simp only [List.length_cons] at hs h1 h2
      obtain ⟨g1, rfl⟩ : ∃ g, f1 = g + 1 := ⟨f1 - 1, by omega⟩
      obtain ⟨g2, rfl⟩ : ∃ g, f2 = g + 1 := ⟨f2 - 1, by omega⟩
      rcases utf8ToUtf16SafeLoop_head c rest (hb c (by simp))
          (fun b h => hb b (List.mem_cons_of_mem _ h)) with hfail | ⟨p, units, r, hpr, hp, _, hstep, _⟩
      · rw [hfail, hfail]
      · rw [hpr, hstep, hstep]
        have hlen : p.length + r.length = rest.length + 1 := by
          have := congrArg List.length hpr
          simp only [List.length_cons, List.length_append] at this
          omega
        have hbr : ∀ b ∈ r, b < 256 := by
          intro b hbm
          apply hb
          rw [hpr]
          exact List.mem_append_right _ hbm
        exact ih r (by omega) hbr g1 g2 _ (by omega) (by omega)

/-- A successfully decoded prefix is decoded the same way whatever follows. -/
theorem utf8ToUtf16SafeLoop_append :
    ∀ (n : Nat) (pre : Str), pre.length ≤ n → ∀ (rest : Str),
      (∀ b ∈ pre ++ rest, b < 256) → ∀ (acc u : U16),
      utf8ToUtf16SafeLoop pre.length pre acc = (true, u) →
      utf8ToUtf16SafeLoop (pre ++ rest).length (pre ++ rest) acc
        = utf8ToUtf16SafeLoop rest.length rest u := by
  intro n
  induction n with
  | zero =>
    intro pre hs rest _ acc u h
    have : pre = [] := List.length_eq_zero.1 (by omega)
    subst this
    rw [utf8ToUtf16SafeLoop_nil] at h
    simp only [Prod.mk.injEq, true_and] at h
    subst h
    rfl
  | succ n ih =>
    intro pre hs rest hb acc u h
    rcases pre with _ | ⟨c, t⟩
    · rw [utf8ToUtf16SafeLoop_nil] at h
      simp only [Prod.mk.injEq, true_and] at h
      subst h
      rfl
    · have hbt : ∀ b ∈ t, b < 256 := fun b hm => hb b (by simp [hm])
      rcases utf8ToUtf16SafeLoop_head c t (hb c (by simp)) hbt with
        hfail | ⟨p, units, r, hpr, hp, _, hstep, _⟩
      · simp only [List.length_cons] at h
        rw [hfail] at h
        simp at h
      · have hlen : p.length + r.length = t.length + 1 := by
          have := congrArg List.length hpr
          simp only [List.length_cons, List.length_append] at this
          omega
        have hbr : ∀ b ∈ r ++ rest, b < 256 := by
          intro b hbm
          apply hb
          rw [hpr, List.append_assoc]
          exact List.mem_append_right _ hbm
        have hbr1 : ∀ b ∈ r, b < 256 := fun b hm => hbr b (List.mem_append_left _ hm)
        simp only [List.length_cons] at h hs
        rw [hpr, hstep,
          utf8ToUtf16SafeLoop_fuel r.length r (le_refl _) hbr1 t.length r.length _ (by omega)
            (le_refl _)] at h
        have key := ih r (by omega) rest hbr (acc ++ units) u h
        rw [hpr, List.append_assoc]
        have hl2 : (p ++ (r ++ rest)).length = (r ++ rest).length + (p.length - 1) + 1 := by
          simp only [List.length_append]; omega
        rw [hl2, hstep,
          utf8ToUtf16SafeLoop_fuel (r ++ rest).length (r ++ rest) (le_refl _) hbr
            ((r ++ rest).length + (p.length - 1)) (r ++ rest).length _ (by omega) (le_refl _)]
        exact key

theorem utf8ToUtf16Safe_eq (s : Str) :
    utf8ToUtf16Safe s = utf8ToUtf16SafeLoop s.length s [] := by
  unfold utf8ToUtf16Safe
  rcases s with _ | ⟨c, t⟩
  · rfl
  · rfl

theorem utf16ToUtf8Safe_eq (u : U16) :
    utf16ToUtf8Safe u = utf16ToUtf8SafeLoop u.length u [] := by
  unfold utf16ToUtf8Safe
  rcases u with _ | ⟨c, t⟩
  · rfl
  · rfl

/-- Every unit the decoder pushes is a 16-bit value. -/
theorem utf8ToUtf16SafeLoop_units :
    ∀ (n : Nat) (s : Str), s.length ≤ n → (∀ b ∈ s, b < 256) → ∀ (acc : U16),
      (∀ x ∈ acc, x < 65536) →
      ∀ x ∈ (utf8ToUtf16SafeLoop s.length s acc).2, x < 65536 := by
  intro n
  induction n with
  | zero =>
    intro s hs _ acc hacc
    have : s = [] := List.length_eq_zero.1 (by omega)
    subst this
    exact hacc
  | succ n ih =>
    intro s hs hb acc hacc
    rcases s with _ | ⟨c, t⟩
    · exact hacc
    · have hbt : ∀ b ∈ t, b < 256 := fun b hm => hb b (by simp [hm])
      rcases utf8ToUtf16SafeLoop_head c t (hb c (by simp)) hbt with
        hfail | ⟨p, units, r, hpr, hp, hunits, hstep, _⟩
      · simp only [List.length_cons]
        rw [hfail]
        exact hacc
      · have hlen : p.length + r.length = t.length + 1 := by
          have := congrArg List.length hpr
          simp only [List.length_cons, List.length_append] at this
          omega
        have hbr : ∀ b ∈ r, b < 256 := by
          intro b hbm
          apply hb
          rw [hpr]
          exact List.mem_append_right _ hbm
        simp only [List.length_cons] at hs ⊢
        rw [hpr, hstep,
          utf8ToUtf16SafeLoop_fuel r.length r (le_refl _) hbr t.length r.length _ (by omega)
            (le_refl _)]
        apply ih r (by omega) hbr
        intro x hx
        rcases List.mem_append.1 hx with h | h
        · exact hacc x h
        · exact hunits x h

/-! ### Round trips -/

/-- Decoding a concatenation of well-formed sequences succeeds, and encoding
the result gives the bytes back. -/
theorem utf8_roundtrip_parts :
    ∀ (parts : List Str), (∀ p ∈ parts, wellFormedSequence p = true) →
      ∀ (fuel : Nat) (acc16 : U16), parts.flatten.length ≤ fuel →
      ∃ u : U16, utf8ToUtf16SafeLoop fuel parts.flatten acc16 = (true, acc16 ++ u)
        ∧ ∀ (fuel2 : Nat) (acc8 : Str), u.length ≤ fuel2 →
            utf16ToUtf8SafeLoop fuel2 u acc8 = (true, acc8 ++ parts.flatten) := by
  intro parts
  induction parts with
  | nil =>
    intro _ fuel acc16 _
    refine ⟨[], ?_, ?_⟩
    · simp [utf8ToUtf16SafeLoop_nil]
    · intro fuel2 acc8 _
      simp [utf16ToUtf8SafeLoop_nil]
  | cons p ps ih =>
    intro hwf fuel acc16 hfuel
    have hp := hwf p (List.mem_cons_self _ _)
    have ihps := ih (fun q hq => hwf q (List.mem_cons_of_mem _ hq))
    simp only [List.flatten_cons, List.length_append] at hfuel ⊢
    rcases p with _ | ⟨c, _ | ⟨c2, _ | ⟨c3, _ | ⟨c4, _ | ⟨c5, t⟩⟩⟩⟩⟩
    · simp [wellFormedSequence] at hp
    · -- one byte
      simp only [wellFormedSequence, decide_eq_true_eq] at hp
      simp only [List.length_cons, List.length_nil] at hfuel
      obtain ⟨g, rfl⟩ : ∃ g, fuel = g + 1 := ⟨fuel - 1, by omega⟩
      obtain ⟨u, hu, henc⟩ := ihps g (acc16 ++ [c]) (by omega)
      refine ⟨c :: u, ?_, ?_⟩
      · rw [List.singleton_append, utf8ToUtf16SafeLoop_one g c _ _ (by omega), hu]
        simp
      · intro fuel2 acc8 hl
        simp only [List.length_cons] at hl
        obtain ⟨g2, rfl⟩ : ∃ g, fuel2 = g + 1 := ⟨fuel2 - 1, by omega⟩
        rw [utf16ToUtf8SafeLoop_one g2 c _ _ (by omega), henc g2 _ (by omega)]
        simp
    · -- two bytes
      simp only [wellFormedSequence, isContinuation, Bool.and_eq_true, decide_eq_true_eq] at hp
      simp only [List.length_cons, List.length_nil] at hfuel
      obtain ⟨g, rfl⟩ : ∃ g, fuel = g + 1 := ⟨fuel - 1, by omega⟩
      obtain ⟨u, hu, henc⟩ := ihps g (acc16 ++ [c % 32 * 64 + c2 % 64]) (by omega)
      refine ⟨(c % 32 * 64 + c2 % 64) :: u, ?_, ?_⟩
      · have := utf8ToUtf16SafeLoop_two g c c2 ps.flatten acc16 (by omega) (by omega) (by omega)
        rw [if_pos (by omega)] at this
        rw [List.cons_append, List.cons_append, List.nil_append, this, hu]
        simp
      · intro fuel2 acc8 hl
        simp only [List.length_cons] at hl
        obtain ⟨g2, rfl⟩ : ∃ g, fuel2 = g + 1 := ⟨fuel2 - 1, by omega⟩
        rw [utf16ToUtf8SafeLoop_two g2 _ _ _ (by omega) (by omega), henc g2 _ (by omega)]
        have e1 : 192 + (c % 32 * 64 + c2 % 64) / 64 = c := by omega
        have e2 : 128 + (c % 32 * 64 + c2 % 64) % 64 = c2 := by omega
        rw [e1, e2]
        simp
    · -- three bytes
      simp only [wellFormedSequence, isContinuation, Bool.and_eq_true, decide_eq_true_eq] at hp
      obtain ⟨⟨hc, hc2⟩, hc3⟩ := hp
      have hc2' : 128 ≤ c2 ∧ c2 < 192 ∧ (c = 224 → 160 ≤ c2) ∧ (c = 237 → c2 ≤ 159) := by
        split_ifs at hc2 <;> omega
      simp only [List.length_cons, List.length_nil] at hfuel
      obtain ⟨g, rfl⟩ : ∃ g, fuel = g + 1 := ⟨fuel - 1, by omega⟩
      obtain ⟨u, hu, henc⟩ :=
        ihps g (acc16 ++ [c % 16 * 4096 + c2 % 64 * 64 + c3 % 64]) (by omega)
      refine ⟨(c % 16 * 4096 + c2 % 64 * 64 + c3 % 64) :: u, ?_, ?_⟩
      · have := utf8ToUtf16SafeLoop_three g c c2 c3 ps.flatten acc16 (by omega) (by omega)
          (by omega) (by omega)
        rw [if_pos (by omega)] at this
        rw [List.cons_append, List.cons_append, List.cons_append, List.nil_append, this, hu]
        simp
      · intro fuel2 acc8 hl
        simp only [List.length_cons] at hl
        obtain ⟨g2, rfl⟩ : ∃ g, fuel2 = g + 1 := ⟨fuel2 - 1, by omega⟩
        rw [utf16ToUtf8SafeLoop_three g2 _ _ _ (by omega) (by omega) (by omega),
          henc g2 _ (by omega)]
        have e1 : 224 + (c % 16 * 4096 + c2 % 64 * 64 + c3 % 64) / 4096 = c := by omega
        have e2 : 128 + (c % 16 * 4096 + c2 % 64 * 64 + c3 % 64) / 64 % 64 = c2 := by omega
        have e3 : 128 + (c % 16 * 4096 + c2 % 64 * 64 + c3 % 64) % 64 = c3 := by omega
        rw [e1, e2, e3]
        simp
    · -- four bytes
      simp only [wellFormedSequence, isContinuation, Bool.and_eq_true, decide_eq_true_eq] at hp
      obtain ⟨⟨⟨hc, hc2⟩, hc3⟩, hc4⟩ := hp
      have hc2' : 128 ≤ c2 ∧ c2 < 192 ∧ (c = 240 → 144 ≤ c2) ∧ (c = 244 → c2 ≤ 143) := by
        split_ifs at hc2 <;> omega
      simp only [List.length_cons, List.length_nil] at hfuel
      obtain ⟨g, rfl⟩ : ∃ g, fuel = g + 1 := ⟨fuel - 1, by omega⟩
      generalize hcp : c % 8 * 262144 + c2 % 64 * 4096 + c3 % 64 * 64 + c4 % 64 = cp
      have hcp1 : 0xFFFF < cp := by omega
      have hcp2 : cp ≤ 0x10FFFF := by omega
      obtain ⟨u, hu, henc⟩ :=
        ihps g (acc16 ++ [(cp - 0x10000) / 1024 + 0xD800, (cp - 0x10000) % 1024 + 0xDC00])
          (by omega)
      refine ⟨((cp - 0x10000) / 1024 + 0xD800) :: ((cp - 0x10000) % 1024 + 0xDC00) :: u, ?_, ?_⟩
      · have := utf8ToUtf16SafeLoop_four g c c2 c3 c4 ps.flatten acc16 (by omega) (by omega)
          (by omega) (by omega) (by omega)
        rw [hcp, if_pos (by omega), if_neg (by omega), if_pos (by omega)] at this
        rw [List.cons_append, List.cons_append, List.cons_append, List.cons_append,
          List.nil_append, this, hu]
        simp
      · intro fuel2 acc8 hl
        simp only [List.length_cons] at hl
        obtain ⟨g2, rfl⟩ : ∃ g, fuel2 = g + 1 := ⟨fuel2 - 1, by omega⟩
        have := utf16ToUtf8SafeLoop_pair g2 ((cp - 0x10000) / 1024 + 0xD800)
          ((cp - 0x10000) % 1024 + 0xDC00) u acc8 (by omega) (by omega)
        rw [if_pos (by omega)] at this
        rw [this, henc g2 _ (by omega)]
        have e0 : 0x10000 + ((cp - 0x10000) / 1024 + 0xD800 - 0xD800) * 1024
            + ((cp - 0x10000) % 1024 + 0xDC00 - 0xDC00) = cp := by omega
        rw [e0]
        have e1 : 240 + cp / 262144 = c := by omega
        have e2 : 128 + cp / 4096 % 64 = c2 := by omega
        have e3 : 128 + cp / 64 % 64 = c3 := by omega
        have e4 : 128 + cp % 64 = c4 := by omega
        rw [e1, e2, e3, e4]
        simp
    · simp [wellFormedSequence] at hp

/-- Encoding a sequence of 16-bit units, when it succeeds, gives bytes that
decode to the same units. -/
theorem utf16_roundtrip :
    ∀ (fuel : Nat) (u : U16), u.length ≤ fuel → (∀ x ∈ u, x < 65536) →
      ∀ (acc8 t : Str), utf16ToUtf8SafeLoop fuel u acc8 = (true, t) →
      ∃ s : Str, t = acc8 ++ s ∧ (u = [] → s = [])
        ∧ ∀ (fuel2 : Nat) (acc16 : U16), s.length ≤ fuel2 →
            utf8ToUtf16SafeLoop fuel2 s acc16 = (true, acc16 ++ u) := by
  intro fuel
  induction fuel with
  | zero =>
    intro u hl _ acc8 t h
    have : u = [] := List.length_eq_zero.1 (by omega)
    subst this
    rw [utf16ToUtf8SafeLoop_nil] at h
    simp only [Prod.mk.injEq, true_and] at h
    refine ⟨[], by simp [h], fun _ => rfl, ?_⟩
    intro fuel2 acc16 _
    simp [utf8ToUtf16SafeLoop_nil]
  | succ g ih =>
    intro u hl hu acc8 t h
    rcases u with _ | ⟨c, rest⟩
    · rw [utf16ToUtf8SafeLoop_nil] at h
      simp only [Prod.mk.injEq, true_and] at h
      refine ⟨[], by simp [h], fun _ => rfl, ?_⟩
      intro fuel2 acc16 _
      simp [utf8ToUtf16SafeLoop_nil]
    · have hc : c < 65536 := hu c (by simp)
      have hrest : ∀ x ∈ rest, x < 65536 := fun x hx => hu x (by simp [hx])
      simp only [List.length_cons] at hl
      by_cases h1 : c < 128
      · rw [utf16ToUtf8SafeLoop_one g c rest acc8 h1] at h
        obtain ⟨s, hs, _, hdec⟩ := ih rest (by omega) hrest _ t h
        refine ⟨c :: s, by simp [hs], by simp, ?_⟩
        intro fuel2 acc16 hl2
        simp only [List.length_cons] at hl2
        obtain ⟨g2, rfl⟩ : ∃ g, fuel2 = g + 1 := ⟨fuel2 - 1, by omega⟩
        rw [utf8ToUtf16SafeLoop_one g2 c s acc16 h1, hdec g2 _ (by omega)]
        simp
      by_cases h2 : c < 2048
      · rw [utf16ToUtf8SafeLoop_two g c rest acc8 (by omega) h2] at h
        obtain ⟨s, hs, _, hdec⟩ := ih rest (by omega) hrest _ t h
        refine ⟨(192 + c / 64) :: (128 + c % 64) :: s, by simp [hs], by simp, ?_⟩
        intro fuel2 acc16 hl2
        simp only [List.length_cons] at hl2
        obtain ⟨g2, rfl⟩ : ∃ g, fuel2 = g + 1 := ⟨fuel2 - 1, by omega⟩
        have := utf8ToUtf16SafeLoop_two g2 (192 + c / 64) (128 + c % 64) s acc16 (by omega)
          (by omega) (by omega)
        rw [if_pos (by omega)] at this
        rw [this, hdec g2 _ (by omega)]
        have e : (192 + c / 64) % 32 * 64 + (128 + c % 64) % 64 = c := by omega
        rw [e]
        simp
      by_cases h3 : c < 0xD800 ∨ 0xDFFF < c
      · rw [utf16ToUtf8SafeLoop_three g c rest acc8 (by omega) hc h3] at h
        obtain ⟨s, hs, _, hdec⟩ := ih rest (by omega) hrest _ t h
        refine ⟨(224 + c / 4096) :: (128 + c / 64 % 64) :: (128 + c % 64) :: s, by simp [hs],
          by simp, ?_⟩
        intro fuel2 acc16 hl2
        simp only [List.length_cons] at hl2
        obtain ⟨g2, rfl⟩ : ∃ g, fuel2 = g + 1 := ⟨fuel2 - 1, by omega⟩
        have := utf8ToUtf16SafeLoop_three g2 (224 + c / 4096) (128 + c / 64 % 64)
          (128 + c % 64) s acc16 (by omega) (by omega) (by omega) (by omega)
        rw [if_pos (by omega)] at this
        rw [this, hdec g2 _ (by omega)]
        have e : (224 + c / 4096) % 16 * 4096 + (128 + c / 64 % 64) % 64 * 64
            + (128 + c % 64) % 64 = c := by omega
        rw [e]
        simp
      by_cases h4 : c ≤ 0xDBFF
      · rcases rest with _ | ⟨low, r⟩
        · rw [utf16ToUtf8SafeLoop_high_short g c acc8 (by omega) h4] at h
          simp at h
        · have hpair := utf16ToUtf8SafeLoop_pair g c low r acc8 (by omega) h4
          by_cases hlow : 0xDC00 ≤ low ∧ low ≤ 0xDFFF
          · rw [if_pos hlow] at hpair
            rw [hpair] at h
            simp only [List.length_cons] at hl
            obtain ⟨s, hs, _, hdec⟩ :=
              ih r (by omega) (fun x hx => hrest x (by simp [hx])) _ t h
            generalize hcp : 0x10000 + (c - 0xD800) * 1024 + (low - 0xDC00) = cp at hs hdec
            have hcp1 : 0xFFFF < cp := by omega
            have hcp2 : cp ≤ 0x10FFFF := by omega
            refine ⟨(240 + cp / 262144) :: (128 + cp / 4096 % 64) :: (128 + cp / 64 % 64)
              :: (128 + cp % 64) :: s, by simp [hs], by simp, ?_⟩
            intro fuel2 acc16 hl2
            simp only [List.length_cons] at hl2
            obtain ⟨g2, rfl⟩ : ∃ g, fuel2 = g + 1 := ⟨fuel2 - 1, by omega⟩
            have := utf8ToUtf16SafeLoop_four g2 (240 + cp / 262144) (128 + cp / 4096 % 64)
              (128 + cp / 64 % 64) (128 + cp % 64) s acc16 (by omega) (by omega) (by omega)
              (by omega) (by omega)
            have e : (240 + cp / 262144) % 8 * 262144 + (128 + cp / 4096 % 64) % 64 * 4096
                + (128 + cp / 64 % 64) % 64 * 64 + (128 + cp % 64) % 64 = cp := by omega
            rw [e, if_pos (by omega), if_neg (by omega), if_pos (by omega)] at this
            rw [this, hdec g2 _ (by omega)]
            have e1 : (cp - 0x10000) / 1024 + 0xD800 = c := by omega
            have e2 : (cp - 0x10000) % 1024 + 0xDC00 = low := by omega
            rw [e1, e2]
            simp
          · rw [if_neg hlow] at hpair
            rw [hpair] at h
            simp at h
      · rw [utf16ToUtf8SafeLoop_badUnit g c rest acc8 (by omega) (by omega)] at h
        simp at h

/-! ### Normalization -/

theorem normalizeChar_cases (c : Nat) :
    normalizeChar c = c ∨ ∃ e ∈ kazakhCharNormalization, normalizeChar c = e.2 := by
  unfold normalizeChar
  cases h : kazakhCharNormalization.find? (fun e => decide (e.1 = c)) with
  | none => left; rfl
  | some e => right; exact ⟨e, List.mem_of_find?_eq_some h, rfl⟩

theorem normalizeChar_table :
    ∀ e ∈ kazakhCharNormalization, normalizeChar e.2 = e.2 ∧ e.2 < 65536 := by decide

theorem normalizeChar_idempotent (c : Nat) :
    normalizeChar (normalizeChar c) = normalizeChar c := by
  rcases normalizeChar_cases c with h | ⟨e, he, h⟩
  · rw [h, h]
  · rw [h]; exact (normalizeChar_table e he).1

theorem normalizeChar_lt (c : Nat) (hc : c < 65536) : normalizeChar c < 65536 := by
  rcases normalizeChar_cases c with h | ⟨e, he, h⟩
  · rw [h]; exact hc
  · rw [h]; exact (normalizeChar_table e he).2

theorem normalizeString_eq (s : Str) :
    normalizeString s = (utf8ToUtf16 s).map normalizeChar := by
  unfold normalizeString
  simp only
  split
  · rename_i h
    have : utf8ToUtf16 s = [] := by simpa using h.1
    rw [this]; rfl
  · rfl

theorem normalizeAndConvertToString_idem (s : Str) (hb : ∀ b ∈ s, b < 256) :
    normalizeAndConvertToString (normalizeAndConvertToString s)
      = normalizeAndConvertToString s := by
  have hdef : ∀ x : Str, normalizeAndConvertToString x
      = if ((utf8ToUtf16 x).map normalizeChar).isEmpty ∧ ¬ x.isEmpty then x
        else utf16ToUtf8 ((utf8ToUtf16 x).map normalizeChar) := by
    intro x
    unfold normalizeAndConvertToString
    simp only [normalizeString_eq]
  by_cases hA : ((utf8ToUtf16 s).map normalizeChar).isEmpty ∧ ¬ s.isEmpty
  · have e : normalizeAndConvertToString s = s := by rw [hdef s, if_pos hA]
    rw [e, e]
  · have e : normalizeAndConvertToString s = utf16ToUtf8 ((utf8ToUtf16 s).map normalizeChar) := by
      rw [hdef s, if_neg hA]
    generalize hn : (utf8ToUtf16 s).map normalizeChar = n at e
    have hnb : ∀ x ∈ n, x < 65536 := by
      rw [← hn]
      intro x hx
      obtain ⟨y, hy, rfl⟩ := List.mem_map.1 hx
      apply normalizeChar_lt
      unfold utf8ToUtf16 at hy
      split at hy
      · rw [utf8ToUtf16Safe_eq] at hy
        exact utf8ToUtf16SafeLoop_units s.length s (le_refl _) hb [] (by simp) y hy
      · simp at hy
    have hnn : n.map normalizeChar = n := by
      rw [← hn, List.map_map]
      apply List.map_congr_left
      intro a _
      exact normalizeChar_idempotent a
    rw [e]
    unfold utf16ToUtf8
    by_cases hok : (utf16ToUtf8Safe n).1 = true
    · rw [if_pos hok]
      generalize ht : (utf16ToUtf8Safe n).2 = t
      have henc : utf16ToUtf8SafeLoop n.length n [] = (true, t) := by
        rw [← utf16ToUtf8Safe_eq, ← ht, ← hok]
      obtain ⟨s2, hs2, hnil, hdec⟩ := utf16_roundtrip n.length n (le_refl _) hnb [] t henc
      simp only [List.nil_append] at hs2
      subst hs2
      have hdec2 : utf8ToUtf16Safe t = (true, n) := by
        rw [utf8ToUtf16Safe_eq, hdec t.length [] (le_refl _)]
        simp
      have hu : utf8ToUtf16 t = n := by
        unfold utf8ToUtf16
        rw [hdec2]
        simp
      rw [hdef t, hu, hnn]
      split
      · rfl
      · unfold utf16ToUtf8
        rw [if_pos hok, ht]
    · rw [if_neg hok]
      rfl

/-! ### Malformed input -/

/-- At a malformed sequence the decoder fails. -/
theorem utf8ToUtf16SafeLoop_malformed (fuel : Nat) (rest : Str) (acc : U16)
    (hb : ∀ b ∈ rest, b < 256) (hbad : malformedSequenceAt rest = true) :
    utf8ToUtf16SafeLoop (fuel + 1) rest acc = (false, acc) := by
  rcases rest with _ | ⟨c, tail⟩
  · simp [malformedSequenceAt] at hbad
  · have hc : c < 256 := hb c (by simp)
    rw [malformedSequenceAt] at hbad
    by_cases h1 : (0x80 ≤ c ∧ c ≤ 0xBF) ∨ (0xF8 ≤ c ∧ c ≤ 0xFF)
    · exact utf8ToUtf16SafeLoop_badLead fuel c tail acc (by omega)
    · rw [if_neg h1] at hbad
      by_cases h2 : 0xC0 ≤ c ∧ c ≤ 0xF7
      · rw [if_pos h2] at hbad
        by_cases h3 : c < 0xE0
        · rcases tail with _ | ⟨c2, r⟩
          · exact utf8ToUtf16SafeLoop_two_short fuel c acc (by omega) (by omega)
          · have := utf8ToUtf16SafeLoop_two fuel c c2 r acc (by omega) (by omega)
              (hb c2 (by simp))
            rw [this, if_neg]
            intro hk
            simp [continuationCount, h3, isContinuation] at hbad
            omega
        by_cases h4 : c < 0xF0
        · rcases tail with _ | ⟨c2, _ | ⟨c3, r⟩⟩
          · exact utf8ToUtf16SafeLoop_three_short fuel c [] acc (by omega) (by omega) (by simp)
          · exact utf8ToUtf16SafeLoop_three_short fuel c [c2] acc (by omega) (by omega)
              (by simp)
          · have := utf8ToUtf16SafeLoop_three fuel c c2 c3 r acc (by omega) (by omega)
              (hb c2 (by simp)) (hb c3 (by simp))
            rw [this, if_neg]
            intro hk
            simp [continuationCount, h3, h4, isContinuation] at hbad
            omega
        · rcases tail with _ | ⟨c2, _ | ⟨c3, _ | ⟨c4, r⟩⟩⟩
          · exact utf8ToUtf16SafeLoop_four_short fuel c [] acc (by omega) (by omega) (by simp)
          · exact utf8ToUtf16SafeLoop_four_short fuel c [c2] acc (by omega) (by omega) (by simp)
          · exact utf8ToUtf16SafeLoop_four_short fuel c [c2, c3] acc (by omega) (by omega)
              (by simp)
          · have := utf8ToUtf16SafeLoop_four fuel c c2 c3 c4 r acc (by omega) (by omega)
              (hb c2 (by simp)) (hb c3 (by simp)) (hb c4 (by simp))
            rw [this]
            by_cases hk : (128 ≤ c2 ∧ c2 < 192) ∧ (128 ≤ c3 ∧ c3 < 192) ∧ (128 ≤ c4 ∧ c4 < 192)
            · rw [if_pos hk, if_pos]
              simp [continuationCount, h3, h4, isContinuation] at hbad
              omega
            · rw [if_neg hk]
      · rw [if_neg h2] at hbad
        simp at hbad

/-- Claim C16. For every byte string that, after a prefix which the decoder
accepts, continues with a malformed lead byte (`0x80..0xBF` or `0xF8..0xFF`), a
multi-byte sequence truncated by the end of the input, a continuation position
whose byte is not of the form `10xxxxxx`, or a 4-byte sequence decoding above
U+10FFFF, `utf8ToUtf16Safe` fails and the wrapper `utf8ToUtf16` returns the
empty string. -/
theorem utf8ToUtf16Safe_malformed (pre rest : Str) (hb : ∀ b ∈ pre ++ rest, b < 256)
    (hpre : (utf8ToUtf16Safe pre).1 = true) (hbad : malformedSequenceAt rest = true) :
    (utf8ToUtf16Safe (pre ++ rest)).1 = false ∧ utf8ToUtf16 (pre ++ rest) = [] := by
  have hfail : (utf8ToUtf16Safe (pre ++ rest)).1 = false := by
    rw [utf8ToUtf16Safe_eq] at hpre ⊢
    have hp : utf8ToUtf16SafeLoop pre.length pre []
        = (true, (utf8ToUtf16SafeLoop pre.length pre []).2) := by
      rw [← hpre]
    rw [utf8ToUtf16SafeLoop_append pre.length pre (le_refl _) rest hb [] _ hp]
    rcases rest with _ | ⟨c, tail⟩
    · simp [malformedSequenceAt] at hbad
    · simp only [List.length_cons]
      rw [utf8ToUtf16SafeLoop_malformed tail.length (c :: tail) _
        (fun b h => hb b (List.mem_append_right _ h)) hbad]
  refine ⟨hfail, ?_⟩
  unfold utf8ToUtf16
  rw [hfail]
  rfl

/-- On a byte string that the UTF-16 decoder accepts, the UTF-32 helper yields
the same code points, and it decodes the string the same way whatever
follows. -/
theorem utf8_to_utf32_of_accepted :
    ∀ (n : Nat) (pre : Str), pre.length ≤ n → (∀ b ∈ pre, b < 256) → ∀ (acc u : U16),
      utf8ToUtf16SafeLoop pre.length pre acc = (true, u) →
      u = acc ++ (utf8_to_utf32 pre).flatMap utf16Units
        ∧ ∀ rest : Str, utf8_to_utf32 (pre ++ rest) = utf8_to_utf32 pre ++ utf8_to_utf32 rest := by
  intro n
  induction n with
  | zero =>
    intro pre hs _ acc u h
    have : pre = [] := List.length_eq_zero.1 (by omega)
    subst this
    rw [utf8ToUtf16SafeLoop_nil] at h
    simp only [Prod.mk.injEq, true_and] at h
    subst h
    refine ⟨by simp [utf8_to_utf32, utf8_to_utf32_loop], ?_⟩
    intro rest
    simp [utf8_to_utf32, utf8_to_utf32_loop]
  | succ n ih =>
    intro pre hs hb acc u h
    rcases pre with _ | ⟨c, t⟩
    · rw [utf8ToUtf16SafeLoop_nil] at h
      simp only [Prod.mk.injEq, true_and] at h
      subst h
      refine ⟨by simp [utf8_to_utf32, utf8_to_utf32_loop], ?_⟩
      intro rest
      simp [utf8_to_utf32, utf8_to_utf32_loop]
    · have hbt : ∀ b ∈ t, b < 256 := fun b hm => hb b (by simp [hm])
      rcases utf8ToUtf16SafeLoop_head c t (hb c (by simp)) hbt with
        hfail | ⟨p, units, r, hpr, hp, _, hstep, cps, hcps, hstep32⟩
      · simp only [List.length_cons] at h
        rw [hfail] at h
        simp at h
      · have hlen : p.length + r.length = t.length + 1 := by
          have := congrArg List.length hpr
          simp only [List.length_cons, List.length_append] at this
          omega
        have hbr : ∀ b ∈ r, b < 256 := by
          intro b hbm
          apply hb
          rw [hpr]
          exact List.mem_append_right _ hbm
        simp only [List.length_cons] at h hs
        rw [hpr, hstep,
          utf8ToUtf16SafeLoop_fuel r.length r (le_refl _) hbr t.length r.length _ (by omega)
            (le_refl _)] at h
        obtain ⟨hu, happ⟩ := ih r (by omega) hbr (acc ++ units) u h
        have key : ∀ rest : Str, utf8_to_utf32 (p ++ rest) = cps ++ utf8_to_utf32 rest := by
          intro rest
          unfold utf8_to_utf32
          have hl2 : (p ++ rest).length = rest.length + (p.length - 1) + 1 := by
            simp only [List.length_append]; omega
          rw [hl2, hstep32,
            utf8_to_utf32_loop_fuel (rest.length + (p.length - 1)) rest.length rest (by omega)
              (le_refl _)]
        rw [hpr]
        refine ⟨?_, ?_⟩
        · rw [key r, hu, hcps]
          simp
        · intro rest
          rw [List.append_assoc, key (r ++ rest), key r, happ rest, List.append_assoc]

theorem utf8_to_utf32_skip (c : Nat) (tail : Str)
    (h : (0x80 ≤ c ∧ c ≤ 0xBF) ∨ (0xF8 ≤ c ∧ c ≤ 0xFF)) :
    utf8_to_utf32 (c :: tail) = utf8_to_utf32 tail := by
  unfold utf8_to_utf32
  simp only [List.length_cons]
  exact utf8_to_utf32_loop_skip _ c tail (by omega)

theorem utf8_to_utf32_truncated (c : Nat) (tail : Str) (h1 : 0xC0 ≤ c) (h2 : c ≤ 0xF7)
    (hl : tail.length < continuationCount c) : utf8_to_utf32 (c :: tail) = [] := by
  unfold utf8_to_utf32
  simp only [List.length_cons]
  unfold continuationCount at hl
  by_cases h3 : c < 0xE0
  · rw [if_pos h3] at hl
    have : tail = [] := List.length_eq_zero.1 (by omega)
    subst this
    exact utf8_to_utf32_loop_two_short _ c (by omega) (by omega)
  · rw [if_neg h3] at hl
    by_cases h4 : c < 0xF0
    · rw [if_pos h4] at hl
      exact utf8_to_utf32_loop_three_short _ c tail (by omega) (by omega) hl
    · rw [if_neg h4] at hl
      exact utf8_to_utf32_loop_four_short _ c tail (by omega) (by omega) hl

/-- An instance of C16: after "A", the lead byte `E4` with one continuation byte
where two are announced. -/
theorem utf8ToUtf16Safe_malformed_witness :
    ((∀ b ∈ [0x41] ++ [0xE4, 0xB8], b < 256) ∧ (utf8ToUtf16Safe [0x41]).1 = true
      ∧ malformedSequenceAt [0xE4, 0xB8] = true)
    ∧ (utf8ToUtf16Safe ([0x41] ++ [0xE4, 0xB8])).1 = false
    ∧ utf8ToUtf16 ([0x41] ++ [0xE4, 0xB8]) = [] :=
  ⟨by decide, utf8ToUtf16Safe_malformed [0x41] [0xE4, 0xB8] (by decide) (by decide) (by decide)⟩

/-- Claim C14. For every byte string `s` that is valid UTF-8,
`utf8ToUtf16Safe(s)` succeeds with some UTF-16 string `u`, `utf16ToUtf8Safe(u)`
succeeds, and its output equals `s`. -/
theorem utf8ToUtf16Safe_roundtrip (s : Str) (hs : ValidUtf8 s) :
    ∃ u : U16, utf8ToUtf16Safe s = (true, u) ∧ utf16ToUtf8Safe u = (true, s) := by
  obtain ⟨parts, rfl, hwf⟩ := hs
  obtain ⟨u, hu, henc⟩ := utf8_roundtrip_parts parts hwf parts.flatten.length [] (le_refl _)
  refine ⟨u, ?_, ?_⟩
  · rw [utf8ToUtf16Safe_eq, hu]
    simp
  · rw [utf16ToUtf8Safe_eq, henc u.length [] (le_refl _)]
    simp

/-- An instance of C14: the bytes of "қa" followed by U+1F600, a 2-byte, a
1-byte and a 4-byte sequence. -/
theorem utf8ToUtf16Safe_roundtrip_witness :
    ValidUtf8 [0xD2, 0x9B, 0x61, 0xF0, 0x9F, 0x98, 0x80]
    ∧ ∃ u : U16, utf8ToUtf16Safe [0xD2, 0x9B, 0x61, 0xF0, 0x9F, 0x98, 0x80] = (true, u)
        ∧ utf16ToUtf8Safe u = (true, [0xD2, 0x9B, 0x61, 0xF0, 0x9F, 0x98, 0x80]) :=
  ⟨⟨[[0xD2, 0x9B], [0x61], [0xF0, 0x9F, 0x98, 0x80]], rfl, by decide⟩,
    utf8ToUtf16Safe_roundtrip _ ⟨[[0xD2, 0x9B], [0x61], [0xF0, 0x9F, 0x98, 0x80]], rfl, by decide⟩⟩

/-- Claim C15 on four inputs. `utf8ToUtf16Safe` accepts the overlong forms
`C0 80`, `E0 80 80` and `F0 80 80 80` of U+0000 and the 3-byte sequence
`ED A0 80` of the high surrogate U+D800: it returns `true` with the unit 0, and
with the unit `0xD800`. -/
theorem utf8ToUtf16Safe_accepts_overlong_and_surrogate :
    utf8ToUtf16Safe [0xC0, 0x80] = (true, [0])
    ∧ utf8ToUtf16Safe [0xED, 0xA0, 0x80] = (true, [0xD800])
    ∧ utf8ToUtf16Safe [0xE0, 0x80, 0x80] = (true, [0])
    ∧ utf8ToUtf16Safe [0xF0, 0x80, 0x80, 0x80] = (true, [0])
    ∧ utf8ToUtf16 [0xC0, 0x80] = [0] ∧ utf8ToUtf16 [0xED, 0xA0, 0x80] = [0xD800] := by
  decide

/-- Claim C18. For every byte string `s`, valid UTF-8 or not,
`normalizeAndConvertToString` applied twice gives the same as applied once;
and for every UTF-16 code unit `c`, `normalizeChar(normalizeChar(c)) =
normalizeChar(c)`. -/
theorem normalizeAndConvertToString_idempotent (s : Str) (hb : ∀ b ∈ s, b < 256) :
    normalizeAndConvertToString (normalizeAndConvertToString s)
      = normalizeAndConvertToString s
    ∧ ∀ c : Nat, normalizeChar (normalizeChar c) = normalizeChar c :=
  ⟨normalizeAndConvertToString_idem s hb, normalizeChar_idempotent⟩

/-- An instance of C18: "Қала" is normalized to "қала", and "қала" to itself. -/
theorem normalizeAndConvertToString_idempotent_witness :
    (∀ b ∈ [0xD2, 0x9A, 0xD0, 0xB0, 0xD0, 0xBB, 0xD0, 0xB0], b < 256)
    ∧ normalizeAndConvertToString [0xD2, 0x9A, 0xD0, 0xB0, 0xD0, 0xBB, 0xD0, 0xB0]
        = [0xD2, 0x9B, 0xD0, 0xB0, 0xD0, 0xBB, 0xD0, 0xB0]
    ∧ normalizeAndConvertToString
        (normalizeAndConvertToString [0xD2, 0x9A, 0xD0, 0xB0, 0xD0, 0xBB, 0xD0, 0xB0])
        = normalizeAndConvertToString [0xD2, 0x9A, 0xD0, 0xB0, 0xD0, 0xBB, 0xD0, 0xB0] :=
  ⟨by decide, by decide,
    (normalizeAndConvertToString_idempotent [0xD2, 0x9A, 0xD0, 0xB0, 0xD0, 0xBB, 0xD0, 0xB0]
      (by decide)).1⟩

/-- Claim C19 at Һ. `normalizeChar` leaves Һ (U+04BA) unchanged: the table entry
commented `Һ -> һ` has the key `0x04b0` (Ұ) and the value `0x04b1` (ұ). The
basic block U+0410..U+042F and the seven letters Ғ, Қ, Ө, Ү, Ә, І, Ң are mapped to
their lowercase. -/
theorem normalizeChar_leaves_shha :
    normalizeChar 0x04BA = 0x04BA ∧ normalizeChar 0x04B0 = 0x04B1
    ∧ (∀ c ∈ List.range' 0x0410 32, normalizeChar c = c + 0x20)
    ∧ normalizeChar 0x0492 = 0x0493 ∧ normalizeChar 0x049A = 0x049B
    ∧ normalizeChar 0x04E8 = 0x04E9 ∧ normalizeChar 0x04AE = 0x04AF
    ∧ normalizeChar 0x04D8 = 0x04D9 ∧ normalizeChar 0x0406 = 0x0456
    ∧ normalizeChar 0x04A2 = 0x04A3 := by
  decide

/-- Claim C17, amended. `utf8_to_utf32` has no failure result. After every
prefix that the UTF-16 decoder accepts it has decoded the same code points as
that decoder (whose units are their UTF-16 form); a byte that cannot start a
sequence (`0x80..0xBF`, `0xF8..0xFF`) is skipped and decoding goes on with the
next byte; a multi-byte sequence truncated by the end of the input ends the
decoding with the code points decoded so far. -/
theorem utf8_to_utf32_lenient (pre : Str) (hb : ∀ b ∈ pre, b < 256)
    (hpre : (utf8ToUtf16Safe pre).1 = true) :
    (utf8ToUtf16Safe pre).2 = (utf8_to_utf32 pre).flatMap utf16Units
    ∧ (∀ (c : Nat) (tail : Str), ((0x80 ≤ c ∧ c ≤ 0xBF) ∨ (0xF8 ≤ c ∧ c ≤ 0xFF)) →
        utf8_to_utf32 (pre ++ c :: tail) = utf8_to_utf32 pre ++ utf8_to_utf32 tail)
    ∧ (∀ (c : Nat) (tail : Str), 0xC0 ≤ c → c ≤ 0xF7 → tail.length < continuationCount c →
        utf8_to_utf32 (pre ++ c :: tail) = utf8_to_utf32 pre) := by
  rw [utf8ToUtf16Safe_eq] at hpre ⊢
  have hp : utf8ToUtf16SafeLoop pre.length pre []
      = (true, (utf8ToUtf16SafeLoop pre.length pre []).2) := by
    rw [← hpre]
  obtain ⟨hu, happ⟩ := utf8_to_utf32_of_accepted pre.length pre (le_refl _) hb [] _ hp
  refine ⟨by simpa using hu, ?_, ?_⟩
  · intro c tail hc
    rw [happ, utf8_to_utf32_skip c tail hc]
  · intro c tail h1 h2 hl
    rw [happ, utf8_to_utf32_truncated c tail h1 h2 hl]
    simp

/-- An instance of the amended C17 after the prefix "Aқ": the code points are
those of the UTF-16 decoder, the byte `0x80` is skipped, and the truncated
sequence `E4 B8` ends the decoding. -/
theorem utf8_to_utf32_lenient_witness :
    ((∀ b ∈ [0x41, 0xD2, 0x9B], b < 256) ∧ (utf8ToUtf16Safe [0x41, 0xD2, 0x9B]).1 = true)
    ∧ utf8_to_utf32 ([0x41, 0xD2, 0x9B] ++ 0x80 :: [0x42])
        = utf8_to_utf32 [0x41, 0xD2, 0x9B] ++ utf8_to_utf32 [0x42]
    ∧ utf8_to_utf32 ([0x41, 0xD2, 0x9B] ++ 0xE4 :: [0xB8]) = utf8_to_utf32 [0x41, 0xD2, 0x9B] :=
  ⟨by decide,
    (utf8_to_utf32_lenient [0x41, 0xD2, 0x9B] (by decide) (by decide)).2.1 0x80 [0x42]
      (by decide),
    (utf8_to_utf32_lenient [0x41, 0xD2, 0x9B] (by decide) (by decide)).2.2 0xE4 [0xB8]
      (by decide) (by decide) (by decide)⟩

/-- Claim C17 as stated fails. On "A", `0x80`, "B" (a malformed lead byte) and
on "A", `E4 B8` (a truncated sequence) the UTF-16 decoder fails, while
`utf8_to_utf32` returns the code points [A, B], the byte skipped, and [A], the
sequence decoded so far; on `C3 41` (an invalid continuation byte) it returns
the code point `0xC1`, and on the overlong `C0 80` the code point 0. -/
theorem utf8_to_utf32_lenient_counterexample :
    (utf8ToUtf16Safe [0x41, 0x80, 0x42]).1 = false
    ∧ utf8_to_utf32 [0x41, 0x80, 0x42] = [0x41, 0x42]
    ∧ (utf8ToUtf16Safe [0x41, 0xE4, 0xB8]).1 = false
    ∧ utf8_to_utf32 [0x41, 0xE4, 0xB8] = [0x41]
    ∧ (utf8ToUtf16Safe [0xC3, 0x41]).1 = false
    ∧ utf8_to_utf32 [0xC3, 0x41] = [0xC1]
    ∧ utf8_to_utf32 [0xC0, 0x80] = [0] := by
  decide

/-! ## The recency order of an `LRUCache` -/
namespace LRUCache

variable {K V : Type} [DecidableEq K]

theorem runTimed_append (c : LRUCache K V) (ops : List (LRUOp K V)) (op : LRUOp K V) :
    runTimed c (ops ++ [op])
      = ((runTimed c ops).1.step op, (runTimed c ops).2.1 + 1,
          touchStep (runTimed c ops).1 (runTimed c ops).2.1 (runTimed c ops).2.2 op) := by
  unfold runTimed
  rw [List.foldl_append]
  rfl

theorem runTimed_fst (c : LRUCache K V) (ops : List (LRUOp K V)) :
    (runTimed c ops).1 = run c ops ∧ (runTimed c ops).2.1 = ops.length := by
  induction ops using List.reverseRecOn with
  | nil => exact ⟨rfl, rfl⟩
  | append_singleton ops op ih =>
    rw [runTimed_append]
    refine ⟨?_, ?_⟩
    · simp only [ih.1, run, List.foldl_append, List.foldl_cons, List.foldl_nil]
    · simp only [ih.2, List.length_append, List.length_singleton]

theorem lastPut_append (ops : List (LRUOp K V)) (op : LRUOp K V) :
    lastPut (ops ++ [op]) = lastPutStep (lastPut ops) op := by
  unfold lastPut
  rw [List.foldl_append]
  rfl

/-- Moving a node to the head at time `t`, with a value that is the last put. -/
theorem recencyInv_moveToHead (c : LRUCache K V) (t : Nat) (times : K → Option Nat)
    (last last2 : K → Option V) (key : K) (value : V)
    (h : RecencyInv c t times last) (hl : last2 key = some value)
    (hl2 : ∀ k, k ≠ key → last2 k = last k) :
    RecencyInv { c with nodes := (key, value) :: unlink c.nodes key } (t + 1)
      (Function.update times key (some t)) last2 := by
  have hsub : (unlink c.nodes key).Sublist c.nodes := List.eraseP_sublist _
  have hnot := not_mem_keys_unlink key c.nodes h.nodup
  have hne : ∀ n ∈ unlink c.nodes key, n.1 ≠ key := by
    intro n hn e
    exact hnot (List.mem_map.mpr ⟨n, hn, e⟩)
  refine ⟨?_, ?_, ?_, ?_⟩
  · simp only [List.map_cons, List.nodup_cons]
    exact ⟨hnot, h.nodup.sublist (hsub.map Prod.fst)⟩
  · intro n hn
    simp only [List.mem_cons] at hn
    rcases hn with rfl | hn
    · exact ⟨t, by simp, Nat.lt_succ_self t⟩
    · obtain ⟨τ, h1, h2⟩ := h.touched n (hsub.subset hn)
      exact ⟨τ, by rw [Function.update_noteq (hne n hn)]; exact h1, Nat.lt_succ_of_lt h2⟩
  · simp only [List.pairwise_cons]
    refine ⟨?_, ?_⟩
    · intro n hn τa τb ha hb
      rw [Function.update_same] at ha
      rw [Function.update_noteq (hne n hn)] at hb
      obtain ⟨τ, h1, h2⟩ := h.touched n (hsub.subset hn)
      rw [h1] at hb
      cases ha; cases hb
      exact h2
    · have hp := h.ordered.sublist hsub
      refine (List.pairwise_iff_forall_sublist.mpr ?_)
      intro a b hab τa τb ha hb
      have hab2 := List.pairwise_iff_forall_sublist.mp hp hab
      have ha_mem : a ∈ unlink c.nodes key := hab.subset (by simp)
      have hb_mem : b ∈ unlink c.nodes key := hab.subset (by simp)
      rw [Function.update_noteq (hne a ha_mem)] at ha
      rw [Function.update_noteq (hne b hb_mem)] at hb
      exact hab2 τa τb ha hb
  · intro n hn
    simp only [List.mem_cons] at hn
    rcases hn with rfl | hn
    · exact hl
    · rw [hl2 n.1 (hne n hn)]
      exact h.value n (hsub.subset hn)

/-- Inserting a new key at the head at time `t`, then removing the tail when
the list is longer than the capacity. -/
theorem recencyInv_insert (c : LRUCache K V) (t : Nat) (times : K → Option Nat)
    (last last2 : K → Option V) (key : K) (value : V) (rest : List (K × V))
    (h : RecencyInv c t times last) (hsub : rest.Sublist c.nodes)
    (hnew : key ∉ c.nodes.map Prod.fst) (hl : last2 key = some value)
    (hl2 : ∀ k, k ≠ key → last2 k = last k) :
    RecencyInv { c with nodes := (key, value) :: rest } (t + 1)
      (Function.update times key (some t)) last2 := by
  have hne : ∀ n ∈ rest, n.1 ≠ key := by
    intro n hn e
    exact hnew (List.mem_map.mpr ⟨n, hsub.subset hn, e⟩)
  refine ⟨?_, ?_, ?_, ?_⟩
  · simp only [List.map_cons, List.nodup_cons]
    refine ⟨?_, h.nodup.sublist (hsub.map Prod.fst)⟩
    intro hmem
    exact hnew ((hsub.map Prod.fst).subset hmem)
  · intro n hn
    simp only [List.mem_cons] at hn
    rcases hn with rfl | hn
    · exact ⟨t, by simp, Nat.lt_succ_self t⟩
    · obtain ⟨τ, h1, h2⟩ := h.touched n (hsub.subset hn)
      exact ⟨τ, by rw [Function.update_noteq (hne n hn)]; exact h1, Nat.lt_succ_of_lt h2⟩
  · simp only [List.pairwise_cons]
    refine ⟨?_, ?_⟩
    · intro n hn τa τb ha hb
      rw [Function.update_same] at ha
      rw [Function.update_noteq (hne n hn)] at hb
      obtain ⟨τ, h1, h2⟩ := h.touched n (hsub.subset hn)
      rw [h1] at hb
      cases ha; cases hb
      exact h2
    · have hp := h.ordered.sublist hsub
      refine (List.pairwise_iff_forall_sublist.mpr ?_)
      intro a b hab τa τb ha hb
      have hab2 := List.pairwise_iff_forall_sublist.mp hp hab
      have ha_mem : a ∈ rest := hab.subset (by simp)
      have hb_mem : b ∈ rest := hab.subset (by simp)
      rw [Function.update_noteq (hne a ha_mem)] at ha
      rw [Function.update_noteq (hne b hb_mem)] at hb
      exact hab2 τa τb ha hb
  · intro n hn
    simp only [List.mem_cons] at hn
    rcases hn with rfl | hn
    · exact hl
    · rw [hl2 n.1 (hne n hn)]
      exact h.value n (hsub.subset hn)

/-- What `find` returns is the value of a node of the list. -/
theorem mem_of_find (c : LRUCache K V) (key : K) (v : V) (h : c.find key = some v) :
    (key, v) ∈ c.nodes := by
  unfold find at h
  simp only [Option.map_eq_some'] at h
  obtain ⟨n, hn, rfl⟩ := h
  have h1 := List.find?_some hn
  have h2 := List.mem_of_find?_eq_some hn
  simp only [decide_eq_true_eq] at h1
  rw [← h1]
  exact h2

theorem recencyInv_step (c : LRUCache K V) (t : Nat) (times : K → Option Nat)
    (last : K → Option V) (op : LRUOp K V)
    (h : RecencyInv c t times last) :
    RecencyInv (c.step op) (t + 1) (touchStep c t times op) (lastPutStep last op) := by
  cases op with
  | put key value =>
    simp only [step, touchStep, lastPutStep]
    unfold put
    cases hf : c.find key with
    | some v0 =>
      exact recencyInv_moveToHead c t times last _ key value h (by simp)
        (fun k hk => Function.update_noteq hk _ _)
    | none =>
      have hnew := (find_eq_none_iff c key).mp hf
      simp only
      split
      · unfold removeTail
        simp only
        rcases List.eq_nil_or_concat c.nodes with h0 | ⟨l1, a, h1⟩
        · rw [h0]
          exact ⟨by simp, by simp, by simp, by simp⟩
        · have e : ((key, value) :: c.nodes).dropLast = (key, value) :: c.nodes.dropLast := by
            rw [h1, List.concat_eq_append, ← List.cons_append, List.dropLast_concat,
              List.dropLast_concat]
          rw [e]
          exact recencyInv_insert c t times last _ key value _ h
            (List.dropLast_sublist _) hnew (by simp)
            (fun k hk => Function.update_noteq hk _ _)
      · exact recencyInv_insert c t times last _ key value _ h (List.Sublist.refl _) hnew
          (by simp) (fun k hk => Function.update_noteq hk _ _)
  | get key =>
    simp only [step, touchStep, lastPutStep]
    unfold get
    cases hf : c.find key with
    | none =>
      simp only [Option.isSome_none, Bool.false_eq_true, if_false]
      exact ⟨h.nodup, fun n hn => (h.touched n hn).imp fun τ hτ => ⟨hτ.1, Nat.lt_succ_of_lt hτ.2⟩,
        h.ordered, h.value⟩
    | some v =>
      simp only [Option.isSome_some, if_true]
      have hv : last key = some v := h.value (key, v) (mem_of_find c key v hf)
      exact recencyInv_moveToHead c t times last last key v h hv (fun _ _ => rfl)
  | clear =>
    simp only [step, touchStep, lastPutStep, clear]
    exact ⟨by simp, by simp, by simp, by simp⟩

theorem recencyInv_run (capacity : Nat) (ops : List (LRUOp K V)) :
    RecencyInv (run (⟨capacity, []⟩ : LRUCache K V) ops) ops.length
      (lastTouch (⟨capacity, []⟩ : LRUCache K V) ops) (lastPut ops) := by
  induction ops using List.reverseRecOn with
  | nil => exact ⟨by simp [run], by simp [run], by simp [run], by simp [run]⟩
  | append_singleton ops op ih =>
    have h1 := runTimed_fst (⟨capacity, []⟩ : LRUCache K V) ops
    have h2 := recencyInv_step _ _ _ _ op ih
    have e1 : run (⟨capacity, []⟩ : LRUCache K V) (ops ++ [op])
        = (run (⟨capacity, []⟩ : LRUCache K V) ops).step op := by
      simp only [run, List.foldl_append, List.foldl_cons, List.foldl_nil]
    have e2 : lastTouch (⟨capacity, []⟩ : LRUCache K V) (ops ++ [op])
        = touchStep (run (⟨capacity, []⟩ : LRUCache K V) ops) ops.length
            (lastTouch (⟨capacity, []⟩ : LRUCache K V) ops) op := by
      unfold lastTouch
      rw [runTimed_append, h1.1, h1.2]
    rw [e1, e2, lastPut_append, List.length_append, List.length_singleton]
    exact h2

end LRUCache
/-- Claim C21. On a new `LRUCache` of capacity at least 1, after any sequence
of `put`, `get` and `clear` calls: putting a new key into the full cache
removes exactly the node at the tail, whose key has the oldest most recent
`put` or `get` hit of all stored keys, and keeps every other key with its value
and in its place of the recency order; a `get` that misses returns the cache
as it is and touches no key; a `get` that hits returns the value last put for
the key. -/
theorem lruCache_recency_spec {K V : Type} [DecidableEq K] (capacity : Nat)
    (hcap : 1 ≤ capacity) (ops : List (LRUOp K V)) :
    (∀ key value, ((⟨capacity, []⟩ : LRUCache K V).run ops).find key = none →
      ((⟨capacity, []⟩ : LRUCache K V).run ops).size = capacity →
      ∃ victim, ((⟨capacity, []⟩ : LRUCache K V).run ops).nodes.getLast? = some victim
        ∧ (∀ n ∈ ((⟨capacity, []⟩ : LRUCache K V).run ops).nodes, n.1 ≠ victim.1 →
            ∃ tv tn, LRUCache.lastTouch (⟨capacity, []⟩ : LRUCache K V) ops victim.1 = some tv
              ∧ LRUCache.lastTouch (⟨capacity, []⟩ : LRUCache K V) ops n.1 = some tn
              ∧ tv < tn)
        ∧ (((⟨capacity, []⟩ : LRUCache K V).run ops).put key value).nodes
            = (key, value) :: ((⟨capacity, []⟩ : LRUCache K V).run ops).nodes.dropLast
        ∧ (((⟨capacity, []⟩ : LRUCache K V).run ops).put key value).find victim.1 = none
        ∧ (∀ k, k ≠ victim.1 → k ≠ key →
            (((⟨capacity, []⟩ : LRUCache K V).run ops).put key value).find k
              = ((⟨capacity, []⟩ : LRUCache K V).run ops).find k)
        ∧ (((⟨capacity, []⟩ : LRUCache K V).run ops).put key value).find key = some value)
    ∧ (∀ key, ((⟨capacity, []⟩ : LRUCache K V).run ops).find key = none →
        ((⟨capacity, []⟩ : LRUCache K V).run ops).get key
          = (none, (⟨capacity, []⟩ : LRUCache K V).run ops)
        ∧ LRUCache.touchStep ((⟨capacity, []⟩ : LRUCache K V).run ops) ops.length
            (LRUCache.lastTouch (⟨capacity, []⟩ : LRUCache K V) ops) (LRUOp.get key)
          = LRUCache.lastTouch (⟨capacity, []⟩ : LRUCache K V) ops)
    ∧ (∀ key v, ((⟨capacity, []⟩ : LRUCache K V).run ops).find key = some v →
        (((⟨capacity, []⟩ : LRUCache K V).run ops).get key).1 = some v
        ∧ LRUCache.lastPut ops key = some v) := by
  have hinv := LRUCache.recencyInv_run capacity ops
  have hc : ((⟨capacity, []⟩ : LRUCache K V).run ops).capacity = capacity :=
    (LRUCache.sizeInv_run ops _ _ (⟨by simp, by simp, by simp, by simp⟩ :
      LRUCache.SizeInv (⟨capacity, []⟩ : LRUCache K V) [])).2
  generalize (⟨capacity, []⟩ : LRUCache K V).run ops = c at hinv hc
  generalize LRUCache.lastTouch (⟨capacity, []⟩ : LRUCache K V) ops = times at hinv
  refine ⟨?_, ?_, ?_⟩
  · intro key value hf hsize
    unfold LRUCache.size at hsize
    have hnew := (LRUCache.find_eq_none_iff c key).mp hf
    rcases List.eq_nil_or_concat c.nodes with h0 | ⟨l1, victim, h1⟩
    · rw [h0] at hsize
      simp only [List.length_nil] at hsize
      omega
    · rw [List.concat_eq_append] at h1
      have hnd := hinv.nodup
      have hord := hinv.ordered
      rw [h1] at hnd hord hnew
      simp only [List.map_append, List.map_cons, List.map_nil] at hnd hnew
      have hvnot : victim.1 ∉ l1.map Prod.fst := by
        intro hmem
        exact (List.nodup_append.mp hnd).2.2 hmem (by simp)
      have hkv : victim.1 ≠ key := by
        intro e
        exact hnew (by simp [e])
      have hkl : key ∉ l1.map Prod.fst := by
        intro hmem
        exact hnew (by simp [hmem])
      have hput : (c.put key value).nodes = (key, value) :: c.nodes.dropLast := by
        unfold LRUCache.put
        rw [hf]
        simp only
        rw [if_pos (by simp only [List.length_cons]; omega)]
        unfold LRUCache.removeTail
        simp only
        rw [h1, ← List.cons_append, List.dropLast_concat, List.dropLast_concat]
      have hdl : c.nodes.dropLast = l1 := by rw [h1, List.dropLast_concat]
      refine ⟨victim, by rw [h1]; simp, ?_, hput, ?_, ?_, ?_⟩
      · intro n hn hne
        rw [h1] at hn
        simp only [List.mem_append, List.mem_singleton] at hn
        rcases hn with hn | rfl
        · obtain ⟨tv, hv1, _⟩ := hinv.touched victim (by rw [h1]; simp)
          obtain ⟨tn, hn1, _⟩ := hinv.touched n (by rw [h1]; simp [hn])
          refine ⟨tv, tn, hv1, hn1, ?_⟩
          have := (List.pairwise_append.mp hord).2.2 n hn victim (by simp)
          exact this tn tv hn1 hv1
        · exact absurd rfl hne
      · rw [LRUCache.find_eq_none_iff, hput, hdl]
        simp only [List.map_cons, List.mem_cons, not_or]
        exact ⟨hkv, hvnot⟩
      · intro k hk1 hk2
        unfold LRUCache.find
        rw [hput, hdl, h1]
        have e1 : decide ((key, value).1 = k) = false := by simpa using (Ne.symm hk2)
        have e2 : decide (victim.1 = k) = false := by simpa using (Ne.symm hk1)
        simp only [List.find?_cons, e1, List.find?_append, List.find?_nil, e2]
        cases List.find? (fun n => decide (n.1 = k)) l1 <;> rfl
      · unfold LRUCache.find
        rw [hput]
        simp [List.find?_cons]
  · intro key hf
    refine ⟨?_, ?_⟩
    · unfold LRUCache.get
      rw [hf]
    · simp only [LRUCache.touchStep, hf, Option.isSome_none, Bool.false_eq_true, if_false]
  · intro key v hf
    refine ⟨?_, ?_⟩
    · unfold LRUCache.get
      rw [hf]
    · exact hinv.value (key, v) (LRUCache.mem_of_find c key v hf)

/-- An instance of C21: a cache of capacity 2 after `put(1, 10)`, `put(2, 20)`
and `get(1)`; then `put(3, 30)` removes the key 2 and keeps the key 1. -/
theorem lruCache_recency_spec_witness :
    1 ≤ 2
    ∧ (((⟨2, []⟩ : LRUCache Nat Nat).run
          [LRUOp.put 1 10, LRUOp.put 2 20, LRUOp.get 1]).put 3 30).nodes = [(3, 30), (1, 10)]
    ∧ LRUCache.lastPut [LRUOp.put 1 10, LRUOp.put 2 20, LRUOp.get (1 : Nat)] 1 = some 10 := by
  have h := lruCache_recency_spec (K := Nat) (V := Nat) 2 (by decide)
    [LRUOp.put 1 10, LRUOp.put 2 20, LRUOp.get 1]
  obtain ⟨victim, _, _, h3, _⟩ := h.1 3 30 (by decide) (by decide)
  refine ⟨by decide, ?_, (h.2.2 1 10 (by decide)).2⟩
  rw [h3]
  decide

/-! ## `TaskQueue`: the order of the tasks -/

theorem strFindFrom_ge (pattern : Str) :
    ∀ (s : Str) (i j : Nat), strFindFrom i s pattern = some j → i ≤ j := by
  intro s
  induction s with
  | nil =>
    intro i j h
    simp only [strFindFrom] at h
    split at h
    · cases h; exact le_refl _
    · cases h
  | cons c rest ih =>
    intro i j h
    simp only [strFindFrom] at h
    split at h
    · cases h; exact le_refl _
    · exact Nat.le_of_succ_le (ih (i + 1) j h)

/-- `s.find(pattern) == 0` says that `s` begins with `pattern`. -/
theorem strFind_eq_zero_iff (s pattern : Str) :
    strFind s pattern = some 0 ↔ pattern <+: s := by
  unfold strFind
  cases s with
  | nil =>
    simp only [strFindFrom]
    by_cases h : pattern.isPrefixOf [] = true
    · simp only [h, if_true, true_iff]
      exact List.isPrefixOf_iff_prefix.mp h
    · simp only [h, if_false, Bool.false_eq_true]
      constructor
      · intro h2
        cases h2
      · intro hp
        exact absurd (List.isPrefixOf_iff_prefix.mpr hp) h
  | cons c rest =>
    simp only [strFindFrom]
    by_cases h : pattern.isPrefixOf (c :: rest) = true
    · simp only [h, if_true, true_iff]
      exact List.isPrefixOf_iff_prefix.mp h
    · simp only [h, if_false, Bool.false_eq_true]
      constructor
      · intro h2
        have := strFindFrom_ge pattern rest 1 0 h2
        omega
      · intro hp
        exact absurd (List.isPrefixOf_iff_prefix.mpr hp) h

namespace TaskQueue

theorem Task.lt_eq_false_iff (a b : Task) :
    a.lt b = false ↔ (a.priority < b.priority
      ∨ (a.priority = b.priority ∧ a.timestamp ≤ b.timestamp)) := by
  unfold Task.lt
  by_cases h : a.priority = b.priority
  · simp only [h, ne_eq, not_true_eq_false, if_false, decide_eq_false_iff_not, not_lt,
      lt_self_iff_false, true_and, false_or, gt_iff_lt]
  · simp only [ne_eq, h, not_false_eq_true, if_true, decide_eq_false_iff_not, not_lt,
      false_and, or_false, gt_iff_lt]
    omega

theorem foldl_top_some :
    ∀ (l : List Task) (b : Task),
      ∃ r, l.foldl
          (fun best t =>
            match best with
            | none => some t
            | some b => if b.lt t then some t else some b)
          (some b) = some r
        ∧ r ∈ b :: l ∧ ∀ e ∈ b :: l, r.lt e = false := by
  intro l
  induction l with
  | nil =>
    intro b
    refine ⟨b, rfl, by simp, ?_⟩
    intro e he
    simp only [List.mem_singleton] at he
    subst he
    rw [Task.lt_eq_false_iff]
    omega
  | cons t l ih =>
    intro b
    simp only [List.foldl_cons]
    by_cases hbt : b.lt t = true
    · simp only [hbt, if_true]
      obtain ⟨r, h1, h2, h3⟩ := ih t
      refine ⟨r, h1, List.mem_cons_of_mem _ h2, ?_⟩
      intro e he
      simp only [List.mem_cons] at he
      rcases he with rfl | rfl | he
      · have h4 := (Task.lt_eq_false_iff r t).mp (h3 t (by simp))
        have h5 : ¬ (e.lt t = false) := by simp [hbt]
        rw [Task.lt_eq_false_iff] at h5 ⊢
        omega
      · exact h3 e (by simp)
      · exact h3 e (by simp [he])
    · simp only [hbt, if_false, Bool.false_eq_true]
      have hbt2 : b.lt t = false := by simpa using hbt
      obtain ⟨r, h1, h2, h3⟩ := ih b
      refine ⟨r, h1, ?_, ?_⟩
      · simp only [List.mem_cons] at h2 ⊢
        rcases h2 with h2 | h2
        · exact Or.inl h2
        · exact Or.inr (Or.inr h2)
      · intro e he
        simp only [List.mem_cons] at he
        rcases he with rfl | rfl | he
        · exact h3 e (by simp)
        · have h4 := (Task.lt_eq_false_iff r b).mp (h3 b (by simp))
          rw [Task.lt_eq_false_iff] at hbt2 ⊢
          omega
        · exact h3 e (by simp [he])

/-- The top of a queue that is not empty is one of its elements, and it is not
less than any element. -/
theorem top_spec (ρ : HeapOrder) (hρ : ρ.Valid) (queue : List Task) (hne : queue ≠ []) :
    ∃ t, top ρ queue = some t ∧ t ∈ queue ∧ ∀ e ∈ queue, t.lt e = false := by
  unfold top
  have hp := hρ queue
  cases hl : ρ.arrange queue with
  | nil =>
    rw [hl] at hp
    exact absurd (List.Perm.nil_eq hp).symm hne
  | cons b l =>
    rw [hl] at hp
    obtain ⟨r, h1, h2, h3⟩ := foldl_top_some l b
    refine ⟨r, ?_, hp.subset h2, fun e he => h3 e (hp.symm.subset he)⟩
    simp only [List.foldl_cons]
    exact h1

theorem top_nil (ρ : HeapOrder) (hρ : ρ.Valid) : top ρ [] = none := by
  unfold top
  have hp := hρ []
  rw [List.Perm.eq_nil hp]
  rfl

theorem top_some_spec (ρ : HeapOrder) (hρ : ρ.Valid) (queue : List Task) (t : Task)
    (h : top ρ queue = some t) : t ∈ queue ∧ ∀ e ∈ queue, t.lt e = false := by
  by_cases hne : queue = []
  · subst hne
    rw [top_nil ρ hρ] at h
    cases h
  · obtain ⟨t2, h1, h2, h3⟩ := top_spec ρ hρ queue hne
    rw [h1] at h
    cases h
    exact ⟨h2, h3⟩

/-- The worker takes the tasks of a queue one after the other, each not after
any that follows it. -/
theorem drain_spec (ρ : HeapOrder) (hρ : ρ.Valid) :
    ∀ (fuel : Nat) (queue : List Task), queue.length ≤ fuel →
      (drain ρ fuel queue).Perm queue
      ∧ (drain ρ fuel queue).Pairwise (fun a b => a.priority < b.priority
          ∨ (a.priority = b.priority ∧ a.timestamp ≤ b.timestamp)) := by
  intro fuel
  induction fuel with
  | zero =>
    intro queue hl
    have : queue = [] := List.length_eq_zero.mp (Nat.le_zero.mp hl)
    subst this
    exact ⟨List.Perm.refl _, List.Pairwise.nil⟩
  | succ fuel ih =>
    intro queue hl
    by_cases hne : queue = []
    · subst hne
      simp only [drain, top_nil ρ hρ]
      exact ⟨List.Perm.refl _, List.Pairwise.nil⟩
    · obtain ⟨t, h1, h2, h3⟩ := top_spec ρ hρ queue hne
      simp only [drain, pop, h1]
      have hlen : (queue.erase t).length ≤ fuel := by
        rw [List.length_erase_of_mem h2]
        omega
      obtain ⟨ih1, ih2⟩ := ih (queue.erase t) hlen
      refine ⟨?_, ?_⟩
      · exact (List.Perm.cons t ih1).trans (List.perm_cons_erase h2).symm
      · rw [List.pairwise_cons]
        refine ⟨?_, ih2⟩
        intro e he
        have he2 : e ∈ queue := List.mem_of_mem_erase (ih1.subset he)
        exact (Task.lt_eq_false_iff t e).mp (h3 e he2)

theorem cancelTasksLoop_spec (ρ : HeapOrder) (hρ : ρ.Valid) (taskIdPrefix : Str) :
    ∀ (fuel : Nat) (queue newQueue : List Task), queue.length ≤ fuel →
      (cancelTasksLoop ρ taskIdPrefix fuel queue newQueue).Perm
        (newQueue ++ queue.filter (fun t => !(taskIdPrefix.isPrefixOf t.taskId))) := by
  intro fuel
  induction fuel with
  | zero =>
    intro queue newQueue hl
    have : queue = [] := List.length_eq_zero.mp (Nat.le_zero.mp hl)
    subst this
    simp [cancelTasksLoop]
  | succ fuel ih =>
    intro queue newQueue hl
    by_cases hne : queue = []
    · subst hne
      simp [cancelTasksLoop, top_nil ρ hρ]
    · obtain ⟨t, h1, h2, h3⟩ := top_spec ρ hρ queue hne
      have hlen : (queue.erase t).length ≤ fuel := by
        rw [List.length_erase_of_mem h2]
        omega
      have hperm : queue.Perm (t :: queue.erase t) := List.perm_cons_erase h2
      have hf := hperm.filter (fun t => !(taskIdPrefix.isPrefixOf t.taskId))
      simp only [cancelTasksLoop, h1, pop]
      by_cases hpre : taskIdPrefix <+: t.taskId
      · have e1 : strFind t.taskId taskIdPrefix = some 0 :=
          (strFind_eq_zero_iff _ _).mpr hpre
        have e2 : taskIdPrefix.isPrefixOf t.taskId = true := List.isPrefixOf_iff_prefix.mpr hpre
        simp only [e1, ne_eq, not_true_eq_false, if_false]
        refine (ih _ newQueue hlen).trans ?_
        refine List.Perm.append_left _ ?_
        rw [List.filter_cons] at hf
        simp only [e2, Bool.not_true, Bool.false_eq_true, if_false] at hf
        exact hf.symm
      · have e1 : strFind t.taskId taskIdPrefix ≠ some 0 :=
          fun h => hpre ((strFind_eq_zero_iff _ _).mp h)
        have e2 : taskIdPrefix.isPrefixOf t.taskId = false := by
          cases hb : taskIdPrefix.isPrefixOf t.taskId with
          | false => rfl
          | true => exact absurd (List.isPrefixOf_iff_prefix.mp hb) hpre
        simp only [e1, ne_eq, not_false_eq_true, if_true]
        refine (ih _ (newQueue ++ [t]) hlen).trans ?_
        rw [List.append_assoc]
        refine List.Perm.append_left _ ?_
        rw [List.filter_cons] at hf
        simp only [e2, Bool.not_false, if_true] at hf
        exact hf.symm

theorem clearPendingTasksLoop_spec (ρ : HeapOrder) (hρ : ρ.Valid) :
    ∀ (fuel : Nat) (queue : List Task), queue.length ≤ fuel →
      clearPendingTasksLoop ρ fuel queue = [] := by
  intro fuel
  induction fuel with
  | zero =>
    intro queue hl
    have : queue = [] := List.length_eq_zero.mp (Nat.le_zero.mp hl)
    subst this
    rfl
  | succ fuel ih =>
    intro queue hl
    by_cases hne : queue = []
    · subst hne
      simp [clearPendingTasksLoop]
    · obtain ⟨t, h1, h2, h3⟩ := top_spec ρ hρ queue hne
      have hlen : (queue.erase t).length ≤ fuel := by
        rw [List.length_erase_of_mem h2]
        omega
      have hemp : queue.isEmpty = false := by
        cases queue with
        | nil => exact absurd rfl hne
        | cons a l => rfl
      simp only [clearPendingTasksLoop, hemp, Bool.not_false, if_true, pop, h1]
      exact ih _ hlen

theorem sublist_pair_of_mem {α : Type} (a b : α) (hab : a ≠ b) :
    ∀ (l : List α), a ∈ l → b ∈ l → [a, b].Sublist l ∨ [b, a].Sublist l := by
  intro l
  induction l with
  | nil => intro ha; simp at ha
  | cons x t ih =>
    intro ha hb
    rcases List.mem_cons.mp ha with ha | ha
    · rcases List.mem_cons.mp hb with hb | hb
      · exact absurd (ha.trans hb.symm) hab
      · left
        rw [ha]
        exact List.Sublist.cons₂ x (List.singleton_sublist.mpr hb)
    · rcases List.mem_cons.mp hb with hb | hb
      · right
        rw [hb]
        exact List.Sublist.cons₂ x (List.singleton_sublist.mpr ha)
      · rcases ih ha hb with h | h
        · exact Or.inl (List.Sublist.cons x h)
        · exact Or.inr (List.Sublist.cons x h)

/-- In a list of tasks in the order of the worker, a task stands before
another one of a different priority or timestamp exactly when it has the
smaller priority, or the same priority and the smaller timestamp. -/
theorem sublist_pair_iff (l : List Task) (a b : Task)
    (hs : l.Pairwise (fun a b => a.priority < b.priority
      ∨ (a.priority = b.priority ∧ a.timestamp ≤ b.timestamp)))
    (ha : a ∈ l) (hb : b ∈ l) (hne : a.priority ≠ b.priority ∨ a.timestamp ≠ b.timestamp) :
    [a, b].Sublist l ↔ (a.priority < b.priority
      ∨ (a.priority = b.priority ∧ a.timestamp < b.timestamp)) := by
  constructor
  · intro h
    have := List.pairwise_iff_forall_sublist.mp hs h
    omega
  · intro h
    have hab : a ≠ b := by
      intro e
      rw [e] at h
      omega
    rcases sublist_pair_of_mem a b hab l ha hb with h2 | h2
    · exact h2
    · have := List.pairwise_iff_forall_sublist.mp hs h2
      omega

end TaskQueue

/-- Claim C22. For every set of pending tasks that is not empty, the worker
takes a task, and the task it takes is a pending one with the smallest
`priority` and, among those, the smallest `timestamp`; the other tasks stay
pending. Hence the tasks of a queue are taken in the order of `priority`, and
those of equal `priority` in the order of their timestamps. -/
theorem taskQueue_worker_takes_first (ρ : TaskQueue.HeapOrder) (hρ : ρ.Valid) (q : TaskQueue) :
    (q.queue ≠ [] → ∃ t, (q.workerTake ρ).1 = some t)
    ∧ (∀ t, (q.workerTake ρ).1 = some t →
        t ∈ q.queue ∧ (q.workerTake ρ).2.queue = q.queue.erase t
        ∧ ∀ e ∈ q.queue, t.priority < e.priority
            ∨ (t.priority = e.priority ∧ t.timestamp ≤ e.timestamp))
    ∧ (TaskQueue.drain ρ q.queue.length q.queue).Perm q.queue
    ∧ (TaskQueue.drain ρ q.queue.length q.queue).Pairwise
        (fun a b => a.priority < b.priority
          ∨ (a.priority = b.priority ∧ a.timestamp ≤ b.timestamp)) := by
  refine ⟨?_, ?_, (TaskQueue.drain_spec ρ hρ _ _ (le_refl _)).1,
    (TaskQueue.drain_spec ρ hρ _ _ (le_refl _)).2⟩
  · intro hne
    obtain ⟨t, h1, _, _⟩ := TaskQueue.top_spec ρ hρ q.queue hne
    refine ⟨t, ?_⟩
    have hemp : q.queue.isEmpty = false := by
      cases hq : q.queue with
      | nil => exact absurd hq hne
      | cons a l => rfl
    simp only [TaskQueue.workerTake, hemp, Bool.not_false, if_true, h1]
  · intro t ht
    unfold TaskQueue.workerTake at ht ⊢
    by_cases hemp : q.queue.isEmpty = true
    · simp only [hemp, Bool.not_true, Bool.false_eq_true, if_false] at ht
      cases ht
    · have hemp2 : q.queue.isEmpty = false := by simpa using hemp
      simp only [hemp2, Bool.not_false, if_true] at ht ⊢
      obtain ⟨h2, h3⟩ := TaskQueue.top_some_spec ρ hρ q.queue t ht
      refine ⟨h2, ?_, fun e he => (TaskQueue.Task.lt_eq_false_iff t e).mp (h3 e he)⟩
      simp only [TaskQueue.pop, ht]

/-- An instance of C22: of three pending tasks, the worker takes the one of
priority 0 enqueued first. -/
theorem taskQueue_worker_takes_first_witness :
    TaskQueue.HeapOrder.inOrder.Valid
    ∧ ((⟨[⟨1, 1, 5, []⟩, ⟨2, 0, 9, []⟩, ⟨3, 0, 7, []⟩], true⟩ : TaskQueue).workerTake
        TaskQueue.HeapOrder.inOrder).1 = some ⟨3, 0, 7, []⟩
    ∧ ∀ e ∈ [(⟨1, 1, 5, []⟩ : TaskQueue.Task), ⟨2, 0, 9, []⟩, ⟨3, 0, 7, []⟩],
        (0 : Int) < e.priority ∨ ((0 : Int) = e.priority ∧ (7 : Int) ≤ e.timestamp) :=
  ⟨fun _ => List.Perm.refl _, by decide,
    ((taskQueue_worker_takes_first TaskQueue.HeapOrder.inOrder (fun _ => List.Perm.refl _)
      ⟨[⟨1, 1, 5, []⟩, ⟨2, 0, 9, []⟩, ⟨3, 0, 7, []⟩], true⟩).2.1 ⟨3, 0, 7, []⟩
      (by decide)).2.2⟩

/-- Claim C23. After `cancelTasks(prefix)` the pending tasks are those pending
before whose tag does not begin with `prefix`, each as it was, with its
`priority`, `timestamp` and tag; the worker takes any two of them that differ
in `priority` or `timestamp` in the same order as it would have before the
call; after `clearPendingTasks` no task is pending. -/
theorem taskQueue_cancelTasks_spec (ρ : TaskQueue.HeapOrder) (hρ : ρ.Valid) (q : TaskQueue)
    (taskIdPrefix : Str) :
    (q.cancelTasks ρ taskIdPrefix).queue.Perm
        (q.queue.filter (fun t => decide (¬ taskIdPrefix <+: t.taskId)))
    ∧ (∀ a b, a ∈ (q.cancelTasks ρ taskIdPrefix).queue →
        b ∈ (q.cancelTasks ρ taskIdPrefix).queue →
        (a.priority ≠ b.priority ∨ a.timestamp ≠ b.timestamp) →
        ([a, b].Sublist (TaskQueue.drain ρ q.queue.length q.queue)
          ↔ [a, b].Sublist (TaskQueue.drain ρ (q.cancelTasks ρ taskIdPrefix).queue.length
              (q.cancelTasks ρ taskIdPrefix).queue)))
    ∧ (q.clearPendingTasks ρ).queue = [] := by
  have hperm : (q.cancelTasks ρ taskIdPrefix).queue.Perm
      (q.queue.filter (fun t => decide (¬ taskIdPrefix <+: t.taskId))) := by
    have h := TaskQueue.cancelTasksLoop_spec ρ hρ taskIdPrefix q.queue.length q.queue []
      (le_refl _)
    simp only [List.nil_append] at h
    have e : (fun t : TaskQueue.Task => decide (¬ taskIdPrefix <+: t.taskId))
        = (fun t => !(taskIdPrefix.isPrefixOf t.taskId)) := by
      funext t
      by_cases hp : taskIdPrefix <+: t.taskId
      · simp [hp, List.isPrefixOf_iff_prefix.mpr hp]
      · have : taskIdPrefix.isPrefixOf t.taskId = false := by
          cases hb : taskIdPrefix.isPrefixOf t.taskId with
          | false => rfl
          | true => exact absurd (List.isPrefixOf_iff_prefix.mp hb) hp
        simp [hp, this]
    rw [e]
    exact h
  refine ⟨hperm, ?_, TaskQueue.clearPendingTasksLoop_spec ρ hρ _ _ (le_refl _)⟩
  intro a b ha hb hne
  obtain ⟨p1, s1⟩ := TaskQueue.drain_spec ρ hρ q.queue.length q.queue (le_refl _)
  obtain ⟨p2, s2⟩ := TaskQueue.drain_spec ρ hρ (q.cancelTasks ρ taskIdPrefix).queue.length
    (q.cancelTasks ρ taskIdPrefix).queue (le_refl _)
  have ha1 : a ∈ q.queue := (List.mem_filter.mp (hperm.subset ha)).1
  have hb1 : b ∈ q.queue := (List.mem_filter.mp (hperm.subset hb)).1
  rw [TaskQueue.sublist_pair_iff _ a b s1 (p1.symm.subset ha1) (p1.symm.subset hb1) hne,
    TaskQueue.sublist_pair_iff _ a b s2 (p2.symm.subset ha) (p2.symm.subset hb) hne]

/-- An instance of C23: cancelling the prefix "a" (byte 97) among three
pending tasks keeps the task tagged "b". -/
theorem taskQueue_cancelTasks_spec_witness :
    TaskQueue.HeapOrder.inOrder.Valid
    ∧ ((⟨[⟨1, 1, 5, [97, 98]⟩, ⟨2, 0, 9, [98]⟩, ⟨3, 0, 7, [97]⟩], true⟩ : TaskQueue).cancelTasks
        TaskQueue.HeapOrder.inOrder [97]).queue = [⟨2, 0, 9, [98]⟩]
    ∧ ((⟨[⟨1, 1, 5, [97, 98]⟩, ⟨2, 0, 9, [98]⟩, ⟨3, 0, 7, [97]⟩], true⟩ : TaskQueue).clearPendingTasks
        TaskQueue.HeapOrder.inOrder).queue = [] :=
  ⟨fun _ => List.Perm.refl _, by decide,
    (taskQueue_cancelTasks_spec TaskQueue.HeapOrder.inOrder (fun _ => List.Perm.refl _)
      ⟨[⟨1, 1, 5, [97, 98]⟩, ⟨2, 0, 9, [98]⟩, ⟨3, 0, 7, [97]⟩], true⟩ [97]).2.2⟩

/-! ## Association lists as maps -/

section Maps

variable {κ α : Type} [DecidableEq κ]

theorem mapFind_nil (key : κ) : mapFind ([] : List (κ × α)) key = none := rfl

theorem mapFind_cons (p : κ × α) (m : List (κ × α)) (key : κ) :
    mapFind (p :: m) key = if p.1 = key then some p.2 else mapFind m key := by
  unfold mapFind
  by_cases h : p.1 = key
  · simp [List.find?_cons, h]
  · simp [List.find?_cons, h]

theorem mapFind_eq_none_iff (m : List (κ × α)) (key : κ) :
    mapFind m key = none ↔ key ∉ m.map Prod.fst := by
  induction m with
  | nil => simp [mapFind_nil]
  | cons p m ih =>
    rw [mapFind_cons]
    by_cases h : p.1 = key
    · simp [h]
    · simp only [h, if_false, ih, List.map_cons, List.mem_cons, not_or]
      exact ⟨fun h2 => ⟨fun e => h e.symm, h2⟩, fun h2 => h2.2⟩

theorem mem_of_mapFind (m : List (κ × α)) (key : κ) (value : α)
    (h : mapFind m key = some value) : (key, value) ∈ m := by
  induction m with
  | nil => simp [mapFind_nil] at h
  | cons p m ih =>
    rw [mapFind_cons] at h
    by_cases hk : p.1 = key
    · simp only [hk, if_true, Option.some.injEq] at h
      rw [← hk, ← h]
      exact List.mem_cons_self _ _
    · simp only [hk, if_false] at h
      exact List.mem_cons_of_mem _ (ih h)

theorem mem_keys_of_mapFind (m : List (κ × α)) (key : κ) (value : α)
    (h : mapFind m key = some value) : key ∈ m.map Prod.fst :=
  List.mem_map.mpr ⟨(key, value), mem_of_mapFind m key value h, rfl⟩

theorem mapFind_of_mem (m : List (κ × α)) (hnd : (m.map Prod.fst).Nodup) (key : κ) (value : α)
    (h : (key, value) ∈ m) : mapFind m key = some value := by
  induction m with
  | nil => simp at h
  | cons p m ih =>
    rw [mapFind_cons]
    rw [List.map_cons, List.nodup_cons] at hnd
    rcases List.mem_cons.mp h with h1 | h1
    · rw [← h1]
      simp
    · have hne : p.1 ≠ key := by
        intro e
        exact hnd.1 (e ▸ List.mem_map.mpr ⟨(key, value), h1, rfl⟩)
      simp only [hne, if_false]
      exact ih hnd.2 h1

theorem mapFind_append (m1 m2 : List (κ × α)) (key : κ) :
    mapFind (m1 ++ m2) key
      = match mapFind m1 key with
        | some v => some v
        | none => mapFind m2 key := by
  induction m1 with
  | nil => simp [mapFind_nil]
  | cons p m ih =>
    rw [List.cons_append, mapFind_cons, mapFind_cons]
    by_cases h : p.1 = key
    · simp [h]
    · simp only [h, if_false]
      exact ih

theorem mapFind_map_replace (m : List (κ × α)) (key : κ) (value : α) (k2 : κ) :
    mapFind (m.map (fun p => if p.1 = key then (key, value) else p)) k2
      = if k2 = key then (mapFind m key).map (fun _ => value) else mapFind m k2 := by
  induction m with
  | nil => simp [mapFind_nil]
  | cons p m ih =>
    rw [List.map_cons, mapFind_cons, mapFind_cons, mapFind_cons, ih]
    by_cases h1 : p.1 = key
    · by_cases h2 : k2 = key
      · simp [h1, h2]
      · have h3 : ¬ key = k2 := fun e => h2 e.symm
        simp [h1, h2, h3]
    · by_cases h2 : k2 = key
      · subst h2
        simp [h1]
      · simp only [h1, if_false, h2]

theorem mapFind_mapSet (m : List (κ × α)) (key : κ) (value : α) (k2 : κ) :
    mapFind (mapSet m key value) k2 = if k2 = key then some value else mapFind m k2 := by
  unfold mapSet
  cases hf : mapFind m key with
  | some v =>
    simp only
    rw [mapFind_map_replace, hf]
    rfl
  | none =>
    simp only
    rw [mapFind_append]
    by_cases h : k2 = key
    · subst h
      simp [hf, mapFind_cons, mapFind_nil]
    · have h3 : ¬ key = k2 := fun e => h e.symm
      cases hf2 : mapFind m k2 <;> simp [mapFind_cons, mapFind_nil, h, h3]

theorem keys_map_replace (m : List (κ × α)) (key : κ) (value : α) :
    (m.map (fun p => if p.1 = key then (key, value) else p)).map Prod.fst = m.map Prod.fst := by
  induction m with
  | nil => rfl
  | cons p m ih =>
    rw [List.map_cons, List.map_cons, List.map_cons, ih]
    by_cases h : p.1 = key
    · simp [h]
    · simp [h]

theorem keys_mapSet (m : List (κ × α)) (key : κ) (value : α) :
    (mapSet m key value).map Prod.fst
      = if key ∈ m.map Prod.fst then m.map Prod.fst else m.map Prod.fst ++ [key] := by
  unfold mapSet
  cases hf : mapFind m key with
  | some v =>
    simp only
    rw [keys_map_replace, if_pos (mem_keys_of_mapFind m key v hf)]
  | none =>
    simp only
    rw [if_neg ((mapFind_eq_none_iff m key).mp hf)]
    simp

theorem nodup_keys_mapSet (m : List (κ × α)) (key : κ) (value : α)
    (hnd : (m.map Prod.fst).Nodup) : ((mapSet m key value).map Prod.fst).Nodup := by
  rw [keys_mapSet]
  by_cases h : key ∈ m.map Prod.fst
  · rw [if_pos h]; exact hnd
  · rw [if_neg h]
    exact List.Nodup.append hnd (List.nodup_singleton _) (by
      intro a ha hb
      rw [List.mem_singleton] at hb
      exact h (hb ▸ ha))

theorem mapSet_of_none (m : List (κ × α)) (key : κ) (value : α) (h : mapFind m key = none) :
    mapSet m key value = m ++ [(key, value)] := by
  unfold mapSet
  rw [h]

theorem mem_mapSet (m : List (κ × α)) (key : κ) (value : α) (p : κ × α)
    (h : p ∈ mapSet m key value) : p = (key, value) ∨ (p ∈ m ∧ p.1 ≠ key) := by
  unfold mapSet at h
  cases hf : mapFind m key with
  | some v =>
    rw [hf] at h
    simp only [List.mem_map] at h
    obtain ⟨q, hq, rfl⟩ := h
    by_cases hk : q.1 = key
    · left; simp [hk]
    · right; simp only [hk, if_false]; exact ⟨hq, hk⟩
  | none =>
    rw [hf] at h
    simp only [List.mem_append, List.mem_singleton] at h
    rcases h with h | h
    · right
      refine ⟨h, ?_⟩
      intro e
      exact (mapFind_eq_none_iff m key).mp hf (e ▸ List.mem_map.mpr ⟨p, h, rfl⟩)
    · left; exact h

theorem mapFind_mapErase (m : List (κ × α)) (key : κ) (k2 : κ) :
    mapFind (mapErase m key) k2 = if k2 = key then none else mapFind m k2 := by
  unfold mapErase
  induction m with
  | nil => simp [mapFind_nil]
  | cons p m ih =>
    by_cases h1 : p.1 = key
    · rw [List.filter_cons_of_neg (by simp [h1]), ih, mapFind_cons]
      by_cases h2 : k2 = key
      · simp [h2]
      · have h3 : ¬ p.1 = k2 := fun e => h2 (e ▸ h1)
        simp [h2, h3]
    · rw [List.filter_cons_of_pos (by simp [h1]), mapFind_cons, mapFind_cons, ih]
      by_cases h2 : k2 = key
      · subst h2
        simp [h1]
      · simp only [h2, if_false]

theorem keys_mapErase (m : List (κ × α)) (key : κ) :
    (mapErase m key).map Prod.fst = (m.map Prod.fst).filter (fun k => decide (k ≠ key)) := by
  unfold mapErase
  rw [List.filter_map]
  rfl

theorem nodup_keys_mapErase (m : List (κ × α)) (key : κ)
    (hnd : (m.map Prod.fst).Nodup) : ((mapErase m key).map Prod.fst).Nodup := by
  rw [keys_mapErase]
  exact hnd.filter _

theorem mapFind_mapPush (m : List (κ × List α)) (key : κ) (value : α) (k2 : κ) :
    mapFind (mapPush m key value) k2
      = if k2 = key then some ((mapFind m key).getD [] ++ [value]) else mapFind m k2 := by
  unfold mapPush
  rw [mapFind_mapSet]

theorem foldl_mapSet_append (l : List (κ × α)) :
    ∀ (acc : List (κ × α)), ((acc ++ l).map Prod.fst).Nodup →
      l.foldl (fun m p => mapSet m p.1 p.2) acc = acc ++ l := by
  induction l with
  | nil => intro acc _; simp
  | cons p l ih =>
    intro acc hnd
    rw [List.foldl_cons]
    have hnone : mapFind acc p.1 = none := by
      rw [mapFind_eq_none_iff]
      intro hmem
      rw [List.map_append, List.map_cons] at hnd
      exact (List.nodup_append.mp hnd).2.2 hmem (List.mem_cons_self _ _)
    rw [mapSet_of_none acc p.1 p.2 hnone]
    have e : acc ++ [(p.1, p.2)] ++ l = acc ++ p :: l := by simp
    rw [ih (acc ++ [(p.1, p.2)]) (by rw [e]; exact hnd), e]

/-- A loop of assignments to distinct keys gives the map of the assignments. -/
theorem mapOfList_of_nodup (l : List (κ × α)) (hnd : (l.map Prod.fst).Nodup) :
    mapOfList l = l := by
  unfold mapOfList
  rw [foldl_mapSet_append l [] (by simpa using hnd)]
  rfl

end Maps
/-! ## The invariant of the working data -/

namespace KazakhUserDict

open SnapshotTrieNode

theorem getD_set_entry (heap : List UserDictEntry) (it p : Nat) (e d : UserDictEntry)
    (h : it < heap.length) :
    (heap.set it e).getD p d = if p = it then e else heap.getD p d := by
  rw [List.getD_eq_getElem?_getD, List.getD_eq_getElem?_getD, List.getElem?_set]
  by_cases hp : it = p
  · subst hp
    simp [h]
  · have hp2 : ¬ p = it := fun e => hp e.symm
    simp [hp, hp2]

theorem getD_append_entry (heap : List UserDictEntry) (p : Nat) (e d : UserDictEntry) :
    (heap ++ [e]).getD p d
      = if p < heap.length then heap.getD p d else if p = heap.length then e else d := by
  rw [List.getD_eq_getElem?_getD, List.getD_eq_getElem?_getD, List.getElem?_append]
  by_cases hp : p < heap.length
  · simp [hp]
  · simp only [hp, if_false]
    by_cases hp2 : p = heap.length
    · subst hp2
      simp
    · have : 0 < p - heap.length := by omega
      simp only [hp2, if_false]
      rw [List.getElem?_eq_none]
      · rfl
      · simp only [List.length_singleton]
        omega

/-- The invariant of the maps depends on the entries only through their `word`,
their `normalizedWord` and their `contexts`. -/
theorem mapsWF_congr (wd wd2 : WorkingData) (h : wd.MapsWF)
    (hlen : wd2.heap.length = wd.heap.length)
    (hword : ∀ p, (wd2.entry p).word = (wd.entry p).word)
    (hnorm : ∀ p, (wd2.entry p).normalizedWord = (wd.entry p).normalizedWord)
    (hctx : ∀ p, (wd2.entry p).contexts = (wd.entry p).contexts)
    (hwm : wd2.wordMap = wd.wordMap)
    (hnm : wd2.normalizedWordMap = wd.normalizedWordMap)
    (hcm : wd2.contextMap = wd.contextMap) (hcount : wd2.wordCount = wd.wordCount) :
    wd2.MapsWF := by
  refine ⟨?_, ?_, ?_, ?_, ?_, ?_, ?_, ?_, ?_, ?_⟩
  · rw [hwm]; exact h.wordKeys
  · rw [hnm]; exact h.normKeys
  · rw [hcm]; exact h.contextKeys
  · intro w p hf
    rw [hwm] at hf
    rw [hlen, hword, hnorm, hnm]
    exact h.ofWord w p hf
  · intro n p hf
    rw [hnm] at hf
    rw [hlen, hword, hnorm, hwm]
    exact h.ofNorm n p hf
  · intro w p hf
    rw [hwm] at hf
    rw [hnorm]
    exact h.normalized w p hf
  · rw [hcount, hwm]; exact h.count
  · intro c ps hf
    rw [hcm] at hf
    obtain ⟨h1, h2, h3⟩ := h.ofContext c ps hf
    refine ⟨h1, h2, ?_⟩
    intro p hp
    rw [hctx, hnorm, hnm]
    exact h3 p hp
  · intro n p hf c hc
    rw [hnm] at hf
    rw [hctx] at hc
    rw [hcm]
    exact h.inContext n p hf c hc
  · intro p
    rw [hctx]
    exact h.contexts p

/-- The condition on the entries of the trie depends on the working data only
through `normalizedWordMap` and the `normalizedWord` of the entries. -/
theorem trieGood_congr (wd wd2 : WorkingData)
    (hnorm : ∀ p, (wd2.entry p).normalizedWord = (wd.entry p).normalizedWord)
    (hnm : wd2.normalizedWordMap = wd.normalizedWordMap) :
    trieGood wd2 = trieGood wd := by
  funext path es
  unfold trieGood
  simp only [hnorm, hnm]

/-- The invariant depends on the entries only through their `word`, their
`normalizedWord` and their `contexts`. -/
theorem wf_congr (wd wd2 : WorkingData) (h : wd.WF)
    (hlen : wd2.heap.length = wd.heap.length)
    (hword : ∀ p, (wd2.entry p).word = (wd.entry p).word)
    (hnorm : ∀ p, (wd2.entry p).normalizedWord = (wd.entry p).normalizedWord)
    (hctx : ∀ p, (wd2.entry p).contexts = (wd.entry p).contexts)
    (htrie : wd2.trieRoot = wd.trieRoot) (hwm : wd2.wordMap = wd.wordMap)
    (hnm : wd2.normalizedWordMap = wd.normalizedWordMap)
    (hcm : wd2.contextMap = wd.contextMap) (hcount : wd2.wordCount = wd.wordCount) :
    wd2.WF := by
  refine ⟨mapsWF_congr wd wd2 h.maps hlen hword hnorm hctx hwm hnm hcm hcount, ?_⟩
  rw [trieGood_congr wd wd2 hnorm hnm, htrie]
  exact h.trie

theorem reaches_empty (path : List Nat) (node : SnapshotTrieNode)
    (h : SnapshotTrieNode.empty.Reaches path node) : path = [] ∧ node = SnapshotTrieNode.empty := by
  cases path with
  | nil => exact ⟨rfl, h⟩
  | cons ch rest =>
    obtain ⟨child, hmem, _⟩ := h
    simp [SnapshotTrieNode.empty, SnapshotTrieNode.children] at hmem

theorem trieInv_child (G : List Nat → List Nat → Prop) (root child : SnapshotTrieNode)
    (pre : List Nat) (ch : Nat) (h : TrieInv G root pre) (hmem : (ch, child) ∈ root.children) :
    TrieInv G child (pre ++ [ch]) := by
  intro path node hr
  have := h (ch :: path) node ⟨child, hmem, hr⟩
  rw [List.append_assoc]
  exact this

/-- The trie after `findOrCreateNode` and the update of the node found. -/
theorem trieInv_updateNode (G G2 : List Nat → List Nat → Prop)
    (f : SnapshotTrieNode → SnapshotTrieNode) (hf : ∀ n, (f n).children = n.children)
    (hnil : ∀ q, G q []) :
    ∀ (path : List Nat) (root : SnapshotTrieNode) (pre : List Nat),
      TrieInv G root pre →
      (∀ q es, q ≠ pre ++ path → G q es → G2 q es) →
      (∀ n, G (pre ++ path) n.entries → G2 (pre ++ path) (f n).entries) →
      TrieInv G2 (updateNode f path root) pre := by
  intro path
  induction path with
  | nil =>
    intro root pre hinv hmono htarget q node hr
    simp only [updateNode] at hr
    cases q with
    | nil =>
      have e : node = f root := hr
      subst e
      have h0 := hinv [] root rfl
      rw [hf]
      exact ⟨h0.1, htarget root h0.2⟩
    | cons c q2 =>
      obtain ⟨child, hmem, hr2⟩ := hr
      rw [hf] at hmem
      have h0 := hinv (c :: q2) node ⟨child, hmem, hr2⟩
      refine ⟨h0.1, hmono _ _ ?_ h0.2⟩
      intro e
      have := congrArg List.length e
      simp at this
  | cons ch rest ih =>
    intro root pre hinv hmono htarget q node hr
    have hroot := hinv [] root rfl
    have hne : pre ++ [] ≠ pre ++ ch :: rest := by
      intro e
      have := congrArg List.length e
      simp at this
    have hmono2 : ∀ q es, q ≠ (pre ++ [ch]) ++ rest → G q es → G2 q es := by
      intro q es h1 h2
      exact hmono q es (by rw [List.append_assoc] at h1; exact h1) h2
    have htarget2 : ∀ n, G ((pre ++ [ch]) ++ rest) n.entries →
        G2 ((pre ++ [ch]) ++ rest) (f n).entries := by
      intro n h1
      rw [List.append_assoc] at h1 ⊢
      exact htarget n h1
    simp only [updateNode] at hr
    cases hfind : mapFind root.children ch with
    | none =>
      rw [hfind] at hr
      simp only at hr
      have hnot := (mapFind_eq_none_iff root.children ch).mp hfind
      cases q with
      | nil =>
        have e : node = _ := hr
        subst e
        simp only [SnapshotTrieNode.children, SnapshotTrieNode.entries]
        refine ⟨?_, hmono _ _ hne hroot.2⟩
        rw [List.map_append]
        exact List.Nodup.append hroot.1 (List.nodup_singleton _) (by
          intro a ha hb
          simp only [List.map_cons, List.map_nil, List.mem_singleton] at hb
          exact hnot (hb ▸ ha))
      | cons c q2 =>
        obtain ⟨child, hmem, hr2⟩ := hr
        simp only [SnapshotTrieNode.children, List.mem_append, List.mem_singleton] at hmem
        rcases hmem with hmem | hmem
        · have h0 := hinv (c :: q2) node ⟨child, hmem, hr2⟩
          refine ⟨h0.1, hmono _ _ ?_ h0.2⟩
          intro e
          have e2 := List.append_cancel_left e
          have e3 : c = ch := (List.cons.inj e2).1
          exact hnot (e3 ▸ List.mem_map.mpr ⟨(c, child), hmem, rfl⟩)
        · have e1 : c = ch := (Prod.mk.inj hmem).1
          have e2 : child = updateNode f rest SnapshotTrieNode.empty := (Prod.mk.inj hmem).2
          subst e1 e2
          have hempty : TrieInv G SnapshotTrieNode.empty (pre ++ [c]) := by
            intro p n hrn
            obtain ⟨rfl, rfl⟩ := reaches_empty p n hrn
            exact ⟨by simp [SnapshotTrieNode.empty, SnapshotTrieNode.children],
              by simpa [SnapshotTrieNode.empty, SnapshotTrieNode.entries] using hnil _⟩
          have := ih SnapshotTrieNode.empty (pre ++ [c]) hempty hmono2 htarget2 q2 node hr2
          rw [List.append_assoc] at this
          exact this
    | some child0 =>
      rw [hfind] at hr
      simp only at hr
      have hmem0 := mem_of_mapFind _ _ _ hfind
      cases q with
      | nil =>
        have e : node = _ := hr
        subst e
        simp only [SnapshotTrieNode.children, SnapshotTrieNode.entries]
        exact ⟨nodup_keys_mapSet _ _ _ hroot.1, hmono _ _ hne hroot.2⟩
      | cons c q2 =>
        obtain ⟨child, hmem, hr2⟩ := hr
        simp only [SnapshotTrieNode.children] at hmem
        rcases mem_mapSet _ _ _ _ hmem with hmem | ⟨hmem, hkey⟩
        · have e1 : c = ch := (Prod.mk.inj hmem).1
          have e2 : child = updateNode f rest child0 := (Prod.mk.inj hmem).2
          subst e1 e2
          have := ih child0 (pre ++ [c]) (trieInv_child G root child0 pre c hinv hmem0)
            hmono2 htarget2 q2 node hr2
          rw [List.append_assoc] at this
          exact this
        · have h0 := hinv (c :: q2) node ⟨child, hmem, hr2⟩
          refine ⟨h0.1, hmono _ _ ?_ h0.2⟩
          intro e
          have e2 := List.append_cancel_left e
          exact hkey (List.cons.inj e2).1

end KazakhUserDict
namespace KazakhUserDict

open SnapshotTrieNode

theorem checkedInt_eq_some (x y : Int) : checkedInt x = some y ↔ (fitsInt x = true ∧ y = x) := by
  unfold checkedInt
  by_cases h : fitsInt x = true
  · simp [h, eq_comm]
  · simp [h]

theorem utf8ToUtf16_of_ne_nil (s : Str) (h : utf8ToUtf16 s ≠ []) :
    utf8ToUtf16Safe s = (true, utf8ToUtf16 s) := by
  unfold utf8ToUtf16 at h ⊢
  by_cases h1 : (utf8ToUtf16Safe s).1 = true
  · simp only [h1, if_true]
    rw [← h1]
  · simp [h1] at h

/-- The three ways in which `addWordToWorkingData` returns: the normalization
of the word fails; the normalized word is present; a new entry is made. -/
theorem addWordToWorkingData_cases (wd : WorkingData) (now : Nat) (word : Str) (frequency : Int)
    (r : Bool) (wd2 : WorkingData)
    (hadd : addWordToWorkingData wd now word frequency true = some (r, wd2)) :
    (r = false ∧ wd2 = wd ∧ normalizeAndConvertToString word = [] ∧ word ≠ [])
    ∨ (r = true ∧ ¬ (normalizeAndConvertToString word = [] ∧ word ≠ [])
        ∧ ∃ it, mapFind wd.normalizedWordMap (normalizeAndConvertToString word) = some it
          ∧ fitsInt ((wd.entry it).frequency + frequency) = true
          ∧ fitsInt (wd.totalFrequency + frequency) = true
          ∧ wd2 = { wd with
              heap := wd.heap.set it { wd.entry it with
                frequency := (wd.entry it).frequency + frequency, lastUsed := now }
              totalFrequency := wd.totalFrequency + frequency
              dirty := true })
    ∨ (r = true ∧ ¬ (normalizeAndConvertToString word = [] ∧ word ≠ [])
        ∧ mapFind wd.normalizedWordMap (normalizeAndConvertToString word) = none
        ∧ fitsInt (wd.wordCount + 1) = true
        ∧ fitsInt (wd.totalFrequency + frequency) = true
        ∧ wd2 = updateWorkingDataTrie { wd with
              heap := wd.heap ++ [⟨word, normalizeAndConvertToString word, frequency, [], now, now⟩]
              wordMap := mapSet wd.wordMap word wd.heap.length
              normalizedWordMap :=
                mapSet wd.normalizedWordMap (normalizeAndConvertToString word) wd.heap.length
              wordCount := wd.wordCount + 1
              totalFrequency := wd.totalFrequency + frequency
              dirty := true } word (normalizeAndConvertToString word) wd.heap.length true) := by
  unfold addWordToWorkingData at hadd
  simp only [List.isEmpty_iff, if_true] at hadd
  by_cases hfail : normalizeAndConvertToString word = [] ∧ ¬ word = []
  · rw [if_pos hfail] at hadd
    simp only [Option.some.injEq, Prod.mk.injEq] at hadd
    left
    exact ⟨hadd.1.symm, hadd.2.symm, hfail.1, hfail.2⟩
  · rw [if_neg hfail] at hadd
    right
    cases hfind : mapFind wd.normalizedWordMap (normalizeAndConvertToString word) with
    | some it =>
      left
      rw [hfind] at hadd
      simp only at hadd
      cases h1 : checkedInt ((wd.entry it).frequency + frequency) with
      | none => rw [h1] at hadd; simp at hadd
      | some f =>
        cases h2 : checkedInt (wd.totalFrequency + frequency) with
        | none => rw [h1, h2] at hadd; simp at hadd
        | some t =>
          rw [h1, h2] at hadd
          simp only [Option.some.injEq, Prod.mk.injEq] at hadd
          obtain ⟨hf1, hf2⟩ := (checkedInt_eq_some _ _).mp h1
          obtain ⟨ht1, ht2⟩ := (checkedInt_eq_some _ _).mp h2
          subst hf2 ht2
          exact ⟨hadd.1.symm, hfail, it, rfl, hf1, ht1, hadd.2.symm⟩
    | none =>
      right
      rw [hfind] at hadd
      simp only at hadd
      cases h1 : checkedInt (wd.wordCount + 1) with
      | none => rw [h1] at hadd; simp at hadd
      | some c =>
        cases h2 : checkedInt (wd.totalFrequency + frequency) with
        | none => rw [h1, h2] at hadd; simp at hadd
        | some t =>
          rw [h1, h2] at hadd
          simp only [Option.some.injEq, Prod.mk.injEq] at hadd
          obtain ⟨hf1, hf2⟩ := (checkedInt_eq_some _ _).mp h1
          obtain ⟨ht1, ht2⟩ := (checkedInt_eq_some _ _).mp h2
          subst hf2 ht2
          exact ⟨hadd.1.symm, hfail, rfl, hf1, ht1, hadd.2.symm⟩

/-- The invariant after an update of an entry that keeps its `word`, its
`normalizedWord` and its `contexts`. -/
theorem wf_set_entry (wd : WorkingData) (h : wd.WF) (it : Nat) (e : UserDictEntry)
    (t : Int) (d : Bool) (hit : it < wd.heap.length) (hword : e.word = (wd.entry it).word)
    (hnorm : e.normalizedWord = (wd.entry it).normalizedWord)
    (hctx : e.contexts = (wd.entry it).contexts) :
    ({ wd with heap := wd.heap.set it e, totalFrequency := t, dirty := d } : WorkingData).WF := by
  have hentry : ∀ p, ({ wd with heap := wd.heap.set it e, totalFrequency := t, dirty := d }
      : WorkingData).entry p = if p = it then e else wd.entry p := by
    intro p
    simp only [WorkingData.entry]
    exact getD_set_entry wd.heap it p e _ hit
  refine wf_congr wd _ h (by simp) ?_ ?_ ?_ rfl rfl rfl rfl rfl
  · intro p
    rw [hentry]
    by_cases hp : p = it
    · rw [if_pos hp, hp, hword]
    · rw [if_neg hp]
  · intro p
    rw [hentry]
    by_cases hp : p = it
    · rw [if_pos hp, hp, hnorm]
    · rw [if_neg hp]
  · intro p
    rw [hentry]
    by_cases hp : p = it
    · rw [if_pos hp, hp, hctx]
    · rw [if_neg hp]

end KazakhUserDict
namespace KazakhUserDict

open SnapshotTrieNode

theorem updateWorkingDataTrie_fields (wd : WorkingData) (word normalizedWord : Str) (entry : Nat)
    (add : Bool) :
    (updateWorkingDataTrie wd word normalizedWord entry add).heap = wd.heap
    ∧ (updateWorkingDataTrie wd word normalizedWord entry add).wordMap = wd.wordMap
    ∧ (updateWorkingDataTrie wd word normalizedWord entry add).normalizedWordMap
        = wd.normalizedWordMap
    ∧ (updateWorkingDataTrie wd word normalizedWord entry add).contextMap = wd.contextMap
    ∧ (updateWorkingDataTrie wd word normalizedWord entry add).wordCount = wd.wordCount
    ∧ (updateWorkingDataTrie wd word normalizedWord entry add).totalFrequency = wd.totalFrequency
    ∧ (updateWorkingDataTrie wd word normalizedWord entry add).dirty = wd.dirty := by
  unfold updateWorkingDataTrie
  simp only
  split <;> exact ⟨rfl, rfl, rfl, rfl, rfl, rfl, rfl⟩

theorem entry_congr (wd wd2 : WorkingData) (h : wd2.heap = wd.heap) (p : Nat) :
    wd2.entry p = wd.entry p := by
  unfold WorkingData.entry
  rw [h]

/-- The maps after the insertion of a new entry. -/
theorem mapsWF_add_new (wd wd1 : WorkingData) (h : wd.MapsWF) (now : Nat)
    (word : Str) (frequency : Int)
    (hnone : mapFind wd.normalizedWordMap (normalizeAndConvertToString word) = none)
    (hnorm : normalizeAndConvertToString word ≠ []) (hb : ∀ b ∈ word, b < 256)
    (hheap : wd1.heap
      = wd.heap ++ [⟨word, normalizeAndConvertToString word, frequency, [], now, now⟩])
    (hwm : wd1.wordMap = mapSet wd.wordMap word wd.heap.length)
    (hnm : wd1.normalizedWordMap
      = mapSet wd.normalizedWordMap (normalizeAndConvertToString word) wd.heap.length)
    (hcm : wd1.contextMap = wd.contextMap) (hc : wd1.wordCount = wd.wordCount + 1) :
    wd1.MapsWF := by
  have hentry : ∀ p, wd1.entry p = if p < wd.heap.length then wd.entry p
      else if p = wd.heap.length then
        ⟨word, normalizeAndConvertToString word, frequency, [], now, now⟩
      else ⟨[], [], 0, [], 0, 0⟩ := by
    intro p
    unfold WorkingData.entry
    rw [hheap]
    exact getD_append_entry wd.heap p _ _
  have hold : ∀ p, p < wd.heap.length → wd1.entry p = wd.entry p := by
    intro p hp
    rw [hentry, if_pos hp]
  have hnew : wd1.entry wd.heap.length
      = ⟨word, normalizeAndConvertToString word, frequency, [], now, now⟩ := by
    rw [hentry, if_neg (lt_irrefl _), if_pos rfl]
  have hlen : wd1.heap.length = wd.heap.length + 1 := by
    rw [hheap, List.length_append, List.length_singleton]
  have hwnone : mapFind wd.wordMap word = none := by
    cases hf : mapFind wd.wordMap word with
    | none => rfl
    | some p =>
      obtain ⟨_, _, h3⟩ := h.ofWord word p hf
      rw [(h.normalized word p hf).1, hnone] at h3
      cases h3
  have hnormne : ∀ p, mapFind wd.normalizedWordMap (wd.entry p).normalizedWord = some p →
      (wd.entry p).normalizedWord ≠ normalizeAndConvertToString word := by
    intro p hp e
    rw [e, hnone] at hp
    cases hp
  have hwordne : ∀ p, mapFind wd.wordMap (wd.entry p).word = some p →
      (wd.entry p).word ≠ word := by
    intro p hp e
    rw [e, hwnone] at hp
    cases hp
  refine ⟨?_, ?_, ?_, ?_, ?_, ?_, ?_, ?_, ?_, ?_⟩
  · rw [hwm]; exact nodup_keys_mapSet _ _ _ h.wordKeys
  · rw [hnm]; exact nodup_keys_mapSet _ _ _ h.normKeys
  · rw [hcm]; exact h.contextKeys
  · intro w p hf
    rw [hwm, mapFind_mapSet] at hf
    by_cases hw : w = word
    · rw [if_pos hw] at hf
      cases hf
      rw [hnew, hlen, hnm, mapFind_mapSet]
      exact ⟨Nat.lt_succ_self _, hw.symm, by simp⟩
    · rw [if_neg hw] at hf
      obtain ⟨h1, h2, h3⟩ := h.ofWord w p hf
      rw [hold p h1, hlen, hnm, mapFind_mapSet, if_neg (hnormne p h3)]
      exact ⟨Nat.lt_succ_of_lt h1, h2, h3⟩
  · intro n p hf
    rw [hnm, mapFind_mapSet] at hf
    by_cases hn : n = normalizeAndConvertToString word
    · rw [if_pos hn] at hf
      cases hf
      rw [hnew, hlen, hwm, mapFind_mapSet]
      exact ⟨Nat.lt_succ_self _, hn.symm, by simp⟩
    · rw [if_neg hn] at hf
      obtain ⟨h1, h2, h3⟩ := h.ofNorm n p hf
      rw [hold p h1, hlen, hwm, mapFind_mapSet, if_neg (hwordne p h3)]
      exact ⟨Nat.lt_succ_of_lt h1, h2, h3⟩
  · intro w p hf
    rw [hwm, mapFind_mapSet] at hf
    by_cases hw : w = word
    · rw [if_pos hw] at hf
      cases hf
      rw [hnew, hw]
      exact ⟨rfl, hnorm, hb⟩
    · rw [if_neg hw] at hf
      rw [hold p (h.ofWord w p hf).1]
      exact h.normalized w p hf
  · rw [hc, hwm, mapSet_of_none _ _ _ hwnone, List.length_append, List.length_singleton, h.count]
    push_cast
    rfl
  · intro c ps hf
    rw [hcm] at hf
    obtain ⟨h1, h2, h3⟩ := h.ofContext c ps hf
    refine ⟨h1, h2, ?_⟩
    intro p hp
    obtain ⟨h4, h5⟩ := h3 p hp
    have hp2 := (h.ofNorm _ p h5).1
    rw [hold p hp2, hnm, mapFind_mapSet, if_neg (hnormne p h5)]
    exact ⟨h4, h5⟩
  · intro n p hf c hcmem
    rw [hnm, mapFind_mapSet] at hf
    by_cases hn : n = normalizeAndConvertToString word
    · rw [if_pos hn] at hf
      cases hf
      rw [hnew] at hcmem
      simp at hcmem
    · rw [if_neg hn] at hf
      rw [hold p (h.ofNorm n p hf).1] at hcmem
      rw [hcm]
      exact h.inContext n p hf c hcmem
  · intro p
    rw [hentry]
    by_cases hp : p < wd.heap.length
    · rw [if_pos hp]; exact h.contexts p
    · rw [if_neg hp]
      by_cases hp2 : p = wd.heap.length
      · rw [if_pos hp2]; simp
      · rw [if_neg hp2]; simp

/-- The trie after the insertion of a new entry. -/
theorem trieInv_add_new (wd wd1 : WorkingData) (h : wd.WF) (now : Nat)
    (word : Str) (frequency : Int)
    (hnone : mapFind wd.normalizedWordMap (normalizeAndConvertToString word) = none)
    (hnorm : normalizeAndConvertToString word ≠ [])
    (hheap : wd1.heap
      = wd.heap ++ [⟨word, normalizeAndConvertToString word, frequency, [], now, now⟩])
    (hnm : wd1.normalizedWordMap
      = mapSet wd.normalizedWordMap (normalizeAndConvertToString word) wd.heap.length)
    (htrie : wd1.trieRoot = wd.trieRoot) :
    TrieInv (trieGood wd1)
      (updateWorkingDataTrie wd1 word (normalizeAndConvertToString word) wd.heap.length
        true).trieRoot [] := by
  have hentry : ∀ p, wd1.entry p = if p < wd.heap.length then wd.entry p
      else if p = wd.heap.length then
        ⟨word, normalizeAndConvertToString word, frequency, [], now, now⟩
      else ⟨[], [], 0, [], 0, 0⟩ := by
    intro p
    unfold WorkingData.entry
    rw [hheap]
    exact getD_append_entry wd.heap p _ _
  have hmono : ∀ q es, trieGood wd q es → trieGood wd1 q es := by
    intro q es hg p hp
    obtain ⟨h1, h2, h3⟩ := hg p hp
    have hp2 := (h.maps.ofNorm _ p h1).1
    have hne : (wd.entry p).normalizedWord ≠ normalizeAndConvertToString word := by
      intro e
      rw [e, hnone] at h1
      cases h1
    rw [hentry, if_pos hp2, hnm, mapFind_mapSet, if_neg hne]
    exact ⟨h1, h2, h3⟩
  unfold updateWorkingDataTrie
  simp only
  split
  · rw [htrie]
    intro path node hr
    have := h.trie path node hr
    exact ⟨this.1, hmono _ _ this.2⟩
  · rename_i hcond
    have hu : utf8ToUtf16 (normalizeAndConvertToString word) ≠ [] := by
      intro e
      apply hcond
      rw [e]
      simp [hnorm]
    rw [htrie]
    simp only
    refine trieInv_updateNode (trieGood wd) (trieGood wd1) _ ?_ ?_ _ _ [] h.trie ?_ ?_
    · intro n
      simp [updateTrieNode, SnapshotTrieNode.children]
    · intro q p hp
      simp at hp
    · intro q es _ hg
      exact hmono q es hg
    · intro n hg p hp
      simp only [updateTrieNode, if_true, SnapshotTrieNode.entries] at hp
      have hp2 : p ∈ n.entries ∨ p = wd.heap.length := by
        split at hp
        · simpa using hp
        · exact Or.inl hp
      rcases hp2 with hp2 | hp2
      · exact hmono _ _ hg p hp2
      · subst hp2
        rw [hentry, if_neg (lt_irrefl _), if_pos rfl, hnm, mapFind_mapSet]
        simp only [if_true, true_and, List.nil_append]
        exact ⟨utf8ToUtf16_of_ne_nil _ hu, hu⟩

/-- The invariant after `addWordToWorkingData` on a byte string that is not
empty. -/
theorem wf_addWordToWorkingData (wd : WorkingData) (h : wd.WF) (now : Nat)
    (word : Str) (frequency : Int) (r : Bool) (wd2 : WorkingData) (hw : word ≠ [])
    (hb : ∀ b ∈ word, b < 256)
    (hadd : addWordToWorkingData wd now word frequency true = some (r, wd2)) :
    wd2.WF := by
  rcases addWordToWorkingData_cases wd now word frequency r wd2 hadd with
    ⟨_, h2, _, _⟩ | ⟨_, _, it, hfind, _, _, h2⟩ | ⟨_, hok, hnone, _, _, h2⟩
  · rw [h2]; exact h
  · rw [h2]
    have hit := (h.maps.ofNorm _ it hfind).1
    have hset := wf_set_entry wd h it
      { wd.entry it with frequency := (wd.entry it).frequency + frequency, lastUsed := now }
      (wd.totalFrequency + frequency) true hit rfl rfl rfl
    exact hset
  · have hnorm : normalizeAndConvertToString word ≠ [] := fun e => hok ⟨e, hw⟩
    obtain ⟨f1, f2, f3, f4, f5, f6, f7⟩ := updateWorkingDataTrie_fields
      ({ wd with
          heap := wd.heap ++ [⟨word, normalizeAndConvertToString word, frequency, [], now, now⟩]
          wordMap := mapSet wd.wordMap word wd.heap.length
          normalizedWordMap :=
            mapSet wd.normalizedWordMap (normalizeAndConvertToString word) wd.heap.length
          wordCount := wd.wordCount + 1
          totalFrequency := wd.totalFrequency + frequency
          dirty := true } : WorkingData) word (normalizeAndConvertToString word)
        wd.heap.length true
    rw [← h2] at f1 f2 f3 f4 f5
    refine ⟨mapsWF_add_new wd wd2 h.maps now word frequency hnone hnorm hb
      f1 f2 f3 f4 f5, ?_⟩
    have ht := trieInv_add_new wd
      ({ wd with
          heap := wd.heap ++ [⟨word, normalizeAndConvertToString word, frequency, [], now, now⟩]
          wordMap := mapSet wd.wordMap word wd.heap.length
          normalizedWordMap :=
            mapSet wd.normalizedWordMap (normalizeAndConvertToString word) wd.heap.length
          wordCount := wd.wordCount + 1
          totalFrequency := wd.totalFrequency + frequency
          dirty := true } : WorkingData) h now word frequency hnone hnorm rfl rfl rfl
    rw [← h2] at ht
    have e : trieGood wd2 = trieGood ({ wd with
          heap := wd.heap ++ [⟨word, normalizeAndConvertToString word, frequency, [], now, now⟩]
          wordMap := mapSet wd.wordMap word wd.heap.length
          normalizedWordMap :=
            mapSet wd.normalizedWordMap (normalizeAndConvertToString word) wd.heap.length
          wordCount := wd.wordCount + 1
          totalFrequency := wd.totalFrequency + frequency
          dirty := true } : WorkingData) :=
      trieGood_congr _ _ (fun p => by rw [entry_congr _ _ f1 p]) f3
    rw [e]
    exact ht

end KazakhUserDict
namespace KazakhUserDict

open SnapshotTrieNode

/-- After a successful `addWordToWorkingData` the normalized word is present. -/
theorem addWordToWorkingData_find (wd : WorkingData) (now : Nat) (word : Str) (frequency : Int)
    (wd2 : WorkingData)
    (hadd : addWordToWorkingData wd now word frequency true = some (true, wd2)) :
    ∃ p, mapFind wd2.normalizedWordMap (normalizeAndConvertToString word) = some p := by
  rcases addWordToWorkingData_cases wd now word frequency true wd2 hadd with
    ⟨h1, _, _, _⟩ | ⟨_, _, it, hfind, _, _, h2⟩ | ⟨_, hok, hnone, _, _, h2⟩
  · cases h1
  · exact ⟨it, by rw [h2]; exact hfind⟩
  · refine ⟨wd.heap.length, ?_⟩
    rw [h2, (updateWorkingDataTrie_fields _ _ _ _ _).2.2.1]
    simp only
    rw [mapFind_mapSet, if_pos rfl]

/-- The ways in which `addWordWithContextToWorkingData` returns. -/
theorem addWordWithContextToWorkingData_cases (wd : WorkingData) (now : Nat)
    (word contextWord : Str) (frequency : Int) (r : Bool) (wd2 : WorkingData)
    (hadd : addWordWithContextToWorkingData wd now word contextWord frequency = some (r, wd2)) :
    (r = false ∧ wd2 = wd)
    ∨ (r = true ∧ ¬ (normalizeAndConvertToString contextWord = [] ∧ contextWord ≠ [])
        ∧ ∃ wd1 p, addWordToWorkingData wd now word frequency true = some (true, wd1)
          ∧ mapFind wd1.normalizedWordMap (normalizeAndConvertToString word) = some p
          ∧ ((normalizeAndConvertToString contextWord ∉ (wd1.entry p).contexts
              ∧ wd2 = { wd1 with
                  heap := wd1.heap.set p { wd1.entry p with
                    contexts := (wd1.entry p).contexts
                      ++ [normalizeAndConvertToString contextWord] }
                  contextMap :=
                    mapPush wd1.contextMap (normalizeAndConvertToString contextWord) p
                  dirty := true })
            ∨ (normalizeAndConvertToString contextWord ∈ (wd1.entry p).contexts
              ∧ wd2 = { wd1 with dirty := true }))) := by
  unfold addWordWithContextToWorkingData at hadd
  simp only [List.isEmpty_iff] at hadd
  by_cases hfail : normalizeAndConvertToString contextWord = [] ∧ ¬ contextWord = []
  · rw [if_pos hfail] at hadd
    simp only [Option.some.injEq, Prod.mk.injEq] at hadd
    left
    exact ⟨hadd.1.symm, hadd.2.symm⟩
  · rw [if_neg hfail] at hadd
    cases h1 : addWordToWorkingData wd now word frequency true with
    | none => rw [h1] at hadd; simp at hadd
    | some res =>
      obtain ⟨ok, wd1⟩ := res
      rw [h1] at hadd
      cases ok with
      | false =>
        simp only [Option.some.injEq, Prod.mk.injEq] at hadd
        left
        rcases addWordToWorkingData_cases wd now word frequency false wd1 h1 with
          ⟨_, h2, _, _⟩ | ⟨h2, _⟩ | ⟨h2, _⟩
        · exact ⟨hadd.1.symm, by rw [← hadd.2, h2]⟩
        · cases h2
        · cases h2
      | true =>
        right
        obtain ⟨p, hp⟩ := addWordToWorkingData_find wd now word frequency wd1 h1
        simp only [hp, Option.getD_some] at hadd
        by_cases hmem : normalizeAndConvertToString contextWord ∈ (wd1.entry p).contexts
        · simp only [hmem, not_true_eq_false, if_false, Option.some.injEq, Prod.mk.injEq] at hadd
          exact ⟨hadd.1.symm, hfail, wd1, p, rfl, hp, Or.inr ⟨hmem, hadd.2.symm⟩⟩
        · simp only [hmem, not_false_eq_true, if_true, Option.some.injEq, Prod.mk.injEq] at hadd
          exact ⟨hadd.1.symm, hfail, wd1, p, rfl, hp, Or.inl ⟨hmem, hadd.2.symm⟩⟩

/-- The invariant after a context is added to an entry that lacks it. -/
theorem wf_add_context (wd : WorkingData) (h : wd.WF) (p : Nat) (n ctx : Str)
    (d : Bool) (hfind : mapFind wd.normalizedWordMap n = some p) (hctx : ctx ≠ [])
    (hnot : ctx ∉ (wd.entry p).contexts) :
    ({ wd with
        heap := wd.heap.set p { wd.entry p with contexts := (wd.entry p).contexts ++ [ctx] }
        contextMap := mapPush wd.contextMap ctx p
        dirty := d } : WorkingData).WF := by
  obtain ⟨hp, hpn, hpw⟩ := h.maps.ofNorm n p hfind
  have hentry : ∀ q, ({ wd with
        heap := wd.heap.set p { wd.entry p with contexts := (wd.entry p).contexts ++ [ctx] }
        contextMap := mapPush wd.contextMap ctx p
        dirty := d } : WorkingData).entry q
      = if q = p then { wd.entry p with contexts := (wd.entry p).contexts ++ [ctx] }
        else wd.entry q := by
    intro q
    simp only [WorkingData.entry]
    exact getD_set_entry wd.heap p q _ _ hp
  generalize hwd2 : ({ wd with
        heap := wd.heap.set p { wd.entry p with contexts := (wd.entry p).contexts ++ [ctx] }
        contextMap := mapPush wd.contextMap ctx p
        dirty := d } : WorkingData) = wd2 at hentry
  have hlen : wd2.heap.length = wd.heap.length := by rw [← hwd2]; simp
  have hwm : wd2.wordMap = wd.wordMap := by rw [← hwd2]
  have hnm : wd2.normalizedWordMap = wd.normalizedWordMap := by rw [← hwd2]
  have hcm : wd2.contextMap = mapPush wd.contextMap ctx p := by rw [← hwd2]
  have hcount : wd2.wordCount = wd.wordCount := by rw [← hwd2]
  have htrie : wd2.trieRoot = wd.trieRoot := by rw [← hwd2]
  have hword : ∀ q, (wd2.entry q).word = (wd.entry q).word := by
    intro q
    rw [hentry]
    by_cases hq : q = p
    · rw [if_pos hq, hq]
    · rw [if_neg hq]
  have hnorm : ∀ q, (wd2.entry q).normalizedWord = (wd.entry q).normalizedWord := by
    intro q
    rw [hentry]
    by_cases hq : q = p
    · rw [if_pos hq, hq]
    · rw [if_neg hq]
  have hcp : (wd2.entry p).contexts = (wd.entry p).contexts ++ [ctx] := by
    rw [hentry, if_pos rfl]
  have hcq : ∀ q, q ≠ p → (wd2.entry q).contexts = (wd.entry q).contexts := by
    intro q hq
    rw [hentry, if_neg hq]
  have hsup : ∀ q c, c ∈ (wd.entry q).contexts → c ∈ (wd2.entry q).contexts := by
    intro q c hc
    by_cases hq : q = p
    · rw [hq, hcp]
      rw [hq] at hc
      exact List.mem_append_left _ hc
    · rw [hcq q hq]; exact hc
  have hinv : ∀ q c, c ∈ (wd2.entry q).contexts →
      c ∈ (wd.entry q).contexts ∨ (q = p ∧ c = ctx) := by
    intro q c hc
    by_cases hq : q = p
    · rw [hq, hcp] at hc
      rcases List.mem_append.mp hc with h1 | h1
      · left; rw [hq]; exact h1
      · right; exact ⟨hq, List.mem_singleton.mp h1⟩
    · rw [hcq q hq] at hc
      exact Or.inl hc
  refine ⟨⟨?_, ?_, ?_, ?_, ?_, ?_, ?_, ?_, ?_, ?_⟩, ?_⟩
  · rw [hwm]; exact h.maps.wordKeys
  · rw [hnm]; exact h.maps.normKeys
  · rw [hcm]; exact nodup_keys_mapSet _ _ _ h.maps.contextKeys
  · intro w q hf
    rw [hwm] at hf
    rw [hlen, hword, hnorm, hnm]
    exact h.maps.ofWord w q hf
  · intro n2 q hf
    rw [hnm] at hf
    rw [hlen, hword, hnorm, hwm]
    exact h.maps.ofNorm n2 q hf
  · intro w q hf
    rw [hwm] at hf
    rw [hnorm]
    exact h.maps.normalized w q hf
  · rw [hcount, hwm]; exact h.maps.count
  · intro c ps hf
    rw [hcm, mapFind_mapPush] at hf
    by_cases hc : c = ctx
    · rw [if_pos hc] at hf
      simp only [Option.some.injEq] at hf
      subst hc
      cases hold : mapFind wd.contextMap c with
      | none =>
        rw [hold] at hf
        simp only [Option.getD_none, List.nil_append] at hf
        subst hf
        refine ⟨by simp, by simp, ?_⟩
        intro q hq
        rw [List.mem_singleton] at hq
        subst hq
        rw [hcp, hnorm, hnm, hpn]
        exact ⟨by simp, hfind⟩
      | some ps0 =>
        rw [hold] at hf
        simp only [Option.getD_some] at hf
        subst hf
        obtain ⟨h1, h2, h3⟩ := h.maps.ofContext c ps0 hold
        refine ⟨by simp, ?_, ?_⟩
        · refine List.Nodup.append h2 (List.nodup_singleton _) ?_
          intro a ha hb
          rw [List.mem_singleton] at hb
          subst hb
          exact hnot (h3 a ha).1
        · intro q hq
          rcases List.mem_append.mp hq with hq | hq
          · rw [hnorm, hnm]
            exact ⟨hsup q c (h3 q hq).1, (h3 q hq).2⟩
          · rw [List.mem_singleton] at hq
            subst hq
            rw [hcp, hnorm, hnm, hpn]
            exact ⟨by simp, hfind⟩
    · rw [if_neg hc] at hf
      obtain ⟨h1, h2, h3⟩ := h.maps.ofContext c ps hf
      refine ⟨h1, h2, ?_⟩
      intro q hq
      rw [hnorm, hnm]
      exact ⟨hsup q c (h3 q hq).1, (h3 q hq).2⟩
  · intro n2 q hf c hc
    rw [hnm] at hf
    rw [hcm, mapFind_mapPush]
    by_cases hcc : c = ctx
    · rw [if_pos hcc]
      refine ⟨_, rfl, ?_⟩
      rcases hinv q c hc with h1 | ⟨h1, _⟩
      · obtain ⟨ps, hps, hq⟩ := h.maps.inContext n2 q hf c h1
        rw [← hcc, hps]
        simp only [Option.getD_some]
        exact List.mem_append_left _ hq
      · rw [h1]; simp
    · rw [if_neg hcc]
      rcases hinv q c hc with h1 | ⟨_, h1⟩
      · exact h.maps.inContext n2 q hf c h1
      · exact absurd h1 hcc
  · intro q
    by_cases hq : q = p
    · rw [hq, hcp]
      obtain ⟨h1, h2⟩ := h.maps.contexts p
      refine ⟨?_, ?_⟩
      · refine List.Nodup.append h1 (List.nodup_singleton _) ?_
        intro a ha hb
        rw [List.mem_singleton] at hb
        subst hb
        exact hnot ha
      · intro hmem
        rcases List.mem_append.mp hmem with h3 | h3
        · exact h2 h3
        · exact hctx (List.mem_singleton.mp h3).symm
    · rw [hcq q hq]
      exact h.maps.contexts q
  · rw [trieGood_congr wd wd2 hnorm hnm, htrie]
    exact h.trie

/-- The invariant after `addWordWithContextToWorkingData` on byte strings that
are not empty. -/
theorem wf_addWordWithContextToWorkingData (wd : WorkingData) (h : wd.WF)
    (now : Nat) (word contextWord : Str) (frequency : Int) (r : Bool) (wd2 : WorkingData)
    (hw : word ≠ []) (hb : ∀ b ∈ word, b < 256) (hc : contextWord ≠ [])
    (hadd : addWordWithContextToWorkingData wd now word contextWord frequency = some (r, wd2)) :
    wd2.WF := by
  rcases addWordWithContextToWorkingData_cases wd now word contextWord frequency r wd2 hadd with
    ⟨_, h2⟩ | ⟨_, hok, wd1, p, h1, hp, h3⟩
  · rw [h2]; exact h
  · have hwf1 := wf_addWordToWorkingData wd h now word frequency true wd1 hw hb h1
    have hctx : normalizeAndConvertToString contextWord ≠ [] := fun e => hok ⟨e, hc⟩
    rcases h3 with ⟨hnot, h4⟩ | ⟨_, h4⟩
    · rw [h4]
      exact wf_add_context wd1 hwf1 p _ _ true hp hctx hnot
    · rw [h4]
      exact wf_congr wd1 _ hwf1 rfl (fun _ => rfl) (fun _ => rfl) (fun _ => rfl)
        rfl rfl rfl rfl rfl

end KazakhUserDict
namespace KazakhUserDict

open SnapshotTrieNode

theorem length_mapErase {κ α : Type} [DecidableEq κ] (m : List (κ × α))
    (hnd : (m.map Prod.fst).Nodup) (key : κ) (value : α) (h : mapFind m key = some value) :
    (mapErase m key).length + 1 = m.length := by
  induction m with
  | nil => simp [mapFind_nil] at h
  | cons p m ih =>
    rw [List.map_cons, List.nodup_cons] at hnd
    rw [mapFind_cons] at h
    unfold mapErase at ih ⊢
    by_cases hk : p.1 = key
    · rw [List.filter_cons_of_neg (by simp [hk])]
      have hall : m.filter (fun q => decide (q.1 ≠ key)) = m := by
        rw [List.filter_eq_self]
        intro q hq
        simp only [ne_eq, decide_eq_true_eq]
        intro e
        exact hnd.1 (by rw [hk, ← e]; exact List.mem_map.mpr ⟨q, hq, rfl⟩)
      rw [hall, List.length_cons]
    · rw [List.filter_cons_of_pos (by simp [hk]), List.length_cons, List.length_cons]
      simp only [hk, if_false] at h
      rw [ih hnd.2 h]

theorem mapFind_removeFromContext (wd : WorkingData) (entry : Nat)
    (contextMap : List (Str × List Nat)) (context c2 : Str) :
    mapFind (removeFromContext wd entry contextMap context) c2
      = if c2 = context then contextListAfter wd entry (mapFind contextMap context)
        else mapFind contextMap c2 := by
  unfold removeFromContext contextListAfter
  simp only
  split
  · rw [mapFind_mapErase]
  · rw [mapFind_mapSet]

theorem contextListAfter_idem (wd : WorkingData) (entry : Nat) (o : Option (List Nat)) :
    contextListAfter wd entry (contextListAfter wd entry o) = contextListAfter wd entry o := by
  unfold contextListAfter
  split
  · simp
  · rename_i h
    simp only [Option.getD_some, List.filter_filter, Bool.and_self]
    rw [if_neg h]

theorem mapFind_foldl_removeFromContext (wd : WorkingData) (entry : Nat) (c2 : Str) :
    ∀ (cs : List Str) (contextMap : List (Str × List Nat)),
      mapFind (cs.foldl (removeFromContext wd entry) contextMap) c2
        = if c2 ∈ cs then contextListAfter wd entry (mapFind contextMap c2)
          else mapFind contextMap c2 := by
  intro cs
  induction cs with
  | nil => intro cm; simp
  | cons c cs ih =>
    intro cm
    rw [List.foldl_cons, ih, mapFind_removeFromContext]
    by_cases h1 : c2 = c
    · subst h1
      simp only [if_true, List.mem_cons, true_or]
      by_cases h2 : c2 ∈ cs
      · rw [if_pos h2, contextListAfter_idem]
      · rw [if_neg h2]
    · simp only [h1, if_false, List.mem_cons, false_or]

theorem nodup_keys_foldl_removeFromContext (wd : WorkingData) (entry : Nat) :
    ∀ (cs : List Str) (contextMap : List (Str × List Nat)),
      (contextMap.map Prod.fst).Nodup →
      ((cs.foldl (removeFromContext wd entry) contextMap).map Prod.fst).Nodup := by
  intro cs
  induction cs with
  | nil => intro cm h; exact h
  | cons c cs ih =>
    intro cm h
    rw [List.foldl_cons]
    apply ih
    unfold removeFromContext
    simp only
    split
    · exact nodup_keys_mapErase _ _ h
    · exact nodup_keys_mapSet _ _ _ h

/-- The ways in which `removeWordFromWorkingData` returns. -/
theorem removeWordFromWorkingData_cases (wd : WorkingData) (word : Str) (r : Bool)
    (wd2 : WorkingData) (hrem : removeWordFromWorkingData wd word = some (r, wd2)) :
    (r = false ∧ wd2 = wd
      ∧ ((normalizeAndConvertToString word = [] ∧ word ≠ [])
        ∨ mapFind wd.normalizedWordMap (normalizeAndConvertToString word) = none))
    ∨ (r = true
        ∧ ∃ it, mapFind wd.normalizedWordMap (normalizeAndConvertToString word) = some it
          ∧ fitsInt (wd.totalFrequency - (wd.entry it).frequency) = true
          ∧ fitsInt (wd.wordCount - 1) = true
          ∧ wd2 = { updateWorkingDataTrie wd (wd.entry it).word
                (normalizeAndConvertToString word) it false with
              contextMap := removeFromContexts wd it
              wordMap := mapErase wd.wordMap (wd.entry it).word
              normalizedWordMap :=
                mapErase wd.normalizedWordMap (normalizeAndConvertToString word)
              totalFrequency := wd.totalFrequency - (wd.entry it).frequency
              wordCount := wd.wordCount - 1
              dirty := true }) := by
  unfold removeWordFromWorkingData at hrem
  simp only [List.isEmpty_iff] at hrem
  by_cases hfail : normalizeAndConvertToString word = [] ∧ ¬ word = []
  · rw [if_pos hfail] at hrem
    simp only [Option.some.injEq, Prod.mk.injEq] at hrem
    left
    exact ⟨hrem.1.symm, hrem.2.symm, Or.inl hfail⟩
  · rw [if_neg hfail] at hrem
    cases hfind : mapFind wd.normalizedWordMap (normalizeAndConvertToString word) with
    | none =>
      rw [hfind] at hrem
      simp only [Option.some.injEq, Prod.mk.injEq] at hrem
      left
      exact ⟨hrem.1.symm, hrem.2.symm, Or.inr rfl⟩
    | some it =>
      right
      rw [hfind] at hrem
      simp only at hrem
      cases h1 : checkedInt (wd.totalFrequency - (wd.entry it).frequency) with
      | none => rw [h1] at hrem; simp at hrem
      | some t =>
        cases h2 : checkedInt (wd.wordCount - 1) with
        | none => rw [h1, h2] at hrem; simp at hrem
        | some c =>
          rw [h1, h2] at hrem
          simp only [Option.some.injEq, Prod.mk.injEq] at hrem
          obtain ⟨hf1, hf2⟩ := (checkedInt_eq_some _ _).mp h1
          obtain ⟨ht1, ht2⟩ := (checkedInt_eq_some _ _).mp h2
          subst hf2 ht2
          exact ⟨hrem.1.symm, it, rfl, hf1, ht1, hrem.2.symm⟩

/-- The maps after the removal of an entry. -/
theorem mapsWF_remove (wd wd2 : WorkingData) (h : wd.MapsWF) (it : Nat) (n : Str)
    (hfind : mapFind wd.normalizedWordMap n = some it)
    (hheap : wd2.heap = wd.heap)
    (hwm : wd2.wordMap = mapErase wd.wordMap (wd.entry it).word)
    (hnm : wd2.normalizedWordMap = mapErase wd.normalizedWordMap n)
    (hcm : wd2.contextMap = removeFromContexts wd it)
    (hc : wd2.wordCount = wd.wordCount - 1) :
    wd2.MapsWF := by
  obtain ⟨hit, hitn, hitw⟩ := h.ofNorm n it hfind
  have hentry : ∀ p, wd2.entry p = wd.entry p := entry_congr wd wd2 hheap
  have hitf : mapFind wd.normalizedWordMap (wd.entry it).normalizedWord = some it := by
    rw [hitn]; exact hfind
  have hfindc : ∀ c, mapFind wd2.contextMap c
      = if c ∈ (wd.entry it).contexts then contextListAfter wd it (mapFind wd.contextMap c)
        else mapFind wd.contextMap c := by
    intro c
    rw [hcm]
    unfold removeFromContexts
    exact mapFind_foldl_removeFromContext wd it c _ _
  refine ⟨?_, ?_, ?_, ?_, ?_, ?_, ?_, ?_, ?_, ?_⟩
  · rw [hwm]; exact nodup_keys_mapErase _ _ h.wordKeys
  · rw [hnm]; exact nodup_keys_mapErase _ _ h.normKeys
  · rw [hcm]
    unfold removeFromContexts
    exact nodup_keys_foldl_removeFromContext wd it _ _ h.contextKeys
  · intro w p hf
    rw [hwm, mapFind_mapErase] at hf
    by_cases hw : w = (wd.entry it).word
    · rw [if_pos hw] at hf; cases hf
    · rw [if_neg hw] at hf
      obtain ⟨h1, h2, h3⟩ := h.ofWord w p hf
      rw [hentry, hheap, hnm, mapFind_mapErase]
      refine ⟨h1, h2, ?_⟩
      have hne : (wd.entry p).normalizedWord ≠ n := by
        intro e
        rw [e, hfind] at h3
        have : it = p := Option.some.inj h3
        rw [← this] at h2
        exact hw h2.symm
      rw [if_neg hne]
      exact h3
  · intro n2 p hf
    rw [hnm, mapFind_mapErase] at hf
    by_cases hn : n2 = n
    · rw [if_pos hn] at hf; cases hf
    · rw [if_neg hn] at hf
      obtain ⟨h1, h2, h3⟩ := h.ofNorm n2 p hf
      rw [hentry, hheap, hwm, mapFind_mapErase]
      refine ⟨h1, h2, ?_⟩
      have hne : (wd.entry p).word ≠ (wd.entry it).word := by
        intro e
        rw [e, hitw] at h3
        have : it = p := Option.some.inj h3
        rw [← this, hitn] at h2
        exact hn h2.symm
      rw [if_neg hne]
      exact h3
  · intro w p hf
    rw [hwm, mapFind_mapErase] at hf
    by_cases hw : w = (wd.entry it).word
    · rw [if_pos hw] at hf; cases hf
    · rw [if_neg hw] at hf
      rw [hentry]
      exact h.normalized w p hf
  · rw [hc, hwm, h.count]
    have := length_mapErase wd.wordMap h.wordKeys _ it hitw
    omega
  · intro c ps hf
    rw [hfindc] at hf
    by_cases hcm2 : c ∈ (wd.entry it).contexts
    · rw [if_pos hcm2] at hf
      unfold contextListAfter at hf
      split at hf
      · cases hf
      · rename_i hne
        simp only [Option.some.injEq] at hf
        cases hold : mapFind wd.contextMap c with
        | none =>
          rw [hold] at hne
          simp at hne
        | some ps0 =>
          rw [hold] at hf hne
          simp only [Option.getD_some] at hf hne
          obtain ⟨h1, h2, h3⟩ := h.ofContext c ps0 hold
          subst hf
          refine ⟨?_, h2.filter _, ?_⟩
          · intro e
            rw [e] at hne
            simp at hne
          · intro q hq
            rw [List.mem_filter] at hq
            obtain ⟨hq1, hq2⟩ := hq
            simp only [ne_eq, decide_eq_true_eq] at hq2
            rw [hentry, hnm, mapFind_mapErase, if_neg (by rw [← hitn]; exact hq2)]
            exact h3 q hq1
    · rw [if_neg hcm2] at hf
      obtain ⟨h1, h2, h3⟩ := h.ofContext c ps hf
      refine ⟨h1, h2, ?_⟩
      intro q hq
      obtain ⟨h4, h5⟩ := h3 q hq
      rw [hentry, hnm, mapFind_mapErase]
      have hne : (wd.entry q).normalizedWord ≠ n := by
        intro e
        rw [e, hfind] at h5
        have : it = q := Option.some.inj h5
        rw [← this] at h4
        exact hcm2 h4
      rw [if_neg hne]
      exact ⟨h4, h5⟩
  · intro n2 q hf c hcmem
    rw [hnm, mapFind_mapErase] at hf
    by_cases hn : n2 = n
    · rw [if_pos hn] at hf; cases hf
    · rw [if_neg hn] at hf
      rw [hentry] at hcmem
      obtain ⟨ps, hps, hq⟩ := h.inContext n2 q hf c hcmem
      obtain ⟨_, hqn, _⟩ := h.ofNorm n2 q hf
      rw [hfindc]
      by_cases hcm2 : c ∈ (wd.entry it).contexts
      · rw [if_pos hcm2, hps]
        have hkeep : q ∈ ps.filter
            (fun e => decide ((wd.entry e).normalizedWord ≠ (wd.entry it).normalizedWord)) := by
          rw [List.mem_filter]
          refine ⟨hq, ?_⟩
          simp only [ne_eq, decide_eq_true_eq]
          rw [hqn, hitn]
          exact hn
        unfold contextListAfter
        simp only [Option.getD_some]
        rw [if_neg (by
          intro e
          rw [List.isEmpty_iff] at e
          rw [e] at hkeep
          simp at hkeep)]
        exact ⟨_, rfl, hkeep⟩
      · rw [if_neg hcm2]
        exact ⟨ps, hps, hq⟩
  · intro p
    rw [hentry]
    exact h.contexts p

/-- The trie after the removal of an entry. -/
theorem trieInv_remove (wd wd2 : WorkingData) (h : wd.WF) (it : Nat) (n : Str) (word : Str)
    (hfind : mapFind wd.normalizedWordMap n = some it)
    (hheap : wd2.heap = wd.heap)
    (hnm : wd2.normalizedWordMap = mapErase wd.normalizedWordMap n) :
    TrieInv (trieGood wd2) (updateWorkingDataTrie wd word n it false).trieRoot [] := by
  obtain ⟨hit, hitn, hitw⟩ := h.maps.ofNorm n it hfind
  have hentry : ∀ p, wd2.entry p = wd.entry p := entry_congr wd wd2 hheap
  have hmono : ∀ q es, q ≠ utf8ToUtf16 n → trieGood wd q es → trieGood wd2 q es := by
    intro q es hq hg p hp
    obtain ⟨h1, h2, h3⟩ := hg p hp
    have hne : (wd.entry p).normalizedWord ≠ n := by
      intro e
      rw [e] at h2
      apply hq
      unfold utf8ToUtf16
      rw [h2]
      rfl
    rw [hentry, hnm, mapFind_mapErase, if_neg hne]
    exact ⟨h1, h2, h3⟩
  unfold updateWorkingDataTrie
  simp only
  split
  · rename_i hcond
    intro path node hr
    have := h.trie path node hr
    refine ⟨this.1, ?_⟩
    intro p hp
    obtain ⟨h1, h2, h3⟩ := this.2 p hp
    simp only [List.nil_append] at h2 h3
    refine hmono path node.entries ?_ this.2 p hp
    intro e
    rw [List.isEmpty_iff] at hcond
    rw [← e] at hcond
    exact h3 hcond.1
  · simp only
    refine trieInv_updateNode (trieGood wd) (trieGood wd2) _ ?_ ?_ _ _ [] h.trie ?_ ?_
    · intro node
      simp [updateTrieNode, SnapshotTrieNode.children]
    · intro q p hp
      simp at hp
    · intro q es hq hg
      exact hmono q es hq hg
    · intro node hg p hp
      simp only [updateTrieNode, Bool.false_eq_true, if_false, SnapshotTrieNode.entries,
        List.mem_filter, ne_eq, decide_eq_true_eq] at hp
      obtain ⟨h1, h2, h3⟩ := hg p hp.1
      rw [hentry, hnm, mapFind_mapErase, if_neg (by rw [← hitn]; exact hp.2)]
      exact ⟨h1, h2, h3⟩

/-- The invariant after `removeWordFromWorkingData`. -/
theorem wf_removeWordFromWorkingData (wd : WorkingData) (h : wd.WF) (word : Str)
    (r : Bool) (wd2 : WorkingData)
    (hrem : removeWordFromWorkingData wd word = some (r, wd2)) : wd2.WF := by
  rcases removeWordFromWorkingData_cases wd word r wd2 hrem with
    ⟨_, h2, _⟩ | ⟨_, it, hfind, _, _, h2⟩
  · rw [h2]; exact h
  · obtain ⟨f1, f2, f3, f4, f5, f6, f7⟩ := updateWorkingDataTrie_fields wd (wd.entry it).word
      (normalizeAndConvertToString word) it false
    have hheap : wd2.heap = wd.heap := by rw [h2]; exact f1
    have hnm : wd2.normalizedWordMap
        = mapErase wd.normalizedWordMap (normalizeAndConvertToString word) := by rw [h2]
    refine ⟨mapsWF_remove wd wd2 h.maps it _ hfind hheap (by rw [h2]) hnm
      (by rw [h2]) (by rw [h2]), ?_⟩
    have ht := trieInv_remove wd wd2 h it _ (wd.entry it).word hfind hheap hnm
    have e : wd2.trieRoot = (updateWorkingDataTrie wd (wd.entry it).word
        (normalizeAndConvertToString word) it false).trieRoot := by rw [h2]
    rw [e]
    exact ht

end KazakhUserDict
namespace KazakhUserDict

open SnapshotTrieNode

theorem wf_empty : WorkingData.empty.WF := by
  refine ⟨⟨?_, ?_, ?_, ?_, ?_, ?_, ?_, ?_, ?_, ?_⟩, ?_⟩
  · simp [WorkingData.empty]
  · simp [WorkingData.empty]
  · simp [WorkingData.empty]
  · intro w p hf; simp [WorkingData.empty, mapFind_nil] at hf
  · intro w p hf; simp [WorkingData.empty, mapFind_nil] at hf
  · intro w p hf; simp [WorkingData.empty, mapFind_nil] at hf
  · simp [WorkingData.empty]
  · intro w p hf; simp [WorkingData.empty, mapFind_nil] at hf
  · intro w p hf; simp [WorkingData.empty, mapFind_nil] at hf
  · intro p
    have : WorkingData.empty.entry p = ⟨[], [], 0, [], 0, 0⟩ := by
      simp [WorkingData.empty, WorkingData.entry]
    rw [this]
    simp
  · intro path node hr
    have hr2 : SnapshotTrieNode.empty.Reaches path node := hr
    obtain ⟨rfl, rfl⟩ := reaches_empty path node hr2
    refine ⟨by simp [SnapshotTrieNode.empty, SnapshotTrieNode.children], ?_⟩
    intro p hp
    simp [SnapshotTrieNode.empty, SnapshotTrieNode.entries] at hp

theorem wf_addWord (wd : WorkingData) (h : wd.WF) (now : Nat) (word : Str)
    (frequency : Int) (r : Bool) (wd2 : WorkingData) (hb : ∀ b ∈ word, b < 256)
    (hadd : addWord wd now word frequency = some (r, wd2)) : wd2.WF := by
  unfold KazakhUserDict.addWord at hadd
  split at hadd
  · simp only [Option.some.injEq, Prod.mk.injEq] at hadd
    rw [← hadd.2]; exact h
  · rename_i hg
    rw [List.isEmpty_iff] at hg
    exact wf_addWordToWorkingData wd h now word frequency r wd2
      (fun e => hg (Or.inl e)) hb hadd

theorem wf_addWordWithContext (wd : WorkingData) (h : wd.WF) (now : Nat)
    (word contextWord : Str) (frequency : Int) (r : Bool) (wd2 : WorkingData)
    (hb : ∀ b ∈ word, b < 256)
    (hadd : addWordWithContext wd now word contextWord frequency = some (r, wd2)) :
    wd2.WF := by
  unfold KazakhUserDict.addWordWithContext at hadd
  split at hadd
  · simp only [Option.some.injEq, Prod.mk.injEq] at hadd
    rw [← hadd.2]; exact h
  · rename_i hg
    rw [List.isEmpty_iff, List.isEmpty_iff] at hg
    exact wf_addWordWithContextToWorkingData wd h now word contextWord frequency
      r wd2 (fun e => hg (Or.inl e)) hb (fun e => hg (Or.inr e)) hadd

theorem wf_removeWord (wd : WorkingData) (h : wd.WF) (word : Str)
    (r : Bool) (wd2 : WorkingData) (hrem : removeWord wd word = some (r, wd2)) : wd2.WF := by
  unfold KazakhUserDict.removeWord at hrem
  split at hrem
  · simp only [Option.some.injEq, Prod.mk.injEq] at hrem
    rw [← hrem.2]; exact h
  · exact wf_removeWordFromWorkingData wd h word r wd2 hrem

/-- The ways in which `updateWordFrequency` returns. -/
theorem updateWordFrequency_cases (wd : WorkingData) (now : Nat) (word : Str) (delta : Int)
    (r : Bool) (wd2 : WorkingData)
    (hupd : updateWordFrequency wd now word delta = some (r, wd2)) :
    (r = false ∧ wd2 = wd
      ∧ (word = [] ∨ mapFind wd.normalizedWordMap (normalizeAndConvertToString word) = none))
    ∨ (word ≠ []
        ∧ ∃ it, mapFind wd.normalizedWordMap (normalizeAndConvertToString word) = some it
          ∧ fitsInt ((wd.entry it).frequency + delta) = true
          ∧ (((wd.entry it).frequency + delta ≤ 0
              ∧ removeWordFromWorkingData wd word = some (r, wd2))
            ∨ (0 < (wd.entry it).frequency + delta ∧ r = true
              ∧ fitsInt (wd.totalFrequency + delta) = true
              ∧ wd2 = { wd with
                  totalFrequency := wd.totalFrequency + delta
                  heap := wd.heap.set it { wd.entry it with
                    frequency := (wd.entry it).frequency + delta, lastUsed := now }
                  dirty := true }))) := by
  unfold updateWordFrequency at hupd
  simp only [List.isEmpty_iff] at hupd
  by_cases hw : word = []
  · rw [if_pos hw] at hupd
    simp only [Option.some.injEq, Prod.mk.injEq] at hupd
    left
    exact ⟨hupd.1.symm, hupd.2.symm, Or.inl hw⟩
  · rw [if_neg hw] at hupd
    cases hfind : mapFind wd.normalizedWordMap (normalizeAndConvertToString word) with
    | none =>
      rw [hfind] at hupd
      simp only [Option.some.injEq, Prod.mk.injEq] at hupd
      left
      exact ⟨hupd.1.symm, hupd.2.symm, Or.inr rfl⟩
    | some it =>
      right
      rw [hfind] at hupd
      simp only at hupd
      cases h1 : checkedInt ((wd.entry it).frequency + delta) with
      | none => rw [h1] at hupd; simp at hupd
      | some newFreq =>
        rw [h1] at hupd
        simp only at hupd
        obtain ⟨hf1, hf2⟩ := (checkedInt_eq_some _ _).mp h1
        subst hf2
        refine ⟨hw, it, rfl, hf1, ?_⟩
        by_cases hle : (wd.entry it).frequency + delta ≤ 0
        · rw [if_pos hle] at hupd
          exact Or.inl ⟨hle, hupd⟩
        · rw [if_neg hle] at hupd
          cases h2 : checkedInt (wd.totalFrequency + delta) with
          | none => rw [h2] at hupd; simp at hupd
          | some t =>
            rw [h2] at hupd
            simp only [Option.some.injEq, Prod.mk.injEq] at hupd
            obtain ⟨ht1, ht2⟩ := (checkedInt_eq_some _ _).mp h2
            subst ht2
            exact Or.inr ⟨by omega, hupd.1.symm, ht1, hupd.2.symm⟩

theorem wf_updateWordFrequency (wd : WorkingData) (h : wd.WF) (now : Nat)
    (word : Str) (delta : Int) (r : Bool) (wd2 : WorkingData)
    (hupd : updateWordFrequency wd now word delta = some (r, wd2)) : wd2.WF := by
  rcases updateWordFrequency_cases wd now word delta r wd2 hupd with
    ⟨_, h2, _⟩ | ⟨_, it, hfind, _, ⟨_, hrem⟩ | ⟨_, _, _, h2⟩⟩
  · rw [h2]; exact h
  · exact wf_removeWordFromWorkingData wd h word r wd2 hrem
  · rw [h2]
    have hit := (h.maps.ofNorm _ it hfind).1
    have := wf_set_entry wd h it
      { wd.entry it with frequency := (wd.entry it).frequency + delta, lastUsed := now }
      (wd.totalFrequency + delta) true hit rfl rfl rfl
    exact this

theorem wf_importWords :
    ∀ (words : List (Nat × Str)) (wd : WorkingData), wd.WF →
      (∀ p ∈ words, ∀ b ∈ p.2, b < 256) →
      ∀ (r : Bool) (wd2 : WorkingData), importWords wd words = some (r, wd2) → wd2.WF := by
  intro words
  induction words with
  | nil =>
    intro wd h _ r wd2 himp
    simp only [KazakhUserDict.importWords, Option.some.injEq, Prod.mk.injEq] at himp
    rw [← himp.2]; exact h
  | cons p words ih =>
    intro wd h hb r wd2 himp
    obtain ⟨now, word⟩ := p
    simp only [KazakhUserDict.importWords, List.isEmpty_iff] at himp
    by_cases hw : word = []
    · rw [if_neg (by simp [hw])] at himp
      exact ih wd h (fun q hq => hb q (List.mem_cons_of_mem _ hq)) r wd2 himp
    · rw [if_pos hw] at himp
      cases h1 : addWordToWorkingData wd now word 1 true with
      | none => rw [h1] at himp; simp at himp
      | some res =>
        obtain ⟨ok, wd1⟩ := res
        rw [h1] at himp
        simp only at himp
        have hwf1 := wf_addWordToWorkingData wd h now word 1 ok wd1 hw
          (hb (now, word) (List.mem_cons_self _ _)) h1
        cases h2 : KazakhUserDict.importWords wd1 words with
        | none => rw [h2] at himp; simp at himp
        | some res2 =>
          obtain ⟨s, wd3⟩ := res2
          rw [h2] at himp
          simp only [Option.some.injEq, Prod.mk.injEq] at himp
          rw [← himp.2]
          exact ih wd1 hwf1 (fun q hq => hb q (List.mem_cons_of_mem _ hq)) s wd3 h2

theorem wf_learnFromInput (wd : WorkingData) (h : wd.WF) (now : Nat)
    (word context : Str) (r : Bool) (wd2 : WorkingData) (hb : ∀ b ∈ word, b < 256)
    (hl : learnFromInput wd now word context = some (r, wd2)) : wd2.WF := by
  unfold KazakhUserDict.learnFromInput at hl
  simp only [List.isEmpty_iff] at hl
  by_cases hw : word = []
  · rw [if_pos hw] at hl
    simp only [Option.some.injEq, Prod.mk.injEq] at hl
    rw [← hl.2]; exact h
  · rw [if_neg hw] at hl
    by_cases hc : context = []
    · rw [if_pos hc] at hl
      exact wf_addWordToWorkingData wd h now word 1 r wd2 hw hb hl
    · rw [if_neg hc] at hl
      exact wf_addWordWithContextToWorkingData wd h now word context 1 r wd2
        hw hb hc hl

theorem decayEntry_none (oneMonthAgo : Nat) (ps : List Nat) :
    ps.foldl (decayEntry oneMonthAgo) none = none := by
  induction ps with
  | nil => rfl
  | cons p ps ih => rw [List.foldl_cons]; exact ih

theorem wf_decayEntry (oneMonthAgo : Nat) (wd : WorkingData) (h : wd.WF)
    (b : Bool) (p : Nat) (hp : p < wd.heap.length) (b2 : Bool) (wd2 : WorkingData)
    (hd : decayEntry oneMonthAgo (some (b, wd)) p = some (b2, wd2)) :
    wd2.WF ∧ wd2.heap.length = wd.heap.length := by
  unfold KazakhUserDict.decayEntry at hd
  simp only at hd
  split at hd
  · split at hd
    · cases h1 : checkedInt (wd.totalFrequency - 1) with
      | none => rw [h1] at hd; simp at hd
      | some t =>
        rw [h1] at hd
        simp only [Option.some.injEq, Prod.mk.injEq] at hd
        rw [← hd.2]
        exact ⟨wf_set_entry wd h p _ t wd.dirty hp rfl rfl rfl, by simp⟩
    · simp only [Option.some.injEq, Prod.mk.injEq] at hd
      rw [← hd.2]; exact ⟨h, rfl⟩
  · simp only [Option.some.injEq, Prod.mk.injEq] at hd
    rw [← hd.2]; exact ⟨h, rfl⟩

theorem wf_decayFold (oneMonthAgo : Nat) :
    ∀ (ps : List Nat) (wd : WorkingData) (b : Bool), wd.WF → (∀ p ∈ ps, p < wd.heap.length) →
      ∀ (b2 : Bool) (wd2 : WorkingData),
        ps.foldl (decayEntry oneMonthAgo) (some (b, wd)) = some (b2, wd2) → wd2.WF := by
  intro ps
  induction ps with
  | nil =>
    intro wd b h _ b2 wd2 hf
    simp only [List.foldl_nil, Option.some.injEq, Prod.mk.injEq] at hf
    rw [← hf.2]; exact h
  | cons p ps ih =>
    intro wd b h hps b2 wd2 hf
    rw [List.foldl_cons] at hf
    cases h1 : decayEntry oneMonthAgo (some (b, wd)) p with
    | none =>
      rw [h1, decayEntry_none] at hf
      cases hf
    | some res =>
      obtain ⟨b1, wd1⟩ := res
      rw [h1] at hf
      obtain ⟨hwf1, hlen⟩ := wf_decayEntry oneMonthAgo wd h b p
        (hps p (List.mem_cons_self _ _)) b1 wd1 h1
      exact ih wd1 b1 hwf1 (fun q hq => by rw [hlen]; exact hps q (List.mem_cons_of_mem _ hq))
        b2 wd2 hf

theorem wf_decayOldEntries (wd : WorkingData) (h : wd.WF) (now : Nat)
    (wd2 : WorkingData) (hd : decayOldEntries wd now = some wd2) : wd2.WF := by
  unfold KazakhUserDict.decayOldEntries at hd
  simp only at hd
  split at hd
  · cases hd
  · rename_i b wd1 hfold
    have hps : ∀ p ∈ wd.wordMap.map Prod.snd, p < wd.heap.length := by
      intro p hp
      obtain ⟨pair, hpair, rfl⟩ := List.mem_map.mp hp
      exact (h.maps.ofWord pair.1 pair.2
        (mapFind_of_mem _ h.maps.wordKeys _ _ hpair)).1
    have hwf1 := wf_decayFold _ _ wd false h hps b wd1 hfold
    split at hd
    · simp only [Option.some.injEq] at hd
      rw [← hd]
      exact wf_congr wd1 _ hwf1 rfl (fun _ => rfl) (fun _ => rfl) (fun _ => rfl)
        rfl rfl rfl rfl rfl
    · simp only [Option.some.injEq] at hd
      rw [← hd]; exact hwf1

/-- The invariant holds after every call. -/
theorem wf_step (wd : WorkingData) (h : wd.WF) (call : Call) (hb : call.IsBytes)
    (r : Bool) (wd2 : WorkingData) (hs : step wd call = some (r, wd2)) : wd2.WF := by
  cases call with
  | addWord now word frequency =>
    exact wf_addWord wd h now word frequency r wd2
      (hb word (by simp [Call.words])) hs
  | addWordWithContext now word contextWord frequency =>
    exact wf_addWordWithContext wd h now word contextWord frequency r wd2
      (hb word (by simp [Call.words])) hs
  | removeWord word => exact wf_removeWord wd h word r wd2 hs
  | updateWordFrequency now word delta =>
    exact wf_updateWordFrequency wd h now word delta r wd2 hs
  | learnFromInput now word context =>
    exact wf_learnFromInput wd h now word context r wd2
      (hb word (by simp [Call.words])) hs
  | importWords words =>
    refine wf_importWords words wd h ?_ r wd2 hs
    intro p hp b hbm
    by_cases hw : p.2 = []
    · rw [hw] at hbm; simp at hbm
    · exact hb p.2 (by
        simp only [Call.words, List.mem_filter, List.mem_map, ne_eq, decide_eq_true_eq]
        exact ⟨⟨p, hp, rfl⟩, hw⟩) b hbm
  | decayOldEntries now =>
    simp only [KazakhUserDict.step, Option.map_eq_some', Prod.mk.injEq] at hs
    obtain ⟨wd1, h1, _, h2⟩ := hs
    rw [← h2]
    exact wf_decayOldEntries wd h now wd1 h1

/-- The invariant holds after every sequence of calls on a working data that
satisfies it, so after every sequence of calls on a new user dictionary. -/
theorem wf_run :
    ∀ (calls : List Call) (wd : WorkingData), wd.WF → (∀ call ∈ calls, call.IsBytes) →
      ∀ (rs : List Bool) (wd2 : WorkingData), run wd calls = some (rs, wd2) → wd2.WF := by
  intro calls
  induction calls with
  | nil =>
    intro wd h _ rs wd2 hr
    simp only [KazakhUserDict.run, Option.some.injEq, Prod.mk.injEq] at hr
    rw [← hr.2]; exact h
  | cons call calls ih =>
    intro wd h hb rs wd2 hr
    simp only [KazakhUserDict.run] at hr
    cases h1 : KazakhUserDict.step wd call with
    | none => rw [h1] at hr; simp at hr
    | some res =>
      obtain ⟨r, wd1⟩ := res
      rw [h1] at hr
      simp only at hr
      have hwf1 := wf_step wd h call (hb call (List.mem_cons_self _ _)) r wd1 h1
      cases h2 : KazakhUserDict.run wd1 calls with
      | none => rw [h2] at hr; simp at hr
      | some res2 =>
        obtain ⟨rs2, wd3⟩ := res2
        rw [h2] at hr
        simp only [Option.some.injEq, Prod.mk.injEq] at hr
        rw [← hr.2]
        exact ih wd1 hwf1 (fun c hc => hb c (List.mem_cons_of_mem _ hc)) rs2 wd3 h2

end KazakhUserDict
/-! ## The calls that write to the user dictionary -/

namespace KazakhUserDict

theorem normalizeAndConvertToString_nil : normalizeAndConvertToString [] = [] := by decide

/-- The pointers of `wordMap` are distinct. -/
theorem wordMap_pointers_nodup (wd : WorkingData) (h : wd.MapsWF) :
    (wd.wordMap.map Prod.snd).Nodup := by
  have hnd : wd.wordMap.Nodup := List.Nodup.of_map _ h.wordKeys
  refine List.Nodup.map_on ?_ hnd
  intro a ha b hb hab
  have h1 := (h.ofWord a.1 a.2 (mapFind_of_mem _ h.wordKeys _ _ ha)).2.1
  have h2 := (h.ofWord b.1 b.2 (mapFind_of_mem _ h.wordKeys _ _ hb)).2.1
  rw [hab, h2] at h1
  exact Prod.ext h1.symm hab

/-- A key of `normalizedWordMap` is the normalization of a word that is not
empty, and is not empty. -/
theorem mapsWF_norm_ne_nil (wd : WorkingData) (h : wd.MapsWF) (n : Str) (it : Nat)
    (hfind : mapFind wd.normalizedWordMap n = some it) : n ≠ [] := by
  obtain ⟨_, h2, h3⟩ := h.ofNorm n it hfind
  obtain ⟨h4, h5, _⟩ := h.normalized _ it h3
  rw [← h2, h4]
  exact h5

theorem addWord_existing (wd : WorkingData) (h : wd.WF) (now : Nat) (word : Str)
    (frequency : Int) (it : Nat)
    (hfind : mapFind wd.normalizedWordMap (normalizeAndConvertToString word) = some it)
    (hf : 1 ≤ frequency)
    (ho1 : fitsInt ((wd.entry it).frequency + frequency) = true)
    (ho2 : fitsInt (wd.totalFrequency + frequency) = true) :
    addWord wd now word frequency
      = some (true, { wd with
          heap := wd.heap.set it { wd.entry it with
            frequency := (wd.entry it).frequency + frequency, lastUsed := now }
          totalFrequency := wd.totalFrequency + frequency
          dirty := true }) := by
  have hn := mapsWF_norm_ne_nil wd h.maps _ it hfind
  have hw : word ≠ [] := by
    intro e
    rw [e] at hn
    exact hn normalizeAndConvertToString_nil
  unfold addWord
  rw [if_neg (by
    rw [List.isEmpty_iff]
    intro hg
    rcases hg with hg | hg
    · exact hw hg
    · omega)]
  unfold addWordToWorkingData
  simp only [List.isEmpty_iff, if_true, hfind]
  rw [if_neg (fun hg => hn hg.1)]
  have e1 : checkedInt ((wd.entry it).frequency + frequency)
      = some ((wd.entry it).frequency + frequency) := (checkedInt_eq_some _ _).mpr ⟨ho1, rfl⟩
  have e2 : checkedInt (wd.totalFrequency + frequency) = some (wd.totalFrequency + frequency) :=
    (checkedInt_eq_some _ _).mpr ⟨ho2, rfl⟩
  rw [e1, e2]

end KazakhUserDict

/-- Claim C27 on three calls. On a new user dictionary, `addWordWithContext`
with the frequency 0 returns `true` and leaves an entry of frequency 0 in the
working set, and with the frequency -5 an entry of frequency -5: it does not
check the frequency. `addWord` with the frequency 0 returns `false` and adds
nothing. -/
theorem addWordWithContext_stores_nonpositive_frequency :
    (KazakhUserDict.run KazakhUserDict.WorkingData.empty
        [KazakhUserDict.Call.addWordWithContext 1000 [97] [98] 0]).map
        (fun r => (r.1, r.2.entries.map (fun e => e.frequency))) = some ([true], [0])
    ∧ (KazakhUserDict.run KazakhUserDict.WorkingData.empty
        [KazakhUserDict.Call.addWordWithContext 1000 [97] [98] (-5)]).map
        (fun r => (r.1, r.2.entries.map (fun e => e.frequency))) = some ([true], [-5])
    ∧ (KazakhUserDict.run KazakhUserDict.WorkingData.empty
        [KazakhUserDict.Call.addWord 1000 [97] 0]).map
        (fun r => (r.1, r.2.entries.map (fun e => e.frequency))) = some ([false], []) := by
  decide

/-- Claim C28. When the normalization of `word` is present in the working
set, under the pointer `it`, `addWord(word, f)` with `f ≥ 1` returns `true`
(the sums being values of `int`); the entry `it` has its `frequency` increased
by `f` and its `lastUsed` set to the time of the call, and keeps its `word`,
its `normalizedWord`, its `contexts` and its `created`; every other entry, the
maps, the trie and `wordCount` are as before, and `totalFrequency` is
increased by `f`. And after `addWordWithContext` no entry holds a context
twice. -/
theorem addWord_existing_spec (wd : KazakhUserDict.WorkingData) (h : wd.WF) (now : Nat)
    (word : Str) (frequency : Int) (it : Nat)
    (hfind : mapFind wd.normalizedWordMap (normalizeAndConvertToString word) = some it)
    (hf : 1 ≤ frequency)
    (ho1 : fitsInt ((wd.entry it).frequency + frequency) = true)
    (ho2 : fitsInt (wd.totalFrequency + frequency) = true) :
    (∃ wd2, KazakhUserDict.addWord wd now word frequency = some (true, wd2)
      ∧ wd2.entry it = { wd.entry it with
          frequency := (wd.entry it).frequency + frequency, lastUsed := now }
      ∧ (∀ p, p ≠ it → wd2.entry p = wd.entry p)
      ∧ wd2.totalFrequency = wd.totalFrequency + frequency
      ∧ wd2.wordCount = wd.wordCount ∧ wd2.wordMap = wd.wordMap
      ∧ wd2.normalizedWordMap = wd.normalizedWordMap ∧ wd2.contextMap = wd.contextMap
      ∧ wd2.trieRoot = wd.trieRoot)
    ∧ ∀ (now2 : Nat) (word2 contextWord : Str) (frequency2 : Int) (r : Bool)
        (wd3 : KazakhUserDict.WorkingData), (∀ b ∈ word2, b < 256) →
        KazakhUserDict.addWordWithContext wd now2 word2 contextWord frequency2 = some (r, wd3) →
        ∀ p, (wd3.entry p).contexts.Nodup := by
  refine ⟨⟨_, KazakhUserDict.addWord_existing wd h now word frequency it hfind hf ho1 ho2,
    ?_, ?_, rfl, rfl, rfl, rfl, rfl, rfl⟩, ?_⟩
  · have hit := (h.maps.ofNorm _ it hfind).1
    simp only [KazakhUserDict.WorkingData.entry]
    rw [KazakhUserDict.getD_set_entry wd.heap it it _ _ hit, if_pos rfl]
  · intro p hp
    have hit := (h.maps.ofNorm _ it hfind).1
    simp only [KazakhUserDict.WorkingData.entry]
    rw [KazakhUserDict.getD_set_entry wd.heap it p _ _ hit, if_neg hp]
  · intro now2 word2 contextWord frequency2 r wd3 hb hadd p
    exact ((KazakhUserDict.wf_addWordWithContext wd h now2 word2 contextWord frequency2 r wd3
      hb hadd).maps.contexts p).1
namespace KazakhUserDict

theorem removeWordFromWorkingData_present (wd : WorkingData) (h : wd.WF) (word : Str) (it : Nat)
    (hfind : mapFind wd.normalizedWordMap (normalizeAndConvertToString word) = some it)
    (ho1 : fitsInt (wd.totalFrequency - (wd.entry it).frequency) = true)
    (ho2 : fitsInt (wd.wordCount - 1) = true) :
    removeWordFromWorkingData wd word
      = some (true, { updateWorkingDataTrie wd (wd.entry it).word
            (normalizeAndConvertToString word) it false with
          contextMap := removeFromContexts wd it
          wordMap := mapErase wd.wordMap (wd.entry it).word
          normalizedWordMap := mapErase wd.normalizedWordMap (normalizeAndConvertToString word)
          totalFrequency := wd.totalFrequency - (wd.entry it).frequency
          wordCount := wd.wordCount - 1
          dirty := true }) := by
  have hn := mapsWF_norm_ne_nil wd h.maps _ it hfind
  unfold removeWordFromWorkingData
  simp only [List.isEmpty_iff, hfind]
  rw [if_neg (fun hg => hn hg.1)]
  have e1 : checkedInt (wd.totalFrequency - (wd.entry it).frequency)
      = some (wd.totalFrequency - (wd.entry it).frequency) :=
    (checkedInt_eq_some _ _).mpr ⟨ho1, rfl⟩
  have e2 : checkedInt (wd.wordCount - 1) = some (wd.wordCount - 1) :=
    (checkedInt_eq_some _ _).mpr ⟨ho2, rfl⟩
  rw [e1, e2]

/-- What a removal leaves of the entry: nothing in the maps, nothing in the
trie. -/
theorem removeWordFromWorkingData_gone (wd : WorkingData) (h : wd.WF) (word : Str) (it : Nat)
    (wd2 : WorkingData)
    (hfind : mapFind wd.normalizedWordMap (normalizeAndConvertToString word) = some it)
    (hrem : removeWordFromWorkingData wd word = some (true, wd2)) :
    wd2.WF ∧ wd2.heap = wd.heap
    ∧ wd2.totalFrequency = wd.totalFrequency - (wd.entry it).frequency
    ∧ wd2.wordCount = wd.wordCount - 1
    ∧ wd2.wordMap = mapErase wd.wordMap (wd.entry it).word
    ∧ wd2.normalizedWordMap = mapErase wd.normalizedWordMap (normalizeAndConvertToString word)
    ∧ (∀ c ps, mapFind wd2.contextMap c = some ps → it ∉ ps)
    ∧ (∀ path node, wd2.trieRoot.Reaches path node → it ∉ node.entries) := by
  have hwf2 := wf_removeWordFromWorkingData wd h word true wd2 hrem
  rcases removeWordFromWorkingData_cases wd word true wd2 hrem with
    ⟨h1, _⟩ | ⟨_, it2, hfind2, _, _, h2⟩
  · cases h1
  · rw [hfind] at hfind2
    cases hfind2
    have hheap : wd2.heap = wd.heap := by
      rw [h2]; exact (updateWorkingDataTrie_fields _ _ _ _ _).1
    have hnm : wd2.normalizedWordMap
        = mapErase wd.normalizedWordMap (normalizeAndConvertToString word) := by rw [h2]
    have hgone : mapFind wd2.normalizedWordMap (wd2.entry it).normalizedWord ≠ some it := by
      rw [entry_congr wd wd2 hheap, (h.maps.ofNorm _ it hfind).2.1, hnm, mapFind_mapErase,
        if_pos rfl]
      simp
    refine ⟨hwf2, hheap, by rw [h2], by rw [h2], by rw [h2], hnm, ?_, ?_⟩
    · intro c ps hf hmem
      exact hgone ((hwf2.maps.ofContext c ps hf).2.2 it hmem).2
    · intro path node hr hmem
      exact hgone ((hwf2.trie path node hr).2 it hmem).1

theorem updateWordFrequency_present (wd : WorkingData) (h : wd.WF) (now : Nat) (word : Str)
    (delta : Int) (it : Nat)
    (hfind : mapFind wd.normalizedWordMap (normalizeAndConvertToString word) = some it)
    (ho : fitsInt ((wd.entry it).frequency + delta) = true) :
    updateWordFrequency wd now word delta
      = if (wd.entry it).frequency + delta ≤ 0 then removeWordFromWorkingData wd word
        else
          match checkedInt (wd.totalFrequency + delta) with
          | none => none
          | some t =>
            some (true, { wd with
              totalFrequency := t
              heap := wd.heap.set it { wd.entry it with
                frequency := (wd.entry it).frequency + delta, lastUsed := now }
              dirty := true }) := by
  have hn := mapsWF_norm_ne_nil wd h.maps _ it hfind
  have hw : word ≠ [] := by
    intro e
    rw [e] at hn
    exact hn normalizeAndConvertToString_nil
  unfold updateWordFrequency
  simp only [List.isEmpty_iff, hfind]
  rw [if_neg hw]
  have e1 : checkedInt ((wd.entry it).frequency + delta)
      = some ((wd.entry it).frequency + delta) := (checkedInt_eq_some _ _).mpr ⟨ho, rfl⟩
  rw [e1]
  try rfl

theorem updateWordFrequency_absent (wd : WorkingData) (now : Nat) (word : Str) (delta : Int)
    (hfind : mapFind wd.normalizedWordMap (normalizeAndConvertToString word) = none) :
    updateWordFrequency wd now word delta = some (false, wd) := by
  unfold updateWordFrequency
  simp only [hfind]
  split <;> rfl

/-! ### `decayOldEntries` -/

/-- The loop of `decayOldEntries` over distinct pointers. -/
theorem decayFold_spec (oneMonthAgo : Nat) :
    ∀ (ps : List Nat) (wd : WorkingData) (b : Bool), ps.Nodup →
      (∀ p ∈ ps, p < wd.heap.length) → fitsInt wd.totalFrequency = true →
      fitsInt (wd.totalFrequency - ((ps.filter (fun p =>
        decide ((wd.entry p).lastUsed < oneMonthAgo ∧ 1 < (wd.entry p).frequency))).length : Nat))
        = true →
      ∃ b2 wd2, ps.foldl (decayEntry oneMonthAgo) (some (b, wd)) = some (b2, wd2)
        ∧ wd2.heap.length = wd.heap.length
        ∧ (∀ p, wd2.entry p
            = if p ∈ ps ∧ (wd.entry p).lastUsed < oneMonthAgo ∧ 1 < (wd.entry p).frequency then
                { wd.entry p with frequency := (wd.entry p).frequency - 1 }
              else wd.entry p)
        ∧ wd2.totalFrequency = wd.totalFrequency - ((ps.filter (fun p =>
            decide ((wd.entry p).lastUsed < oneMonthAgo ∧ 1 < (wd.entry p).frequency))).length
              : Nat)
        ∧ wd2.wordMap = wd.wordMap ∧ wd2.normalizedWordMap = wd.normalizedWordMap
        ∧ wd2.contextMap = wd.contextMap ∧ wd2.trieRoot = wd.trieRoot
        ∧ wd2.wordCount = wd.wordCount := by
  intro ps
  induction ps with
  | nil =>
    intro wd b _ _ _ _
    exact ⟨b, wd, rfl, rfl, by simp, by simp, rfl, rfl, rfl, rfl, rfl⟩
  | cons p ps ih =>
    intro wd b hnd hlt hfit1 hfit2
    rw [List.nodup_cons] at hnd
    have hp := hlt p (List.mem_cons_self _ _)
    rw [List.foldl_cons]
    by_cases hc : (wd.entry p).lastUsed < oneMonthAgo ∧ 1 < (wd.entry p).frequency
    · -- the entry is decremented
      rw [List.filter_cons_of_pos (by simpa using hc), List.length_cons] at hfit2
      have hfits : fitsInt (wd.totalFrequency - 1) = true := by
        unfold fitsInt at hfit1 hfit2 ⊢
        simp only [Bool.and_eq_true, decide_eq_true_eq] at hfit1 hfit2 ⊢
        push_cast at hfit2
        omega
      have e1 : checkedInt (wd.totalFrequency - 1) = some (wd.totalFrequency - 1) :=
        (checkedInt_eq_some _ _).mpr ⟨hfits, rfl⟩
      have hstep : decayEntry oneMonthAgo (some (b, wd)) p
          = some (true, { wd with
              heap := wd.heap.set p { wd.entry p with frequency := (wd.entry p).frequency - 1 }
              totalFrequency := wd.totalFrequency - 1 }) := by
        unfold decayEntry
        simp only
        rw [if_pos hc.1, if_pos (by omega), e1]
      rw [hstep]
      have hentry1 : ∀ q, ({ wd with
              heap := wd.heap.set p { wd.entry p with frequency := (wd.entry p).frequency - 1 }
              totalFrequency := wd.totalFrequency - 1 } : WorkingData).entry q
          = if q = p then { wd.entry p with frequency := (wd.entry p).frequency - 1 }
            else wd.entry q := by
        intro q
        simp only [WorkingData.entry]
        exact getD_set_entry wd.heap p q _ _ hp
      generalize hwd1 : ({ wd with
              heap := wd.heap.set p { wd.entry p with frequency := (wd.entry p).frequency - 1 }
              totalFrequency := wd.totalFrequency - 1 } : WorkingData) = wd1 at hentry1
      have hlen1 : wd1.heap.length = wd.heap.length := by rw [← hwd1]; simp
      have htot1 : wd1.totalFrequency = wd.totalFrequency - 1 := by rw [← hwd1]
      have hfilter : ps.filter (fun q =>
            decide ((wd1.entry q).lastUsed < oneMonthAgo ∧ 1 < (wd1.entry q).frequency))
          = ps.filter (fun q =>
            decide ((wd.entry q).lastUsed < oneMonthAgo ∧ 1 < (wd.entry q).frequency)) := by
        apply List.filter_congr
        intro q hq
        have hqp : q ≠ p := fun e => hnd.1 (e ▸ hq)
        rw [hentry1, if_neg hqp]
      obtain ⟨b2, wd2, h1, h2, h3, h4, h5, h6, h7, h8, h9⟩ := ih wd1 true hnd.2
        (fun q hq => by rw [hlen1]; exact hlt q (List.mem_cons_of_mem _ hq))
        (by rw [htot1]; exact hfits)
        (by
          rw [hfilter, htot1]
          have e : wd.totalFrequency - 1 - ((ps.filter (fun q =>
              decide ((wd.entry q).lastUsed < oneMonthAgo ∧ 1 < (wd.entry q).frequency))).length
                : Nat)
              = wd.totalFrequency - (((ps.filter (fun q =>
              decide ((wd.entry q).lastUsed < oneMonthAgo ∧ 1 < (wd.entry q).frequency))).length
                + 1 : Nat) : Int) := by
            push_cast
            ring
          rw [e]
          exact hfit2)
      refine ⟨b2, wd2, h1, by rw [h2, hlen1], ?_, ?_, by rw [h5, ← hwd1], by rw [h6, ← hwd1],
        by rw [h7, ← hwd1], by rw [h8, ← hwd1], by rw [h9, ← hwd1]⟩
      · intro q
        rw [h3, hentry1]
        by_cases hqp : q = p
        · subst hqp
          have : q ∉ ps := hnd.1
          simp [this, hc]
        · simp [hqp]
      · rw [h4, hfilter, htot1, List.filter_cons_of_pos (by simpa using hc), List.length_cons]
        push_cast
        ring
    · -- the entry stays
      have hstep : decayEntry oneMonthAgo (some (b, wd)) p = some (b, wd) := by
        unfold decayEntry
        simp only
        by_cases h1 : (wd.entry p).lastUsed < oneMonthAgo
        · rw [if_pos h1, if_neg (by
            intro h2
            exact hc ⟨h1, by omega⟩)]
        · rw [if_neg h1]
      rw [hstep]
      rw [List.filter_cons_of_neg (by simpa using hc)] at hfit2
      obtain ⟨b2, wd2, h1, h2, h3, h4, h5, h6, h7, h8, h9⟩ := ih wd b hnd.2
        (fun q hq => hlt q (List.mem_cons_of_mem _ hq)) hfit1 hfit2
      refine ⟨b2, wd2, h1, h2, ?_, ?_, h5, h6, h7, h8, h9⟩
      · intro q
        rw [h3]
        by_cases hqp : q = p
        · subst hqp
          have : q ∉ ps := hnd.1
          simp [this, hc]
        · simp [hqp]
      · rw [h4, List.filter_cons_of_neg (by simpa using hc)]

end KazakhUserDict

/-- Claim C29. `updateWordFrequency(word, delta)` returns `false` and leaves
the working set as it is when the normalization of `word` is absent. When it
is present, under the pointer `it` of an entry of frequency `f` (`f + delta`
being a value of `int`): if `f + delta ≤ 0`, the call returns `true`, the
entry leaves `wordMap`, `normalizedWordMap`, every list of `contextMap` and
every node of the trie, `totalFrequency` decreases by `f` and `wordCount` by
1; otherwise the call returns `true`, the frequency of the entry becomes
`f + delta`, and `totalFrequency` increases by `delta`. -/
theorem updateWordFrequency_spec (wd : KazakhUserDict.WorkingData) (h : wd.WF) (now : Nat)
    (word : Str) (delta : Int) :
    (mapFind wd.normalizedWordMap (normalizeAndConvertToString word) = none →
      KazakhUserDict.updateWordFrequency wd now word delta = some (false, wd))
    ∧ ∀ it, mapFind wd.normalizedWordMap (normalizeAndConvertToString word) = some it →
        fitsInt ((wd.entry it).frequency + delta) = true →
        ((wd.entry it).frequency + delta ≤ 0 →
          fitsInt (wd.totalFrequency - (wd.entry it).frequency) = true →
          fitsInt (wd.wordCount - 1) = true →
          ∃ wd2, KazakhUserDict.updateWordFrequency wd now word delta = some (true, wd2)
            ∧ wd2.heap = wd.heap
            ∧ wd2.totalFrequency = wd.totalFrequency - (wd.entry it).frequency
            ∧ wd2.wordCount = wd.wordCount - 1
            ∧ wd2.wordMap = mapErase wd.wordMap (wd.entry it).word
            ∧ wd2.normalizedWordMap
                = mapErase wd.normalizedWordMap (normalizeAndConvertToString word)
            ∧ (∀ c ps, mapFind wd2.contextMap c = some ps → it ∉ ps)
            ∧ (∀ path node, wd2.trieRoot.Reaches path node → it ∉ node.entries))
        ∧ (0 < (wd.entry it).frequency + delta →
          fitsInt (wd.totalFrequency + delta) = true →
          KazakhUserDict.updateWordFrequency wd now word delta
            = some (true, { wd with
                totalFrequency := wd.totalFrequency + delta
                heap := wd.heap.set it { wd.entry it with
                  frequency := (wd.entry it).frequency + delta, lastUsed := now }
                dirty := true })) := by
  refine ⟨KazakhUserDict.updateWordFrequency_absent wd now word delta, ?_⟩
  intro it hfind ho
  have hupd := KazakhUserDict.updateWordFrequency_present wd h now word delta it hfind ho
  refine ⟨?_, ?_⟩
  · intro hle ho1 ho2
    rw [if_pos hle] at hupd
    have hrem := KazakhUserDict.removeWordFromWorkingData_present wd h word it hfind ho1 ho2
    rw [hrem] at hupd
    obtain ⟨_, g1, g2, g3, g4, g5, g6, g7⟩ :=
      KazakhUserDict.removeWordFromWorkingData_gone wd h word it _ hfind hrem
    exact ⟨_, hupd, g1, g2, g3, g4, g5, g6, g7⟩
  · intro hpos ho1
    rw [if_neg (by omega)] at hupd
    have e : checkedInt (wd.totalFrequency + delta) = some (wd.totalFrequency + delta) :=
      (KazakhUserDict.checkedInt_eq_some _ _).mpr ⟨ho1, rfl⟩
    rw [e] at hupd
    exact hupd

/-- Claim C30. After `decayOldEntries` at a time `now` of at least 30 days in
milliseconds (the counter `totalFrequency` staying a value of `int`): every
entry of the working set with `lastUsed < now - 30 days` and a frequency above
1 has its frequency decreased by 1 and is otherwise as before; every other
entry is as before; the maps, the trie and `wordCount` are as before, so no
entry is removed; and `totalFrequency` is decreased by the number of entries
decremented. -/
theorem decayOldEntries_spec (wd : KazakhUserDict.WorkingData) (h : wd.WF) (now : Nat)
    (hnow : 2592000000 ≤ now) (hnow2 : now < 18446744073709551616)
    (ht : fitsInt wd.totalFrequency = true)
    (ht2 : fitsInt (wd.totalFrequency - ((wd.entries.filter (fun e =>
      decide (e.lastUsed < now - 2592000000 ∧ 1 < e.frequency))).length : Nat)) = true) :
    ∃ wd2, KazakhUserDict.decayOldEntries wd now = some wd2
      ∧ (∀ p, wd2.entry p
          = if p ∈ wd.wordMap.map Prod.snd ∧ (wd.entry p).lastUsed < now - 2592000000
              ∧ 1 < (wd.entry p).frequency then
              { wd.entry p with frequency := (wd.entry p).frequency - 1 }
            else wd.entry p)
      ∧ wd2.wordMap = wd.wordMap ∧ wd2.normalizedWordMap = wd.normalizedWordMap
      ∧ wd2.contextMap = wd.contextMap ∧ wd2.trieRoot = wd.trieRoot
      ∧ wd2.wordCount = wd.wordCount
      ∧ wd2.totalFrequency = wd.totalFrequency - ((wd.entries.filter (fun e =>
          decide (e.lastUsed < now - 2592000000 ∧ 1 < e.frequency))).length : Nat) := by
  have hago : (now + 18446744073709551616 - 2592000000) % 18446744073709551616
      = now - 2592000000 := by omega
  have hps : ∀ p ∈ wd.wordMap.map Prod.snd, p < wd.heap.length := by
    intro p hp
    obtain ⟨pair, hpair, rfl⟩ := List.mem_map.mp hp
    exact (h.maps.ofWord pair.1 pair.2 (mapFind_of_mem _ h.maps.wordKeys _ _ hpair)).1
  have hlen : (wd.entries.filter (fun e =>
        decide (e.lastUsed < now - 2592000000 ∧ 1 < e.frequency))).length
      = ((wd.wordMap.map Prod.snd).filter (fun p =>
        decide ((wd.entry p).lastUsed < now - 2592000000 ∧ 1 < (wd.entry p).frequency))).length := by
    unfold KazakhUserDict.WorkingData.entries
    have e : wd.wordMap.map (fun pair => wd.entry pair.2)
        = (wd.wordMap.map Prod.snd).map wd.entry := by
      rw [List.map_map]; rfl
    rw [e, List.filter_map, List.length_map]
    simp only [Function.comp_def]
  rw [hlen] at ht2 ⊢
  obtain ⟨b2, wd2, h1, h2, h3, h4, h5, h6, h7, h8, h9⟩ :=
    KazakhUserDict.decayFold_spec (now - 2592000000) (wd.wordMap.map Prod.snd) wd false
      (KazakhUserDict.wordMap_pointers_nodup wd h.maps) hps ht ht2
  unfold KazakhUserDict.decayOldEntries
  simp only [hago, h1]
  by_cases hb : b2 = true
  · rw [if_pos hb]
    refine ⟨_, rfl, ?_, h5, h6, h7, h8, h9, h4⟩
    intro p
    rw [← h3 p]
    exact KazakhUserDict.entry_congr wd2 _ rfl p
  · rw [if_neg hb]
    exact ⟨_, rfl, h3, h5, h6, h7, h8, h9, h4⟩
namespace KazakhUserDict

/-- No two entries of the working set have the same `normalizedWord`. -/
theorem entries_norm_nodup (wd : WorkingData) (h : wd.MapsWF) :
    (wd.entries.map (fun e => e.normalizedWord)).Nodup := by
  unfold WorkingData.entries
  rw [List.map_map]
  have hnd : wd.wordMap.Nodup := List.Nodup.of_map _ h.wordKeys
  refine List.Nodup.map_on ?_ hnd
  intro a ha b hb hab
  simp only [Function.comp] at hab
  obtain ⟨_, a2, a3⟩ := h.ofWord a.1 a.2 (mapFind_of_mem _ h.wordKeys _ _ ha)
  obtain ⟨_, b2, b3⟩ := h.ofWord b.1 b.2 (mapFind_of_mem _ h.wordKeys _ _ hb)
  rw [hab, b3] at a3
  have hp : b.2 = a.2 := Option.some.inj a3
  rw [← hp, b2] at a2
  exact Prod.ext a2.symm hp.symm

/-- The `normalizedWord`s of the entries of the working set are the keys of
`normalizedWordMap`. -/
theorem mem_entries_norm (wd : WorkingData) (h : wd.MapsWF) (n : Str) :
    n ∈ wd.entries.map (fun e => e.normalizedWord)
      ↔ ∃ p, mapFind wd.normalizedWordMap n = some p := by
  unfold WorkingData.entries
  rw [List.map_map]
  constructor
  · intro hmem
    obtain ⟨a, ha, rfl⟩ := List.mem_map.mp hmem
    exact ⟨a.2, (h.ofWord a.1 a.2 (mapFind_of_mem _ h.wordKeys _ _ ha)).2.2⟩
  · rintro ⟨p, hp⟩
    obtain ⟨_, h2, h3⟩ := h.ofNorm n p hp
    exact List.mem_map.mpr ⟨((wd.entry p).word, p), mem_of_mapFind _ _ _ h3, h2⟩

theorem addWordToWorkingData_keys (wd : WorkingData) (now : Nat) (word : Str) (frequency : Int)
    (wd2 : WorkingData)
    (hadd : addWordToWorkingData wd now word frequency true = some (true, wd2)) (n : Str) :
    (∃ p, mapFind wd2.normalizedWordMap n = some p)
      ↔ ((∃ p, mapFind wd.normalizedWordMap n = some p)
        ∨ n = normalizeAndConvertToString word) := by
  rcases addWordToWorkingData_cases wd now word frequency true wd2 hadd with
    ⟨h1, _⟩ | ⟨_, _, it, hfind, _, _, h2⟩ | ⟨_, _, hnone, _, _, h2⟩
  · cases h1
  · have e : wd2.normalizedWordMap = wd.normalizedWordMap := by rw [h2]
    rw [e]
    constructor
    · intro h; exact Or.inl h
    · rintro (h | h)
      · exact h
      · exact ⟨it, by rw [h]; exact hfind⟩
  · have e : wd2.normalizedWordMap
        = mapSet wd.normalizedWordMap (normalizeAndConvertToString word) wd.heap.length := by
      rw [h2, (updateWorkingDataTrie_fields _ _ _ _ _).2.2.1]
    rw [e]
    simp only [mapFind_mapSet]
    by_cases hn : n = normalizeAndConvertToString word
    · simp [hn]
    · simp [hn]

theorem addWordWithContextToWorkingData_keys (wd : WorkingData) (now : Nat)
    (word contextWord : Str) (frequency : Int) (wd2 : WorkingData)
    (hadd : addWordWithContextToWorkingData wd now word contextWord frequency = some (true, wd2))
    (n : Str) :
    (∃ p, mapFind wd2.normalizedWordMap n = some p)
      ↔ ((∃ p, mapFind wd.normalizedWordMap n = some p)
        ∨ n = normalizeAndConvertToString word) := by
  rcases addWordWithContextToWorkingData_cases wd now word contextWord frequency true wd2 hadd
    with ⟨h1, _⟩ | ⟨_, _, wd1, p, h1, _, h3⟩
  · cases h1
  · have e : wd2.normalizedWordMap = wd1.normalizedWordMap := by
      rcases h3 with ⟨_, h4⟩ | ⟨_, h4⟩ <;> rw [h4]
    rw [e]
    exact addWordToWorkingData_keys wd now word frequency wd1 h1 n

theorem importWords_keys :
    ∀ (words : List (Nat × Str)) (wd wd2 : WorkingData),
      importWords wd words = some (true, wd2) → ∀ n : Str,
      ((∃ p, mapFind wd2.normalizedWordMap n = some p)
        ↔ ((∃ p, mapFind wd.normalizedWordMap n = some p)
          ∨ n ∈ ((words.map Prod.snd).filter (fun word => decide (word ≠ []))).map
              normalizeAndConvertToString)) := by
  intro words
  induction words with
  | nil =>
    intro wd wd2 himp n
    simp only [importWords, Option.some.injEq, Prod.mk.injEq, true_and] at himp
    rw [himp]
    simp
  | cons p words ih =>
    intro wd wd2 himp n
    obtain ⟨now, word⟩ := p
    simp only [importWords, List.isEmpty_iff] at himp
    by_cases hw : word = []
    · rw [if_neg (by simp [hw])] at himp
      rw [ih wd wd2 himp n]
      simp [hw]
    · rw [if_pos hw] at himp
      cases h1 : addWordToWorkingData wd now word 1 true with
      | none => rw [h1] at himp; simp at himp
      | some res =>
        obtain ⟨ok, wd1⟩ := res
        rw [h1] at himp
        simp only at himp
        cases h2 : importWords wd1 words with
        | none => rw [h2] at himp; simp at himp
        | some res2 =>
          obtain ⟨s, wd3⟩ := res2
          rw [h2] at himp
          simp only [Option.some.injEq, Prod.mk.injEq, Bool.and_eq_true] at himp
          obtain ⟨⟨hok, hs⟩, hwd⟩ := himp
          subst hok hs hwd
          rw [ih wd1 wd3 h2 n, addWordToWorkingData_keys wd now word 1 wd1 h1 n]
          simp only [List.map_cons, List.filter_cons, ne_eq, hw, not_false_eq_true,
            decide_True, if_true, List.mem_cons]
          tauto

theorem step_keys (wd : WorkingData) (call : Call) (hadd : call.isAdd = true)
    (wd2 : WorkingData) (hs : step wd call = some (true, wd2)) (n : Str) :
    (∃ p, mapFind wd2.normalizedWordMap n = some p)
      ↔ ((∃ p, mapFind wd.normalizedWordMap n = some p)
        ∨ n ∈ call.words.map normalizeAndConvertToString) := by
  cases call with
  | addWord now word frequency =>
    simp only [step, addWord] at hs
    split at hs
    · simp at hs
    · rw [addWordToWorkingData_keys wd now word frequency wd2 hs n]
      simp [Call.words]
  | addWordWithContext now word contextWord frequency =>
    simp only [step, addWordWithContext] at hs
    split at hs
    · simp at hs
    · rw [addWordWithContextToWorkingData_keys wd now word contextWord frequency wd2 hs n]
      simp [Call.words]
  | removeWord word => simp [Call.isAdd] at hadd
  | updateWordFrequency now word delta => simp [Call.isAdd] at hadd
  | learnFromInput now word context =>
    simp only [step, learnFromInput] at hs
    split at hs
    · simp at hs
    · split at hs
      · rw [addWordToWorkingData_keys wd now word 1 wd2 hs n]
        simp [Call.words]
      · rw [addWordWithContextToWorkingData_keys wd now word context 1 wd2 hs n]
        simp [Call.words]
  | importWords words =>
    simp only [step] at hs
    rw [importWords_keys words wd wd2 hs n]
    simp [Call.words]
  | decayOldEntries now => simp [Call.isAdd] at hadd

theorem run_keys :
    ∀ (calls : List Call) (wd : WorkingData), (∀ call ∈ calls, call.isAdd = true) →
      ∀ (rs : List Bool) (wd2 : WorkingData), run wd calls = some (rs, wd2) →
      (∀ r ∈ rs, r = true) → ∀ n : Str,
      ((∃ p, mapFind wd2.normalizedWordMap n = some p)
        ↔ ((∃ p, mapFind wd.normalizedWordMap n = some p)
          ∨ n ∈ (calls.flatMap Call.words).map normalizeAndConvertToString)) := by
  intro calls
  induction calls with
  | nil =>
    intro wd _ rs wd2 hr _ n
    simp only [run, Option.some.injEq, Prod.mk.injEq] at hr
    rw [← hr.2]
    simp
  | cons call calls ih =>
    intro wd hadd rs wd2 hr hok n
    simp only [run] at hr
    cases h1 : step wd call with
    | none => rw [h1] at hr; simp at hr
    | some res =>
      obtain ⟨r, wd1⟩ := res
      rw [h1] at hr
      simp only at hr
      cases h2 : run wd1 calls with
      | none => rw [h2] at hr; simp at hr
      | some res2 =>
        obtain ⟨rs2, wd3⟩ := res2
        rw [h2] at hr
        simp only [Option.some.injEq, Prod.mk.injEq] at hr
        obtain ⟨hrs, hwd⟩ := hr
        subst hrs hwd
        have hr1 : r = true := hok r (List.mem_cons_self _ _)
        subst hr1
        rw [ih wd1 (fun c hc => hadd c (List.mem_cons_of_mem _ hc)) rs2 wd3 h2
          (fun x hx => hok x (List.mem_cons_of_mem _ hx)) n,
          step_keys wd call (hadd call (List.mem_cons_self _ _)) wd1 h1 n]
        simp only [List.flatMap_cons, List.map_append, List.mem_append]
        tauto

end KazakhUserDict

/-- Claim C26. Starting from a new user dictionary, after any sequence of
`addWord`, `addWordWithContext`, `learnFromInput` and `importWords` calls on
byte strings that all succeed (and overflow no `int`), no two entries of the
working set have the same `normalizedWord`, and the `wordCount` of a snapshot
built afterwards is the number of distinct normalizations of the words
added. -/
theorem userDict_distinct_normalized_words (calls : List KazakhUserDict.Call)
    (hadd : ∀ call ∈ calls, call.isAdd = true) (hb : ∀ call ∈ calls, call.IsBytes)
    (rs : List Bool) (wd : KazakhUserDict.WorkingData)
    (hrun : KazakhUserDict.run KazakhUserDict.WorkingData.empty calls = some (rs, wd))
    (hok : ∀ r ∈ rs, r = true) :
    (wd.entries.map (fun e => e.normalizedWord)).Nodup
    ∧ ∀ now version : Nat,
        (KazakhUserDict.buildSnapshotFromWorkingData wd now version).wordCount
          = ((((calls.flatMap KazakhUserDict.Call.words).map
              normalizeAndConvertToString).dedup.length : Nat) : Int) := by
  have hwf := KazakhUserDict.wf_run calls _ KazakhUserDict.wf_empty hb rs wd hrun
  have hnd := KazakhUserDict.entries_norm_nodup wd hwf.maps
  refine ⟨hnd, ?_⟩
  intro now version
  have hperm : (wd.entries.map (fun e => e.normalizedWord)).Perm
      ((calls.flatMap KazakhUserDict.Call.words).map normalizeAndConvertToString).dedup := by
    refine (List.perm_ext_iff_of_nodup hnd (List.nodup_dedup _)).mpr ?_
    intro n
    rw [List.mem_dedup, KazakhUserDict.mem_entries_norm wd hwf.maps,
      KazakhUserDict.run_keys calls _ hadd rs wd hrun hok n]
    simp [KazakhUserDict.WorkingData.empty, mapFind_nil]
  have hlen := hperm.length_eq
  simp only [List.length_map, KazakhUserDict.WorkingData.entries] at hlen
  simp only [KazakhUserDict.buildSnapshotFromWorkingData]
  rw [hwf.maps.count, hlen]
/-! ## The snapshot and the searches -/

/-- The encoder on a sequence of units that it accepts, followed by more
units: it goes on with the units that follow. -/
theorem utf16ToUtf8SafeLoop_append :
    ∀ (fuel : Nat) (a : U16), a.length ≤ fuel → (∀ x ∈ a, x < 65536) →
      ∀ (acc t : Str), utf16ToUtf8SafeLoop fuel a acc = (true, t) →
      ∀ (b : U16) (fuel2 : Nat), a.length + b.length ≤ fuel2 →
        ∃ fuel3, b.length ≤ fuel3
          ∧ utf16ToUtf8SafeLoop fuel2 (a ++ b) acc = utf16ToUtf8SafeLoop fuel3 b t := by
  intro fuel
  induction fuel with
  | zero =>
    intro a hl _ acc t h b fuel2 hl2
    have : a = [] := List.length_eq_zero.1 (by omega)
    subst this
    rw [utf16ToUtf8SafeLoop_nil] at h
    simp only [Prod.mk.injEq, true_and] at h
    subst h
    exact ⟨fuel2, by simpa using hl2, by simp⟩
  | succ g ih =>
    intro a hl hu acc t h b fuel2 hl2
    rcases a with _ | ⟨c, rest⟩
    · rw [utf16ToUtf8SafeLoop_nil] at h
      simp only [Prod.mk.injEq, true_and] at h
      subst h
      exact ⟨fuel2, by simpa using hl2, by simp⟩
    · have hc : c < 65536 := hu c (by simp)
      have hrest : ∀ x ∈ rest, x < 65536 := fun x hx => hu x (by simp [hx])
      simp only [List.length_cons] at hl hl2
      obtain ⟨g2, rfl⟩ : ∃ g, fuel2 = g + 1 := ⟨fuel2 - 1, by omega⟩
      rw [List.cons_append]
      by_cases h1 : c < 128
      · rw [utf16ToUtf8SafeLoop_one g c rest acc h1] at h
        rw [utf16ToUtf8SafeLoop_one g2 c (rest ++ b) acc h1]
        exact ih rest (by omega) hrest _ t h b g2 (by omega)
      by_cases h2 : c < 2048
      · rw [utf16ToUtf8SafeLoop_two g c rest acc (by omega) h2] at h
        rw [utf16ToUtf8SafeLoop_two g2 c (rest ++ b) acc (by omega) h2]
        exact ih rest (by omega) hrest _ t h b g2 (by omega)
      by_cases h3 : c < 0xD800 ∨ 0xDFFF < c
      · rw [utf16ToUtf8SafeLoop_three g c rest acc (by omega) hc h3] at h
        rw [utf16ToUtf8SafeLoop_three g2 c (rest ++ b) acc (by omega) hc h3]
        exact ih rest (by omega) hrest _ t h b g2 (by omega)
      by_cases h4 : c ≤ 0xDBFF
      · rcases rest with _ | ⟨low, r⟩
        · rw [utf16ToUtf8SafeLoop_high_short g c acc (by omega) h4] at h
          simp at h
        · have hpair := utf16ToUtf8SafeLoop_pair g c low r acc (by omega) h4
          have hpair2 := utf16ToUtf8SafeLoop_pair g2 c low (r ++ b) acc (by omega) h4
          rw [List.cons_append, hpair2]
          by_cases hlow : 0xDC00 ≤ low ∧ low ≤ 0xDFFF
          · rw [if_pos hlow] at hpair ⊢
            rw [hpair] at h
            simp only [List.length_cons] at hl hl2
            exact ih r (by omega) (fun x hx => hrest x (by simp [hx])) _ t h b g2 (by omega)
          · rw [if_neg hlow] at hpair
            rw [hpair] at h
            simp at h
      · rw [utf16ToUtf8SafeLoop_badUnit g c rest acc (by omega) (by omega)] at h
        simp at h

/-- The encoding of a sequence of units begins with the encoding of each of
its beginnings that has one. -/
theorem utf16ToUtf8Safe_prefix (a b : U16) (hu : ∀ x ∈ a ++ b, x < 65536) (p w : Str)
    (ha : utf16ToUtf8Safe a = (true, p)) (hab : utf16ToUtf8Safe (a ++ b) = (true, w)) :
    p <+: w := by
  rw [utf16ToUtf8Safe_eq] at ha hab
  obtain ⟨fuel3, hf3, happ⟩ := utf16ToUtf8SafeLoop_append a.length a (le_refl _)
    (fun x hx => hu x (by simp [hx])) [] p ha b (a ++ b).length (by simp)
  rw [happ] at hab
  obtain ⟨s, hs, _, _⟩ := utf16_roundtrip fuel3 b hf3 (fun x hx => hu x (by simp [hx])) p w hab
  exact ⟨s, hs.symm⟩

/-- A normalized word that decodes to units is the encoding of these units. -/
theorem normalizeAndConvertToString_canonical (s : Str) (hb : ∀ b ∈ s, b < 256) (units : U16)
    (hU : units ≠ [])
    (hdec : utf8ToUtf16Safe (normalizeAndConvertToString s) = (true, units)) :
    utf16ToUtf8Safe units = (true, normalizeAndConvertToString s)
      ∧ ∀ x ∈ units, x < 65536 := by
  have hnil : utf8ToUtf16Safe [] = (true, []) := by decide
  by_cases hu : utf8ToUtf16 s = []
  · exfalso
    have hn : normalizeAndConvertToString s = if s = [] then [] else s := by
      unfold normalizeAndConvertToString
      rw [normalizeString_eq, hu]
      by_cases hs : s = []
      · subst hs
        decide
      · simp [hs]
    by_cases hs : s = []
    · rw [hn, if_pos hs, hnil] at hdec
      exact hU (Prod.mk.inj hdec).2.symm
    · rw [hn, if_neg hs] at hdec
      unfold utf8ToUtf16 at hu
      rw [hdec] at hu
      exact hU hu
  · have hsafe := KazakhUserDict.utf8ToUtf16_of_ne_nil s hu
    have hunits : ∀ x ∈ utf8ToUtf16 s, x < 65536 := by
      have := utf8ToUtf16SafeLoop_units s.length s (le_refl _) hb [] (by simp)
      rw [← utf8ToUtf16Safe_eq, hsafe] at this
      exact this
    have hmapped : ∀ x ∈ (utf8ToUtf16 s).map normalizeChar, x < 65536 := by
      intro x hx
      obtain ⟨y, hy, rfl⟩ := List.mem_map.mp hx
      exact normalizeChar_lt y (hunits y hy)
    have hn : normalizeAndConvertToString s
        = utf16ToUtf8 ((utf8ToUtf16 s).map normalizeChar) := by
      unfold normalizeAndConvertToString
      rw [normalizeString_eq]
      simp [hu]
    rw [hn] at hdec ⊢
    by_cases henc : (utf16ToUtf8Safe ((utf8ToUtf16 s).map normalizeChar)).1 = true
    · have hw : utf16ToUtf8 ((utf8ToUtf16 s).map normalizeChar)
          = (utf16ToUtf8Safe ((utf8ToUtf16 s).map normalizeChar)).2 := by
        unfold utf16ToUtf8
        rw [if_pos henc]
      have hpair : utf16ToUtf8Safe ((utf8ToUtf16 s).map normalizeChar)
          = (true, utf16ToUtf8 ((utf8ToUtf16 s).map normalizeChar)) := by
        rw [hw, ← henc]
      have hloop := hpair
      rw [utf16ToUtf8Safe_eq] at hloop
      obtain ⟨s2, hs2, _, hdec2⟩ := utf16_roundtrip _ _ (le_refl _) hmapped [] _ hloop
      simp only [List.nil_append] at hs2
      have h3 := hdec2 s2.length [] (le_refl _)
      rw [← utf8ToUtf16Safe_eq, ← hs2, hdec] at h3
      simp only [List.nil_append, Prod.mk.injEq, true_and] at h3
      rw [h3]
      exact ⟨hpair, hmapped⟩
    · exfalso
      have hw : utf16ToUtf8 ((utf8ToUtf16 s).map normalizeChar) = [] := by
        unfold utf16ToUtf8
        rw [if_neg henc]
      rw [hw, hnil] at hdec
      exact hU (Prod.mk.inj hdec).2.symm

/-- Two normalized words, one decoding to a beginning of the units of the
other: the first is a beginning of the second. -/
theorem normalized_prefix_of_units (s1 s2 : Str) (hb1 : ∀ b ∈ s1, b < 256)
    (hb2 : ∀ b ∈ s2, b < 256) (u ext : U16) (hu : u ≠ [])
    (h1 : utf8ToUtf16Safe (normalizeAndConvertToString s1) = (true, u))
    (h2 : utf8ToUtf16Safe (normalizeAndConvertToString s2) = (true, u ++ ext)) :
    normalizeAndConvertToString s1 <+: normalizeAndConvertToString s2 := by
  obtain ⟨e1, _⟩ := normalizeAndConvertToString_canonical s1 hb1 u hu h1
  obtain ⟨e2, hunits⟩ := normalizeAndConvertToString_canonical s2 hb2 (u ++ ext)
    (by simp [hu]) h2
  exact utf16ToUtf8Safe_prefix u ext hunits _ _ e1 e2
theorem mapFind_map_values {κ α β : Type} [DecidableEq κ] (m : List (κ × α)) (g : α → β)
    (key : κ) :
    mapFind (m.map (fun p => (p.1, g p.2))) key = (mapFind m key).map g := by
  induction m with
  | nil => simp [mapFind_nil]
  | cons p m ih =>
    rw [List.map_cons, mapFind_cons, mapFind_cons, ih]
    by_cases h : p.1 = key
    · simp [h]
    · simp [h]

theorem filterMap_some_eq_map {α β : Type} (l : List α) (f : α → β) :
    l.filterMap (fun x => some (f x)) = l.map f := by
  induction l with
  | nil => rfl
  | cons a l ih => simp [List.filterMap_cons, ih]

namespace KazakhUserDict

open SnapshotTrieNode

/-! ### The prefix map -/

/-- The inner loop of `populatePrefixMap` for one word, after `n` of its
prefixes. -/
theorem mapFind_prefixLoop (w : Str) (e : UserDictEntry) (p : Str) :
    ∀ (n : Nat), n ≤ w.length → ∀ (m : List (Str × List UserDictEntry)),
      mapFind ((List.range n).foldl (fun prefixMap i => mapPush prefixMap (w.take (i + 1)) e) m) p
        = if p ≠ [] ∧ p <+: w ∧ p.length ≤ n then some ((mapFind m p).getD [] ++ [e])
          else mapFind m p := by
  intro n
  induction n with
  | zero =>
    intro _ m
    simp only [List.range_zero, List.foldl_nil]
    rw [if_neg]
    rintro ⟨h1, _, h3⟩
    exact h1 (List.length_eq_zero.mp (Nat.le_zero.mp h3))
  | succ n ih =>
    intro hn m
    rw [List.range_succ, List.foldl_append]
    simp only [List.foldl_cons, List.foldl_nil]
    rw [mapFind_mapPush, ih (by omega) m]
    have hlen : (w.take (n + 1)).length = n + 1 := by
      rw [List.length_take]; omega
    by_cases hp : p = w.take (n + 1)
    · rw [if_pos hp]
      have h1 : p ≠ [] := by
        intro e2
        rw [hp] at e2
        have := congrArg List.length e2
        rw [hlen] at this
        simp at this
      have h2 : p <+: w := by rw [hp]; exact List.take_prefix _ _
      have h3 : p.length = n + 1 := by rw [hp, hlen]
      rw [if_pos ⟨h1, h2, by omega⟩, ← hp, ih (by omega) m, if_neg (by
        rintro ⟨_, _, h4⟩
        omega)]
    · rw [if_neg hp]
      by_cases hc : p ≠ [] ∧ p <+: w ∧ p.length ≤ n
      · rw [if_pos hc, if_pos ⟨hc.1, hc.2.1, by omega⟩]
      · rw [if_neg hc, if_neg]
        rintro ⟨h1, h2, h3⟩
        apply hc
        refine ⟨h1, h2, ?_⟩
        by_contra h4
        have h5 : p.length = n + 1 := by omega
        apply hp
        rw [List.prefix_iff_eq_take.mp h2, h5]

/-- The list of a prefix in the prefix map: the entries of the words that
begin with the prefix, in the order of the map of normalized words. -/
theorem mapFind_prefixFold (p : Str) :
    ∀ (nm : List (Str × UserDictEntry)) (m : List (Str × List UserDictEntry)),
      mapFind (nm.foldl
        (fun prefixMap pair =>
          (List.range pair.1.length).foldl
            (fun prefixMap i => mapPush prefixMap (pair.1.take (i + 1)) pair.2)
            prefixMap) m) p
        = if (nm.filter (fun pair => decide (p ≠ [] ∧ p <+: pair.1))).map Prod.snd = [] then
            mapFind m p
          else some ((mapFind m p).getD []
            ++ (nm.filter (fun pair => decide (p ≠ [] ∧ p <+: pair.1))).map Prod.snd) := by
  intro nm
  induction nm with
  | nil => intro m; simp
  | cons pair nm ih =>
    intro m
    rw [List.foldl_cons, ih, mapFind_prefixLoop pair.1 pair.2 p pair.1.length (le_refl _) m]
    by_cases hc : p ≠ [] ∧ p <+: pair.1
    · have hc2 : p ≠ [] ∧ p <+: pair.1 ∧ p.length ≤ pair.1.length :=
        ⟨hc.1, hc.2, hc.2.length_le⟩
      rw [if_pos hc2, List.filter_cons_of_pos (by simpa using hc)]
      by_cases hl : (nm.filter (fun pair => decide (p ≠ [] ∧ p <+: pair.1))).map Prod.snd = []
      · rw [if_pos hl, List.map_cons, if_neg (List.cons_ne_nil _ _), hl]
      · rw [if_neg hl, List.map_cons, if_neg (List.cons_ne_nil _ _)]
        simp
    · have hc2 : ¬ (p ≠ [] ∧ p <+: pair.1 ∧ p.length ≤ pair.1.length) :=
        fun h => hc ⟨h.1, h.2.1⟩
      rw [if_neg hc2, List.filter_cons_of_neg (by simpa using hc)]

theorem mapFind_populatePrefixMap (nm : List (Str × UserDictEntry)) (p : Str) :
    mapFind (populatePrefixMap nm) p
      = if (nm.filter (fun pair => decide (p ≠ [] ∧ p <+: pair.1))).map Prod.snd = [] then none
        else some ((nm.filter (fun pair => decide (p ≠ [] ∧ p <+: pair.1))).map Prod.snd) := by
  unfold populatePrefixMap
  rw [mapFind_prefixFold]
  simp [mapFind_nil]

/-! ### The maps of the snapshot -/

theorem snapshot_normalizedWordMap (wd : WorkingData) (h : wd.MapsWF) (now version : Nat) :
    (buildSnapshotFromWorkingData wd now version).normalizedWordMap
      = wd.entries.map (fun e => (e.normalizedWord, e)) := by
  simp only [buildSnapshotFromWorkingData]
  have e : wd.wordMap.map (fun pair => ((wd.entry pair.2).normalizedWord, wd.entry pair.2))
      = wd.entries.map (fun e => (e.normalizedWord, e)) := by
    unfold WorkingData.entries
    rw [List.map_map]
    rfl
  rw [e]
  apply mapOfList_of_nodup
  rw [List.map_map]
  exact entries_norm_nodup wd h

theorem snapshot_wordMap (wd : WorkingData) (h : wd.MapsWF) (now version : Nat) :
    (buildSnapshotFromWorkingData wd now version).wordMap
      = wd.wordMap.map (fun pair => (pair.1, wd.entry pair.2)) := by
  simp only [buildSnapshotFromWorkingData]
  apply mapOfList_of_nodup
  rw [List.map_map]
  exact h.wordKeys

/-- The list of a prefix that is not empty in the prefix map of the snapshot:
the entries whose normalized word begins with the prefix. -/
theorem snapshot_prefixMap (wd : WorkingData) (h : wd.MapsWF) (now version : Nat) (p : Str)
    (hp : p ≠ []) :
    mapFind (buildSnapshotFromWorkingData wd now version).prefixMap p
      = if wd.entries.filter (fun e => decide (p <+: e.normalizedWord)) = [] then none
        else some (wd.entries.filter (fun e => decide (p <+: e.normalizedWord))) := by
  have e1 : (buildSnapshotFromWorkingData wd now version).prefixMap
      = populatePrefixMap (buildSnapshotFromWorkingData wd now version).normalizedWordMap := rfl
  rw [e1, snapshot_normalizedWordMap wd h, mapFind_populatePrefixMap]
  have e2 : ((wd.entries.map (fun e => (e.normalizedWord, e))).filter
        (fun pair => decide (p ≠ [] ∧ p <+: pair.1))).map Prod.snd
      = wd.entries.filter (fun e => decide (p <+: e.normalizedWord)) := by
    rw [List.filter_map, List.map_map]
    have e3 : (Prod.snd ∘ fun e : UserDictEntry => (e.normalizedWord, e)) = id := rfl
    rw [e3, List.map_id]
    apply List.filter_congr
    intro x _
    simp [hp]
  rw [e2]

/-- The list of a context in the snapshot: the copies of the entries of the
list of the context in the working data. -/
theorem snapshot_contextMap (wd : WorkingData) (h : wd.MapsWF) (now version : Nat) (c : Str) :
    mapFind (buildSnapshotFromWorkingData wd now version).contextMap c
      = (mapFind wd.contextMap c).map (fun ps => ps.map wd.entry) := by
  have hwm := snapshot_wordMap wd h now version
  simp only [buildSnapshotFromWorkingData] at hwm ⊢
  rw [hwm]
  have hstep : ∀ (cm : List (Str × List UserDictEntry)), ∀ pair ∈ wd.contextMap,
      (fun (contextMap : List (Str × List UserDictEntry)) (pair : Str × List Nat) =>
        if (!(pair.2.filterMap (fun entry =>
            mapFind (wd.wordMap.map (fun pair => (pair.1, wd.entry pair.2)))
              (wd.entry entry).word)).isEmpty) = true then
          mapSet contextMap pair.1 (pair.2.filterMap (fun entry =>
            mapFind (wd.wordMap.map (fun pair => (pair.1, wd.entry pair.2)))
              (wd.entry entry).word))
        else contextMap) cm pair
      = (fun (contextMap : List (Str × List UserDictEntry)) (pair : Str × List Nat) =>
          mapSet contextMap pair.1 (pair.2.map wd.entry)) cm pair := by
    intro cm pair hpair
    obtain ⟨h1, h2, h3⟩ := h.ofContext pair.1 pair.2
      (mapFind_of_mem _ h.contextKeys _ _ hpair)
    have hfm : pair.2.filterMap (fun entry =>
          mapFind (wd.wordMap.map (fun pair => (pair.1, wd.entry pair.2)))
            (wd.entry entry).word)
        = pair.2.map wd.entry := by
      have e1 : pair.2.filterMap (fun entry =>
            mapFind (wd.wordMap.map (fun pair => (pair.1, wd.entry pair.2)))
              (wd.entry entry).word)
          = pair.2.filterMap (fun entry => some (wd.entry entry)) := by
        apply List.filterMap_congr
        intro p hp
        rw [mapFind_map_values, (h.ofNorm _ p (h3 p hp).2).2.2]
        rfl
      rw [e1]
      exact filterMap_some_eq_map pair.2 wd.entry
    simp only [hfm]
    rw [if_pos]
    cases hps : pair.2 with
    | nil => exact absurd hps h1
    | cons a l => rfl
  rw [List.foldl_ext _ _ _ hstep]
  have e : wd.contextMap.foldl
        (fun (contextMap : List (Str × List UserDictEntry)) (pair : Str × List Nat) =>
          mapSet contextMap pair.1 (pair.2.map wd.entry)) []
      = mapOfList (wd.contextMap.map (fun pair => (pair.1, pair.2.map wd.entry))) := by
    unfold mapOfList
    rw [List.foldl_map]
  rw [e, mapOfList_of_nodup _ (by rw [List.map_map]; exact h.contextKeys)]
  exact mapFind_map_values wd.contextMap (fun ps => ps.map wd.entry) c

/-! ### The order of the results -/

theorem entryBefore_eq_false_iff (a b : UserDictEntry) :
    entryBefore b a = false
      ↔ (b.frequency < a.frequency ∨ (b.frequency = a.frequency ∧ b.lastUsed ≤ a.lastUsed)) := by
  unfold entryBefore
  by_cases h : b.frequency = a.frequency
  · simp only [h, ne_eq, not_true_eq_false, if_false, decide_eq_false_iff_not, not_lt,
      lt_self_iff_false, true_and, false_or, gt_iff_lt]
  · simp only [ne_eq, h, not_false_eq_true, if_true, decide_eq_false_iff_not, not_lt,
      false_and, or_false, gt_iff_lt]
    omega

/-- The end of the searches: a sorted arrangement of the entries, cut after
`maxResults` entries. -/
theorem sortAndTruncate_spec (σ : SearchOrder) (hσ : σ.Valid) (maxResults : Int)
    (hmax : 1 ≤ maxResults) (hfit : fitsInt maxResults = true) (entries : List UserDictEntry) :
    ∃ sorted : List UserDictEntry, sorted.Perm entries
      ∧ sorted.Pairwise (fun a b => b.frequency < a.frequency
          ∨ (b.frequency = a.frequency ∧ b.lastUsed ≤ a.lastUsed))
      ∧ sortAndTruncate σ maxResults entries = sorted.take maxResults.toNat := by
  have hperm : (sortEntries σ entries).Perm entries :=
    (List.perm_insertionSort _ _).trans (hσ.1 entries)
  haveI : IsTotal UserDictEntry (fun a b => entryBefore b a = false) := ⟨fun a b => by
    rw [entryBefore_eq_false_iff, entryBefore_eq_false_iff]
    omega⟩
  haveI : IsTrans UserDictEntry (fun a b => entryBefore b a = false) := ⟨fun a b c => by
    rw [entryBefore_eq_false_iff, entryBefore_eq_false_iff, entryBefore_eq_false_iff]
    omega⟩
  have hsorted : (sortEntries σ entries).Sorted (fun a b => entryBefore b a = false) :=
    List.sorted_insertionSort _ _
  refine ⟨sortEntries σ entries, hperm, ?_, ?_⟩
  · exact List.Pairwise.imp (fun {a b} hab => (entryBefore_eq_false_iff a b).mp hab) hsorted
  · have hm2 : maxResults ≤ 2147483647 := by
      unfold fitsInt at hfit
      simp only [Bool.and_eq_true, decide_eq_true_eq] at hfit
      exact hfit.2
    have hsize : toSize maxResults = maxResults.toNat :=
      toSize_of_nonneg maxResults (by omega) (by omega)
    unfold sortAndTruncate
    rw [hsize]
    split
    · rfl
    · rename_i hle
      rw [List.take_of_length_le]
      rw [hperm.length_eq]
      omega

theorem sortAndTruncate_nil (σ : SearchOrder) (hσ : σ.Valid) (maxResults : Int) :
    sortAndTruncate σ maxResults [] = [] := by
  have h0 : σ.ties [] = [] := List.Perm.eq_nil (hσ.1 [])
  unfold sortAndTruncate sortEntries
  rw [h0]
  simp

/-! ### The walk through the trie -/

theorem reaches_of_descend :
    ∀ (path : List Nat) (root node : SnapshotTrieNode),
      root.descend path = some node → root.Reaches path node := by
  intro path
  induction path with
  | nil =>
    intro root node h
    simp only [descend, Option.some.injEq] at h
    exact h.symm
  | cons ch path ih =>
    intro root node h
    simp only [descend] at h
    cases hf : mapFind root.children ch with
    | none => rw [hf] at h; cases h
    | some child =>
      rw [hf] at h
      exact ⟨child, mem_of_mapFind _ _ _ hf, ih child node h⟩

theorem reaches_snoc :
    ∀ (path : List Nat) (root node child : SnapshotTrieNode) (ch : Nat),
      root.Reaches path node → (ch, child) ∈ node.children →
      root.Reaches (path ++ [ch]) child := by
  intro path
  induction path with
  | nil =>
    intro root node child ch h hmem
    have e : node = root := h
    subst e
    exact ⟨child, hmem, rfl⟩
  | cons c path ih =>
    intro root node child ch h hmem
    obtain ⟨c1, hc1, hr⟩ := h
    exact ⟨c1, hc1, ih c1 node child ch hr hmem⟩

/-- The breadth-first loop finds nothing when no node below the start holds
an entry. -/
theorem trieBfs_nil (σ : SearchOrder) (hσ : σ.Valid) (root : SnapshotTrieNode) (pre : List Nat)
    (hempty : ∀ ext node, root.Reaches (pre ++ ext) node → node.entries = []) :
    ∀ (fuel : Nat) (queue : List SnapshotTrieNode),
      (∀ node ∈ queue, ∃ ext, root.Reaches (pre ++ ext) node) →
      trieBfs σ fuel queue [] = [] := by
  intro fuel
  induction fuel with
  | zero => intro queue _; rfl
  | succ fuel ih =>
    intro queue hq
    cases queue with
    | nil => rfl
    | cons node queue =>
      simp only [trieBfs]
      obtain ⟨ext, hr⟩ := hq node (List.mem_cons_self _ _)
      have he := hempty ext node hr
      rw [he]
      simp only [List.isEmpty_nil, Bool.not_true, Bool.and_false, Bool.false_eq_true, if_false]
      apply ih
      intro n hn
      rcases List.mem_append.mp hn with hn | hn
      · exact hq n (List.mem_cons_of_mem _ hn)
      · obtain ⟨pair, hpair, rfl⟩ := List.mem_map.mp hn
        have hpair2 : pair ∈ node.children := (hσ.2 node.children).subset hpair
        refine ⟨ext ++ [pair.1], ?_⟩
        rw [← List.append_assoc]
        exact reaches_snoc _ root node pair.2 pair.1 hr hpair2

end KazakhUserDict
namespace KazakhUserDict

open SnapshotTrieNode

theorem mapFind_guard {α : Type} (m : List (Str × α)) (p : Str) :
    (if (!m.isEmpty) = true then mapFind m p else none) = mapFind m p := by
  cases m with
  | nil => simp [mapFind_nil]
  | cons a l => simp

theorem searchPrefixInSnapshot_hit (σ : SearchOrder) (snap : Snapshot)
    (heap : List UserDictEntry) (p : Str) (maxResults : Int) (hmax : 1 ≤ maxResults)
    (l : List UserDictEntry) (hfind : mapFind snap.prefixMap p = some l) :
    searchPrefixInSnapshot σ (some snap) heap p maxResults = sortAndTruncate σ maxResults l := by
  unfold searchPrefixInSnapshot
  simp only
  rw [if_neg (by omega), mapFind_guard, hfind]

theorem searchPrefixInSnapshot_miss (σ : SearchOrder) (snap : Snapshot)
    (heap : List UserDictEntry) (p : Str) (maxResults : Int) (hmax : 1 ≤ maxResults)
    (root : SnapshotTrieNode) (hroot : snap.trieRoot = some root)
    (hfind : mapFind snap.prefixMap p = none) :
    searchPrefixInSnapshot σ (some snap) heap p maxResults
      = if (utf8ToUtf16 p).isEmpty ∧ ¬ p.isEmpty then []
        else
          match root.descend (utf8ToUtf16 p) with
          | none => []
          | some node =>
            sortAndTruncate σ maxResults
              ((trieBfs σ 200 [node] []).map (fun e => heap.getD e ⟨[], [], 0, [], 0, 0⟩)) := by
  unfold searchPrefixInSnapshot
  simp only
  rw [if_neg (by omega), mapFind_guard, hfind]
  simp only [hroot]
  try rfl

/-- When the prefix map has no list for a normalized prefix, the walk through
the trie finds no entry. -/
theorem searchPrefixInSnapshot_fallback (wd : WorkingData) (h : wd.WF) (σ : SearchOrder)
    (hσ : σ.Valid) (heap : List UserDictEntry) (pfx : Str)
    (maxResults : Int) (hb : ∀ b ∈ pfx, b < 256)
    (hnone : wd.entries.filter
      (fun e => decide (normalizeAndConvertToString pfx <+: e.normalizedWord)) = []) :
    (if (utf8ToUtf16 (normalizeAndConvertToString pfx)).isEmpty
        ∧ ¬ (normalizeAndConvertToString pfx).isEmpty then []
      else
        match wd.trieRoot.descend (utf8ToUtf16 (normalizeAndConvertToString pfx)) with
        | none => []
        | some node =>
          sortAndTruncate σ maxResults
            ((trieBfs σ 200 [node] []).map (fun e => heap.getD e ⟨[], [], 0, [], 0, 0⟩)))
      = ([] : List UserDictEntry) := by
  split
  · rfl
  · rename_i hcond
    cases hd : wd.trieRoot.descend (utf8ToUtf16 (normalizeAndConvertToString pfx)) with
    | none => rfl
    | some node =>
      simp only
      have hreach := reaches_of_descend _ _ _ hd
      have hbfs : trieBfs σ 200 [node] [] = [] := by
        refine trieBfs_nil σ hσ wd.trieRoot (utf8ToUtf16 (normalizeAndConvertToString pfx))
          ?_ 200 [node] ?_
        · intro ext node2 hr
          by_contra hne
          obtain ⟨p0, hp0⟩ := List.exists_mem_of_ne_nil _ hne
          obtain ⟨g1, g2, g3⟩ := (h.trie _ node2 hr).2 p0 hp0
          simp only [List.nil_append] at g2 g3
          obtain ⟨_, k2, k3⟩ := h.maps.ofNorm _ p0 g1
          obtain ⟨n1, _, n3⟩ := h.maps.normalized _ p0 k3
          have hu : utf8ToUtf16 (normalizeAndConvertToString pfx) ≠ [] := by
            intro e
            rw [e] at g3
            by_cases hext : ext = []
            · rw [hext] at g3
              exact g3 rfl
            · apply hcond
              rw [e]
              refine ⟨rfl, ?_⟩
              rw [List.isEmpty_iff]
              intro e2
              rw [e2] at e
              rw [e2] at hr
              -- the empty prefix decodes to no unit, and the path is `ext`
              have hmem : wd.entry p0 ∈ wd.entries := by
                unfold WorkingData.entries
                exact List.mem_map.mpr ⟨((wd.entry p0).word, p0), mem_of_mapFind _ _ _ k3, rfl⟩
              have : wd.entry p0 ∈ wd.entries.filter
                  (fun e => decide (normalizeAndConvertToString pfx <+: e.normalizedWord)) := by
                rw [List.mem_filter]
                refine ⟨hmem, ?_⟩
                rw [e2]
                simp
              rw [hnone] at this
              simp at this
          have hsafe := utf8ToUtf16_of_ne_nil _ hu
          rw [n1] at g2
          have hpre := normalized_prefix_of_units pfx (wd.entry p0).word hb n3 _ ext hu hsafe g2
          rw [← n1] at hpre
          have hmem : wd.entry p0 ∈ wd.entries := by
            unfold WorkingData.entries
            exact List.mem_map.mpr ⟨((wd.entry p0).word, p0), mem_of_mapFind _ _ _ k3, rfl⟩
          have : wd.entry p0 ∈ wd.entries.filter
              (fun e => decide (normalizeAndConvertToString pfx <+: e.normalizedWord)) := by
            rw [List.mem_filter]
            exact ⟨hmem, by simpa using hpre⟩
          rw [hnone] at this
          simp at this
        · intro n hn
          rw [List.mem_singleton] at hn
          subst hn
          exact ⟨[], by simpa using hreach⟩
      rw [hbfs]
      exact sortAndTruncate_nil σ hσ maxResults

end KazakhUserDict

/-- Claim C24, amended. For a snapshot built from a working set, a prefix (a
byte string) whose normalization is not empty and `maxResults ≥ 1`,
`searchPrefix` returns the `word` fields of the entries whose normalized word
begins with the normalized prefix, in an order in which no entry stands before
one of higher frequency, or of equal frequency and later `lastUsed`, cut after
the first `maxResults`; so no entry left out ranks strictly before one
returned. -/
theorem searchPrefix_spec (wd : KazakhUserDict.WorkingData) (h : wd.WF)
    (σ : KazakhUserDict.SearchOrder) (hσ : σ.Valid) (now version : Nat)
    (heap : List KazakhUserDict.UserDictEntry) (pfx : Str) (maxResults : Int)
    (hb : ∀ b ∈ pfx, b < 256) (hnorm : normalizeAndConvertToString pfx ≠ [])
    (hmax : 1 ≤ maxResults) (hfit : fitsInt maxResults = true) :
    ∃ sorted : List KazakhUserDict.UserDictEntry,
      sorted.Perm (wd.entries.filter
        (fun e => decide (normalizeAndConvertToString pfx <+: e.normalizedWord)))
      ∧ sorted.Pairwise (fun a b => b.frequency < a.frequency
          ∨ (b.frequency = a.frequency ∧ b.lastUsed ≤ a.lastUsed))
      ∧ KazakhUserDict.searchPrefix σ
          (some (KazakhUserDict.buildSnapshotFromWorkingData wd now version)) heap pfx maxResults
        = (sorted.take maxResults.toNat).map (fun entry => entry.word) := by
  have hpfx : pfx ≠ [] := by
    intro e
    rw [e] at hnorm
    exact hnorm KazakhUserDict.normalizeAndConvertToString_nil
  have hcount : (KazakhUserDict.buildSnapshotFromWorkingData wd now version).wordCount
      = wd.wordCount := rfl
  unfold KazakhUserDict.searchPrefix
  rw [if_neg (by
    rw [List.isEmpty_iff]
    intro hg
    rcases hg with hg | hg
    · exact hpfx hg
    · omega)]
  simp only [hcount]
  by_cases hzero : wd.wordCount = 0
  · rw [if_pos hzero]
    have hnil : wd.entries = [] := by
      unfold KazakhUserDict.WorkingData.entries
      have := h.maps.count
      rw [hzero] at this
      have hl : wd.wordMap.length = 0 := by omega
      rw [List.length_eq_zero.mp hl]
      rfl
    exact ⟨[], by rw [hnil]; simp, List.Pairwise.nil, by simp⟩
  · rw [if_neg hzero, if_neg (by
      rw [List.isEmpty_iff]
      intro hg
      exact hnorm hg.1)]
    have hfind := KazakhUserDict.snapshot_prefixMap wd h.maps now version _ hnorm
    by_cases hnone : wd.entries.filter
        (fun e => decide (normalizeAndConvertToString pfx <+: e.normalizedWord)) = []
    · rw [if_pos hnone] at hfind
      rw [KazakhUserDict.searchPrefixInSnapshot_miss σ _ heap _ maxResults hmax wd.trieRoot rfl
        hfind,
        KazakhUserDict.searchPrefixInSnapshot_fallback wd h σ hσ heap pfx maxResults
          hb hnone]
      exact ⟨[], by rw [hnone], List.Pairwise.nil, by simp⟩
    · rw [if_neg hnone] at hfind
      rw [KazakhUserDict.searchPrefixInSnapshot_hit σ _ heap _ maxResults hmax _ hfind]
      obtain ⟨sorted, h1, h2, h3⟩ :=
        KazakhUserDict.sortAndTruncate_spec σ hσ maxResults hmax hfit
          (wd.entries.filter
            (fun e => decide (normalizeAndConvertToString pfx <+: e.normalizedWord)))
      exact ⟨sorted, h1, h2, by rw [h3]⟩

/-- Claim C25. For a snapshot built from a working set, a previous word that
is not empty, a current prefix and `maxResults ≥ 1`, `searchWithContext`
returns the `word` fields of the entries that have the normalized previous
word among their contexts and whose normalized word begins with the
normalized current prefix, in an order in which no entry stands before one of
higher frequency, or of equal frequency and later `lastUsed`, cut after the
first `maxResults`. -/
theorem searchWithContext_spec (wd : KazakhUserDict.WorkingData) (h : wd.WF)
    (σ : KazakhUserDict.SearchOrder) (hσ : σ.Valid) (now version : Nat)
    (previousWord currentPrefix : Str) (maxResults : Int) (hprev : previousWord ≠ [])
    (hmax : 1 ≤ maxResults) (hfit : fitsInt maxResults = true) :
    ∃ sorted : List KazakhUserDict.UserDictEntry,
      sorted.Perm (wd.entries.filter
        (fun e => decide (normalizeAndConvertToString previousWord ∈ e.contexts
          ∧ normalizeAndConvertToString currentPrefix <+: e.normalizedWord)))
      ∧ sorted.Pairwise (fun a b => b.frequency < a.frequency
          ∨ (b.frequency = a.frequency ∧ b.lastUsed ≤ a.lastUsed))
      ∧ KazakhUserDict.searchWithContext σ
          (some (KazakhUserDict.buildSnapshotFromWorkingData wd now version))
          previousWord currentPrefix maxResults
        = (sorted.take maxResults.toNat).map (fun entry => entry.word) := by
  have hcount : (KazakhUserDict.buildSnapshotFromWorkingData wd now version).wordCount
      = wd.wordCount := rfl
  -- no entry of the working set has a context that the search does not find
  have hnoctx : ∀ c, (c = [] ∨ mapFind wd.contextMap c = none) →
      wd.entries.filter (fun e => decide (c ∈ e.contexts
        ∧ normalizeAndConvertToString currentPrefix <+: e.normalizedWord)) = [] := by
    intro c hc
    rw [List.filter_eq_nil_iff]
    intro e he
    unfold KazakhUserDict.WorkingData.entries at he
    obtain ⟨pair, hpair, rfl⟩ := List.mem_map.mp he
    simp only [decide_eq_true_eq, not_and]
    intro hmem
    exfalso
    rcases hc with hc | hc
    · rw [hc] at hmem
      exact (h.maps.contexts pair.2).2 hmem
    · have hf := mapFind_of_mem _ h.maps.wordKeys _ _ hpair
      obtain ⟨ps, hps, _⟩ := h.maps.inContext _ pair.2 (h.maps.ofWord _ _ hf).2.2 c hmem
      rw [hc] at hps
      cases hps
  unfold KazakhUserDict.searchWithContext
  rw [if_neg (by
    rw [List.isEmpty_iff]
    intro hg
    rcases hg with hg | hg
    · exact hprev hg
    · omega)]
  simp only [hcount]
  by_cases hzero : wd.wordCount = 0
  · rw [if_pos hzero]
    have hnil : wd.entries = [] := by
      unfold KazakhUserDict.WorkingData.entries
      have := h.maps.count
      rw [hzero] at this
      have hl : wd.wordMap.length = 0 := by omega
      rw [List.length_eq_zero.mp hl]
      rfl
    exact ⟨[], by rw [hnil]; simp, List.Pairwise.nil, by simp⟩
  rw [if_neg hzero]
  by_cases hn : normalizeAndConvertToString previousWord = []
  · rw [if_pos (by rw [List.isEmpty_iff, List.isEmpty_iff]; exact ⟨hn, hprev⟩)]
    exact ⟨[], by rw [hnoctx _ (Or.inl hn)], List.Pairwise.nil, by simp⟩
  rw [if_neg (by rw [List.isEmpty_iff]; exact fun hg => hn hg.1)]
  unfold KazakhUserDict.searchWithContextInSnapshot
  simp only
  rw [if_neg (by rw [List.isEmpty_iff]; exact hn),
    KazakhUserDict.snapshot_contextMap wd h.maps now version]
  cases hfind : mapFind wd.contextMap (normalizeAndConvertToString previousWord) with
  | none =>
    simp only [Option.map_none']
    exact ⟨[], by rw [hnoctx _ (Or.inr hfind)], List.Pairwise.nil, by simp⟩
  | some ps =>
    simp only [Option.map_some']
    obtain ⟨_, hnd, hps⟩ := h.maps.ofContext _ ps hfind
    obtain ⟨sorted, h1, h2, h3⟩ :=
      KazakhUserDict.sortAndTruncate_spec σ hσ maxResults hmax hfit
        ((ps.map wd.entry).filter (fun entry =>
          (normalizeAndConvertToString currentPrefix).isEmpty
            || decide (strFind entry.normalizedWord
                (normalizeAndConvertToString currentPrefix) = some 0)))
    refine ⟨sorted, h1.trans ?_, h2, by rw [h3]⟩
    -- the pointers of the list are those of the entries with the context
    have hperm : ps.Perm ((wd.wordMap.map Prod.snd).filter
        (fun p => decide (normalizeAndConvertToString previousWord ∈ (wd.entry p).contexts))) := by
      refine (List.perm_ext_iff_of_nodup hnd
        ((KazakhUserDict.wordMap_pointers_nodup wd h.maps).filter _)).mpr ?_
      intro p
      rw [List.mem_filter]
      simp only [decide_eq_true_eq]
      constructor
      · intro hp
        obtain ⟨g1, g2⟩ := hps p hp
        exact ⟨List.mem_map.mpr ⟨((wd.entry p).word, p),
          mem_of_mapFind _ _ _ (h.maps.ofNorm _ p g2).2.2, rfl⟩, g1⟩
      · rintro ⟨hp, hc⟩
        obtain ⟨pair, hpair, rfl⟩ := List.mem_map.mp hp
        have hf := mapFind_of_mem _ h.maps.wordKeys _ _ hpair
        obtain ⟨ps2, hps2, hmem⟩ := h.maps.inContext _ pair.2 (h.maps.ofWord _ _ hf).2.2 _ hc
        rw [hfind] at hps2
        cases hps2
        exact hmem
    have hfilter : (fun entry : KazakhUserDict.UserDictEntry =>
          (normalizeAndConvertToString currentPrefix).isEmpty
            || decide (strFind entry.normalizedWord
                (normalizeAndConvertToString currentPrefix) = some 0))
        = (fun entry => decide
            (normalizeAndConvertToString currentPrefix <+: entry.normalizedWord)) := by
      funext entry
      by_cases hc : normalizeAndConvertToString currentPrefix = []
      · rw [hc]
        simp
      · have : (normalizeAndConvertToString currentPrefix).isEmpty = false := by
          cases hcp : normalizeAndConvertToString currentPrefix with
          | nil => exact absurd hcp hc
          | cons a l => rfl
        rw [this, Bool.false_or]
        simp only [strFind_eq_zero_iff]
    rw [hfilter]
    have hentries : wd.entries.filter
          (fun e => decide (normalizeAndConvertToString previousWord ∈ e.contexts
            ∧ normalizeAndConvertToString currentPrefix <+: e.normalizedWord))
        = (((wd.wordMap.map Prod.snd).filter (fun p =>
            decide (normalizeAndConvertToString previousWord ∈ (wd.entry p).contexts))).map
              wd.entry).filter
            (fun entry => decide
              (normalizeAndConvertToString currentPrefix <+: entry.normalizedWord)) := by
      unfold KazakhUserDict.WorkingData.entries
      have e : wd.wordMap.map (fun pair => wd.entry pair.2)
          = (wd.wordMap.map Prod.snd).map wd.entry := by
        rw [List.map_map]; rfl
      have e2 : ((wd.wordMap.map Prod.snd).filter (fun p =>
            decide (normalizeAndConvertToString previousWord ∈ (wd.entry p).contexts))).map
              wd.entry
          = ((wd.wordMap.map Prod.snd).map wd.entry).filter
              (fun e => decide (normalizeAndConvertToString previousWord ∈ e.contexts)) :=
        (@List.filter_map _ _
          (fun e : KazakhUserDict.UserDictEntry =>
            decide (normalizeAndConvertToString previousWord ∈ e.contexts))
          wd.entry (wd.wordMap.map Prod.snd)).symm
      rw [e, e2, List.filter_filter]
      apply List.filter_congr
      intro x _
      simp only [Bool.decide_and, Bool.and_comm]
    rw [hentries]
    exact (hperm.map wd.entry).filter _
namespace KazakhUserDict

/-- The invariant holds after every sequence of calls on a new user
dictionary. -/
theorem wf_after (calls : List Call) (hb : ∀ call ∈ calls, call.IsBytes) :
    (WorkingData.after calls).WF := by
  unfold WorkingData.after
  cases h : run WorkingData.empty calls with
  | none => exact wf_empty
  | some r => exact wf_run calls _ wf_empty hb r.1 r.2 h

theorem run_after (calls : List Call) (rs : List Bool)
    (h : (run WorkingData.empty calls).map Prod.fst = some rs) :
    run WorkingData.empty calls = some (rs, WorkingData.after calls) := by
  unfold WorkingData.after
  cases hr : run WorkingData.empty calls with
  | none => rw [hr] at h; cases h
  | some r =>
    rw [hr] at h
    simp only [Option.map_some', Option.some.injEq] at h
    rw [← h]

end KazakhUserDict

/-- An instance of C24: after `addWord("қотақба", 1)` on a new user dictionary
and one snapshot build, `searchPrefix("қот", 5)` returns `["қотақба"]`. -/
theorem searchPrefix_spec_witness :
    (KazakhUserDict.WorkingData.after [KazakhUserDict.Call.addWord 1000
      [0xD2, 0x9B, 0xD0, 0xBE, 0xD1, 0x82, 0xD0, 0xB0, 0xD2, 0x9B, 0xD0, 0xB1, 0xD0, 0xB0] 1]).WF
    ∧ KazakhUserDict.SearchOrder.inOrder.Valid
    ∧ normalizeAndConvertToString [0xD2, 0x9B, 0xD0, 0xBE, 0xD1, 0x82] ≠ []
    ∧ KazakhUserDict.searchPrefix KazakhUserDict.SearchOrder.inOrder
        (some (KazakhUserDict.buildSnapshotFromWorkingData
          (KazakhUserDict.WorkingData.after [KazakhUserDict.Call.addWord 1000
            [0xD2, 0x9B, 0xD0, 0xBE, 0xD1, 0x82, 0xD0, 0xB0, 0xD2, 0x9B, 0xD0, 0xB1, 0xD0, 0xB0] 1])
          2000 1)) [] [0xD2, 0x9B, 0xD0, 0xBE, 0xD1, 0x82] 5
      = [[0xD2, 0x9B, 0xD0, 0xBE, 0xD1, 0x82, 0xD0, 0xB0, 0xD2, 0x9B, 0xD0, 0xB1, 0xD0, 0xB0]]
    ∧ ∃ sorted : List KazakhUserDict.UserDictEntry,
        KazakhUserDict.searchPrefix KazakhUserDict.SearchOrder.inOrder
          (some (KazakhUserDict.buildSnapshotFromWorkingData
            (KazakhUserDict.WorkingData.after [KazakhUserDict.Call.addWord 1000
              [0xD2, 0x9B, 0xD0, 0xBE, 0xD1, 0x82, 0xD0, 0xB0, 0xD2, 0x9B, 0xD0, 0xB1, 0xD0, 0xB0]
              1])
            2000 1)) [] [0xD2, 0x9B, 0xD0, 0xBE, 0xD1, 0x82] 5
        = (sorted.take (5 : Int).toNat).map (fun entry => entry.word) :=
  ⟨KazakhUserDict.wf_after _ (by decide), ⟨fun _ => List.Perm.refl _, fun _ => List.Perm.refl _⟩,
    by decide, by decide,
    (searchPrefix_spec _ (KazakhUserDict.wf_after _ (by decide))
      KazakhUserDict.SearchOrder.inOrder ⟨fun _ => List.Perm.refl _, fun _ => List.Perm.refl _⟩
      2000 1 [] [0xD2, 0x9B, 0xD0, 0xBE, 0xD1, 0x82] 5 (by decide) (by decide) (by decide)
      (by decide)).imp (fun _ hs => hs.2.2)⟩

/-- Claim C24 as stated fails for a prefix whose normalization is empty. The
word `ED A0 80 FF` does not decode, so it is its own normalized word, and
`addWord` stores it. The prefix `ED A0 80` decodes to the lone surrogate
U+D800, which the encoder rejects: its normalization is empty, and
`searchPrefix` returns nothing, although the normalized word of the entry
begins with the prefix and with its normalization. -/
theorem searchPrefix_empty_normalization_counterexample :
    normalizeAndConvertToString [0xED, 0xA0, 0x80] = []
    ∧ (KazakhUserDict.WorkingData.after
        [KazakhUserDict.Call.addWord 1000 [0xED, 0xA0, 0x80, 0xFF] 1]).entries.map
        (fun e => e.normalizedWord) = [[0xED, 0xA0, 0x80, 0xFF]]
    ∧ ((KazakhUserDict.WorkingData.after
        [KazakhUserDict.Call.addWord 1000 [0xED, 0xA0, 0x80, 0xFF] 1]).entries.filter
        (fun e => decide (normalizeAndConvertToString [0xED, 0xA0, 0x80] <+: e.normalizedWord))).map
        (fun e => e.word) = [[0xED, 0xA0, 0x80, 0xFF]]
    ∧ KazakhUserDict.searchPrefix KazakhUserDict.SearchOrder.inOrder
        (some (KazakhUserDict.buildSnapshotFromWorkingData
          (KazakhUserDict.WorkingData.after
            [KazakhUserDict.Call.addWord 1000 [0xED, 0xA0, 0x80, 0xFF] 1]) 2000 1))
        (KazakhUserDict.WorkingData.after
          [KazakhUserDict.Call.addWord 1000 [0xED, 0xA0, 0x80, 0xFF] 1]).heap
        [0xED, 0xA0, 0x80] 5 = []
    ∧ KazakhUserDict.searchPrefix KazakhUserDict.SearchOrder.inOrder
        (some (KazakhUserDict.buildSnapshotFromWorkingData
          (KazakhUserDict.WorkingData.after
            [KazakhUserDict.Call.addWord 1000 [0xED, 0xA0, 0x80, 0xFF] 1]) 2000 1))
        (KazakhUserDict.WorkingData.after
          [KazakhUserDict.Call.addWord 1000 [0xED, 0xA0, 0x80, 0xFF] 1]).heap
        [0xED] 5 = [[0xED, 0xA0, 0x80, 0xFF]] := by
  decide

/-- An instance of C25: after "ab" and "ad" are added with the context "c",
with the frequencies 2 and 3, and "ae" without context, `searchWithContext("c",
"a", 5)` returns "ad", then "ab". -/
theorem searchWithContext_spec_witness :
    (KazakhUserDict.WorkingData.after
      [KazakhUserDict.Call.addWordWithContext 1 [97, 98] [99] 2,
        KazakhUserDict.Call.addWordWithContext 2 [97, 100] [99] 3,
        KazakhUserDict.Call.addWord 3 [97, 101] 7]).WF
    ∧ KazakhUserDict.SearchOrder.inOrder.Valid
    ∧ KazakhUserDict.searchWithContext KazakhUserDict.SearchOrder.inOrder
        (some (KazakhUserDict.buildSnapshotFromWorkingData
          (KazakhUserDict.WorkingData.after
            [KazakhUserDict.Call.addWordWithContext 1 [97, 98] [99] 2,
              KazakhUserDict.Call.addWordWithContext 2 [97, 100] [99] 3,
              KazakhUserDict.Call.addWord 3 [97, 101] 7])
          2000 1)) [99] [97] 5
      = [[97, 100], [97, 98]]
    ∧ ∃ sorted : List KazakhUserDict.UserDictEntry,
        KazakhUserDict.searchWithContext KazakhUserDict.SearchOrder.inOrder
          (some (KazakhUserDict.buildSnapshotFromWorkingData
            (KazakhUserDict.WorkingData.after
              [KazakhUserDict.Call.addWordWithContext 1 [97, 98] [99] 2,
                KazakhUserDict.Call.addWordWithContext 2 [97, 100] [99] 3,
                KazakhUserDict.Call.addWord 3 [97, 101] 7])
            2000 1)) [99] [97] 5
        = (sorted.take (5 : Int).toNat).map (fun entry => entry.word) :=
  ⟨KazakhUserDict.wf_after _ (by decide), ⟨fun _ => List.Perm.refl _, fun _ => List.Perm.refl _⟩,
    by decide,
    (searchWithContext_spec _ (KazakhUserDict.wf_after _ (by decide))
      KazakhUserDict.SearchOrder.inOrder ⟨fun _ => List.Perm.refl _, fun _ => List.Perm.refl _⟩
      2000 1 [99] [97] 5 (by decide) (by decide) (by decide)).imp (fun _ hs => hs.2.2)⟩

/-- An instance of C26: "ab" added twice and "cd" learned once leave two
entries. -/
theorem userDict_distinct_normalized_words_witness :
    (KazakhUserDict.run KazakhUserDict.WorkingData.empty
        [KazakhUserDict.Call.addWord 1 [97, 98] 1, KazakhUserDict.Call.addWord 2 [97, 98] 1,
          KazakhUserDict.Call.learnFromInput 3 [99, 100] []]).map Prod.fst
      = some [true, true, true]
    ∧ (((KazakhUserDict.WorkingData.after
        [KazakhUserDict.Call.addWord 1 [97, 98] 1, KazakhUserDict.Call.addWord 2 [97, 98] 1,
          KazakhUserDict.Call.learnFromInput 3 [99, 100] []]).entries.map
        (fun e => e.normalizedWord)).Nodup
      ∧ ∀ now version : Nat,
        (KazakhUserDict.buildSnapshotFromWorkingData
          (KazakhUserDict.WorkingData.after
            [KazakhUserDict.Call.addWord 1 [97, 98] 1, KazakhUserDict.Call.addWord 2 [97, 98] 1,
              KazakhUserDict.Call.learnFromInput 3 [99, 100] []]) now version).wordCount
          = (((([KazakhUserDict.Call.addWord 1 [97, 98] 1,
                KazakhUserDict.Call.addWord 2 [97, 98] 1,
                KazakhUserDict.Call.learnFromInput 3 [99, 100] []].flatMap
              KazakhUserDict.Call.words).map normalizeAndConvertToString).dedup.length : Nat)
              : Int)) :=
  ⟨by decide,
    userDict_distinct_normalized_words _ (by decide) (by decide) [true, true, true] _
      (KazakhUserDict.run_after _ _ (by decide)) (by decide)⟩

/-- An instance of C28: "ab" is present with the frequency 2; `addWord("ab",
3)` returns `true` and adds 3 to `totalFrequency`. -/
theorem addWord_existing_spec_witness :
    (KazakhUserDict.WorkingData.after [KazakhUserDict.Call.addWord 1 [97, 98] 2]).WF
    ∧ mapFind (KazakhUserDict.WorkingData.after
        [KazakhUserDict.Call.addWord 1 [97, 98] 2]).normalizedWordMap
        (normalizeAndConvertToString [97, 98]) = some 0
    ∧ ∃ wd2, KazakhUserDict.addWord
          (KazakhUserDict.WorkingData.after [KazakhUserDict.Call.addWord 1 [97, 98] 2])
          9 [97, 98] 3 = some (true, wd2)
        ∧ wd2.totalFrequency
          = (KazakhUserDict.WorkingData.after
              [KazakhUserDict.Call.addWord 1 [97, 98] 2]).totalFrequency + 3 :=
  ⟨KazakhUserDict.wf_after _ (by decide), by decide,
    (addWord_existing_spec _ (KazakhUserDict.wf_after _ (by decide)) 9 [97, 98] 3 0
      (by decide) (by decide) (by decide) (by decide)).1.imp
      (fun _ hs => ⟨hs.1, hs.2.2.2.1⟩)⟩

/-- An instance of C29: "ab" is present and "zz" is absent; `updateWordFrequency("zz",
1)` returns `false` and leaves the working data as it is. -/
theorem updateWordFrequency_spec_witness :
    (KazakhUserDict.WorkingData.after [KazakhUserDict.Call.addWord 1 [97, 98] 2]).WF
    ∧ KazakhUserDict.updateWordFrequency
        (KazakhUserDict.WorkingData.after [KazakhUserDict.Call.addWord 1 [97, 98] 2])
        9 [122, 122] 1
      = some (false, KazakhUserDict.WorkingData.after
          [KazakhUserDict.Call.addWord 1 [97, 98] 2]) :=
  ⟨KazakhUserDict.wf_after _ (by decide),
    (updateWordFrequency_spec _ (KazakhUserDict.wf_after _ (by decide)) 9 [122, 122] 1).1
      (by decide)⟩

/-- An instance of C30: "ab" has the frequency 2 and was used at time 1; a
decay at the time of 30 days and 2 milliseconds decrements it. -/
theorem decayOldEntries_spec_witness :
    (KazakhUserDict.WorkingData.after [KazakhUserDict.Call.addWord 1 [97, 98] 2]).WF
    ∧ (2592000000 : Nat) ≤ 2592000002
    ∧ ∃ wd2, KazakhUserDict.decayOldEntries
          (KazakhUserDict.WorkingData.after [KazakhUserDict.Call.addWord 1 [97, 98] 2])
          2592000002 = some wd2
        ∧ wd2.wordCount
          = (KazakhUserDict.WorkingData.after
              [KazakhUserDict.Call.addWord 1 [97, 98] 2]).wordCount :=
  ⟨KazakhUserDict.wf_after _ (by decide), by decide,
    (decayOldEntries_spec _ (KazakhUserDict.wf_after _ (by decide)) 2592000002 (by decide)
      (by decide) (by decide) (by decide)).imp (fun _ hs => ⟨hs.1, hs.2.2.2.2.2.2.1⟩)⟩


/-! ## The phonetic table, adjacent transpositions and the swap loop -/

/-- Claim C34 evaluated on the table. The pair ә↔а is written with the code
point U+044D (э): ә (U+04D9) has no entry, а (U+0430) maps to U+044D and U+044D
maps to а. The other seven pairs (ң↔н, і↔и, қ↔к, ғ↔г, ү↔у, ө↔о, һ↔х) are there
in both directions, and the table has these sixteen keys and no other. -/
theorem phonetic_classes_schwa_is_e :
    tableFind PHONETIC_CLASSES 0x4D9 = none
    ∧ tableFind PHONETIC_CLASSES 0x430 = some [0x44D]
    ∧ tableFind PHONETIC_CLASSES 0x44D = some [0x430]
    ∧ (∀ pair ∈ [(0x4A3, 0x43D), (0x456, 0x438), (0x49B, 0x43A), (0x493, 0x433),
          (0x4AF, 0x443), (0x4E9, 0x43E), (0x4BB, 0x445)],
        tableFind PHONETIC_CLASSES pair.1 = some [pair.2]
          ∧ tableFind PHONETIC_CLASSES pair.2 = some [pair.1])
    ∧ PHONETIC_CLASSES.map Prod.fst
        = [0x44D, 0x430, 0x4A3, 0x43D, 0x456, 0x438, 0x49B, 0x43A, 0x493, 0x433,
            0x4AF, 0x443, 0x4E9, 0x43E, 0x4BB, 0x445] := by
  decide

/-- Claim C35 evaluated on three adjacent transpositions. For "ал" (both
lengths at most 3, the tiny path) the exchange of the two letters is scored 2
with the bounds 1 and 2; for "мектепк" (length 7, the pruned table) the exchange
of the last two letters is scored 2 with the bounds 1 and 2; for "алма" (length
4, the full table) the exchange of the first two letters is scored 1. -/
theorem adjacent_transposition_scored_two :
    (swapAdjacent [0x430, 0x43B] 0 = [0x43B, 0x430]
      ∧ calculateEditDistanceSimple [0x430, 0x43B] (swapAdjacent [0x430, 0x43B] 0) 1 = 2
      ∧ calculateEditDistanceSimple [0x430, 0x43B] (swapAdjacent [0x430, 0x43B] 0) 2 = 2)
    ∧ (swapAdjacent word7 5 = word7swapped
      ∧ calculateEditDistanceSimple word7 (swapAdjacent word7 5) 1 = 2
      ∧ calculateEditDistanceSimple word7 (swapAdjacent word7 5) 2 = 2)
    ∧ (swapAdjacent [0x430, 0x43B, 0x43C, 0x430] 0 = [0x43B, 0x430, 0x43C, 0x430]
      ∧ calculateEditDistanceSimple [0x430, 0x43B, 0x43C, 0x430]
          (swapAdjacent [0x430, 0x43B, 0x43C, 0x430] 0) 1 = 1) := by
  decide

/-- Claim C39 evaluated on the one-byte input 0x80 with `maxResults = 1`. The
byte is no lead byte, `utf8_to_utf32` skips it and the decoded sequence is
empty; the bound `utf32.size() - 1` of the third loop wraps to the largest
`size_t`, the loop is entered with `i = 0` and exchanges the elements 0 and 1
of an empty vector. The candidate generation, and with it the call on a loaded
predictor, has no defined result. -/
theorem keyboardNeighborCorrect_swaps_in_empty_vector :
    utf8_to_utf32 [0x80] = []
    ∧ toSize (((utf8_to_utf32 [0x80]).length : Int) - 1) = 18446744073709551615
    ∧ fastCandidates (utf8_to_utf32 [0x80]) (toSize (1 * 5)) = none
    ∧ scenarioState.unigramLoaded = true
    ∧ (keyboardNeighborCorrect scenarioState Sched.inOrder [0x80] 1).isNone = true
    ∧ (fastCandidates (utf8_to_utf32 [0xD0, 0xB0]) (toSize (1 * 5))).isSome = true := by
  decide

/-- Claim C40. For all sequences `s1`, `s2` and every bound `maxDist`,
`calculateEditDistanceLimited(s1, s2, maxDist)` is the Levenshtein distance of
`s1` and `s2` (insertion, deletion, substitution) when that distance is at most
`maxDist`, and is greater than `maxDist` otherwise. -/
theorem calculateEditDistanceLimited_refines_levenshtein (s1 s2 : U32) (maxDist : Int) :
    (levenshteinDistance s1 s2 ≤ maxDist
      ∧ calculateEditDistanceLimited s1 s2 maxDist = levenshteinDistance s1 s2)
    ∨ (maxDist < levenshteinDistance s1 s2
      ∧ maxDist < calculateEditDistanceLimited s1 s2 maxDist) := by
  rcases calculateEditDistanceLimited_eq s1 s2 maxDist with h | ⟨h, hlt⟩
  · by_cases hle : levenshteinDistance s1 s2 ≤ maxDist
    · exact Or.inl ⟨hle, h⟩
    · right
      refine ⟨by omega, ?_⟩
      rw [h]
      omega
  · right
    refine ⟨hlt, ?_⟩
    rw [h]
    omega


/-! ## The candidate vectors of Stage 2 and Stage 3 -/

/-- A property kept by every iteration that the loop runs is kept by the
loop. -/
theorem forWhile_invariant_mem {σ : Type} (P : σ → Prop) (cond : σ → Bool)
    (body : Nat → σ → σ) :
    ∀ (idx : List Nat) (st : σ),
      (∀ i ∈ idx, ∀ st, cond st = true → P st → P (body i st)) → P st →
      P (forWhile cond body idx st) := by
  intro idx
  induction idx with
  | nil => intro st _ h; simpa [forWhile] using h
  | cons i rest ih =>
    intro st hbody h
    unfold forWhile
    split
    · rename_i hc
      exact ih _ (fun j hj => hbody j (List.mem_cons_of_mem _ hj))
        (hbody i (List.mem_cons_self _ _) st hc h)
    · exact h

theorem candidateInv_add (P : Str → Prop) (maxTotal : Nat) (a : List Str) (c : Str)
    (h : CandidateInv P maxTotal a) (hlt : a.length < maxTotal) (hc : P c) :
    CandidateInv P maxTotal (addCandidate c a) := by
  refine ⟨addCandidate_nodup c a h.1, ?_, ?_⟩
  · unfold addCandidate
    split
    · exact h.2.1
    · simp only [List.length_append, List.length_singleton]
      omega
  · intro x hx
    unfold addCandidate at hx
    split at hx
    · exact h.2.2 x hx
    · rcases List.mem_append.mp hx with hx | hx
      · exact h.2.2 x hx
      · rw [List.mem_singleton.mp hx]
        exact hc

theorem candidateInv_substituteAt (P : Str → Prop) (utf32 : U32) (maxTotal i : Nat)
    (subs : List Nat) (limit : Nat) (a : List Str) (h : CandidateInv P maxTotal a)
    (hP : ∀ j, j < limit → P (utf32_to_utf8 (utf32.set i (subs.getD j 0)))) :
    CandidateInv P maxTotal (substituteAt utf32 maxTotal i subs limit a) := by
  unfold substituteAt
  refine forWhile_invariant_mem (CandidateInv P maxTotal) _ _ _ _ ?_ h
  intro j hj st hc hst
  exact candidateInv_add P maxTotal st _ hst (by simpa using hc) (hP j (List.mem_range.mp hj))

theorem getD_mem_take (subs : List Nat) (k j : Nat) (hj : j < min subs.length k) :
    subs.getD j 0 ∈ subs.take k := by
  have h1 : j < subs.length := by omega
  have h2 : j < (subs.take k).length := by
    rw [List.length_take]
    omega
  have e : subs.getD j 0 = (subs.take k)[j] := by
    rw [List.getD_eq_getElem _ _ h1, List.getElem_take]
  rw [e]
  exact List.getElem_mem h2

theorem getD_mem_self (subs : List Nat) (j : Nat) (hj : j < subs.length) :
    subs.getD j 0 ∈ subs := by
  rw [List.getD_eq_getElem _ _ hj]
  exact List.getElem_mem hj

theorem candidateInv_fastNeighborStep (utf32 : U32) (maxTotal i : Nat) (hi : i < utf32.length)
    (a : List Str) (h : CandidateInv (FastCandidate utf32) maxTotal a) :
    CandidateInv (FastCandidate utf32) maxTotal (fastNeighborStep utf32 maxTotal i a) := by
  unfold fastNeighborStep
  have h1 : CandidateInv (FastCandidate utf32) maxTotal
      (match tableFind KEYBOARD_NEIGHBORS (utf32.getD i 0) with
        | some neighbors =>
          substituteAt utf32 maxTotal i neighbors (min neighbors.length 2) a
        | none => a) := by
    cases hn : tableFind KEYBOARD_NEIGHBORS (utf32.getD i 0) with
    | none => exact h
    | some neighbors =>
      refine candidateInv_substituteAt _ _ _ _ _ _ _ h ?_
      intro j hj
      refine ⟨i, hi, Or.inl ⟨neighbors.getD j 0, ?_, rfl⟩⟩
      rw [hn]
      exact getD_mem_take neighbors 2 j hj
  simp only
  split
  · rename_i hc
    exact candidateInv_add _ _ _ _ h1 hc.2 ⟨i, hi, Or.inr (Or.inl ⟨hc.1, rfl⟩)⟩
  · exact h1

theorem candidateInv_fastPhoneticStep (utf32 : U32) (maxTotal i : Nat) (hi : i < utf32.length)
    (a : List Str) (h : CandidateInv (FastCandidate utf32) maxTotal a) :
    CandidateInv (FastCandidate utf32) maxTotal (fastPhoneticStep utf32 maxTotal i a) := by
  unfold fastPhoneticStep
  cases hn : tableFind PHONETIC_CLASSES (utf32.getD i 0) with
  | none => exact h
  | some phonetics =>
    refine candidateInv_substituteAt _ _ _ _ _ _ _ h ?_
    intro j hj
    refine ⟨i, hi, Or.inr (Or.inr (Or.inl ⟨phonetics.getD j 0, ?_, rfl⟩))⟩
    rw [hn]
    exact getD_mem_take phonetics 2 j hj

theorem candidateInv_swapLoop (utf32 : U32) (maxTotal : Nat) :
    ∀ (fuel i : Nat) (a r : List Str), CandidateInv (FastCandidate utf32) maxTotal a →
      swapLoop utf32 maxTotal fuel i a = some r → CandidateInv (FastCandidate utf32) maxTotal r := by
  intro fuel
  induction fuel with
  | zero => intro i a r h hr; simp [swapLoop] at hr; subst hr; exact h
  | succ k ih =>
    intro i a r h hr
    unfold swapLoop at hr
    split at hr
    · rename_i hc
      split at hr
      · rename_i hi
        exact ih _ _ _ (candidateInv_add _ _ _ _ h hc.2
          ⟨i, by omega, Or.inr (Or.inr (Or.inr ⟨hi, rfl⟩))⟩) hr
      · exact absurd hr (by simp)
    · simp at hr; subst hr; exact h

theorem candidateInv_fastCandidates (utf32 : U32) (maxTotal : Nat) (r : List Str)
    (h : fastCandidates utf32 maxTotal = some r) :
    CandidateInv (FastCandidate utf32) maxTotal r := by
  unfold fastCandidates at h
  refine candidateInv_swapLoop utf32 maxTotal _ _ _ _ ?_ h
  refine forWhile_invariant_mem (CandidateInv (FastCandidate utf32) maxTotal) _ _ _ _ ?_ ?_
  · intro i hi st _ hst
    exact candidateInv_fastPhoneticStep utf32 maxTotal i (List.mem_range.mp hi) st hst
  · refine forWhile_invariant_mem (CandidateInv (FastCandidate utf32) maxTotal) _ _ _ _ ?_ ?_
    · intro i hi st _ hst
      exact candidateInv_fastNeighborStep utf32 maxTotal i (List.mem_range.mp hi) st hst
    · exact ⟨List.nodup_nil, Nat.zero_le _, fun c hc => absurd hc (List.not_mem_nil c)⟩

/-- The swap loop of Stage 2 has a defined result when the cap is 0. -/
theorem swapLoop_of_cap_zero (utf32 : U32) :
    ∀ (fuel i : Nat) (a : List Str), swapLoop utf32 0 fuel i a = some a := by
  intro fuel i a
  cases fuel with
  | zero => rfl
  | succ k =>
    unfold swapLoop
    rw [if_neg (by omega)]

theorem candidateInv_heavyCandidateStep (utf32 : U32) (maxTotal i : Nat)
    (hlen : utf32.length < 18446744073709551616)
    (hi : i < utf32.length) (a : List Str) (h : CandidateInv (HeavyCandidate utf32) maxTotal a) :
    ∃ r, heavyCandidateStep utf32 maxTotal i a = some r
      ∧ CandidateInv (HeavyCandidate utf32) maxTotal r := by
  have hsz : toSize ((utf32.length : Int) - 1) = utf32.length - 1 := by
    rw [toSize_of_nonneg _ (by omega) (by omega)]
    omega
  simp only [heavyCandidateStep]
  have h1 : CandidateInv (HeavyCandidate utf32) maxTotal
      (match tableFind KEYBOARD_NEIGHBORS (utf32.getD i 0) with
        | some neighbors => substituteAt utf32 maxTotal i neighbors neighbors.length a
        | none => a) := by
    cases hn : tableFind KEYBOARD_NEIGHBORS (utf32.getD i 0) with
    | none => exact h
    | some neighbors =>
      refine candidateInv_substituteAt _ _ _ _ _ _ _ h ?_
      intro j hj
      refine ⟨i, hi, Or.inl ⟨neighbors.getD j 0, ?_, rfl⟩⟩
      rw [hn]
      exact getD_mem_self neighbors j hj
  generalize (match tableFind KEYBOARD_NEIGHBORS (utf32.getD i 0) with
        | some neighbors => substituteAt utf32 maxTotal i neighbors neighbors.length a
        | none => a) = a1 at h1 ⊢
  have h2 : CandidateInv (HeavyCandidate utf32) maxTotal
      (if utf32.length > 1 ∧ a1.length < maxTotal then
        addCandidate (utf32_to_utf8 (utf32.eraseIdx i)) a1
      else a1) := by
    split
    · rename_i hc
      exact candidateInv_add _ _ _ _ h1 hc.2 ⟨i, hi, Or.inr (Or.inl ⟨hc.1, rfl⟩)⟩
    · exact h1
  generalize (if utf32.length > 1 ∧ a1.length < maxTotal then
        addCandidate (utf32_to_utf8 (utf32.eraseIdx i)) a1
      else a1) = a2 at h2 ⊢
  have h3 : CandidateInv (HeavyCandidate utf32) maxTotal
      (match tableFind PHONETIC_CLASSES (utf32.getD i 0) with
        | some phonetics => substituteAt utf32 maxTotal i phonetics phonetics.length a2
        | none => a2) := by
    cases hn : tableFind PHONETIC_CLASSES (utf32.getD i 0) with
    | none => exact h2
    | some phonetics =>
      refine candidateInv_substituteAt _ _ _ _ _ _ _ h2 ?_
      intro j hj
      refine ⟨i, hi, Or.inr (Or.inr (Or.inl ⟨phonetics.getD j 0, ?_, rfl⟩))⟩
      rw [hn]
      exact getD_mem_self phonetics j hj
  generalize (match tableFind PHONETIC_CLASSES (utf32.getD i 0) with
        | some phonetics => substituteAt utf32 maxTotal i phonetics phonetics.length a2
        | none => a2) = a3 at h3 ⊢
  split
  · rename_i hc
    have hi2 : i + 1 < utf32.length := by
      have := hc.1
      rw [hsz] at this
      omega
    rw [if_pos hi2]
    exact ⟨_, rfl, candidateInv_add _ _ _ _ h3 hc.2 ⟨i, hi, Or.inr (Or.inr (Or.inr ⟨hi2, rfl⟩))⟩⟩
  · exact ⟨_, rfl, h3⟩

theorem candidateInv_heavyCandidateLoop (utf32 : U32) (maxTotal : Nat)
    (hlen : utf32.length < 18446744073709551616) :
    ∀ (idx : List Nat) (a : List Str), (∀ i ∈ idx, i < utf32.length) →
      CandidateInv (HeavyCandidate utf32) maxTotal a →
      ∃ r, heavyCandidateLoop utf32 maxTotal idx a = some r
        ∧ CandidateInv (HeavyCandidate utf32) maxTotal r := by
  intro idx
  induction idx with
  | nil => intro a _ h; exact ⟨a, rfl, h⟩
  | cons i rest ih =>
    intro a hidx h
    unfold heavyCandidateLoop
    split
    · obtain ⟨r1, e1, h1⟩ := candidateInv_heavyCandidateStep utf32 maxTotal i hlen
        (hidx i (List.mem_cons_self _ _)) a h
      rw [e1]
      exact ih r1 (fun j hj => hidx j (List.mem_cons_of_mem _ hj)) h1
    · exact ⟨a, rfl, h⟩

/-- Claim C36. For every input (a `std::string`, so of a length below `2^64`)
and every `maxResults ≥ 0` whose product with 5 is an `int`, the candidate
vector of Stage 2 (defined whenever the input decodes to at least one code
point, or `maxResults` is 0) has no duplicate and at most `5 × maxResults`
elements, each of them the input with one letter replaced by
one of its first two keyboard neighbours or first two phonetic partners, with
one letter deleted, or with two adjacent letters exchanged. When the product
with 10 is an `int`, the candidate vector of Stage 3 is defined at every
position of its loop, has no duplicate and at most `10 × maxResults` elements,
each of them such a candidate with any neighbour or partner. -/
theorem candidate_vectors_capped (input : Str) (maxResults : Int) (h0 : 0 ≤ maxResults)
    (hlen : input.length < 18446744073709551616) :
    (fitsInt (maxResults * 5) = true →
      ((utf8_to_utf32 input ≠ [] ∨ maxResults = 0) →
        ∃ l, fastCandidates (utf8_to_utf32 input) (toSize (maxResults * 5)) = some l)
      ∧ ∀ l, fastCandidates (utf8_to_utf32 input) (toSize (maxResults * 5)) = some l →
          l.Nodup ∧ (l.length : Int) ≤ 5 * maxResults
            ∧ ∀ c ∈ l, FastCandidate (utf8_to_utf32 input) c)
    ∧ (fitsInt (maxResults * 10) = true →
      ∀ n, n ≤ (utf8_to_utf32 input).length →
        ∃ l, heavyCandidates (utf8_to_utf32 input) (toSize (maxResults * 10)) n = some l
          ∧ l.Nodup ∧ (l.length : Int) ≤ 10 * maxResults
          ∧ ∀ c ∈ l, HeavyCandidate (utf8_to_utf32 input) c) := by
  have hlen2 : (utf8_to_utf32 input).length < 18446744073709551616 :=
    lt_of_le_of_lt (utf8_to_utf32_length_le input) hlen
  constructor
  · intro hfit
    have hf := (fitsInt_iff _).mp hfit
    have e : toSize (maxResults * 5) = (maxResults * 5).toNat :=
      toSize_of_nonneg _ (by omega) (by omega)
    constructor
    · intro hd
      unfold fastCandidates
      rcases hd with hd | hd
      · exact swapLoop_isSome _ _ hd hlen2 _ _ _
      · have e0 : toSize (maxResults * 5) = 0 := by
          rw [e, hd]
          rfl
        rw [e0]
        exact ⟨_, swapLoop_of_cap_zero _ _ _ _⟩
    · intro l hl
      obtain ⟨h1, h2, h3⟩ := candidateInv_fastCandidates _ _ l hl
      refine ⟨h1, ?_, h3⟩
      rw [e] at h2
      omega
  · intro hfit n hn
    have hf := (fitsInt_iff _).mp hfit
    have e : toSize (maxResults * 10) = (maxResults * 10).toNat :=
      toSize_of_nonneg _ (by omega) (by omega)
    obtain ⟨r, e1, h1, h2, h3⟩ := candidateInv_heavyCandidateLoop (utf8_to_utf32 input)
      (toSize (maxResults * 10)) hlen2 (List.range n) []
      (fun i hi => by have := List.mem_range.mp hi; omega)
      ⟨List.nodup_nil, Nat.zero_le _, fun c hc => absurd hc (List.not_mem_nil c)⟩
    refine ⟨r, e1, h1, ?_, h3⟩
    rw [e] at h2
    omega

/-- An instance of C36: the input "ал" with `maxResults = 1`. Stage 2 stops at
five candidates; Stage 3 generates eight. -/
theorem candidate_vectors_capped_witness :
    (0 : Int) ≤ 1
    ∧ [0xD0, 0xB0, 0xD0, 0xBB].length < 18446744073709551616
    ∧ fastCandidates (utf8_to_utf32 [0xD0, 0xB0, 0xD0, 0xBB]) (toSize (1 * 5))
        = some [[0xD1, 0x84, 0xD0, 0xBB], [0xD1, 0x81, 0xD0, 0xBB], [0xD0, 0xBB],
            [0xD0, 0xB0, 0xD0, 0xB4], [0xD0, 0xB0, 0xD0, 0xBA]]
    ∧ ((heavyCandidates (utf8_to_utf32 [0xD0, 0xB0, 0xD0, 0xBB]) (toSize (1 * 10)) 2).map
        List.length) = some 8
    ∧ ∃ l, heavyCandidates (utf8_to_utf32 [0xD0, 0xB0, 0xD0, 0xBB]) (toSize (1 * 10)) 2 = some l
        ∧ l.Nodup ∧ (l.length : Int) ≤ 10 * 1
        ∧ ∀ c ∈ l, HeavyCandidate (utf8_to_utf32 [0xD0, 0xB0, 0xD0, 0xBB]) c :=
  ⟨by decide, by decide, by decide, by decide,
    (candidate_vectors_capped [0xD0, 0xB0, 0xD0, 0xBB] 1 (by decide) (by decide)).2
      (by decide) 2 (by decide)⟩


/-! ## Properties kept by every public call of the user dictionary -/

namespace KazakhUserDict

theorem closed_addWordToWorkingData (I : WorkingData → Prop) (hI : Closed I)
    (wd : WorkingData) (h : wd.WF) (hi : I wd) (now : Nat)
    (word : Str) (frequency : Int) (r : Bool) (wd2 : WorkingData) (hw : word ≠ [])
    (hb : ∀ b ∈ word, b < 256)
    (hadd : addWordToWorkingData wd now word frequency true = some (r, wd2)) :
    I wd2 := by
  rcases addWordToWorkingData_cases wd now word frequency r wd2 hadd with
    ⟨_, h2, _, _⟩ | ⟨_, _, it, hfind, _, hfit, h2⟩ | ⟨_, hok, hnone, hc, ht, h2⟩
  · rw [h2]; exact hi
  · rw [h2]
    exact hI.update wd it frequency now true _ h hi hfind hfit
  · rw [h2]
    exact hI.insert wd now word frequency h hi hnone (fun e => hok ⟨e, hw⟩) hb hc ht

theorem closed_addWordWithContextToWorkingData (I : WorkingData → Prop) (hI : Closed I)
    (wd : WorkingData) (h : wd.WF) (hi : I wd)
    (now : Nat) (word contextWord : Str) (frequency : Int) (r : Bool) (wd2 : WorkingData)
    (hw : word ≠ []) (hb : ∀ b ∈ word, b < 256) (hc : contextWord ≠ [])
    (hadd : addWordWithContextToWorkingData wd now word contextWord frequency = some (r, wd2)) :
    I wd2 := by
  rcases addWordWithContextToWorkingData_cases wd now word contextWord frequency r wd2 hadd with
    ⟨_, h2⟩ | ⟨_, hok, wd1, p, h1, hp, ⟨hnot, h2⟩ | ⟨_, h2⟩⟩
  · rw [h2]; exact hi
  · have hwf1 := wf_addWordToWorkingData wd h now word frequency true wd1 hw hb h1
    have hi1 := closed_addWordToWorkingData I hI wd h hi now word frequency true wd1 hw hb h1
    rw [h2]
    exact hI.context wd1 p _ _ true hwf1 hi1 hp (fun e => hok ⟨e, hc⟩) hnot
  · have hi1 := closed_addWordToWorkingData I hI wd h hi now word frequency true wd1 hw hb h1
    rw [h2]
    exact hI.dirty wd1 true hi1

theorem closed_removeWordFromWorkingData (I : WorkingData → Prop) (hI : Closed I)
    (wd : WorkingData) (h : wd.WF) (hi : I wd) (word : Str)
    (r : Bool) (wd2 : WorkingData)
    (hrem : removeWordFromWorkingData wd word = some (r, wd2)) : I wd2 := by
  rcases removeWordFromWorkingData_cases wd word r wd2 hrem with
    ⟨_, h2, _⟩ | ⟨_, it, hfind, hf1, hf2, h2⟩
  · rw [h2]; exact hi
  · rw [h2]
    exact hI.remove wd word it h hi hfind hf1 hf2

theorem closed_addWord (I : WorkingData → Prop) (hI : Closed I)
    (wd : WorkingData) (h : wd.WF) (hi : I wd) (now : Nat) (word : Str)
    (frequency : Int) (r : Bool) (wd2 : WorkingData) (hb : ∀ b ∈ word, b < 256)
    (hadd : addWord wd now word frequency = some (r, wd2)) : I wd2 := by
  unfold KazakhUserDict.addWord at hadd
  simp only [List.isEmpty_iff] at hadd
  by_cases hc : word = [] ∨ frequency ≤ 0
  · rw [if_pos hc] at hadd
    simp only [Option.some.injEq, Prod.mk.injEq] at hadd
    rw [← hadd.2]; exact hi
  · rw [if_neg hc] at hadd
    exact closed_addWordToWorkingData I hI wd h hi now word frequency r wd2
      (fun e => hc (Or.inl e)) hb hadd

theorem closed_addWordWithContext (I : WorkingData → Prop) (hI : Closed I)
    (wd : WorkingData) (h : wd.WF) (hi : I wd) (now : Nat)
    (word contextWord : Str) (frequency : Int) (r : Bool) (wd2 : WorkingData)
    (hb : ∀ b ∈ word, b < 256)
    (hadd : addWordWithContext wd now word contextWord frequency = some (r, wd2)) :
    I wd2 := by
  unfold KazakhUserDict.addWordWithContext at hadd
  simp only [List.isEmpty_iff] at hadd
  by_cases hc : word = [] ∨ contextWord = []
  · rw [if_pos hc] at hadd
    simp only [Option.some.injEq, Prod.mk.injEq] at hadd
    rw [← hadd.2]; exact hi
  · rw [if_neg hc] at hadd
    exact closed_addWordWithContextToWorkingData I hI wd h hi now word contextWord frequency
      r wd2 (fun e => hc (Or.inl e)) hb (fun e => hc (Or.inr e)) hadd

theorem closed_removeWord (I : WorkingData → Prop) (hI : Closed I)
    (wd : WorkingData) (h : wd.WF) (hi : I wd) (word : Str)
    (r : Bool) (wd2 : WorkingData) (hrem : removeWord wd word = some (r, wd2)) : I wd2 := by
  unfold KazakhUserDict.removeWord at hrem
  simp only [List.isEmpty_iff] at hrem
  by_cases hc : word = []
  · rw [if_pos hc] at hrem
    simp only [Option.some.injEq, Prod.mk.injEq] at hrem
    rw [← hrem.2]; exact hi
  · rw [if_neg hc] at hrem
    exact closed_removeWordFromWorkingData I hI wd h hi word r wd2 hrem

theorem closed_updateWordFrequency (I : WorkingData → Prop) (hI : Closed I)
    (wd : WorkingData) (h : wd.WF) (hi : I wd) (now : Nat)
    (word : Str) (delta : Int) (r : Bool) (wd2 : WorkingData)
    (hupd : updateWordFrequency wd now word delta = some (r, wd2)) : I wd2 := by
  rcases updateWordFrequency_cases wd now word delta r wd2 hupd with
    ⟨_, h2, _⟩ | ⟨_, it, hfind, _, ⟨_, hrem⟩ | ⟨_, _, hfit, h2⟩⟩
  · rw [h2]; exact hi
  · exact closed_removeWordFromWorkingData I hI wd h hi word r wd2 hrem
  · rw [h2]
    exact hI.update wd it delta now true _ h hi hfind hfit

theorem closed_importWords (I : WorkingData → Prop) (hI : Closed I) :
    ∀ (words : List (Nat × Str)) (wd : WorkingData), wd.WF → I wd →
      (∀ p ∈ words, ∀ b ∈ p.2, b < 256) →
      ∀ (r : Bool) (wd2 : WorkingData), importWords wd words = some (r, wd2) → I wd2 := by
  intro words
  induction words with
  | nil =>
    intro wd _ hi _ r wd2 himp
    simp only [KazakhUserDict.importWords, Option.some.injEq, Prod.mk.injEq] at himp
    rw [← himp.2]; exact hi
  | cons p words ih =>
    intro wd h hi hb r wd2 himp
    obtain ⟨now, word⟩ := p
    simp only [KazakhUserDict.importWords, List.isEmpty_iff] at himp
    by_cases hw : word = []
    · rw [if_neg (by simp [hw])] at himp
      exact ih wd h hi (fun q hq => hb q (List.mem_cons_of_mem _ hq)) r wd2 himp
    · rw [if_pos hw] at himp
      cases h1 : addWordToWorkingData wd now word 1 true with
      | none => rw [h1] at himp; simp at himp
      | some res =>
        obtain ⟨ok, wd1⟩ := res
        rw [h1] at himp
        simp only at himp
        have hwf1 := wf_addWordToWorkingData wd h now word 1 ok wd1 hw
          (hb (now, word) (List.mem_cons_self _ _)) h1
        have hi1 := closed_addWordToWorkingData I hI wd h hi now word 1 ok wd1 hw
          (hb (now, word) (List.mem_cons_self _ _)) h1
        cases h2 : KazakhUserDict.importWords wd1 words with
        | none => rw [h2] at himp; simp at himp
        | some res2 =>
          obtain ⟨s, wd3⟩ := res2
          rw [h2] at himp
          simp only [Option.some.injEq, Prod.mk.injEq] at himp
          rw [← himp.2]
          exact ih wd1 hwf1 hi1 (fun q hq => hb q (List.mem_cons_of_mem _ hq)) s wd3 h2

theorem closed_learnFromInput (I : WorkingData → Prop) (hI : Closed I)
    (wd : WorkingData) (h : wd.WF) (hi : I wd) (now : Nat)
    (word context : Str) (r : Bool) (wd2 : WorkingData) (hb : ∀ b ∈ word, b < 256)
    (hl : learnFromInput wd now word context = some (r, wd2)) : I wd2 := by
  unfold KazakhUserDict.learnFromInput at hl
  simp only [List.isEmpty_iff] at hl
  by_cases hw : word = []
  · rw [if_pos hw] at hl
    simp only [Option.some.injEq, Prod.mk.injEq] at hl
    rw [← hl.2]; exact hi
  · rw [if_neg hw] at hl
    by_cases hc : context = []
    · rw [if_pos hc] at hl
      exact closed_addWordToWorkingData I hI wd h hi now word 1 r wd2 hw hb hl
    · rw [if_neg hc] at hl
      exact closed_addWordWithContextToWorkingData I hI wd h hi now word context 1 r wd2
        hw hb hc hl

theorem closed_decayEntry (I : WorkingData → Prop) (hI : Closed I)
    (oneMonthAgo : Nat) (wd : WorkingData) (h : wd.WF) (hi : I wd)
    (b : Bool) (p : Nat) (hp : p ∈ wd.wordMap.map Prod.snd) (b2 : Bool) (wd2 : WorkingData)
    (hd : decayEntry oneMonthAgo (some (b, wd)) p = some (b2, wd2)) :
    I wd2 ∧ wd2.wordMap = wd.wordMap := by
  unfold KazakhUserDict.decayEntry at hd
  simp only at hd
  split at hd
  · split at hd
    · cases h1 : checkedInt (wd.totalFrequency - 1) with
      | none => rw [h1] at hd; simp at hd
      | some t =>
        rw [h1] at hd
        simp only [Option.some.injEq, Prod.mk.injEq] at hd
        obtain ⟨hf1, hf2⟩ := (checkedInt_eq_some _ _).mp h1
        subst hf2
        rw [← hd.2]
        obtain ⟨pair, hpair, hpp⟩ := List.mem_map.mp hp
        have hfw := mapFind_of_mem _ h.maps.wordKeys _ _ hpair
        have hfn := (h.maps.ofWord pair.1 pair.2 hfw).2.2
        rw [hpp] at hfn
        refine ⟨?_, rfl⟩
        exact hI.update wd p (-1) (wd.entry p).lastUsed wd.dirty _ h hi hfn hf1
    · simp only [Option.some.injEq, Prod.mk.injEq] at hd
      rw [← hd.2]; exact ⟨hi, rfl⟩
  · simp only [Option.some.injEq, Prod.mk.injEq] at hd
    rw [← hd.2]; exact ⟨hi, rfl⟩

theorem closed_decayFold (I : WorkingData → Prop) (hI : Closed I) (oneMonthAgo : Nat) :
    ∀ (ps : List Nat) (wd : WorkingData) (b : Bool), wd.WF → I wd →
      (∀ p ∈ ps, p ∈ wd.wordMap.map Prod.snd) →
      ∀ (b2 : Bool) (wd2 : WorkingData),
        ps.foldl (decayEntry oneMonthAgo) (some (b, wd)) = some (b2, wd2) → I wd2 := by
  intro ps
  induction ps with
  | nil =>
    intro wd b _ hi _ b2 wd2 hf
    simp only [List.foldl_nil, Option.some.injEq, Prod.mk.injEq] at hf
    rw [← hf.2]; exact hi
  | cons p ps ih =>
    intro wd b h hi hps b2 wd2 hf
    rw [List.foldl_cons] at hf
    cases h1 : decayEntry oneMonthAgo (some (b, wd)) p with
    | none =>
      rw [h1, decayEntry_none] at hf
      cases hf
    | some res =>
      obtain ⟨b1, wd1⟩ := res
      rw [h1] at hf
      have hmem := hps p (List.mem_cons_self _ _)
      have hlt : p < wd.heap.length := by
        obtain ⟨pair, hpair, hpp⟩ := List.mem_map.mp hmem
        rw [← hpp]
        exact (h.maps.ofWord pair.1 pair.2 (mapFind_of_mem _ h.maps.wordKeys _ _ hpair)).1
      obtain ⟨hwf1, _⟩ := wf_decayEntry oneMonthAgo wd h b p hlt b1 wd1 h1
      obtain ⟨hi1, hwm⟩ := closed_decayEntry I hI oneMonthAgo wd h hi b p hmem b1 wd1 h1
      exact ih wd1 b1 hwf1 hi1
        (fun q hq => by rw [hwm]; exact hps q (List.mem_cons_of_mem _ hq)) b2 wd2 hf

theorem closed_decayOldEntries (I : WorkingData → Prop) (hI : Closed I)
    (wd : WorkingData) (h : wd.WF) (hi : I wd) (now : Nat)
    (wd2 : WorkingData) (hd : decayOldEntries wd now = some wd2) : I wd2 := by
  unfold KazakhUserDict.decayOldEntries at hd
  simp only at hd
  split at hd
  · cases hd
  · rename_i b wd1 hfold
    have hi1 := closed_decayFold I hI _ _ wd false h hi (fun p hp => hp) b wd1 hfold
    split at hd
    · simp only [Option.some.injEq] at hd
      rw [← hd]
      exact hI.dirty wd1 true hi1
    · simp only [Option.some.injEq] at hd
      rw [← hd]; exact hi1

theorem closed_step (I : WorkingData → Prop) (hI : Closed I)
    (wd : WorkingData) (h : wd.WF) (hi : I wd) (call : Call) (hb : call.IsBytes)
    (r : Bool) (wd2 : WorkingData) (hs : step wd call = some (r, wd2)) : I wd2 := by
  cases call with
  | addWord now word frequency =>
    exact closed_addWord I hI wd h hi now word frequency r wd2
      (hb word (by simp [Call.words])) hs
  | addWordWithContext now word contextWord frequency =>
    exact closed_addWordWithContext I hI wd h hi now word contextWord frequency r wd2
      (hb word (by simp [Call.words])) hs
  | removeWord word => exact closed_removeWord I hI wd h hi word r wd2 hs
  | updateWordFrequency now word delta =>
    exact closed_updateWordFrequency I hI wd h hi now word delta r wd2 hs
  | learnFromInput now word context =>
    exact closed_learnFromInput I hI wd h hi now word context r wd2
      (hb word (by simp [Call.words])) hs
  | importWords words =>
    refine closed_importWords I hI words wd h hi ?_ r wd2 hs
    intro p hp b hbm
    by_cases hw : p.2 = []
    · rw [hw] at hbm; simp at hbm
    · exact hb p.2 (by
        simp only [Call.words, List.mem_filter, List.mem_map, ne_eq, decide_eq_true_eq]
        exact ⟨⟨p, hp, rfl⟩, hw⟩) b hbm
  | decayOldEntries now =>
    simp only [KazakhUserDict.step, Option.map_eq_some', Prod.mk.injEq] at hs
    obtain ⟨wd1, h1, _, h2⟩ := hs
    rw [← h2]
    exact closed_decayOldEntries I hI wd h hi now wd1 h1

/-- A closed property, and the invariant `WF`, hold after every sequence of
public calls on a working data of which they hold. -/
theorem closed_runOps (I : WorkingData → Prop) (hI : Closed I) :
    ∀ (ops : List Op) (wd : WorkingData), wd.WF → I wd → (∀ op ∈ ops, op.IsBytes) →
      ∀ (rs : List Bool) (wd2 : WorkingData), runOps wd ops = some (rs, wd2) →
        wd2.WF ∧ I wd2 := by
  intro ops
  induction ops with
  | nil =>
    intro wd h hi _ rs wd2 hr
    simp only [KazakhUserDict.runOps, Option.some.injEq, Prod.mk.injEq] at hr
    rw [← hr.2]; exact ⟨h, hi⟩
  | cons op ops ih =>
    intro wd h hi hb rs wd2 hr
    simp only [KazakhUserDict.runOps] at hr
    cases h1 : KazakhUserDict.stepOp wd op with
    | none => rw [h1] at hr; simp at hr
    | some res =>
      obtain ⟨r, wd1⟩ := res
      rw [h1] at hr
      simp only at hr
      have h2 : wd1.WF ∧ I wd1 := by
        cases op with
        | write call =>
          have hbc : call.IsBytes := hb (Op.write call) (List.mem_cons_self _ _)
          exact ⟨wf_step wd h call hbc r wd1 h1, closed_step I hI wd h hi call hbc r wd1 h1⟩
        | clearUserDict =>
          simp only [KazakhUserDict.stepOp, KazakhUserDict.clearUserDict, Option.some.injEq,
            Prod.mk.injEq] at h1
          rw [← h1.2]
          exact ⟨wf_empty, hI.empty⟩
      cases h3 : KazakhUserDict.runOps wd1 ops with
      | none => rw [h3] at hr; simp at hr
      | some res2 =>
        obtain ⟨rs2, wd3⟩ := res2
        rw [h3] at hr
        simp only [Option.some.injEq, Prod.mk.injEq] at hr
        rw [← hr.2]
        exact ih wd1 h2.1 h2.2 (fun c hc => hb c (List.mem_cons_of_mem _ hc)) rs2 wd3 h3

end KazakhUserDict


/-! ## The counters of the working data -/

theorem sum_map_update (f g : Nat → Int) (it : Nat) (hfg : ∀ p, p ≠ it → g p = f p) :
    ∀ (ps : List Nat), ps.Nodup → it ∈ ps →
      (ps.map g).sum = (ps.map f).sum + (g it - f it) := by
  intro ps
  induction ps with
  | nil => intro _ h; simp at h
  | cons x t ih =>
    intro hnd hit
    rw [List.nodup_cons] at hnd
    simp only [List.map_cons, List.sum_cons]
    by_cases hx : x = it
    · subst hx
      have e : t.map g = t.map f := by
        apply List.map_congr_left
        intro p hp
        exact hfg p (fun e => hnd.1 (e ▸ hp))
      rw [e]
      omega
    · have hit2 : it ∈ t := by
        rcases List.mem_cons.mp hit with h | h
        · exact absurd h.symm hx
        · exact h
      rw [ih hnd.2 hit2, hfg x hx]
      omega

theorem sum_mapErase {κ α : Type} [DecidableEq κ] (g : κ × α → Int) (key : κ) (value : α) :
    ∀ (m : List (κ × α)), (m.map Prod.fst).Nodup → mapFind m key = some value →
      ((mapErase m key).map g).sum = (m.map g).sum - g (key, value) := by
  intro m
  induction m with
  | nil => intro _ h; simp [mapFind] at h
  | cons p t ih =>
    intro hnd hfind
    rw [List.map_cons, List.nodup_cons] at hnd
    rw [mapFind_cons] at hfind
    by_cases hp : p.1 = key
    · rw [if_pos hp] at hfind
      have hpe : p = (key, value) := by
        obtain ⟨a, b⟩ := p
        simp only [Option.some.injEq] at hfind
        simp only at hp
        rw [hp, hfind]
      have hnot : key ∉ t.map Prod.fst := by
        rw [← hp]; exact hnd.1
      have e : mapErase (p :: t) key = t := by
        unfold mapErase
        rw [List.filter_cons_of_neg (by simp [hp])]
        apply List.filter_eq_self.mpr
        intro q hq
        simp only [ne_eq, decide_eq_true_eq]
        intro e2
        exact hnot (e2 ▸ List.mem_map_of_mem Prod.fst hq)
      rw [e, List.map_cons, List.sum_cons, hpe]
      omega
    · rw [if_neg hp] at hfind
      have e : mapErase (p :: t) key = p :: mapErase t key := by
        unfold mapErase
        rw [List.filter_cons_of_pos (by simp [hp])]
      rw [e, List.map_cons, List.sum_cons, ih hnd.2 hfind, List.map_cons, List.sum_cons]
      omega

namespace KazakhUserDict

theorem frequencySum_eq (wd : WorkingData) :
    (wd.entries.map (fun e => e.frequency)).sum
      = ((wd.wordMap.map Prod.snd).map (fun p => (wd.entry p).frequency)).sum := by
  unfold WorkingData.entries
  rw [List.map_map, List.map_map]
  rfl

theorem mem_pointers_of_find (wd : WorkingData) (h : wd.MapsWF) (n : Str) (it : Nat)
    (hfind : mapFind wd.normalizedWordMap n = some it) :
    it ∈ wd.wordMap.map Prod.snd ∧ it < wd.heap.length
      ∧ mapFind wd.wordMap (wd.entry it).word = some it := by
  obtain ⟨h1, _, h3⟩ := h.ofNorm n it hfind
  exact ⟨List.mem_map.mpr ⟨_, mem_of_mapFind _ _ _ h3, rfl⟩, h1, h3⟩

theorem wordMap_find_none_of_new (wd : WorkingData) (h : wd.MapsWF) (word : Str)
    (hnone : mapFind wd.normalizedWordMap (normalizeAndConvertToString word) = none) :
    mapFind wd.wordMap word = none := by
  cases hf : mapFind wd.wordMap word with
  | none => rfl
  | some p =>
    have h1 := (h.ofWord word p hf).2.2
    rw [(h.normalized word p hf).1, hnone] at h1
    cases h1

theorem totals_congr (wd wd2 : WorkingData) (h : wd.Totals)
    (hfreq : ∀ p, (wd2.entry p).frequency = (wd.entry p).frequency)
    (hwm : wd2.wordMap = wd.wordMap) (hnm : wd2.normalizedWordMap = wd.normalizedWordMap)
    (ht : wd2.totalFrequency = wd.totalFrequency) (hc : wd2.wordCount = wd.wordCount) :
    wd2.Totals := by
  refine ⟨?_, by rw [hwm, hnm]; exact h.normCount, by rw [ht]; exact h.totalFits,
    by rw [hc]; exact h.countFits⟩
  rw [ht, h.total, frequencySum_eq, frequencySum_eq, hwm]
  congr 1
  apply List.map_congr_left
  intro p _
  exact (hfreq p).symm

theorem totals_update (wd wd2 : WorkingData) (hwf : wd.WF) (h : wd.Totals) (it : Nat)
    (delta : Int) (n : Str) (hfind : mapFind wd.normalizedWordMap n = some it)
    (hfit : fitsInt (wd.totalFrequency + delta) = true)
    (hfreq : ∀ p, (wd2.entry p).frequency
      = if p = it then (wd.entry it).frequency + delta else (wd.entry p).frequency)
    (hwm : wd2.wordMap = wd.wordMap) (hnm : wd2.normalizedWordMap = wd.normalizedWordMap)
    (ht : wd2.totalFrequency = wd.totalFrequency + delta) (hc : wd2.wordCount = wd.wordCount) :
    wd2.Totals := by
  obtain ⟨hmem, _, _⟩ := mem_pointers_of_find wd hwf.maps n it hfind
  refine ⟨?_, by rw [hwm, hnm]; exact h.normCount, by rw [ht]; exact hfit,
    by rw [hc]; exact h.countFits⟩
  have key := sum_map_update (fun p => (wd.entry p).frequency)
    (fun p => (wd2.entry p).frequency) it
    (by
      intro p hp
      show (wd2.entry p).frequency = (wd.entry p).frequency
      rw [hfreq p, if_neg hp])
    (wd.wordMap.map Prod.snd) (wordMap_pointers_nodup wd hwf.maps) hmem
  beta_reduce at key
  rw [hfreq it, if_pos rfl] at key
  rw [ht, h.total, frequencySum_eq, frequencySum_eq, hwm, key]
  omega

theorem totals_insert (wd wd2 : WorkingData) (hwf : wd.WF) (h : wd.Totals) (now : Nat)
    (word : Str) (frequency : Int)
    (hnone : mapFind wd.normalizedWordMap (normalizeAndConvertToString word) = none)
    (hfc : fitsInt (wd.wordCount + 1) = true)
    (hft : fitsInt (wd.totalFrequency + frequency) = true)
    (hheap : wd2.heap
      = wd.heap ++ [⟨word, normalizeAndConvertToString word, frequency, [], now, now⟩])
    (hwm : wd2.wordMap = mapSet wd.wordMap word wd.heap.length)
    (hnm : wd2.normalizedWordMap
      = mapSet wd.normalizedWordMap (normalizeAndConvertToString word) wd.heap.length)
    (ht : wd2.totalFrequency = wd.totalFrequency + frequency)
    (hc : wd2.wordCount = wd.wordCount + 1) :
    wd2.Totals := by
  have hwnone := wordMap_find_none_of_new wd hwf.maps word hnone
  rw [mapSet_of_none _ _ _ hwnone] at hwm
  rw [mapSet_of_none _ _ _ hnone] at hnm
  refine ⟨?_, ?_, by rw [ht]; exact hft, by rw [hc]; exact hfc⟩
  · rw [ht, frequencySum_eq, hwm, List.map_append, List.map_append, List.sum_append]
    have e1 : (wd.wordMap.map Prod.snd).map (fun p => (wd2.entry p).frequency)
        = (wd.wordMap.map Prod.snd).map (fun p => (wd.entry p).frequency) := by
      apply List.map_congr_left
      intro p hp
      obtain ⟨pair, hpair, hpp⟩ := List.mem_map.mp hp
      have hlt : p < wd.heap.length := by
        rw [← hpp]
        exact (hwf.maps.ofWord pair.1 pair.2
          (mapFind_of_mem _ hwf.maps.wordKeys _ _ hpair)).1
      show (wd2.heap.getD p _).frequency = _
      rw [hheap, getD_append_entry, if_pos hlt]
      rfl
    have e2 : (wd2.entry wd.heap.length).frequency = frequency := by
      show (wd2.heap.getD wd.heap.length _).frequency = _
      rw [hheap, getD_append_entry, if_neg (Nat.lt_irrefl _), if_pos rfl]
    rw [e1]
    simp only [List.map_cons, List.map_nil, List.sum_cons, List.sum_nil, e2]
    have e4 := h.total
    rw [frequencySum_eq] at e4
    omega
  · rw [hwm, hnm, List.length_append, List.length_append, h.normCount]
    rfl

theorem totals_remove (wd wd2 : WorkingData) (hwf : wd.WF) (h : wd.Totals) (it : Nat) (n : Str)
    (hfind : mapFind wd.normalizedWordMap n = some it)
    (hf1 : fitsInt (wd.totalFrequency - (wd.entry it).frequency) = true)
    (hf2 : fitsInt (wd.wordCount - 1) = true)
    (hheap : wd2.heap = wd.heap)
    (hwm : wd2.wordMap = mapErase wd.wordMap (wd.entry it).word)
    (hnm : wd2.normalizedWordMap = mapErase wd.normalizedWordMap n)
    (ht : wd2.totalFrequency = wd.totalFrequency - (wd.entry it).frequency)
    (hc : wd2.wordCount = wd.wordCount - 1) :
    wd2.Totals := by
  obtain ⟨_, _, hfw⟩ := mem_pointers_of_find wd hwf.maps n it hfind
  refine ⟨?_, ?_, by rw [ht]; exact hf1, by rw [hc]; exact hf2⟩
  · have e1 : wd2.entries
        = (mapErase wd.wordMap (wd.entry it).word).map (fun pair => wd.entry pair.2) := by
      unfold WorkingData.entries
      rw [hwm]
      apply List.map_congr_left
      intro pair _
      exact entry_congr wd wd2 hheap pair.2
    rw [ht, e1, List.map_map]
    have e2 := sum_mapErase (fun pair : Str × Nat => (wd.entry pair.2).frequency) _ it
      wd.wordMap hwf.maps.wordKeys hfw
    have e4 := h.total
    unfold WorkingData.entries at e4
    rw [List.map_map] at e4
    have e5 : ((fun e : UserDictEntry => e.frequency) ∘ fun pair : Str × Nat => wd.entry pair.2)
        = fun pair : Str × Nat => (wd.entry pair.2).frequency := rfl
    rw [e5] at e4 ⊢
    rw [e2, e4]
  · rw [hwm, hnm]
    have l1 := length_mapErase wd.normalizedWordMap hwf.maps.normKeys _ it hfind
    have l2 := length_mapErase wd.wordMap hwf.maps.wordKeys _ it hfw
    have := h.normCount
    omega

theorem totals_closed : Closed WorkingData.Totals := by
  refine ⟨?_, ?_, ?_, ?_, ?_, ?_⟩
  · exact ⟨rfl, rfl, rfl, rfl⟩
  · intro wd d h
    exact totals_congr wd _ h (fun _ => rfl) rfl rfl rfl rfl
  · intro wd it delta lastUsed d n hwf h hfind hfit
    have hlt := (hwf.maps.ofNorm n it hfind).1
    refine totals_update wd _ hwf h it delta n hfind hfit ?_ rfl rfl rfl rfl
    intro p
    show ((wd.heap.set it _).getD p _).frequency = _
    rw [getD_set_entry _ _ _ _ _ hlt]
    by_cases hp : p = it
    · rw [if_pos hp, if_pos hp]
    · rw [if_neg hp, if_neg hp]
      rfl
  · intro wd now word frequency hwf h hnone hnorm hb hc ht
    obtain ⟨f1, f2, f3, _, f5, f6, _⟩ := updateWorkingDataTrie_fields
      ({ wd with
          heap := wd.heap ++ [⟨word, normalizeAndConvertToString word, frequency, [], now, now⟩]
          wordMap := mapSet wd.wordMap word wd.heap.length
          normalizedWordMap :=
            mapSet wd.normalizedWordMap (normalizeAndConvertToString word) wd.heap.length
          wordCount := wd.wordCount + 1
          totalFrequency := wd.totalFrequency + frequency
          dirty := true } : WorkingData) word (normalizeAndConvertToString word)
        wd.heap.length true
    exact totals_insert wd _ hwf h now word frequency hnone hc ht f1 f2 f3 f6 f5
  · intro wd p n ctx d hwf h hfind hctx hnot
    have hlt := (hwf.maps.ofNorm n p hfind).1
    refine totals_congr wd _ h ?_ rfl rfl rfl rfl
    intro q
    show ((wd.heap.set p _).getD q _).frequency = _
    rw [getD_set_entry _ _ _ _ _ hlt]
    by_cases hq : q = p
    · rw [if_pos hq, hq]
    · rw [if_neg hq]
      rfl
  · intro wd word it hwf h hfind hf1 hf2
    obtain ⟨f1, _, _, _, _, _, _⟩ := updateWorkingDataTrie_fields wd (wd.entry it).word
      (normalizeAndConvertToString word) it false
    exact totals_remove wd _ hwf h it _ hfind hf1 hf2 f1 rfl rfl rfl rfl

end KazakhUserDict


/-! ## The trie holds the entries of the maps -/

namespace KazakhUserDict

open SnapshotTrieNode

theorem descend_empty (path : List Nat) :
    (SnapshotTrieNode.empty.descend path).getD SnapshotTrieNode.empty = SnapshotTrieNode.empty := by
  cases path with
  | nil => rfl
  | cons ch path => rfl

theorem descend_mk_cons (C : List (Nat × SnapshotTrieNode)) (E : List Nat) (B : Bool)
    (ch : Nat) (path : List Nat) :
    (mk C E B).descend (ch :: path)
      = match mapFind C ch with
        | none => none
        | some child => child.descend path := rfl

theorem updateNode_cons_none (f : SnapshotTrieNode → SnapshotTrieNode) (ch : Nat)
    (path : List Nat) (root : SnapshotTrieNode) (hfind : mapFind root.children ch = none) :
    updateNode f (ch :: path) root
      = mk (root.children ++ [(ch, updateNode f path SnapshotTrieNode.empty)])
        root.entries root.isEndOfWord := by
  simp only [updateNode, hfind]

theorem updateNode_cons_some (f : SnapshotTrieNode → SnapshotTrieNode) (ch : Nat)
    (path : List Nat) (root child : SnapshotTrieNode)
    (hfind : mapFind root.children ch = some child) :
    updateNode f (ch :: path) root
      = mk (mapSet root.children ch (updateNode f path child))
        root.entries root.isEndOfWord := by
  simp only [updateNode, hfind]

theorem descend_cons_some (ch : Nat) (path : List Nat) (root child : SnapshotTrieNode)
    (hfind : mapFind root.children ch = some child) :
    root.descend (ch :: path) = child.descend path := by
  simp only [descend, hfind]

theorem descend_cons_none (ch : Nat) (path : List Nat) (root : SnapshotTrieNode)
    (hfind : mapFind root.children ch = none) :
    root.descend (ch :: path) = none := by
  simp only [descend, hfind]

/-- The node at the end of the path after `updateNode`: the update of the node
that was there, or of a new node. -/
theorem descend_updateNode_self (f : SnapshotTrieNode → SnapshotTrieNode) :
    ∀ (path : List Nat) (root : SnapshotTrieNode),
      (updateNode f path root).descend path
        = some (f ((root.descend path).getD SnapshotTrieNode.empty)) := by
  intro path
  induction path with
  | nil => intro root; rfl
  | cons ch path ih =>
    intro root
    cases hfind : mapFind root.children ch with
    | none =>
      rw [updateNode_cons_none f ch path root hfind, descend_cons_none ch path root hfind,
        descend_mk_cons, mapFind_append, hfind]
      simp only [mapFind_cons, if_true, Option.getD_none]
      rw [ih, descend_empty]
    | some child =>
      rw [updateNode_cons_some f ch path root child hfind,
        descend_cons_some ch path root child hfind, descend_mk_cons, mapFind_mapSet, if_pos rfl]
      exact ih child

/-- A node off the end of the path keeps its entries and its flag through
`updateNode`. -/
theorem descend_updateNode_other (f : SnapshotTrieNode → SnapshotTrieNode)
    (hf : ∀ n, (f n).children = n.children) :
    ∀ (q path : List Nat) (root node : SnapshotTrieNode), q ≠ path →
      root.descend q = some node →
      ∃ node2, (updateNode f path root).descend q = some node2
        ∧ node2.entries = node.entries ∧ node2.isEndOfWord = node.isEndOfWord := by
  intro q
  induction q with
  | nil =>
    intro path root node hne hd
    simp only [descend, Option.some.injEq] at hd
    subst hd
    cases path with
    | nil => exact absurd rfl hne
    | cons ch path =>
      cases hfind : mapFind root.children ch with
      | none =>
        rw [updateNode_cons_none f ch path root hfind]
        exact ⟨_, rfl, rfl, rfl⟩
      | some child =>
        rw [updateNode_cons_some f ch path root child hfind]
        exact ⟨_, rfl, rfl, rfl⟩
  | cons c q ih =>
    intro path root node hne hd
    cases hc : mapFind root.children c with
    | none => rw [descend_cons_none c q root hc] at hd; cases hd
    | some child =>
      rw [descend_cons_some c q root child hc] at hd
      cases path with
      | nil =>
        refine ⟨node, ?_, rfl, rfl⟩
        have hc2 : mapFind (f root).children c = some child := by rw [hf]; exact hc
        show (f root).descend (c :: q) = some node
        rw [descend_cons_some c q (f root) child hc2]
        exact hd
      | cons ch path =>
        by_cases hch : ch = c
        · subst hch
          have hne2 : q ≠ path := fun e => hne (by rw [e])
          obtain ⟨node2, h1, h2, h3⟩ := ih path child node hne2 hd
          refine ⟨node2, ?_, h2, h3⟩
          rw [updateNode_cons_some f ch path root child hc, descend_mk_cons, mapFind_mapSet,
            if_pos rfl]
          exact h1
        · refine ⟨node, ?_, rfl, rfl⟩
          cases hfind : mapFind root.children ch with
          | none =>
            rw [updateNode_cons_none f ch path root hfind, descend_mk_cons, mapFind_append, hc]
            exact hd
          | some child2 =>
            rw [updateNode_cons_some f ch path root child2 hfind, descend_mk_cons,
              mapFind_mapSet, if_neg (Ne.symm hch), hc]
            exact hd

theorem updateTrieNode_children (wd : WorkingData) (n : Str) (e : Nat) (add : Bool)
    (node : SnapshotTrieNode) : (updateTrieNode wd n e add node).children = node.children := by
  unfold updateTrieNode
  split <;> rfl

theorem updateTrieNode_add_entries (wd : WorkingData) (n : Str) (e : Nat)
    (node : SnapshotTrieNode) :
    (updateTrieNode wd n e true node).entries
      = if !(node.entries.any (fun x => decide ((wd.entry x).normalizedWord = n))) then
          node.entries ++ [e]
        else node.entries := rfl

theorem updateTrieNode_add_isEndOfWord (wd : WorkingData) (n : Str) (e : Nat)
    (node : SnapshotTrieNode) : (updateTrieNode wd n e true node).isEndOfWord = true := rfl

theorem updateTrieNode_remove_entries (wd : WorkingData) (n : Str) (e : Nat)
    (node : SnapshotTrieNode) :
    (updateTrieNode wd n e false node).entries
      = node.entries.filter
          (fun x => decide ((wd.entry x).normalizedWord ≠ (wd.entry e).normalizedWord)) := rfl

theorem updateTrieNode_remove_isEndOfWord (wd : WorkingData) (n : Str) (e : Nat)
    (node : SnapshotTrieNode) :
    (updateTrieNode wd n e false node).isEndOfWord
      = if (node.entries.filter
          (fun x => decide ((wd.entry x).normalizedWord ≠ (wd.entry e).normalizedWord))).isEmpty
        then false else node.isEndOfWord := rfl

theorem updateWorkingDataTrie_trieRoot (wd : WorkingData) (word n : Str) (e : Nat) (add : Bool)
    (hu : utf8ToUtf16 n ≠ []) :
    (updateWorkingDataTrie wd word n e add).trieRoot
      = wd.trieRoot.updateNode (updateTrieNode wd n e add) (utf8ToUtf16 n) := by
  unfold updateWorkingDataTrie
  simp only [List.isEmpty_iff]
  rw [if_neg (fun h => hu h.1)]

theorem updateWorkingDataTrie_trieRoot_nil (wd : WorkingData) (word n : Str) (e : Nat)
    (add : Bool) (hu : utf8ToUtf16 n = []) (hn : n ≠ []) :
    (updateWorkingDataTrie wd word n e add).trieRoot = wd.trieRoot := by
  unfold updateWorkingDataTrie
  simp only [List.isEmpty_iff]
  rw [if_pos ⟨hu, hn⟩]

theorem trieComplete_congr (wd wd2 : WorkingData) (h : TrieComplete wd)
    (hnm : wd2.normalizedWordMap = wd.normalizedWordMap) (htrie : wd2.trieRoot = wd.trieRoot) :
    TrieComplete wd2 := by
  intro n p hfind hu
  rw [hnm] at hfind
  rw [htrie]
  exact h n p hfind hu

theorem trieComplete_insert (wd wd1 : WorkingData) (hwf : wd.WF) (h : TrieComplete wd)
    (word norm : Str) (hnorm : norm ≠ [])
    (hnone : mapFind wd.normalizedWordMap norm = none)
    (hentry : ∀ p, p < wd.heap.length → wd1.entry p = wd.entry p)
    (hnm : wd1.normalizedWordMap = mapSet wd.normalizedWordMap norm wd.heap.length)
    (htrie : wd1.trieRoot = wd.trieRoot) :
    TrieComplete (updateWorkingDataTrie wd1 word norm wd.heap.length true) := by
  obtain ⟨_, _, f3, _, _, _, _⟩ := updateWorkingDataTrie_fields wd1 word norm wd.heap.length true
  intro n p hfind hu
  rw [f3, hnm, mapFind_mapSet] at hfind
  by_cases hnew : utf8ToUtf16 norm = []
  · rw [updateWorkingDataTrie_trieRoot_nil wd1 word norm _ true hnew hnorm, htrie]
    by_cases hn : n = norm
    · rw [hn] at hu
      exact absurd hnew hu
    · rw [if_neg hn] at hfind
      exact h n p hfind hu
  · rw [updateWorkingDataTrie_trieRoot wd1 word norm _ true hnew, htrie]
    by_cases hn : n = norm
    · rw [if_pos hn] at hfind
      simp only [Option.some.injEq] at hfind
      subst hn
      rw [descend_updateNode_self]
      refine ⟨_, rfl, updateTrieNode_add_isEndOfWord _ _ _ _, ?_⟩
      · have hex : ((wd.trieRoot.descend (utf8ToUtf16 n)).getD SnapshotTrieNode.empty).entries.any
            (fun e => decide ((wd1.entry e).normalizedWord = n)) = false := by
          rw [List.any_eq_false]
          intro e he
          simp only [decide_eq_true_eq]
          intro hen
          cases hd : wd.trieRoot.descend (utf8ToUtf16 n) with
          | none =>
            rw [hd] at he
            exact absurd he (List.not_mem_nil e)
          | some node0 =>
            rw [hd] at he
            simp only [Option.getD_some] at he
            have hg := (hwf.trie (utf8ToUtf16 n) node0 (reaches_of_descend _ _ _ hd)).2 e he
            have hlt := (hwf.maps.ofNorm _ e hg.1).1
            rw [hentry e hlt] at hen
            rw [hen, hnone] at hg
            cases hg.1
        rw [updateTrieNode_add_entries, hex, ← hfind]
        exact List.mem_append_right _ (List.mem_singleton_self _)
    · rw [if_neg hn] at hfind
      obtain ⟨node, hd, hend, hmem⟩ := h n p hfind hu
      by_cases hq : utf8ToUtf16 n = utf8ToUtf16 norm
      · rw [hq] at hd ⊢
        rw [descend_updateNode_self, hd]
        refine ⟨_, rfl, updateTrieNode_add_isEndOfWord _ _ _ _, ?_⟩
        rw [updateTrieNode_add_entries, Option.getD_some]
        split
        · exact List.mem_append_left _ hmem
        · exact hmem
      · obtain ⟨node2, h1, h2, h3⟩ := descend_updateNode_other
          (updateTrieNode wd1 norm wd.heap.length true)
          (updateTrieNode_children wd1 norm wd.heap.length true) _ _ _ node hq hd
        exact ⟨node2, h1, by rw [h3]; exact hend, by rw [h2]; exact hmem⟩

theorem trieComplete_remove (wd wd2 : WorkingData) (hwf : wd.WF) (h : TrieComplete wd)
    (it : Nat) (word n : Str) (hfind : mapFind wd.normalizedWordMap n = some it)
    (hnm : wd2.normalizedWordMap = mapErase wd.normalizedWordMap n)
    (htrie : wd2.trieRoot = (updateWorkingDataTrie wd word n it false).trieRoot) :
    TrieComplete wd2 := by
  have hn : n ≠ [] := mapsWF_norm_ne_nil wd hwf.maps n it hfind
  have hitn : (wd.entry it).normalizedWord = n := (hwf.maps.ofNorm n it hfind).2.1
  intro m p hfm hu
  rw [hnm, mapFind_mapErase] at hfm
  by_cases hmn : m = n
  · rw [if_pos hmn] at hfm
    cases hfm
  · rw [if_neg hmn] at hfm
    obtain ⟨node, hd, hend, hmem⟩ := h m p hfm hu
    rw [htrie]
    by_cases hdec : utf8ToUtf16 n = []
    · rw [updateWorkingDataTrie_trieRoot_nil wd word n it false hdec hn]
      exact ⟨node, hd, hend, hmem⟩
    · rw [updateWorkingDataTrie_trieRoot wd word n it false hdec]
      by_cases hq : utf8ToUtf16 m = utf8ToUtf16 n
      · rw [hq] at hd ⊢
        rw [descend_updateNode_self, hd]
        have hpm : (wd.entry p).normalizedWord = m := (hwf.maps.ofNorm m p hfm).2.1
        have hkeep : p ∈ node.entries.filter
            (fun e => decide ((wd.entry e).normalizedWord ≠ (wd.entry it).normalizedWord)) := by
          rw [List.mem_filter]
          refine ⟨hmem, ?_⟩
          simp only [ne_eq, decide_eq_true_eq]
          rw [hpm, hitn]
          exact hmn
        refine ⟨_, rfl, ?_, ?_⟩
        · rw [updateTrieNode_remove_isEndOfWord, Option.getD_some, if_neg]
          · exact hend
          · intro he
            rw [List.isEmpty_iff] at he
            rw [he] at hkeep
            exact absurd hkeep (List.not_mem_nil p)
        · rw [updateTrieNode_remove_entries, Option.getD_some]
          exact hkeep
      · obtain ⟨node2, h1, h2, h3⟩ := descend_updateNode_other
          (updateTrieNode wd n it false) (updateTrieNode_children wd n it false) _ _ _ node hq hd
        exact ⟨node2, h1, by rw [h3]; exact hend, by rw [h2]; exact hmem⟩

theorem trieComplete_closed : Closed TrieComplete := by
  refine ⟨?_, ?_, ?_, ?_, ?_, ?_⟩
  · intro n p hfind _
    cases hfind
  · intro wd d h
    exact trieComplete_congr wd _ h rfl rfl
  · intro wd it delta lastUsed d n _ h _ _
    exact trieComplete_congr wd _ h rfl rfl
  · intro wd now word frequency hwf h hnone hnorm _ _ _
    refine trieComplete_insert wd _ hwf h word _ hnorm hnone ?_ rfl rfl
    intro p hp
    show (wd.heap ++ [_]).getD p _ = _
    rw [getD_append_entry, if_pos hp]
    rfl
  · intro wd p n ctx d _ h _ _ _
    exact trieComplete_congr wd _ h rfl rfl
  · intro wd word it hwf h hfind _ _
    exact trieComplete_remove wd _ hwf h it (wd.entry it).word _ hfind rfl rfl

end KazakhUserDict


/-! ## The file of the user dictionary: reading what was written -/

theorem length_leBytes : ∀ (width value : Nat), (leBytes width value).length = width := by
  intro width
  induction width with
  | zero => intro _; rfl
  | succ w ih => intro v; simp only [leBytes, List.length_cons, ih]

theorem leValue_leBytes : ∀ (width value : Nat), value < 256 ^ width →
    leValue (leBytes width value) = value := by
  intro width
  induction width with
  | zero =>
    intro v hv
    simp only [pow_zero, Nat.lt_one_iff] at hv
    rw [hv]
    rfl
  | succ w ih =>
    intro v hv
    have h1 : v / 256 < 256 ^ w := by
      apply Nat.div_lt_of_lt_mul
      rw [pow_succ] at hv
      omega
    simp only [leBytes, leValue, ih _ h1]
    omega

theorem leValue_leBytes_four (value : Nat) (h : value < 4294967296) :
    leValue (leBytes 4 value) = value :=
  leValue_leBytes 4 value (by norm_num; exact h)

theorem leValue_leBytes_eight (value : Nat) (h : value < 18446744073709551616) :
    leValue (leBytes 8 value) = value :=
  leValue_leBytes 8 value (by norm_num; exact h)

theorem toInt32_leValue (x : Int) (h : fitsInt x = true) :
    toInt32 (leValue (leBytes 4 (x % 4294967296).toNat)) = x := by
  have hf := (fitsInt_iff x).mp h
  have h1 : (x % 4294967296).toNat < 4294967296 := by omega
  rw [leValue_leBytes_four _ h1]
  unfold toInt32
  omega

namespace KazakhUserDict

theorem read_append (a rest : Str) :
    (⟨a ++ rest, true⟩ : FileStream).read a.length = (a, true, ⟨rest, true⟩) := by
  unfold FileStream.read
  simp

theorem read_of_lt (body : Str) (count : Nat) (h : body.length < count) :
    (⟨body, true⟩ : FileStream).read count = (body, false, ⟨[], false⟩) := by
  unfold FileStream.read
  simp only [Bool.not_true, Bool.false_eq_true, if_false]
  rw [if_neg (by omega)]

theorem read_failed (body : Str) (count : Nat) :
    (⟨body, false⟩ : FileStream).read count = ([], false, ⟨body, false⟩) := by
  unfold FileStream.read
  simp

/-- A stream that ends inside the bytes `a ++ b`: either the read of `a` fails,
or it succeeds and the stream ends inside `b`. -/
theorem prefix_cases (a b body : Str) (h : body <+: a ++ b)
    (hlt : body.length < (a ++ b).length) :
    body.length < a.length
      ∨ ∃ body2, body = a ++ body2 ∧ body2 <+: b ∧ body2.length < b.length := by
  by_cases hl : body.length < a.length
  · exact Or.inl hl
  · right
    have ha : a <+: body := by
      have h2 : a <+: a ++ b := List.prefix_append a b
      exact List.prefix_of_prefix_length_le h2 h (by omega)
    obtain ⟨body2, rfl⟩ := ha
    refine ⟨body2, rfl, (List.prefix_append_right_inj a).mp h, ?_⟩
    simp only [List.length_append] at hlt
    omega

theorem stringBytes_eq (s : Str) (h : s.length < 4294967296) :
    stringBytes s = leBytes 4 s.length ++ s := by
  unfold stringBytes
  rw [Nat.mod_eq_of_lt h, List.take_length]

/-- The seven reads give back the fields of the entry that was written, when
the two buffers can be constructed. -/
theorem readEntryHead_entryHeadBytes (alloc : Nat → Bool) (entry : UserDictEntry) (rest : Str)
    (hs : entry.storable = true) (ha1 : alloc entry.word.length = true)
    (ha2 : alloc entry.normalizedWord.length = true) :
    readEntryHead alloc ⟨entryHeadBytes entry ++ rest, true⟩
      = Attempt.returned (some ({ entry with contexts := [] }, ⟨rest, true⟩)) := by
  simp only [UserDictEntry.storable, Bool.and_eq_true, decide_eq_true_eq] at hs
  obtain ⟨⟨⟨⟨⟨⟨h1, h2⟩, h3⟩, h4⟩, h5⟩, _⟩, _⟩ := hs
  unfold entryHeadBytes
  rw [stringBytes_eq _ h1, stringBytes_eq _ h2]
  simp only [List.append_assoc]
  unfold readEntryHead
  have r1 := read_append (leBytes 4 entry.word.length)
    (entry.word ++ (leBytes 4 entry.normalizedWord.length ++ (entry.normalizedWord
      ++ (leBytes 4 (entry.frequency % 4294967296).toNat
        ++ (leBytes 8 entry.created ++ (leBytes 8 entry.lastUsed ++ rest))))))
  rw [length_leBytes] at r1
  rw [r1]
  simp only
  rw [leValue_leBytes_four _ h1, ha1, read_append]
  simp only [Bool.not_true, Bool.false_eq_true, if_false]
  have r3 := read_append (leBytes 4 entry.normalizedWord.length)
    (entry.normalizedWord ++ (leBytes 4 (entry.frequency % 4294967296).toNat
        ++ (leBytes 8 entry.created ++ (leBytes 8 entry.lastUsed ++ rest))))
  rw [length_leBytes] at r3
  rw [r3]
  simp only
  rw [leValue_leBytes_four _ h2, ha2, read_append]
  simp only [Bool.not_true, Bool.false_eq_true, if_false]
  have r5 := read_append (leBytes 4 (entry.frequency % 4294967296).toNat)
    (leBytes 8 entry.created ++ (leBytes 8 entry.lastUsed ++ rest))
  rw [length_leBytes] at r5
  rw [r5]
  simp only
  have r6 := read_append (leBytes 8 entry.created) (leBytes 8 entry.lastUsed ++ rest)
  rw [length_leBytes] at r6
  rw [r6]
  simp only
  have r7 := read_append (leBytes 8 entry.lastUsed) rest
  rw [length_leBytes] at r7
  rw [r7]
  simp only
  rw [toInt32_leValue _ h3, leValue_leBytes_eight _ h4, leValue_leBytes_eight _ h5]

/-- A stream that ends inside the fields of an entry that come before its
contexts: one of the seven reads fails, unless the construction of one of the
two buffers has thrown before. -/
theorem readEntryHead_of_short (alloc : Nat → Bool) (entry : UserDictEntry) (body : Str)
    (h1 : entry.word.length < 4294967296) (h2 : entry.normalizedWord.length < 4294967296)
    (hp : body <+: entryHeadBytes entry) (hlt : body.length < (entryHeadBytes entry).length) :
    readEntryHead alloc ⟨body, true⟩ = Attempt.returned none
      ∨ (readEntryHead alloc ⟨body, true⟩ = Attempt.threw
        ∧ (alloc entry.word.length = false ∨ alloc entry.normalizedWord.length = false)) := by
  unfold entryHeadBytes at hp hlt
  rw [stringBytes_eq _ h1, stringBytes_eq _ h2] at hp hlt
  simp only [List.append_assoc] at hp hlt
  unfold readEntryHead
  rcases prefix_cases _ _ body hp hlt with hl | ⟨b1, rfl, hp1, hlt1⟩
  · rw [length_leBytes] at hl
    rw [read_of_lt _ _ hl]
    exact Or.inl rfl
  · have r1 := read_append (leBytes 4 entry.word.length) b1
    rw [length_leBytes] at r1
    rw [r1]
    simp only
    rw [leValue_leBytes_four _ h1]
    cases ha1 : alloc entry.word.length with
    | false => exact Or.inr ⟨rfl, Or.inl rfl⟩
    | true =>
      simp only [Bool.not_true, Bool.false_eq_true, if_false]
      rcases prefix_cases _ _ b1 hp1 hlt1 with hl | ⟨b2, rfl, hp2, hlt2⟩
      · rw [read_of_lt _ _ hl]
        exact Or.inl rfl
      · rw [read_append]
        simp only
        rcases prefix_cases _ _ b2 hp2 hlt2 with hl | ⟨b3, rfl, hp3, hlt3⟩
        · rw [length_leBytes] at hl
          rw [read_of_lt _ _ hl]
          exact Or.inl rfl
        · have r3 := read_append (leBytes 4 entry.normalizedWord.length) b3
          rw [length_leBytes] at r3
          rw [r3]
          simp only
          rw [leValue_leBytes_four _ h2]
          cases ha2 : alloc entry.normalizedWord.length with
          | false => exact Or.inr ⟨rfl, Or.inr rfl⟩
          | true =>
            simp only [Bool.not_true, Bool.false_eq_true, if_false]
            rcases prefix_cases _ _ b3 hp3 hlt3 with hl | ⟨b4, rfl, hp4, hlt4⟩
            · rw [read_of_lt _ _ hl]
              exact Or.inl rfl
            · rw [read_append]
              simp only
              rcases prefix_cases _ _ b4 hp4 hlt4 with hl | ⟨b5, rfl, hp5, hlt5⟩
              · rw [length_leBytes] at hl
                rw [read_of_lt _ _ hl]
                exact Or.inl rfl
              · have r5 := read_append (leBytes 4 (entry.frequency % 4294967296).toNat) b5
                rw [length_leBytes] at r5
                rw [r5]
                simp only
                rcases prefix_cases _ _ b5 hp5 hlt5 with hl | ⟨b6, rfl, hp6, hlt6⟩
                · rw [length_leBytes] at hl
                  rw [read_of_lt _ _ hl]
                  exact Or.inl rfl
                · have r6 := read_append (leBytes 8 entry.created) b6
                  rw [length_leBytes] at r6
                  rw [r6]
                  simp only
                  have hl : b6.length < 8 := by
                    rw [length_leBytes] at hlt6
                    exact hlt6
                  rw [read_of_lt _ _ hl]
                  exact Or.inl rfl

end KazakhUserDict

namespace KazakhUserDict

theorem set_append_length (heap : List UserDictEntry) (a b : UserDictEntry) :
    (heap ++ [a]).set heap.length b = heap ++ [b] := by
  induction heap with
  | nil => rfl
  | cons x t ih => simp only [List.cons_append, List.length_cons, List.set_cons_succ, ih]

theorem set_getD_self (d : UserDictEntry) :
    ∀ (heap : List UserDictEntry) (i : Nat), heap.set i (heap.getD i d) = heap := by
  intro heap
  induction heap with
  | nil => intro i; rfl
  | cons x t ih =>
    intro i
    cases i with
    | zero => rfl
    | succ j =>
      simp only [List.set_cons_succ, List.getD_cons_succ, ih]

/-- The loop over the contexts reads back the contexts that were written, and
adds them to the entry and to `contextMap` in their order. -/
theorem loadContexts_stringBytes (alloc : Nat → Bool) :
    ∀ (contexts : List Str) (rest : Str) (nd : WorkingData) (entry : Nat),
      entry < nd.heap.length → (∀ c ∈ contexts, c.length < 4294967296) →
      (∀ c ∈ contexts, alloc c.length = true) →
      loadContexts alloc contexts.length ⟨contexts.flatMap stringBytes ++ rest, true⟩ nd entry
        = Attempt.returned (⟨rest, true⟩, { nd with
            heap := nd.heap.set entry
              { nd.entry entry with contexts := (nd.entry entry).contexts ++ contexts }
            contextMap := contexts.foldl (fun m c => mapPush m c entry) nd.contextMap }) := by
  intro contexts
  induction contexts with
  | nil =>
    intro rest nd entry he _ _
    simp only [List.length_nil, loadContexts, List.flatMap_nil, List.nil_append,
      List.append_nil, List.foldl_nil, Attempt.returned.injEq, Prod.mk.injEq, true_and]
    have e : nd.heap.set entry (nd.entry entry) = nd.heap := set_getD_self _ _ _
    rw [e]
  | cons c cs ih =>
    intro rest nd entry he hc ha
    have hc1 : c.length < 4294967296 := hc c (List.mem_cons_self _ _)
    have ha1 : alloc c.length = true := ha c (List.mem_cons_self _ _)
    simp only [List.length_cons, loadContexts, List.flatMap_cons, List.append_assoc]
    rw [stringBytes_eq _ hc1, List.append_assoc]
    have r1 := read_append (leBytes 4 c.length) (c ++ (cs.flatMap stringBytes ++ rest))
    rw [length_leBytes] at r1
    rw [r1]
    simp only
    rw [leValue_leBytes_four _ hc1, ha1, read_append]
    simp only [Bool.not_true, Bool.false_eq_true, if_false]
    rw [ih rest _ entry (by simp only [List.length_set]; exact he)
      (fun x hx => hc x (List.mem_cons_of_mem _ hx))
      (fun x hx => ha x (List.mem_cons_of_mem _ hx))]
    simp only [Attempt.returned.injEq, Prod.mk.injEq, true_and, List.foldl_cons]
    have e1 : (({ nd with
        heap := nd.heap.set entry
          { nd.entry entry with contexts := (nd.entry entry).contexts ++ [c] }
        contextMap := mapPush nd.contextMap c entry } : WorkingData).entry entry)
        = { nd.entry entry with contexts := (nd.entry entry).contexts ++ [c] } := by
      show (nd.heap.set entry _).getD entry _ = _
      rw [getD_set_entry _ _ _ _ _ he, if_pos rfl]
    rw [e1]
    simp only [List.set_set, List.append_assoc, List.singleton_append]

theorem insertLoaded_eq (nd : WorkingData) (entry : UserDictEntry) :
    ({ ({ nd with
          heap := nd.heap ++ [{ entry with contexts := [] }]
          wordMap := mapSet nd.wordMap entry.word nd.heap.length
          normalizedWordMap :=
            mapSet nd.normalizedWordMap entry.normalizedWord nd.heap.length
          wordCount := nd.wordCount + 1
          totalFrequency := nd.totalFrequency + entry.frequency } : WorkingData) with
        heap := (nd.heap ++ [{ entry with contexts := [] }]).set nd.heap.length
          { entry with contexts := [] ++ entry.contexts }
        contextMap := entry.contexts.foldl (fun m c => mapPush m c nd.heap.length)
          nd.contextMap } : WorkingData)
      = insertLoaded nd entry := by
  unfold insertLoaded
  rw [set_append_length]
  rfl

/-- The loop over the entries reads back the entries that were written. -/
theorem loadEntries_entryBytes (alloc : Nat → Bool) :
    ∀ (entries : List UserDictEntry) (k : Nat) (tail : Str) (nd : WorkingData),
      (∀ e ∈ entries, e.storable = true) → (∀ e ∈ entries, e.allocatable alloc = true) →
      loadEntries alloc (entries.length + k) ⟨entries.flatMap entryBytes ++ tail, true⟩ nd
        = match insertLoadedAll nd entries with
          | none => none
          | some nd2 => loadEntries alloc k ⟨tail, true⟩ nd2 := by
  intro entries
  induction entries with
  | nil =>
    intro k tail nd _ _
    simp only [List.length_nil, Nat.zero_add, List.flatMap_nil, List.nil_append,
      insertLoadedAll]
  | cons e es ih =>
    intro k tail nd hs ha
    have hse := hs e (List.mem_cons_self _ _)
    have hae := ha e (List.mem_cons_self _ _)
    simp only [UserDictEntry.allocatable, Bool.and_eq_true, List.all_eq_true] at hae
    obtain ⟨⟨ha1, ha2⟩, ha3⟩ := hae
    have hse2 := hse
    simp only [UserDictEntry.storable, Bool.and_eq_true, decide_eq_true_eq,
      List.all_eq_true] at hse2
    obtain ⟨⟨_, h6⟩, h7⟩ := hse2
    have e0 : (e :: es).length + k = (es.length + k) + 1 := by
      simp only [List.length_cons]
      omega
    rw [e0]
    simp only [loadEntries, insertLoadedAll, List.flatMap_cons]
    unfold entryBytes
    simp only [List.append_assoc]
    rw [readEntryHead_entryHeadBytes alloc e _ hse ha1 ha2]
    simp only
    cases hc : checkedInt (nd.wordCount + 1) with
    | none => rfl
    | some c =>
      cases ht : checkedInt (nd.totalFrequency + e.frequency) with
      | none => rfl
      | some t =>
        simp only
        obtain ⟨_, hc2⟩ := (checkedInt_eq_some _ _).mp hc
        obtain ⟨_, ht2⟩ := (checkedInt_eq_some _ _).mp ht
        subst hc2 ht2
        have r1 := read_append (leBytes 4 (e.contexts.length % 4294967296))
          (e.contexts.flatMap stringBytes ++ (es.flatMap
            (fun entry => entryHeadBytes entry ++ (leBytes 4 (entry.contexts.length % 4294967296)
              ++ entry.contexts.flatMap stringBytes)) ++ tail))
        rw [length_leBytes] at r1
        rw [r1]
        simp only
        rw [Nat.mod_eq_of_lt h6, leValue_leBytes_four _ h6]
        rw [loadContexts_stringBytes alloc e.contexts _ _ nd.heap.length
          (by simp) h7 ha3]
        simp only
        have e1 : (({ nd with
            heap := nd.heap ++ [{ e with contexts := [] }]
            wordMap := mapSet nd.wordMap e.word nd.heap.length
            normalizedWordMap := mapSet nd.normalizedWordMap e.normalizedWord nd.heap.length
            wordCount := nd.wordCount + 1
            totalFrequency := nd.totalFrequency + e.frequency } : WorkingData).entry
              nd.heap.length) = { e with contexts := [] } := by
          show (nd.heap ++ [_]).getD nd.heap.length _ = _
          rw [getD_append_entry, if_neg (Nat.lt_irrefl _), if_pos rfl]
        rw [e1]
        have e2 := insertLoaded_eq nd e
        simp only at e2
        rw [e2]
        have e3 := ih k tail (insertLoaded nd e) (fun x hx => hs x (List.mem_cons_of_mem _ hx))
          (fun x hx => ha x (List.mem_cons_of_mem _ hx))
        unfold entryBytes at e3
        simp only [List.append_assoc] at e3
        exact e3

end KazakhUserDict

namespace KazakhUserDict

theorem insertLoadedAll_spec :
    ∀ (entries : List UserDictEntry) (nd nd2 : WorkingData),
      insertLoadedAll nd entries = some nd2 →
      nd2.heap = nd.heap ++ entries
        ∧ nd2.wordCount = nd.wordCount + (entries.length : Int)
        ∧ nd2.totalFrequency = nd.totalFrequency + (entries.map (fun e => e.frequency)).sum
        ∧ nd2.trieRoot = nd.trieRoot ∧ nd2.dirty = nd.dirty := by
  intro entries
  induction entries with
  | nil =>
    intro nd nd2 h
    simp only [insertLoadedAll, Option.some.injEq] at h
    subst h
    simp
  | cons e es ih =>
    intro nd nd2 h
    simp only [insertLoadedAll] at h
    cases hc : checkedInt (nd.wordCount + 1) with
    | none => rw [hc] at h; simp at h
    | some c =>
      cases ht : checkedInt (nd.totalFrequency + e.frequency) with
      | none => rw [hc, ht] at h; simp at h
      | some t =>
        rw [hc, ht] at h
        simp only at h
        obtain ⟨h1, h2, h3, h4, h5⟩ := ih _ _ h
        refine ⟨?_, ?_, ?_, ?_, ?_⟩
        · rw [h1]
          show (nd.heap ++ [e]) ++ es = nd.heap ++ e :: es
          simp
        · rw [h2]
          show nd.wordCount + 1 + (es.length : Int) = nd.wordCount + ((e :: es).length : Int)
          simp only [List.length_cons, Nat.cast_add, Nat.cast_one]
          omega
        · rw [h3]
          show nd.totalFrequency + e.frequency + _ = _
          simp only [List.map_cons, List.sum_cons]
          omega
        · rw [h4]; rfl
        · rw [h5]; rfl

theorem insertLoadedAll_entries :
    ∀ (entries : List UserDictEntry) (nd nd2 : WorkingData),
      insertLoadedAll nd entries = some nd2 →
      (∀ pair ∈ nd.wordMap, pair.2 < nd.heap.length) →
      (nd.wordMap.map Prod.fst ++ entries.map (fun e => e.word)).Nodup →
      nd2.entries = nd.entries ++ entries := by
  intro entries
  induction entries with
  | nil =>
    intro nd nd2 h _ _
    simp only [insertLoadedAll, Option.some.injEq] at h
    subst h
    simp
  | cons e es ih =>
    intro nd nd2 h hptr hnd
    simp only [insertLoadedAll] at h
    cases hc : checkedInt (nd.wordCount + 1) with
    | none => rw [hc] at h; simp at h
    | some c =>
      cases ht : checkedInt (nd.totalFrequency + e.frequency) with
      | none => rw [hc, ht] at h; simp at h
      | some t =>
        rw [hc, ht] at h
        simp only at h
        have hnot : e.word ∉ nd.wordMap.map Prod.fst := by
          intro hm
          rw [List.nodup_append] at hnd
          exact hnd.2.2 hm (by simp)
        have hwm : (insertLoaded nd e).wordMap = nd.wordMap ++ [(e.word, nd.heap.length)] :=
          mapSet_of_none _ _ _ ((mapFind_eq_none_iff _ _).mpr hnot)
        have hheap : (insertLoaded nd e).heap = nd.heap ++ [e] := rfl
        have hent : (insertLoaded nd e).entries = nd.entries ++ [e] := by
          unfold WorkingData.entries
          rw [hwm, List.map_append]
          congr 1
          · apply List.map_congr_left
            intro pair hp
            show (insertLoaded nd e).heap.getD pair.2 _ = _
            rw [hheap, getD_append_entry, if_pos (hptr pair hp)]
            rfl
          · show [(insertLoaded nd e).heap.getD nd.heap.length _] = [e]
            rw [hheap, getD_append_entry, if_neg (Nat.lt_irrefl _), if_pos rfl]
        have h2 := ih _ _ h (by
          intro pair hp
          rw [hwm] at hp
          rw [hheap, List.length_append, List.length_singleton]
          rcases List.mem_append.mp hp with hp | hp
          · exact Nat.lt_succ_of_lt (hptr pair hp)
          · rw [List.mem_singleton.mp hp]
            exact Nat.lt_succ_self _) (by
          rw [hwm, List.map_append]
          simp only [List.map_cons, List.map_nil, List.append_assoc, List.singleton_append]
          simpa using hnd)
        rw [h2, hent]
        simp

theorem sum_take_succ_cons (e : UserDictEntry) (es : List UserDictEntry) (k : Nat) :
    (((e :: es).take (k + 1)).map (fun e => e.frequency)).sum
      = e.frequency + ((es.take k).map (fun e => e.frequency)).sum := by
  simp only [List.take_succ_cons, List.map_cons, List.sum_cons]

/-- The loop over the entries overflows no counter when every running total of
the frequencies, and the number of the entries, is an `int`. -/
theorem insertLoadedAll_isSome :
    ∀ (entries : List UserDictEntry) (nd : WorkingData),
      fitsInt nd.wordCount = true →
      (∀ k, k ≤ entries.length → fitsInt (nd.totalFrequency
        + ((entries.take k).map (fun e => e.frequency)).sum) = true) →
      fitsInt (nd.wordCount + (entries.length : Int)) = true →
      ∃ nd2, insertLoadedAll nd entries = some nd2 := by
  intro entries
  induction entries with
  | nil => intro nd _ _ _; exact ⟨nd, rfl⟩
  | cons e es ih =>
    intro nd hc hsum hlen
    have hc1 := (fitsInt_iff _).mp hc
    have hlen1 := (fitsInt_iff _).mp hlen
    simp only [List.length_cons, Nat.cast_add, Nat.cast_one] at hlen1
    have f1 : fitsInt (nd.wordCount + 1) = true := (fitsInt_iff _).mpr (by omega)
    have f2 : fitsInt (nd.totalFrequency + e.frequency) = true := by
      have h1 := hsum 1 (by simp)
      rw [sum_take_succ_cons] at h1
      simpa using h1
    simp only [insertLoadedAll]
    rw [(checkedInt_eq_some _ _).mpr ⟨f1, rfl⟩, (checkedInt_eq_some _ _).mpr ⟨f2, rfl⟩]
    simp only
    refine ih (insertLoaded nd e) f1 ?_ ?_
    · intro k hk
      have h1 := hsum (k + 1) (by simp only [List.length_cons]; omega)
      rw [sum_take_succ_cons] at h1
      show fitsInt (nd.totalFrequency + e.frequency + _) = true
      rw [Int.add_assoc]
      exact h1
    · apply (fitsInt_iff _).mpr
      show _ ≤ nd.wordCount + 1 + _ ∧ nd.wordCount + 1 + _ ≤ _
      omega

/-- The loop over the entries has no defined result when a running total of
the frequencies is no `int`. -/
theorem insertLoadedAll_overflow :
    ∀ (entries : List UserDictEntry) (nd : WorkingData) (k : Nat),
      1 ≤ k → k ≤ entries.length →
      fitsInt (nd.totalFrequency + ((entries.take k).map (fun e => e.frequency)).sum) = false →
      insertLoadedAll nd entries = none := by
  intro entries
  induction entries with
  | nil =>
    intro nd k h1 h2 _
    simp only [List.length_nil] at h2
    omega
  | cons e es ih =>
    intro nd k h1 h2 hk
    simp only [insertLoadedAll]
    cases hc : checkedInt (nd.wordCount + 1) with
    | none => rfl
    | some c =>
      cases ht : checkedInt (nd.totalFrequency + e.frequency) with
      | none => rfl
      | some t =>
        simp only
        obtain ⟨j, rfl⟩ : ∃ j, k = j + 1 := ⟨k - 1, by omega⟩
        rw [sum_take_succ_cons] at hk
        have hf := ((checkedInt_eq_some _ _).mp ht).1
        by_cases hj : j = 0
        · subst hj
          simp only [List.take_zero, List.map_nil, List.sum_nil, Int.add_zero] at hk
          rw [hk] at hf
          exact absurd hf (by simp)
        · apply ih (insertLoaded nd e) j (by omega)
            (by simp only [List.length_cons] at h2; omega)
          show fitsInt (nd.totalFrequency + e.frequency + _) = false
          rw [Int.add_assoc]
          exact hk

theorem loadEntries_of_head_none (alloc : Nat → Bool) (k : Nat) (file : FileStream)
    (nd : WorkingData) (h : readEntryHead alloc file = Attempt.returned none) :
    loadEntries alloc k file nd = some (Attempt.returned nd) := by
  cases k with
  | zero => rfl
  | succ k => simp only [loadEntries, h]

theorem loadEntries_of_head_threw (alloc : Nat → Bool) (k : Nat) (file : FileStream)
    (nd : WorkingData) (h : readEntryHead alloc file = Attempt.threw) :
    loadEntries alloc (k + 1) file nd = some Attempt.threw := by
  simp only [loadEntries, h]

theorem loadContexts_trieRoot (alloc : Nat → Bool) :
    ∀ (count : Nat) (file file2 : FileStream) (nd nd2 : WorkingData) (entry : Nat),
      loadContexts alloc count file nd entry = Attempt.returned (file2, nd2) →
      nd2.trieRoot = nd.trieRoot := by
  intro count
  induction count with
  | zero =>
    intro file file2 nd nd2 entry h
    simp only [loadContexts, Attempt.returned.injEq, Prod.mk.injEq] at h
    rw [← h.2]
  | succ k ih =>
    intro file file2 nd nd2 entry h
    simp only [loadContexts] at h
    rcases h1 : file.read 4 with ⟨b1, ok1, f1⟩
    rw [h1] at h
    cases ok1 with
    | false =>
      simp only [Attempt.returned.injEq, Prod.mk.injEq] at h
      rw [← h.2]
    | true =>
      simp only at h
      split at h
      · exact absurd h (by simp)
      · rcases h2 : f1.read (leValue b1) with ⟨b2, ok2, f2⟩
        rw [h2] at h
        cases ok2 with
        | false =>
          simp only [Attempt.returned.injEq, Prod.mk.injEq] at h
          rw [← h.2]
        | true =>
          simp only at h
          rw [ih _ _ _ _ _ h]

theorem loadEntries_trieRoot (alloc : Nat → Bool) :
    ∀ (count : Nat) (file : FileStream) (nd nd2 : WorkingData),
      loadEntries alloc count file nd = some (Attempt.returned nd2) →
      nd2.trieRoot = nd.trieRoot := by
  intro count
  induction count with
  | zero =>
    intro _ nd nd2 h
    simp only [loadEntries, Option.some.injEq, Attempt.returned.injEq] at h
    rw [← h]
  | succ k ih =>
    intro file nd nd2 h
    simp only [loadEntries] at h
    cases hh : readEntryHead alloc file with
    | threw =>
      rw [hh] at h
      exact absurd h (by simp)
    | returned o =>
      cases o with
      | none =>
        rw [hh] at h
        simp only [Option.some.injEq, Attempt.returned.injEq] at h
        rw [← h]
      | some res =>
        obtain ⟨head, file7⟩ := res
        rw [hh] at h
        simp only at h
        cases hc : checkedInt (nd.wordCount + 1) with
        | none => rw [hc] at h; simp at h
        | some c =>
          cases ht : checkedInt (nd.totalFrequency + head.frequency) with
          | none => rw [hc, ht] at h; simp at h
          | some t =>
            rw [hc, ht] at h
            simp only at h
            rcases h1 : file7.read 4 with ⟨b1, ok1, f1⟩
            rw [h1] at h
            cases ok1 with
            | false =>
              simp only [Option.some.injEq, Attempt.returned.injEq] at h
              rw [← h]
            | true =>
              simp only at h
              cases hl : loadContexts alloc (leValue b1) f1
                  { nd with
                    heap := nd.heap ++ [head]
                    wordMap := mapSet nd.wordMap head.word nd.heap.length
                    normalizedWordMap :=
                      mapSet nd.normalizedWordMap head.normalizedWord nd.heap.length
                    wordCount := c
                    totalFrequency := t } nd.heap.length with
              | threw =>
                rw [hl] at h
                exact absurd h (by simp)
              | returned p =>
                obtain ⟨f9, nd9⟩ := p
                rw [hl] at h
                simp only at h
                rw [ih _ _ _ h, loadContexts_trieRoot alloc _ _ _ _ _ _ hl]

/-- The trie of the working data that `loadWorkingDataFromFile` installs is
the empty node that the function made for it, whatever the file holds. -/
theorem loadWorkingDataFromFile_trieRoot (alloc : Nat → Bool) (wd : WorkingData)
    (file : Option Str) (wd2 : WorkingData)
    (h : loadWorkingDataFromFile alloc wd file true = some (true, wd2)) :
    wd2.trieRoot = SnapshotTrieNode.empty := by
  unfold loadWorkingDataFromFile at h
  cases file with
  | none =>
    simp only [Option.some.injEq, Prod.mk.injEq, true_and] at h
    rw [← h]; rfl
  | some bytes =>
    simp only at h
    split at h
    · simp only [Option.some.injEq, Prod.mk.injEq, true_and] at h
      rw [← h]; rfl
    · simp only [Bool.not_true, Bool.false_eq_true, if_false] at h
      split at h
      · simp only [Option.some.injEq, Prod.mk.injEq, true_and] at h
        rw [← h]; rfl
      · cases hl : loadEntries alloc
            (leValue (FileStream.read (FileStream.read ⟨bytes, true⟩ 4).2.2 4).1)
            (FileStream.read (FileStream.read ⟨bytes, true⟩ 4).2.2 4).2.2 WorkingData.empty with
        | none => rw [hl] at h; simp [finishLoad] at h
        | some a =>
          cases a with
          | threw =>
            rw [hl] at h
            simp only [finishLoad, Option.some.injEq, Prod.mk.injEq, true_and] at h
            rw [← h]; rfl
          | returned nd =>
            rw [hl] at h
            simp only [finishLoad, Option.some.injEq, Prod.mk.injEq, true_and] at h
            rw [← h]
            exact loadEntries_trieRoot alloc _ _ _ _ hl

/-- The reads of the version and of the number of entries, on a file that
holds them. -/
theorem loadWorkingDataFromFile_header (alloc : Nat → Bool) (wd : WorkingData) (count : Nat)
    (body : Str) (hcount : count < 4294967296) :
    loadWorkingDataFromFile alloc wd
        (some (leBytes 4 FILE_FORMAT_VERSION ++ leBytes 4 count ++ body)) true
      = finishLoad (loadEntries alloc count ⟨body, true⟩ WorkingData.empty) := by
  unfold loadWorkingDataFromFile
  simp only [List.append_assoc]
  have hne : ¬ (leBytes 4 FILE_FORMAT_VERSION ++ (leBytes 4 count ++ body)).length = 0 := by
    simp only [List.length_append, length_leBytes]
    omega
  rw [if_neg hne]
  simp only [Bool.not_true, Bool.false_eq_true, if_false]
  have r1 := read_append (leBytes 4 FILE_FORMAT_VERSION) (leBytes 4 count ++ body)
  rw [length_leBytes] at r1
  rw [r1]
  simp only
  have hv : leValue (leBytes 4 FILE_FORMAT_VERSION) = FILE_FORMAT_VERSION := by decide
  rw [hv]
  simp only [ne_eq, not_true_eq_false, if_false]
  have r2 := read_append (leBytes 4 count) body
  rw [length_leBytes] at r2
  rw [r2]
  simp only
  rw [leValue_leBytes_four _ hcount]

/-- The loop over the entries on a file that holds the entries `entries` and a
tail: it goes on at the tail with a working data that holds these entries. -/
theorem loadEntries_entries (alloc : Nat → Bool) (entries : List UserDictEntry) (k : Nat)
    (tail : Str) (hs : ∀ e ∈ entries, e.storable = true)
    (ha : ∀ e ∈ entries, e.allocatable alloc = true)
    (hnd : (entries.map (fun e => e.word)).Nodup)
    (hsum : ∀ j, j ≤ entries.length →
      fitsInt ((entries.take j).map (fun e => e.frequency)).sum = true)
    (hlen : fitsInt (entries.length : Int) = true) :
    ∃ nd, loadEntries alloc (entries.length + k) ⟨entries.flatMap entryBytes ++ tail, true⟩
          WorkingData.empty = loadEntries alloc k ⟨tail, true⟩ nd
      ∧ nd.entries = entries ∧ nd.heap = entries
      ∧ nd.wordCount = (entries.length : Int)
      ∧ nd.totalFrequency = (entries.map (fun e => e.frequency)).sum
      ∧ nd.dirty = false ∧ nd.trieRoot = SnapshotTrieNode.empty := by
  obtain ⟨nd, hnd2⟩ := insertLoadedAll_isSome entries WorkingData.empty rfl
    (by intro j hj; simpa [WorkingData.empty] using hsum j hj)
    (by simpa [WorkingData.empty] using hlen)
  obtain ⟨s1, s2, s3, s4, s5⟩ := insertLoadedAll_spec entries _ _ hnd2
  have s6 := insertLoadedAll_entries entries _ _ hnd2
    (by intro pair hp; exact absurd hp (List.not_mem_nil pair))
    (by simpa [WorkingData.empty] using hnd)
  refine ⟨nd, ?_, ?_, ?_, ?_, ?_, ?_, ?_⟩
  · rw [loadEntries_entryBytes alloc entries k tail _ hs ha, hnd2]
  · rw [s6]; rfl
  · rw [s1]; rfl
  · rw [s2]
    show (0 : Int) + _ = _
    omega
  · rw [s3]
    show (0 : Int) + _ = _
    omega
  · rw [s5]; rfl
  · rw [s4]; rfl

/-- The file that holds the version, a count, the bytes of the entries
`entries` and a tail: when the count is the number of the entries and the tail
is empty, or the count is larger and a read for a further entry fails on the
tail, `loadWorkingDataFromFile` returns `true` with these entries. -/
theorem loadWorkingDataFromFile_entries (alloc : Nat → Bool) (wd : WorkingData)
    (entries : List UserDictEntry) (count : Nat) (tail : Str)
    (hs : ∀ e ∈ entries, e.storable = true) (ha : ∀ e ∈ entries, e.allocatable alloc = true)
    (hnd : (entries.map (fun e => e.word)).Nodup)
    (hsum : ∀ j, j ≤ entries.length →
      fitsInt ((entries.take j).map (fun e => e.frequency)).sum = true)
    (hlen : fitsInt (entries.length : Int) = true) (hcount : count < 4294967296)
    (hcase : (count = entries.length ∧ tail = [])
      ∨ (entries.length < count ∧ readEntryHead alloc ⟨tail, true⟩ = Attempt.returned none)) :
    ∃ wd2, loadWorkingDataFromFile alloc wd
        (some (leBytes 4 FILE_FORMAT_VERSION ++ leBytes 4 count
          ++ entries.flatMap entryBytes ++ tail)) true = some (true, wd2)
      ∧ wd2.entries = entries ∧ wd2.heap = entries
      ∧ wd2.wordCount = (entries.length : Int)
      ∧ wd2.totalFrequency = (entries.map (fun e => e.frequency)).sum
      ∧ wd2.dirty = false ∧ wd2.trieRoot = SnapshotTrieNode.empty := by
  obtain ⟨k, hk⟩ : ∃ k, count = entries.length + k := ⟨count - entries.length, by
    rcases hcase with h | h <;> omega⟩
  obtain ⟨nd, e1, e2, e3, e4, e5, e6, e7⟩ :=
    loadEntries_entries alloc entries k tail hs ha hnd hsum hlen
  have hload : loadEntries alloc k ⟨tail, true⟩ nd = some (Attempt.returned nd) := by
    rcases hcase with ⟨h1, h2⟩ | ⟨_, h2⟩
    · have hk0 : k = 0 := by omega
      rw [hk0]
      rfl
    · exact loadEntries_of_head_none alloc k _ nd h2
  refine ⟨{ nd with dirty := false }, ?_, e2, e3, e4, e5, rfl, e7⟩
  rw [List.append_assoc, loadWorkingDataFromFile_header alloc wd count _ hcount, hk, e1, hload]
  rfl

/-- The file of `loadWorkingDataFromFile_entries` when the construction of a
buffer for the further entry throws: the function returns `true` with the
empty working data. -/
theorem loadWorkingDataFromFile_threw (alloc : Nat → Bool) (wd : WorkingData)
    (entries : List UserDictEntry) (count : Nat) (tail : Str)
    (hs : ∀ e ∈ entries, e.storable = true) (ha : ∀ e ∈ entries, e.allocatable alloc = true)
    (hnd : (entries.map (fun e => e.word)).Nodup)
    (hsum : ∀ j, j ≤ entries.length →
      fitsInt ((entries.take j).map (fun e => e.frequency)).sum = true)
    (hlen : fitsInt (entries.length : Int) = true) (hcount : count < 4294967296)
    (hlt : entries.length < count)
    (hthrew : readEntryHead alloc ⟨tail, true⟩ = Attempt.threw) :
    loadWorkingDataFromFile alloc wd
        (some (leBytes 4 FILE_FORMAT_VERSION ++ leBytes 4 count
          ++ entries.flatMap entryBytes ++ tail)) true = some (true, WorkingData.empty) := by
  obtain ⟨k, hk⟩ : ∃ k, count = entries.length + (k + 1) :=
    ⟨count - entries.length - 1, by omega⟩
  obtain ⟨nd, e1, _⟩ := loadEntries_entries alloc entries (k + 1) tail hs ha hnd hsum hlen
  rw [List.append_assoc, loadWorkingDataFromFile_header alloc wd count _ hcount, hk, e1,
    loadEntries_of_head_threw alloc k _ nd hthrew]
  rfl

/-- The file that holds the version, the number of the entries and the entries
`entries`, of which a running total of the frequencies is no `int`:
`loadWorkingDataFromFile` overflows `totalFrequency` and has no defined
result. -/
theorem loadWorkingDataFromFile_overflow (alloc : Nat → Bool) (wd : WorkingData)
    (entries : List UserDictEntry) (hs : ∀ e ∈ entries, e.storable = true)
    (ha : ∀ e ∈ entries, e.allocatable alloc = true) (hcount : entries.length < 4294967296)
    (j : Nat) (hj : j ≤ entries.length)
    (hover : fitsInt ((entries.take j).map (fun e => e.frequency)).sum = false) :
    loadWorkingDataFromFile alloc wd
        (some (leBytes 4 FILE_FORMAT_VERSION ++ leBytes 4 entries.length
          ++ entries.flatMap entryBytes)) true = none := by
  have hj1 : 1 ≤ j := by
    cases j with
    | zero =>
      simp only [List.take_zero, List.map_nil, List.sum_nil] at hover
      exact absurd hover (by decide)
    | succ j => omega
  have h0 := insertLoadedAll_overflow entries WorkingData.empty j hj1 hj
    (by simpa [WorkingData.empty] using hover)
  have h1 := loadEntries_entryBytes alloc entries 0 [] WorkingData.empty hs ha
  rw [h0] at h1
  simp only [Nat.add_zero, List.append_nil] at h1
  rw [loadWorkingDataFromFile_header alloc wd _ _ hcount, h1]
  rfl

end KazakhUserDict

namespace KazakhUserDict

/-- When the sequence of calls overflows no `int`, `WorkingData.afterOps` is
the working data that `runOps` gives. -/
theorem runOps_afterOps (ops : List Op)
    (h : (runOps WorkingData.empty ops).isSome = true) :
    runOps WorkingData.empty ops
      = some (((runOps WorkingData.empty ops).map Prod.fst).getD [], WorkingData.afterOps ops) := by
  unfold WorkingData.afterOps
  cases hr : runOps WorkingData.empty ops with
  | none => rw [hr] at h; simp at h
  | some r => simp

theorem read_append_of_length (a rest : Str) (count : Nat) (h : a.length = count) :
    (⟨a ++ rest, true⟩ : FileStream).read count = (a, true, ⟨rest, true⟩) := by
  rw [← h]
  exact read_append a rest

theorem readEntryHead_failed (alloc : Nat → Bool) (rest : Str) :
    readEntryHead alloc ⟨rest, false⟩ = Attempt.returned none := by
  unfold readEntryHead
  rw [read_failed]

theorem flatMap_map_entryBytes (f : Str × Nat → UserDictEntry) (order : List (Str × Nat)) :
    order.flatMap (fun pair => entryBytes (f pair)) = (order.map f).flatMap entryBytes := by
  induction order with
  | nil => rfl
  | cons pair order ih =>
    simp only [List.flatMap_cons, List.map_cons, ih]

/-- When the reads for the first entry fail or the construction of a buffer
throws, `loadWorkingDataFromFile` ends with the empty working data. -/
theorem loadEntries_of_no_entry (alloc : Nat → Bool) (k : Nat) (file : FileStream)
    (h : readEntryHead alloc file = Attempt.returned none
      ∨ readEntryHead alloc file = Attempt.threw) :
    loadEntries alloc k file WorkingData.empty = some (Attempt.returned WorkingData.empty)
      ∨ loadEntries alloc k file WorkingData.empty = some Attempt.threw := by
  rcases h with h | h
  · exact Or.inl (loadEntries_of_head_none alloc k file _ h)
  · cases k with
    | zero => exact Or.inl rfl
    | succ k => exact Or.inr (loadEntries_of_head_threw alloc k file _ h)

/-- A file that ends before the field `lastUsed` of its first entry is
complete: `loadWorkingDataFromFile` returns `true` with the empty working
data, whether or not the construction of a buffer throws. -/
theorem loadWorkingDataFromFile_of_short_head (alloc : Nat → Bool) (wd : WorkingData)
    (count : Nat) (entry : UserDictEntry) (bytes : Str)
    (h1 : entry.word.length < 4294967296) (h2 : entry.normalizedWord.length < 4294967296)
    (hp : bytes <+: leBytes 4 FILE_FORMAT_VERSION ++ (leBytes 4 count ++ entryHeadBytes entry))
    (hlt : bytes.length
      < (leBytes 4 FILE_FORMAT_VERSION ++ (leBytes 4 count ++ entryHeadBytes entry)).length) :
    loadWorkingDataFromFile alloc wd (some bytes) true = some (true, WorkingData.empty) := by
  have key : ∀ (k : Nat) (file : FileStream),
      (readEntryHead alloc file = Attempt.returned none
        ∨ readEntryHead alloc file = Attempt.threw) →
      finishLoad (loadEntries alloc k file WorkingData.empty)
        = some (true, WorkingData.empty) := by
    intro k file h
    rcases loadEntries_of_no_entry alloc k file h with e | e <;> rw [e] <;> rfl
  unfold loadWorkingDataFromFile
  simp only
  by_cases h0 : bytes.length = 0
  · rw [if_pos h0]
  rw [if_neg h0]
  simp only [Bool.not_true, Bool.false_eq_true, if_false]
  rcases prefix_cases _ _ bytes hp hlt with hl | ⟨b2, rfl, hp2, hlt2⟩
  · rw [length_leBytes] at hl
    rw [read_of_lt bytes 4 hl]
    simp only
    have hv : leValue bytes = FILE_FORMAT_VERSION := by
      have hpre : bytes <+: leBytes 4 FILE_FORMAT_VERSION :=
        List.prefix_of_prefix_length_le hp (List.prefix_append _ _)
          (by rw [length_leBytes]; omega)
      have htake := List.prefix_iff_eq_take.mp hpre
      have hcases : bytes.length = 1 ∨ bytes.length = 2 ∨ bytes.length = 3 := by omega
      rcases hcases with hc | hc | hc <;> rw [htake, hc] <;> decide
    rw [hv]
    simp only [ne_eq, not_true_eq_false, if_false]
    rw [read_failed]
    exact key _ _ (Or.inl (readEntryHead_failed alloc _))
  · rw [read_append_of_length (leBytes 4 FILE_FORMAT_VERSION) b2 4 (length_leBytes _ _)]
    simp only
    have hv : leValue (leBytes 4 FILE_FORMAT_VERSION) = FILE_FORMAT_VERSION := by decide
    rw [hv]
    simp only [ne_eq, not_true_eq_false, if_false]
    rcases prefix_cases _ _ b2 hp2 hlt2 with hl | ⟨b3, rfl, hp3, hlt3⟩
    · rw [length_leBytes] at hl
      rw [read_of_lt b2 4 hl]
      exact key _ _ (Or.inl (readEntryHead_failed alloc _))
    · rw [read_append_of_length (leBytes 4 count) b3 4 (length_leBytes _ _)]
      refine key _ _ ?_
      rcases readEntryHead_of_short alloc entry b3 h1 h2 hp3 hlt3 with h | h
      · exact Or.inl h
      · exact Or.inr h.1

end KazakhUserDict

namespace KazakhUserDict

/-- When no frequency is negative and their sum is an `int`, every running
total is an `int`. -/
theorem runningTotals_fit_of_nonneg (entries : List UserDictEntry)
    (hpos : ∀ e ∈ entries, 0 ≤ e.frequency)
    (hsum : fitsInt (entries.map (fun e => e.frequency)).sum = true) (k : Nat) :
    fitsInt ((entries.take k).map (fun e => e.frequency)).sum = true := by
  have h1 := (fitsInt_iff _).mp hsum
  have hsplit : (entries.map (fun e => e.frequency)).sum
      = ((entries.take k).map (fun e => e.frequency)).sum
        + ((entries.drop k).map (fun e => e.frequency)).sum := by
    rw [← List.sum_append, ← List.map_append, List.take_append_drop]
  have hnn : ∀ (l : List UserDictEntry), (∀ e ∈ l, e ∈ entries) →
      0 ≤ (l.map (fun e => e.frequency)).sum := by
    intro l hl
    apply List.sum_nonneg
    intro x hx
    obtain ⟨y, hy, rfl⟩ := List.mem_map.mp hx
    exact hpos y (hl y hy)
  have h2 := hnn (entries.take k) (fun e he => List.mem_of_mem_take he)
  have h3 := hnn (entries.drop k) (fun e he => List.mem_of_mem_drop he)
  apply (fitsInt_iff _).mpr
  omega

end KazakhUserDict

/-! ## Saving and loading -/

/-- Claim C31. For every working data `wd` reached from a new user dictionary
by public calls (words being byte strings), whose entries have fields that the
file format can hold and strings whose buffers can be constructed again, and
for every order in which `saveWorkingDataToFile` iterates over `wordMap`: the
save returns `true` and writes a file from which, when every running total of
the frequencies in the order of the file is an `int`, `loadWorkingDataFromFile`
returns `true` with a working data whose entries are those of `wd` up to their
order, each with the same `word`, `normalizedWord`, `frequency`, `contexts`,
`created` and `lastUsed`, and with the same `wordCount` and `totalFrequency`.
When a running total is no `int`, the addition in `loadWorkingDataFromFile`
overflows and the load has no defined result. -/
theorem save_load_round_trip (alloc : Nat → Bool) (ops : List KazakhUserDict.Op)
    (hb : ∀ op ∈ ops, op.IsBytes) (rs : List Bool) (wd : KazakhUserDict.WorkingData)
    (hrun : KazakhUserDict.runOps KazakhUserDict.WorkingData.empty ops = some (rs, wd))
    (arrange : List (Str × Nat) → List (Str × Nat))
    (hperm : (arrange wd.wordMap).Perm wd.wordMap)
    (hs : ∀ e ∈ wd.entries, e.storable = true)
    (ha : ∀ e ∈ wd.entries, e.allocatable alloc = true)
    (old : KazakhUserDict.WorkingData) :
    ∃ bytes,
      KazakhUserDict.saveWorkingDataToFile wd arrange true
          = (true, { wd with dirty := false }, some bytes)
        ∧ ((∀ k, k ≤ wd.wordMap.length →
            fitsInt (((arrange wd.wordMap).take k).map
              (fun pair => (wd.entry pair.2).frequency)).sum = true) →
          ∃ wd2, KazakhUserDict.loadWorkingDataFromFile alloc old (some bytes) true
              = some (true, wd2)
            ∧ wd2.entries.Perm wd.entries
            ∧ wd2.wordCount = wd.wordCount ∧ wd2.totalFrequency = wd.totalFrequency
            ∧ wd2.dirty = false)
        ∧ ((∃ k, k ≤ wd.wordMap.length ∧
            fitsInt (((arrange wd.wordMap).take k).map
              (fun pair => (wd.entry pair.2).frequency)).sum = false) →
          KazakhUserDict.loadWorkingDataFromFile alloc old (some bytes) true = none) := by
  obtain ⟨hwf, htot⟩ := KazakhUserDict.closed_runOps _ KazakhUserDict.totals_closed ops _
    KazakhUserDict.wf_empty KazakhUserDict.totals_closed.empty hb rs wd hrun
  have hes : ((arrange wd.wordMap).map (fun pair => wd.entry pair.2)).Perm wd.entries :=
    hperm.map _
  have hlen : ((arrange wd.wordMap).map (fun pair => wd.entry pair.2)).length
      = wd.wordMap.length := by
    rw [List.length_map, hperm.length_eq]
  have hcount := hwf.maps.count
  have hcf := (fitsInt_iff _).mp htot.countFits
  have hwords : ((arrange wd.wordMap).map (fun pair => wd.entry pair.2)).map (fun e => e.word)
      = (arrange wd.wordMap).map Prod.fst := by
    rw [List.map_map]
    apply List.map_congr_left
    intro pair hp
    have hm : pair ∈ wd.wordMap := hperm.mem_iff.mp hp
    exact (hwf.maps.ofWord pair.1 pair.2
      (mapFind_of_mem _ hwf.maps.wordKeys pair.1 pair.2 hm)).2.1
  have htotal : (((arrange wd.wordMap).map (fun pair => wd.entry pair.2)).map
      (fun e => e.frequency)).sum = wd.totalFrequency := by
    rw [(hes.map _).sum_eq, htot.total]
  have htake : ∀ k, (((arrange wd.wordMap).map (fun pair => wd.entry pair.2)).take k).map
      (fun e => e.frequency)
      = ((arrange wd.wordMap).take k).map (fun pair => (wd.entry pair.2).frequency) := by
    intro k
    rw [← List.map_take, List.map_map]
    rfl
  have hbytes : KazakhUserDict.fileBytes wd (arrange wd.wordMap)
      = leBytes 4 KazakhUserDict.FILE_FORMAT_VERSION
        ++ leBytes 4 ((arrange wd.wordMap).map (fun pair => wd.entry pair.2)).length
        ++ ((arrange wd.wordMap).map (fun pair => wd.entry pair.2)).flatMap
            KazakhUserDict.entryBytes := by
    unfold KazakhUserDict.fileBytes
    rw [KazakhUserDict.flatMap_map_entryBytes, Nat.mod_eq_of_lt (by omega), hlen]
  have hs2 : ∀ e ∈ (arrange wd.wordMap).map (fun pair => wd.entry pair.2), e.storable = true :=
    fun e he => hs e (hes.mem_iff.mp he)
  have ha2 : ∀ e ∈ (arrange wd.wordMap).map (fun pair => wd.entry pair.2),
      e.allocatable alloc = true := fun e he => ha e (hes.mem_iff.mp he)
  refine ⟨_, rfl, ?_, ?_⟩
  · intro hsum
    obtain ⟨wd2, h1, h2, _, h4, h5, h6, _⟩ :=
      KazakhUserDict.loadWorkingDataFromFile_entries alloc old
        ((arrange wd.wordMap).map (fun pair => wd.entry pair.2)) wd.wordMap.length []
        hs2 ha2
        (by rw [hwords]; exact (hperm.map _).nodup_iff.mpr hwf.maps.wordKeys)
        (by
          intro j hj
          rw [htake]
          exact hsum j (by rw [hlen] at hj; exact hj))
        (by rw [hlen, ← hcount]; exact htot.countFits)
        (by omega)
        (Or.inl ⟨hlen.symm, rfl⟩)
    refine ⟨wd2, ?_, ?_, ?_, ?_, h6⟩
    · rw [hbytes, hlen, ← List.append_nil (_ ++ _ ++ _)]
      exact h1
    · rw [h2]; exact hes
    · rw [h4, hlen, hcount]
    · rw [h5, htotal]
  · rintro ⟨k, hk, hover⟩
    rw [hbytes]
    exact KazakhUserDict.loadWorkingDataFromFile_overflow alloc old _ hs2 ha2
      (by rw [hlen]; omega) k (by rw [hlen]; exact hk) (by rw [htake]; exact hover)

/-- Claim C32 on a file. The file declares two entries and ends after the
first one, which is complete with its context: `loadWorkingDataFromFile`
returns `true` and the working data holds this entry, with `wordCount` 1 and
`totalFrequency` 2, and is not empty. The same holds when the file ends after
the field `lastUsed` of the entry, before the number of contexts. The buffers
are those of strings of one byte. -/
theorem load_keeps_entries_before_short_read :
    (KazakhUserDict.loadWorkingDataFromFile (fun _ => true) KazakhUserDict.WorkingData.empty
        (some [3, 0, 0, 0, 2, 0, 0, 0, 1, 0, 0, 0, 97, 1, 0, 0, 0, 97, 2, 0, 0, 0,
          5, 0, 0, 0, 0, 0, 0, 0, 5, 0, 0, 0, 0, 0, 0, 0, 1, 0, 0, 0, 1, 0, 0, 0, 98]) true).map
        (fun r => (r.1, r.2.entries, r.2.wordCount, r.2.totalFrequency, r.2.dirty))
      = some (true, [⟨[97], [97], 2, [[98]], 5, 5⟩], 1, 2, false)
    ∧ (KazakhUserDict.loadWorkingDataFromFile (fun _ => true) KazakhUserDict.WorkingData.empty
        (some [3, 0, 0, 0, 1, 0, 0, 0, 1, 0, 0, 0, 97, 1, 0, 0, 0, 97, 2, 0, 0, 0,
          5, 0, 0, 0, 0, 0, 0, 0, 5, 0, 0, 0, 0, 0, 0, 0]) true).map
        (fun r => (r.1, r.2.entries, r.2.wordCount, r.2.totalFrequency, r.2.dirty))
      = some (true, [⟨[97], [97], 2, [], 5, 5⟩], 1, 2, false) := by
  decide

/-- Claim C32, amended. Whether or not the construction of a buffer throws,
`loadWorkingDataFromFile` returns `true` with the empty working data when the
file is missing, when it is empty, when its version is not 3, and when it ends
before the field `lastUsed` of its first entry is complete. When the file
holds `entries` complete entries (distinct words, buffers that can be
constructed, every running total of the frequencies and the number of the
entries being an `int`), declares more and ends before the field `lastUsed` of
the next one is complete, the function returns `true` with exactly these
entries, `wordCount` and `totalFrequency` being their number and the sum of
their frequencies, and `dirty` false; unless the construction of the buffer
for a string of the next entry throws, and then with the empty working data. -/
theorem loadWorkingDataFromFile_spec (alloc : Nat → Bool) (wd : KazakhUserDict.WorkingData) :
    (∀ isOpen, KazakhUserDict.loadWorkingDataFromFile alloc wd none isOpen
        = some (true, KazakhUserDict.WorkingData.empty))
    ∧ (∀ isOpen, KazakhUserDict.loadWorkingDataFromFile alloc wd (some []) isOpen
        = some (true, KazakhUserDict.WorkingData.empty))
    ∧ (∀ bytes : Str, leValue (bytes.take 4) ≠ KazakhUserDict.FILE_FORMAT_VERSION →
        KazakhUserDict.loadWorkingDataFromFile alloc wd (some bytes) true
          = some (true, KazakhUserDict.WorkingData.empty))
    ∧ (∀ (count : Nat) (entry : KazakhUserDict.UserDictEntry) (bytes : Str),
        entry.word.length < 4294967296 → entry.normalizedWord.length < 4294967296 →
        bytes <+: leBytes 4 KazakhUserDict.FILE_FORMAT_VERSION
          ++ (leBytes 4 count ++ KazakhUserDict.entryHeadBytes entry) →
        bytes.length < (leBytes 4 KazakhUserDict.FILE_FORMAT_VERSION
          ++ (leBytes 4 count ++ KazakhUserDict.entryHeadBytes entry)).length →
        KazakhUserDict.loadWorkingDataFromFile alloc wd (some bytes) true
          = some (true, KazakhUserDict.WorkingData.empty))
    ∧ (∀ (entries : List KazakhUserDict.UserDictEntry) (count : Nat)
        (next : KazakhUserDict.UserDictEntry) (tail : Str),
        (∀ e ∈ entries, e.storable = true) → (∀ e ∈ entries, e.allocatable alloc = true) →
        (entries.map (fun e => e.word)).Nodup →
        (∀ j, j ≤ entries.length →
          fitsInt ((entries.take j).map (fun e => e.frequency)).sum = true) →
        fitsInt (entries.length : Int) = true →
        entries.length < count → count < 4294967296 →
        next.word.length < 4294967296 → next.normalizedWord.length < 4294967296 →
        tail <+: KazakhUserDict.entryHeadBytes next →
        tail.length < (KazakhUserDict.entryHeadBytes next).length →
        ∃ wd2, KazakhUserDict.loadWorkingDataFromFile alloc wd
            (some (leBytes 4 KazakhUserDict.FILE_FORMAT_VERSION ++ leBytes 4 count
              ++ entries.flatMap KazakhUserDict.entryBytes ++ tail)) true = some (true, wd2)
          ∧ ((wd2.entries = entries ∧ wd2.wordCount = (entries.length : Int)
              ∧ wd2.totalFrequency = (entries.map (fun e => e.frequency)).sum
              ∧ wd2.dirty = false)
            ∨ (wd2 = KazakhUserDict.WorkingData.empty
              ∧ (alloc next.word.length = false
                ∨ alloc next.normalizedWord.length = false)))) := by
  refine ⟨fun _ => rfl, ?_, ?_, ?_, ?_⟩
  · intro isOpen
    unfold KazakhUserDict.loadWorkingDataFromFile
    simp
  · intro bytes hv
    unfold KazakhUserDict.loadWorkingDataFromFile
    simp only
    by_cases h0 : bytes.length = 0
    · rw [if_pos h0]
    rw [if_neg h0]
    simp only [Bool.not_true, Bool.false_eq_true, if_false]
    have hread : (KazakhUserDict.FileStream.read ⟨bytes, true⟩ 4).1 = bytes.take 4 := by
      unfold KazakhUserDict.FileStream.read
      simp only [Bool.not_true, Bool.false_eq_true, if_false]
      by_cases hl : 4 ≤ bytes.length
      · rw [if_pos hl]
      · rw [if_neg hl, List.take_of_length_le (by omega)]
    rw [hread, if_pos hv]
  · intro count entry bytes h1 h2 hp hlt
    exact KazakhUserDict.loadWorkingDataFromFile_of_short_head alloc wd count entry bytes h1 h2
      hp hlt
  · intro entries count next tail hs ha hnd hsum hfit hlen hcount h1 h2 hp hlt
    rcases KazakhUserDict.readEntryHead_of_short alloc next tail h1 h2 hp hlt with hr | ⟨hr, hal⟩
    · obtain ⟨wd2, e1, e2, _, e4, e5, e6, _⟩ :=
        KazakhUserDict.loadWorkingDataFromFile_entries alloc wd entries count tail hs ha hnd
          hsum hfit hcount (Or.inr ⟨hlen, hr⟩)
      exact ⟨wd2, e1, Or.inl ⟨e2, e4, e5, e6⟩⟩
    · exact ⟨_, KazakhUserDict.loadWorkingDataFromFile_threw alloc wd entries count tail hs ha
        hnd hsum hfit hcount hlen hr, Or.inr ⟨rfl, hal⟩⟩

/-- Two instances of C31. "a" is added with the context "b" and "c" is added;
the save iterates over `wordMap` in reverse order, and the load gives the
entries back. And "a" is added with the frequency -5, "b" with 2147483647 and
"c" with 1; the save writes b, c, a, the running total after c is no `int`, and
the load has no defined result. -/
theorem save_load_round_trip_witness :
    (∃ bytes wd2,
      KazakhUserDict.saveWorkingDataToFile
          (KazakhUserDict.WorkingData.afterOps
            [KazakhUserDict.Op.write (KazakhUserDict.Call.addWordWithContext 5 [97] [98] 2),
              KazakhUserDict.Op.write (KazakhUserDict.Call.addWord 6 [99] 1)])
          List.reverse true
          = (true, { KazakhUserDict.WorkingData.afterOps
            [KazakhUserDict.Op.write (KazakhUserDict.Call.addWordWithContext 5 [97] [98] 2),
              KazakhUserDict.Op.write (KazakhUserDict.Call.addWord 6 [99] 1)] with
              dirty := false }, some bytes)
        ∧ KazakhUserDict.loadWorkingDataFromFile (fun _ => true)
            KazakhUserDict.WorkingData.empty (some bytes) true = some (true, wd2)
        ∧ wd2.entries.Perm (KazakhUserDict.WorkingData.afterOps
            [KazakhUserDict.Op.write (KazakhUserDict.Call.addWordWithContext 5 [97] [98] 2),
              KazakhUserDict.Op.write (KazakhUserDict.Call.addWord 6 [99] 1)]).entries
        ∧ wd2.wordCount = (KazakhUserDict.WorkingData.afterOps
            [KazakhUserDict.Op.write (KazakhUserDict.Call.addWordWithContext 5 [97] [98] 2),
              KazakhUserDict.Op.write (KazakhUserDict.Call.addWord 6 [99] 1)]).wordCount
        ∧ wd2.totalFrequency = (KazakhUserDict.WorkingData.afterOps
            [KazakhUserDict.Op.write (KazakhUserDict.Call.addWordWithContext 5 [97] [98] 2),
              KazakhUserDict.Op.write (KazakhUserDict.Call.addWord 6 [99] 1)]).totalFrequency
        ∧ wd2.dirty = false)
    ∧ (∃ bytes,
      KazakhUserDict.saveWorkingDataToFile
          (KazakhUserDict.WorkingData.afterOps
            [KazakhUserDict.Op.write (KazakhUserDict.Call.addWordWithContext 1 [97] [120] (-5)),
              KazakhUserDict.Op.write (KazakhUserDict.Call.addWord 2 [98] 2147483647),
              KazakhUserDict.Op.write (KazakhUserDict.Call.addWord 3 [99] 1)])
          (fun l => l.rotate 1) true
          = (true, { KazakhUserDict.WorkingData.afterOps
            [KazakhUserDict.Op.write (KazakhUserDict.Call.addWordWithContext 1 [97] [120] (-5)),
              KazakhUserDict.Op.write (KazakhUserDict.Call.addWord 2 [98] 2147483647),
              KazakhUserDict.Op.write (KazakhUserDict.Call.addWord 3 [99] 1)] with
              dirty := false }, some bytes)
        ∧ KazakhUserDict.loadWorkingDataFromFile (fun _ => true)
            KazakhUserDict.WorkingData.empty (some bytes) true = none) := by
  constructor
  · obtain ⟨bytes, h1, h2, _⟩ := save_load_round_trip (fun _ => true)
      [KazakhUserDict.Op.write (KazakhUserDict.Call.addWordWithContext 5 [97] [98] 2),
        KazakhUserDict.Op.write (KazakhUserDict.Call.addWord 6 [99] 1)]
      (by decide) _ _ (KazakhUserDict.runOps_afterOps _ (by decide)) List.reverse
      (List.reverse_perm _) (by decide) (by decide) KazakhUserDict.WorkingData.empty
    obtain ⟨wd2, h3⟩ := h2 (by decide)
    exact ⟨bytes, wd2, h1, h3⟩
  · obtain ⟨bytes, h1, _, h2⟩ := save_load_round_trip (fun _ => true)
      [KazakhUserDict.Op.write (KazakhUserDict.Call.addWordWithContext 1 [97] [120] (-5)),
        KazakhUserDict.Op.write (KazakhUserDict.Call.addWord 2 [98] 2147483647),
        KazakhUserDict.Op.write (KazakhUserDict.Call.addWord 3 [99] 1)]
      (by decide) _ _ (KazakhUserDict.runOps_afterOps _ (by decide)) (fun l => l.rotate 1)
      (List.rotate_perm _ 1) (by decide) (by decide) KazakhUserDict.WorkingData.empty
    exact ⟨bytes, h1, h2 ⟨2, by decide, by decide⟩⟩

/-- An instance of C32, amended: the file declares two entries, holds the entry
"a" with the context "b" and ends after two bytes of the next entry; no
construction of a buffer throws. -/
theorem loadWorkingDataFromFile_spec_witness :
    ∃ wd2, KazakhUserDict.loadWorkingDataFromFile (fun _ => true)
        KazakhUserDict.WorkingData.empty
        (some (leBytes 4 KazakhUserDict.FILE_FORMAT_VERSION ++ leBytes 4 2
          ++ [(⟨[97], [97], 2, [[98]], 5, 5⟩ : KazakhUserDict.UserDictEntry)].flatMap
              KazakhUserDict.entryBytes ++ [1, 0])) true = some (true, wd2)
      ∧ wd2.entries = [⟨[97], [97], 2, [[98]], 5, 5⟩] ∧ wd2.wordCount = ((1 : Nat) : Int)
      ∧ wd2.totalFrequency = 2 ∧ wd2.dirty = false := by
  obtain ⟨wd2, h1, h2⟩ :=
    (loadWorkingDataFromFile_spec (fun _ => true) KazakhUserDict.WorkingData.empty).2.2.2.2
      [⟨[97], [97], 2, [[98]], 5, 5⟩] 2 ⟨[99], [99], 1, [], 0, 0⟩ [1, 0]
      (by decide) (by decide) (by decide) (by decide) (by decide) (by decide) (by decide)
      (by decide) (by decide) (by decide) (by decide)
  rcases h2 with h | ⟨_, h⟩
  · exact ⟨wd2, h1, h⟩
  · rcases h with h | h <;> exact absurd h (by decide)

/-! ## The state of the user dictionary after every sequence of calls -/

/-- Claim C33 on two calls. On a new user dictionary, `addWord("a", 1)` leaves
one entry and `dirty` true; `clearUserDict` then leaves no entry and `dirty`
false, as it does on every working data; a save that opens its file leaves
`dirty` false. -/
theorem clearUserDict_leaves_dirty_false :
    (KazakhUserDict.runOps KazakhUserDict.WorkingData.empty
        [KazakhUserDict.Op.write (KazakhUserDict.Call.addWord 1 [97] 1)]).map
        (fun r => (r.1, r.2.entries.map (fun e => e.word), r.2.dirty))
      = some ([true], [[97]], true)
    ∧ (KazakhUserDict.runOps KazakhUserDict.WorkingData.empty
        [KazakhUserDict.Op.write (KazakhUserDict.Call.addWord 1 [97] 1),
          KazakhUserDict.Op.clearUserDict]).map
        (fun r => (r.1, r.2.entries.map (fun e => e.word), r.2.dirty))
      = some ([true, true], [], false)
    ∧ (∀ wd : KazakhUserDict.WorkingData, (KazakhUserDict.clearUserDict wd).2.dirty = false)
    ∧ (∀ (wd : KazakhUserDict.WorkingData) (arrange : List (Str × Nat) → List (Str × Nat)),
        (KazakhUserDict.saveWorkingDataToFile wd arrange true).1 = true
          ∧ (KazakhUserDict.saveWorkingDataToFile wd arrange true).2.1.dirty = false) := by
  refine ⟨by decide, by decide, fun _ => rfl, fun _ _ => ⟨rfl, rfl⟩⟩

/-- Claim C37 on one call. On a new user dictionary, `addWord` of the word
made of the byte 0xFF returns `true` and puts an entry under the normalized
word 0xFF into `normalizedWordMap`; `utf8ToUtf16` converts this word to
nothing, and the trie is left as it was: its root has no child, lists no entry
and is not marked `isEndOfWord`. -/
theorem trie_misses_unconvertible_word :
    (KazakhUserDict.runOps KazakhUserDict.WorkingData.empty
        [KazakhUserDict.Op.write (KazakhUserDict.Call.addWord 1 [255] 1)]).map
        (fun r => (r.1, mapFind r.2.normalizedWordMap [255],
          r.2.entries.map (fun e => e.normalizedWord))) = some ([true], some 0, [[255]])
    ∧ (KazakhUserDict.runOps KazakhUserDict.WorkingData.empty
        [KazakhUserDict.Op.write (KazakhUserDict.Call.addWord 1 [255] 1)]).map
        (fun r => (r.2.trieRoot.children.length, r.2.trieRoot.entries,
          r.2.trieRoot.isEndOfWord)) = some (0, [], false)
    ∧ utf8ToUtf16 [255] = [] := by
  refine ⟨by decide, by decide, by decide⟩

/-- Claim C37, amended. After every sequence of public calls on a new user
dictionary (words being byte strings): for every entry of `normalizedWordMap`
whose normalized word `utf8ToUtf16` converts to a non-empty string of units,
the trie node reached by these units is marked `isEndOfWord` and lists the
entry; and every entry listed at a trie node is the entry of
`normalizedWordMap` under its normalized word, which decodes to the path to
the node. -/
theorem trie_agrees_with_normalizedWordMap (ops : List KazakhUserDict.Op)
    (hb : ∀ op ∈ ops, op.IsBytes) (rs : List Bool) (wd : KazakhUserDict.WorkingData)
    (hrun : KazakhUserDict.runOps KazakhUserDict.WorkingData.empty ops = some (rs, wd)) :
    (∀ n p, mapFind wd.normalizedWordMap n = some p → utf8ToUtf16 n ≠ [] →
      ∃ node, wd.trieRoot.descend (utf8ToUtf16 n) = some node
        ∧ node.isEndOfWord = true ∧ p ∈ node.entries)
    ∧ (∀ path node, wd.trieRoot.Reaches path node → ∀ p ∈ node.entries,
        mapFind wd.normalizedWordMap (wd.entry p).normalizedWord = some p
          ∧ utf8ToUtf16Safe (wd.entry p).normalizedWord = (true, path) ∧ path ≠ []) := by
  obtain ⟨hwf, hc⟩ := KazakhUserDict.closed_runOps _ KazakhUserDict.trieComplete_closed ops _
    KazakhUserDict.wf_empty KazakhUserDict.trieComplete_closed.empty hb rs wd hrun
  refine ⟨hc, ?_⟩
  intro path node hr p hp
  have h := (hwf.trie path node hr).2 p hp
  simpa using h

/-- Claim C38. After every sequence of `addWord`, `addWordWithContext`,
`removeWord`, `updateWordFrequency`, `learnFromInput`, `importWords`,
`decayOldEntries` and `clearUserDict` calls on a new user dictionary (words
being byte strings, no call overflowing an `int`), `totalFrequency` is the sum
of the frequencies of the entries and `wordCount` is the number of entries of
`wordMap` and of `normalizedWordMap`. -/
theorem counters_agree_with_maps (ops : List KazakhUserDict.Op)
    (hb : ∀ op ∈ ops, op.IsBytes) (rs : List Bool) (wd : KazakhUserDict.WorkingData)
    (hrun : KazakhUserDict.runOps KazakhUserDict.WorkingData.empty ops = some (rs, wd)) :
    wd.totalFrequency = (wd.entries.map (fun e => e.frequency)).sum
      ∧ wd.wordCount = (wd.wordMap.length : Int)
      ∧ wd.wordCount = (wd.normalizedWordMap.length : Int)
      ∧ wd.entries.length = wd.wordMap.length := by
  obtain ⟨hwf, htot⟩ := KazakhUserDict.closed_runOps _ KazakhUserDict.totals_closed ops _
    KazakhUserDict.wf_empty KazakhUserDict.totals_closed.empty hb rs wd hrun
  refine ⟨htot.total, hwf.maps.count, ?_, ?_⟩
  · rw [htot.normCount]; exact hwf.maps.count
  · unfold KazakhUserDict.WorkingData.entries
    rw [List.length_map]

/-- An instance of C37, amended: "ab" is added, the dictionary is cleared and
"a" is added; the node of the unit of "a" is marked and lists the entry. -/
theorem trie_agrees_with_normalizedWordMap_witness :
    ∃ node, (KazakhUserDict.WorkingData.afterOps
        [KazakhUserDict.Op.write (KazakhUserDict.Call.addWord 1 [97, 98] 2),
          KazakhUserDict.Op.clearUserDict,
          KazakhUserDict.Op.write (KazakhUserDict.Call.addWord 2 [97] 1)]).trieRoot.descend
          (utf8ToUtf16 [97]) = some node
      ∧ node.isEndOfWord = true ∧ 0 ∈ node.entries :=
  (trie_agrees_with_normalizedWordMap
    [KazakhUserDict.Op.write (KazakhUserDict.Call.addWord 1 [97, 98] 2),
      KazakhUserDict.Op.clearUserDict,
      KazakhUserDict.Op.write (KazakhUserDict.Call.addWord 2 [97] 1)]
    (by decide) _ _ (KazakhUserDict.runOps_afterOps _ (by decide))).1 [97] 0
    (by decide) (by decide)

/-- An instance of C38: "ab" is added, "c" is added with the context "ab", "ab"
is removed, the dictionary is cleared, and "d" is learnt twice. -/
theorem counters_agree_with_maps_witness :
    (KazakhUserDict.WorkingData.afterOps
        [KazakhUserDict.Op.write (KazakhUserDict.Call.addWord 1 [97, 98] 2),
          KazakhUserDict.Op.write (KazakhUserDict.Call.addWordWithContext 2 [99] [97, 98] 3),
          KazakhUserDict.Op.write (KazakhUserDict.Call.removeWord [97, 98]),
          KazakhUserDict.Op.clearUserDict,
          KazakhUserDict.Op.write (KazakhUserDict.Call.learnFromInput 3 [100] []),
          KazakhUserDict.Op.write (KazakhUserDict.Call.learnFromInput 4 [100] [])]).totalFrequency
      = 2
    ∧ (KazakhUserDict.WorkingData.afterOps
        [KazakhUserDict.Op.write (KazakhUserDict.Call.addWord 1 [97, 98] 2),
          KazakhUserDict.Op.write (KazakhUserDict.Call.addWordWithContext 2 [99] [97, 98] 3),
          KazakhUserDict.Op.write (KazakhUserDict.Call.removeWord [97, 98]),
          KazakhUserDict.Op.clearUserDict,
          KazakhUserDict.Op.write (KazakhUserDict.Call.learnFromInput 3 [100] []),
          KazakhUserDict.Op.write (KazakhUserDict.Call.learnFromInput 4 [100] [])]).wordCount
      = 1 :=
  have h := counters_agree_with_maps
    [KazakhUserDict.Op.write (KazakhUserDict.Call.addWord 1 [97, 98] 2),
      KazakhUserDict.Op.write (KazakhUserDict.Call.addWordWithContext 2 [99] [97, 98] 3),
      KazakhUserDict.Op.write (KazakhUserDict.Call.removeWord [97, 98]),
      KazakhUserDict.Op.clearUserDict,
      KazakhUserDict.Op.write (KazakhUserDict.Call.learnFromInput 3 [100] []),
      KazakhUserDict.Op.write (KazakhUserDict.Call.learnFromInput 4 [100] [])]
    (by decide) _ _ (KazakhUserDict.runOps_afterOps _ (by decide))
  ⟨h.1.trans (by decide), h.2.1.trans (by decide)⟩

/-! ## Calls with bounds of at least one keep the caches coherent -/

end Nasboard
